import Mathlib

/-!
# Nachos lab7 address spaces: demand paging with FIFO / Second-Chance replacement

A shallow embedding of `code/lab7/addrspace.cc` (class `AddrSpace`) together with
the declarations of `code/lab7/temp/addrspace.h`.

Conventions of the embedding.

* C `int` values are `Int`; a conversion to `unsigned int` is `u32`, the conversion
  back is `toInt32`.  Signed overflow is undefined in C and is not modelled: signed
  expressions are computed in `Int`.
* An access to `pageTable[i]` with `i` outside `0 .. numPages - 1` is undefined in
  C; the operation that performs it yields `none`.  A fatal `ASSERT` yields `none`
  as well.
* `machine->mainMemory` and the two files are total maps from `Int` offsets to
  bytes.
* Values that the source leaves indeterminate (the `type` of a page that no loop
  assigns, the fresh `virtualPages` array, the never assigned `virtualSpaceMap`)
  are inputs of the constructor (`Indeterminate`).
-/

namespace Nachos

/-! ## Constants -/

/-- The constants of `machine.h` and `noff.h` that the sources use but do not
declare; they are inputs of the embedding. -/
structure Params where
  /-- Bytes per page (`PageSize`). -/
  PageSize : Int
  /-- Pages of the stack region (`StackPages`). -/
  StackPages : Int
  /-- Physical frames of the machine (`NumPhysPages`). -/
  NumPhysPages : Nat
  /-- Magic number of a NOFF image (`NOFFMAGIC`). -/
  NOFFMAGIC : Int

/-- `#define UserStackSize 1024` (addrspace.h). -/
def UserStackSize : Int := 1024

/-- `#define AvailablePages 4` (addrspace.h): most pages a user can use. -/
def AvailablePages : Nat := 4

/-- Conversion of a C value to `unsigned int`. -/
def u32 (x : Int) : Int := x % 4294967296

/-- Conversion of a C value to (32-bit) `int`. -/
def toInt32 (x : Int) : Int := (x + 2147483648) % 4294967296 - 2147483648

/-- Modelled from the spec: the macro `divRoundUp` of utility.h is not among the
sources; the spec gives the page count as `ceil(size / pageSize)`.  For a positive
divisor this is the quotient plus one when there is a remainder. -/
def divRoundUp (n s : Int) : Int := n / s + (if n % s > 0 then 1 else 0)

/-! ## Data model -/

/-- One segment descriptor of the NOFF header (`noffH.code` and so on). -/
structure Segment where
  virtualAddr : Int
  inFileAddr : Int
  size : Int
deriving DecidableEq, Repr

/-- The NOFF header `noffH`. -/
structure NoffHeader where
  noffMagic : Int
  code : Segment
  initData : Segment
  uninitData : Segment
deriving DecidableEq, Repr

/-- The values of `pageTable[i].type`. -/
inductive PageType where
  | code
  | initData
  | uninitData
  | userStack
deriving DecidableEq, Repr

/-- One page-table entry, with the fields the lab adds (`inFileAddr`, `type`).
`type = none` stands for a value outside the four enumerators (the field is not
assigned by `setUpTranslation` unless the page is a stack page). -/
structure TranslationEntry where
  virtualPage : Int
  physicalPage : Int
  valid : Bool
  readOnly : Bool
  use : Bool
  dirty : Bool
  inFileAddr : Int
  type : Option PageType
deriving DecidableEq, Repr

/-- A byte of memory or of a file. -/
abbrev Byte := Fin 256

/-- Contents of a byte array addressed by offset (`mainMemory`, an `OpenFile`). -/
abbrev Bytes := Int → Byte

/-- Modelled from the spec: `BitMap` (bitmap.h is not among the sources), the
bit-indexed set of claimed indices shared by the frame allocator and the
swap-region allocator; bit `i` is `true` when index `i` is claimed. -/
abbrev BitMap := List Bool

/-- Lowest index whose bit is clear. -/
def BitMap.firstClear : BitMap → Option Nat
  | [] => none
  | b :: rest => if b = false then some 0 else (BitMap.firstClear rest).map (· + 1)

/-- Modelled from the spec: `BitMap::Find`, "claims and returns the lowest free
index, marking it used"; with no free index the result is `OutOfSpace`, which the
spec makes fatal for the operation that needed the index (`none`). -/
def BitMap.Find (b : BitMap) : Option (Int × BitMap) :=
  match BitMap.firstClear b with
  | some i => some ((i : Int), b.set i true)
  | none => none

/-- Modelled from the spec: `BitMap::Clear`, "marks an index free"; an index
outside the map is a fatal programming error (`none`). -/
def BitMap.Clear (b : BitMap) (which : Int) : Option BitMap :=
  if 0 ≤ which ∧ which.toNat < b.length then some (b.set which.toNat false) else none

/-- Whether index `i` is claimed. -/
def BitMap.Test (b : BitMap) (i : Int) : Bool :=
  if 0 ≤ i then b.getD i.toNat false else false

/-- The CPU emulator as far as the address space uses it. -/
structure Machine where
  /-- `machine->mainMemory`, by physical address. -/
  mainMemory : Bytes
  /-- The register file, by register number. -/
  registers : Int → Int

/-- Modelled from the spec: `OpenFile::ReadAt(into, numBytes, position)` on "an
opaque random-access byte-addressable file" (openfile.h is not among the
sources): copies `numBytes` bytes of the file from `position` into memory at
address `into`. -/
def ReadAt (file : Bytes) (mem : Bytes) (into numBytes position : Int) : Bytes :=
  fun x => if into ≤ x ∧ x < into + numBytes then file (position + (x - into)) else mem x

/-- Modelled from the spec: `OpenFile::WriteAt(from, numBytes, position)`: copies
`numBytes` bytes of memory at address `from` into the file at `position`. -/
def WriteAt (file : Bytes) (mem : Bytes) (src numBytes position : Int) : Bytes :=
  fun y => if position ≤ y ∧ y < position + numBytes then mem (src + (y - position)) else file y

/-- The effect of `bzero(mainMemory + start, numBytes)`. -/
def bzero (mem : Bytes) (start numBytes : Int) : Bytes :=
  fun x => if start ≤ x ∧ x < start + numBytes then 0 else mem x

/-- An object of class `AddrSpace`. -/
structure AddrSpace where
  noffH : NoffHeader
  /-- Contents of the file behind `executable`. -/
  executable : Bytes
  /-- The array `int virtualPages[AvailablePages]`; only slots below
  `AvailablePages` are ever accessed. -/
  virtualPages : Nat → Int
  /-- Contents of the file behind `virtualSpaceFile`. -/
  virtualSpaceFile : Bytes
  /-- The swap-region allocator `virtualSpaceMap`. -/
  virtualSpaceMap : BitMap
  firstInPage : Nat
  pageTable : List TranslationEntry
  numPages : Nat
  spaceId : Nat

/-- The entry `pageTable[i]`, when `i` is inside the table. -/
def getEntry (pt : List TranslationEntry) (i : Int) : Option TranslationEntry :=
  if 0 ≤ i then pt[i.toNat]? else none

/-- An assignment to fields of `pageTable[i]`, when `i` is inside the table. -/
def modifyEntry (pt : List TranslationEntry) (i : Int)
    (f : TranslationEntry → TranslationEntry) : Option (List TranslationEntry) :=
  match getEntry pt i with
  | some e => some (pt.set i.toNat (f e))
  | none => none

/-- Runs `body 0`, `body 1`, ..., `body (n - 1)` in this order, stopping at the
first iteration that is undefined. -/
def forLoop {σ : Type} (body : Nat → σ → Option σ) : Nat → σ → Option σ
  | 0, s => some s
  | n + 1, s => (forLoop body n s).bind (body n)

/-! ## Address translation -/

/-- `AddrSpace::Translate(addr, &vpn, &offset)`: the pair `(*vpn, *offset)`. -/
def AddrSpace.Translate (c : Params) (s : AddrSpace) (addr : Int) : Int × Int :=
  if u32 addr ≥ u32 ((s.numPages : Int) * c.PageSize - UserStackSize) then
    let userPages : Int := toInt32 (u32 ((s.numPages : Int) - c.StackPages))
    (u32 (userPages + Int.tdiv (addr - userPages * c.PageSize) c.PageSize),
     u32 (Int.tmod (addr - userPages * c.PageSize) c.PageSize))
  else if s.noffH.uninitData.size > 0 ∧ addr ≥ s.noffH.uninitData.virtualAddr then
    (u32 (divRoundUp s.noffH.code.size c.PageSize
          + divRoundUp s.noffH.initData.size c.PageSize
          + Int.tdiv (addr - s.noffH.uninitData.virtualAddr) c.PageSize),
     u32 (Int.tmod (addr - s.noffH.uninitData.virtualAddr) c.PageSize))
  else if s.noffH.initData.size > 0 ∧ addr ≥ s.noffH.initData.virtualAddr then
    (u32 (divRoundUp s.noffH.code.size c.PageSize
          + Int.tdiv (addr - s.noffH.initData.virtualAddr) c.PageSize),
     u32 (Int.tmod (addr - s.noffH.initData.virtualAddr) c.PageSize))
  else
    (u32 (Int.tdiv addr c.PageSize), u32 (Int.tmod addr c.PageSize))

/-- The page and the offset that `AddrSpace::FIFO` of the variant in `temp/`
computes for a fault: `(unsigned) faultPageAddr / PageSize` and
`(unsigned) faultPageAddr % PageSize`. -/
def tempFaultPage (c : Params) (faultPageAddr : Int) : Int × Int :=
  (u32 faultPageAddr / u32 c.PageSize, u32 faultPageAddr % u32 c.PageSize)

/-! ## Write-back, read-in, swap -/

/-- `AddrSpace::WriteBack(oldPage)`. -/
def AddrSpace.WriteBack (c : Params) (oldPage : Int) (s : AddrSpace) (m : Machine) :
    Option AddrSpace :=
  match getEntry s.pageTable oldPage with
  | none => none
  | some e =>
    if e.dirty then
      match e.type with
      | some PageType.code | some PageType.initData =>
        some { s with
          executable :=
            WriteAt s.executable m.mainMemory (e.physicalPage * c.PageSize) c.PageSize e.inFileAddr
          pageTable := s.pageTable.set oldPage.toNat { e with dirty := false } }
      | some PageType.uninitData | some PageType.userStack =>
        match BitMap.Find s.virtualSpaceMap with
        | none => none
        | some (slot, map) =>
          some { s with
            virtualSpaceMap := map
            virtualSpaceFile :=
              WriteAt s.virtualSpaceFile m.mainMemory (e.physicalPage * c.PageSize) c.PageSize
                (slot * c.PageSize)
            pageTable :=
              s.pageTable.set oldPage.toNat
                { e with inFileAddr := slot * c.PageSize, dirty := false } }
      | none => some { s with pageTable := s.pageTable.set oldPage.toNat { e with dirty := false } }
    else some s

/-- `AddrSpace::ReadIn(newPage)`. -/
def AddrSpace.ReadIn (c : Params) (newPage : Int) (s : AddrSpace) (m : Machine) :
    Option (AddrSpace × Machine) :=
  match getEntry s.pageTable newPage with
  | none => none
  | some e =>
    match e.type with
    | some PageType.code | some PageType.initData =>
      some (s, { m with
        mainMemory :=
          ReadAt s.executable m.mainMemory (e.physicalPage * c.PageSize) c.PageSize e.inFileAddr })
    | some PageType.uninitData | some PageType.userStack =>
      if e.inFileAddr ≥ 0 then
        match BitMap.Clear s.virtualSpaceMap (Int.tdiv e.inFileAddr c.PageSize) with
        | none => none
        | some map =>
          some ({ s with
                  virtualSpaceMap := map
                  pageTable := s.pageTable.set newPage.toNat { e with inFileAddr := -1 } },
                { m with
                  mainMemory :=
                    (ReadAt s.virtualSpaceFile m.mainMemory (e.physicalPage * c.PageSize)
                      c.PageSize e.inFileAddr) })
      else
        some (s, { m with mainMemory := bzero m.mainMemory (e.physicalPage * c.PageSize) c.PageSize })
    | none => some (s, m)

/-- `AddrSpace::Swap(oldPage, newPage)` (without the page-table dump it prints). -/
def AddrSpace.Swap (c : Params) (oldPage newPage : Int) (s : AddrSpace) (m : Machine) :
    Option (AddrSpace × Machine) :=
  (AddrSpace.WriteBack c oldPage s m).bind fun s1 =>
  (getEntry s1.pageTable oldPage).bind fun eo =>
  (modifyEntry s1.pageTable newPage fun e => { e with physicalPage := eo.physicalPage }).bind fun pt1 =>
  (modifyEntry pt1 oldPage fun e => { e with physicalPage := -1, valid := false }).bind fun pt2 =>
  (modifyEntry pt2 newPage fun e => { e with valid := true, use := true, dirty := false }).bind fun pt3 =>
  AddrSpace.ReadIn c newPage { s1 with pageTable := pt3 } m

/-! ## Replacement policies -/

/-- `AddrSpace::FIFO(faultPageAddr)`. -/
def AddrSpace.FIFO (c : Params) (faultPageAddr : Int) (s : AddrSpace) (m : Machine) :
    Option (AddrSpace × Machine) :=
  let oldPage : Int := u32 (s.virtualPages s.firstInPage)
  let newPage : Int := (AddrSpace.Translate c s faultPageAddr).1
  AddrSpace.Swap c (toInt32 oldPage) (toInt32 newPage)
    { s with
      virtualPages := Function.update s.virtualPages s.firstInPage (toInt32 newPage)
      firstInPage := (s.firstInPage + 1) % AvailablePages } m

/-- Outcome of a loop run with a bound on the number of iterations. -/
inductive LoopResult (α : Type) where
  /-- The loop condition became false in this state. -/
  | done (a : α)
  /-- An iteration indexed outside the page table. -/
  | undefined
  /-- The bound was reached before the loop condition became false; `a` is the
  state the loop was in by then. -/
  | unfinished (a : α)
deriving DecidableEq, Repr

/-- The victim scan of `AddrSpace::SecondChance`:
`while (pageTable[oldPageIndex].use == TRUE)` with its body, run for at most
`fuel` evaluations of the condition.  The first statement of the body,
`pageTable[oldPageIndex].use == FALSE;`, is a comparison whose value is
discarded, so the page table leaves the body as it entered. -/
def AddrSpace.SecondChance.scan (pageTable : List TranslationEntry) :
    Nat → Int → LoopResult (List TranslationEntry × Int)
  | 0, oldPageIndex => LoopResult.unfinished (pageTable, oldPageIndex)
  | fuel + 1, oldPageIndex =>
    match getEntry pageTable oldPageIndex with
    | none => LoopResult.undefined
    | some e =>
      if e.use = true then
        let _discarded : Bool := decide (e.use = false)
        AddrSpace.SecondChance.scan pageTable fuel ((oldPageIndex + 1) % (AvailablePages : Int))
      else LoopResult.done (pageTable, oldPageIndex)

/-- `AddrSpace::SecondChance(faultPageAddr)`, the scan being given `fuel`
evaluations of its condition. -/
def AddrSpace.SecondChance (c : Params) (fuel : Nat) (faultPageAddr : Int) (s : AddrSpace)
    (m : Machine) : Option (AddrSpace × Machine) :=
  match AddrSpace.SecondChance.scan s.pageTable fuel 0 with
  | LoopResult.done (pt, oldPageIndex) =>
    let oldPage : Int := u32 (s.virtualPages oldPageIndex.toNat)
    let newPage : Int := (AddrSpace.Translate c s faultPageAddr).1
    AddrSpace.Swap c (toInt32 oldPage) (toInt32 newPage)
      { s with
        pageTable := pt
        virtualPages := Function.update s.virtualPages s.firstInPage (toInt32 newPage)
        firstInPage := (s.firstInPage + 1) % AvailablePages } m
  | _ => none

/-! ## Construction -/

/-- Modelled from the spec: `WordToHost` (not among the sources) on a host whose
byte order differs from the image's: the 32-bit word "reinterpreted as
byte-swapped". -/
def WordToHost (w : Int) : Int :=
  let x := u32 w
  (x % 256) * 16777216 + (x / 256 % 256) * 65536 + (x / 65536 % 256) * 256 + x / 16777216

/-- One segment descriptor after `SwapHeader`. -/
def SwapSegment (g : Segment) : Segment :=
  { virtualAddr := toInt32 (WordToHost g.virtualAddr)
    inFileAddr := toInt32 (WordToHost g.inFileAddr)
    size := toInt32 (WordToHost g.size) }

/-- `SwapHeader(&noffH)`. -/
def SwapHeader (noffH : NoffHeader) : NoffHeader :=
  { noffMagic := toInt32 (WordToHost noffH.noffMagic)
    code := SwapSegment noffH.code
    initData := SwapSegment noffH.initData
    uninitData := SwapSegment noffH.uninitData }

/-- What the constructor finds and does not set itself: the contents of the
fresh `virtualPages` array, the `type` field of each fresh page-table entry, the
swap-region allocator `virtualSpaceMap` (a public member that the constructor
never assigns), whether `fileSystem->Create` succeeds and the contents of the
file it creates. -/
structure Indeterminate where
  virtualPages : Nat → Int
  pageType : Nat → Option PageType
  virtualSpaceMap : BitMap
  createSucceeds : Bool
  virtualSpaceFile : Bytes

/-- The loop of the constructor that draws the space id: the lowest `i < 128`
with `spaceIdMap[i]` false; `none` when `ASSERT(flag)` fails. -/
def findSpaceId (spaceIdMap : Nat → Bool) : Option Nat :=
  (List.range 128).find? fun i => !spaceIdMap i

/-- The header as the constructor uses it: `SwapHeader` is applied when the magic
matches only after `WordToHost`; `none` when `ASSERT(noffH.noffMagic == NOFFMAGIC)`
fails. -/
def parseHeader (c : Params) (stored : NoffHeader) : Option NoffHeader :=
  let noffH :=
    if stored.noffMagic ≠ c.NOFFMAGIC ∧ u32 (WordToHost stored.noffMagic) = u32 c.NOFFMAGIC then
      SwapHeader stored
    else stored
  if noffH.noffMagic = c.NOFFMAGIC then some noffH else none

/-- The page count: `divRoundUp(size, PageSize)` for the unsigned
`size = code.size + initData.size + uninitData.size + UserStackSize`. -/
def pageCount (c : Params) (noffH : NoffHeader) : Nat :=
  (divRoundUp (u32 (noffH.code.size + noffH.initData.size + noffH.uninitData.size
    + UserStackSize)) c.PageSize).toNat

/-- One iteration of the loop of `AddrSpace::setUpTranslation`, on the object and
the static frame allocator `bitmap`.  Entry `i` of the fresh array is appended
when the iteration that assigns its fields runs. -/
def AddrSpace.setUpTranslation.body (c : Params) (j : Indeterminate) (i : Nat)
    (st : AddrSpace × BitMap) : Option (AddrSpace × BitMap) :=
  let s := st.1
  let e : TranslationEntry :=
    { virtualPage := i
      physicalPage := -1
      valid := false
      readOnly := false
      use := false
      dirty := false
      inFileAddr := -1
      type :=
        if u32 i ≥ u32 ((s.numPages : Int) - c.StackPages) then some PageType.userStack
        else j.pageType i }
  if i < AvailablePages then
    match BitMap.Find st.2 with
    | none => none
    | some (frame, bitmap) =>
      some ({ s with
              virtualPages := Function.update s.virtualPages s.firstInPage e.virtualPage
              firstInPage := (s.firstInPage + 1) % AvailablePages
              pageTable := s.pageTable ++ [{ e with physicalPage := frame, valid := true, use := true }] },
            bitmap)
  else
    some ({ s with pageTable := s.pageTable ++ [{ e with physicalPage := -1, valid := false }] }, st.2)

/-- `AddrSpace::setUpTranslation()`. -/
def AddrSpace.setUpTranslation (c : Params) (j : Indeterminate) (s : AddrSpace) (bitmap : BitMap) :
    Option (AddrSpace × BitMap) :=
  forLoop (AddrSpace.setUpTranslation.body c j) s.numPages
    ({ s with firstInPage := 0, pageTable := [] }, bitmap)

/-- Number of iterations of `for (int i = start; i < numPage + start; ++i)` with
unsigned `start` and `numPage`. -/
def loopCount (start numPage : Int) : Nat := (u32 (numPage + start) - start).toNat

/-- Body of the code-segment loop of `copy2Mem`. -/
def AddrSpace.copy2Mem.codeBody (c : Params) (k : Nat) (st : AddrSpace × Machine) :
    Option (AddrSpace × Machine) :=
  let s := st.1
  let m := st.2
  let i : Int := k
  match getEntry s.pageTable i with
  | none => none
  | some e =>
    let e1 := { e with inFileAddr := s.noffH.code.inFileAddr + i * c.PageSize,
                       type := some PageType.code }
    some ({ s with pageTable := s.pageTable.set i.toNat e1 },
          if e1.valid then
            { m with mainMemory :=
                (ReadAt s.executable m.mainMemory (e1.physicalPage * c.PageSize) c.PageSize
                  e1.inFileAddr) }
          else m)

/-- Body of the initData loop of `copy2Mem`; `starPage` is the unsigned start. -/
def AddrSpace.copy2Mem.initDataBody (c : Params) (starPage : Int) (k : Nat)
    (st : AddrSpace × Machine) : Option (AddrSpace × Machine) :=
  let s := st.1
  let m := st.2
  let i : Int := toInt32 starPage + k
  match getEntry s.pageTable i with
  | none => none
  | some e =>
    let e1 := { e with
      inFileAddr := toInt32 (u32 (s.noffH.initData.inFileAddr + u32 (i - starPage) * c.PageSize)),
      type := some PageType.initData }
    some ({ s with pageTable := s.pageTable.set i.toNat e1 },
          if e1.valid then
            { m with mainMemory :=
                (ReadAt s.executable m.mainMemory (e1.physicalPage * c.PageSize) c.PageSize
                  e1.inFileAddr) }
          else m)

/-- Body of the uninitData loop of `copy2Mem`; `startPage` is the unsigned start. -/
def AddrSpace.copy2Mem.uninitDataBody (startPage : Int) (k : Nat)
    (st : AddrSpace × Machine) : Option (AddrSpace × Machine) :=
  let s := st.1
  let i : Int := toInt32 startPage + k
  match getEntry s.pageTable i with
  | none => none
  | some e =>
    some ({ s with pageTable := s.pageTable.set i.toNat { e with type := some PageType.uninitData } },
          st.2)

/-- `AddrSpace::copy2Mem()`. -/
def AddrSpace.copy2Mem (c : Params) (s : AddrSpace) (m : Machine) : Option (AddrSpace × Machine) :=
  let afterCode :=
    if s.noffH.code.size > 0 then
      forLoop (AddrSpace.copy2Mem.codeBody c)
        (u32 (divRoundUp s.noffH.code.size c.PageSize)).toNat (s, m)
    else some (s, m)
  let afterInitData := afterCode.bind fun st =>
    if s.noffH.initData.size > 0 then
      let numPage := u32 (divRoundUp s.noffH.initData.size c.PageSize)
      let starPage := u32 (divRoundUp s.noffH.code.size c.PageSize)
      forLoop (AddrSpace.copy2Mem.initDataBody c starPage) (loopCount starPage numPage) st
    else some st
  afterInitData.bind fun st =>
    if s.noffH.uninitData.size > 0 then
      let numPage := u32 (divRoundUp s.noffH.uninitData.size c.PageSize)
      let startPage := u32 (divRoundUp s.noffH.code.size c.PageSize
        + divRoundUp s.noffH.initData.size c.PageSize)
      forLoop (AddrSpace.copy2Mem.uninitDataBody startPage) (loopCount startPage numPage) st
    else some st

/-- The process-wide state: the machine, the statics `AddrSpace::bitmap` and
`AddrSpace::spaceIdMap`, and the live `AddrSpace` objects. -/
structure Kernel where
  machine : Machine
  bitmap : BitMap
  spaceIdMap : Nat → Bool
  spaces : List AddrSpace

/-- `AddrSpace::AddrSpace(executable)`: `stored` is the header as `ReadAt` delivers
it from offset 0 of the file.  The result is the new object with the statics and
the machine as the constructor leaves them; `none` when an `ASSERT` fails. -/
def AddrSpace.construct (c : Params) (executable : Bytes) (stored : NoffHeader)
    (j : Indeterminate) (k : Kernel) : Option (AddrSpace × Kernel) :=
  (findSpaceId k.spaceIdMap).bind fun spaceId =>
  (parseHeader c stored).bind fun noffH =>
  let numPages := pageCount c noffH
  if j.createSucceeds = true ∧ numPages ≤ c.NumPhysPages then
    let s0 : AddrSpace :=
      { noffH := noffH
        executable := executable
        virtualPages := j.virtualPages
        virtualSpaceFile := j.virtualSpaceFile
        virtualSpaceMap := j.virtualSpaceMap
        firstInPage := 0
        pageTable := []
        numPages := numPages
        spaceId := spaceId }
    (AddrSpace.setUpTranslation c j s0 k.bitmap).bind fun (s1, bitmap) =>
    (AddrSpace.copy2Mem c s1 k.machine).bind fun (s2, machine) =>
    some (s2, { k with
                machine := machine
                bitmap := bitmap
                spaceIdMap := Function.update k.spaceIdMap spaceId true })
  else none

/-- The assertions of the constructor that precede `setUpTranslation()`. -/
inductive Halt where
  /-- `ASSERT(flag)`: no space id is free. -/
  | flag
  /-- `ASSERT(noffH.noffMagic == NOFFMAGIC)`. -/
  | magic
  /-- `ASSERT(FALSE)` after `fileSystem->Create` has failed. -/
  | create
  /-- `ASSERT(numPages <= NumPhysPages)`. -/
  | size
deriving DecidableEq, Repr

/-- The constructor from its first statement up to and including
`ASSERT(numPages <= NumPhysPages)`, that is, everything before the call
`setUpTranslation()`.  Of the statics this part reads and writes `spaceIdMap`
only; it has no page table yet.  The result is the assertion that fails, or the
object so far (`pageTable` not yet allocated, written `[]`) with `spaceIdMap`. -/
def AddrSpace.construct.prepare (c : Params) (executable : Bytes) (stored : NoffHeader)
    (j : Indeterminate) (spaceIdMap : Nat → Bool) : Except Halt (AddrSpace × (Nat → Bool)) :=
  match findSpaceId spaceIdMap with
  | none => Except.error Halt.flag
  | some spaceId =>
    match parseHeader c stored with
    | none => Except.error Halt.magic
    | some noffH =>
      let numPages := pageCount c noffH
      if j.createSucceeds = true then
        if numPages ≤ c.NumPhysPages then
          Except.ok
            ({ noffH := noffH
               executable := executable
               virtualPages := j.virtualPages
               virtualSpaceFile := j.virtualSpaceFile
               virtualSpaceMap := j.virtualSpaceMap
               firstInPage := 0
               pageTable := []
               numPages := numPages
               spaceId := spaceId },
             Function.update spaceIdMap spaceId true)
        else Except.error Halt.size
      else Except.error Halt.create

/-- One iteration of the loop of the destructor,
`bitmap->Clear(pageTable[i].physicalPage)`, on the static frame allocator. -/
def AddrSpace.destroy.body (s : AddrSpace) (i : Nat) (bitmap : BitMap) : Option BitMap :=
  match getEntry s.pageTable i with
  | none => none
  | some e => BitMap.Clear bitmap e.physicalPage

/-- `AddrSpace::~AddrSpace()`: the statics as the destructor leaves them; `none`
when a call of `Clear` is fatal or an index is outside the page table. -/
def AddrSpace.destroy (s : AddrSpace) (k : Kernel) : Option Kernel :=
  let spaceIdMap := Function.update k.spaceIdMap s.spaceId false
  (forLoop (AddrSpace.destroy.body s) s.numPages k.bitmap).map fun bitmap =>
    { k with spaceIdMap := spaceIdMap, bitmap := bitmap }

/-! ## The running system -/

/-- Modelled from the spec: the CPU emulator's use of a page-table entry
(machine/translate.cc is not among the sources).  An access to a resident page
sets its referenced bit; a store also sets its dirty bit and writes one byte of
the page's frame.  A non-resident page is not accessed (it faults). -/
def AddrSpace.access (c : Params) (vpn offset : Int) (store : Option Byte) (s : AddrSpace)
    (m : Machine) : Option (AddrSpace × Machine) :=
  match getEntry s.pageTable vpn with
  | none => none
  | some e =>
    if e.valid = true ∧ 0 ≤ offset ∧ offset < c.PageSize then
      match store with
      | none => some ({ s with pageTable := s.pageTable.set vpn.toNat { e with use := true } }, m)
      | some b =>
        some ({ s with pageTable := s.pageTable.set vpn.toNat { e with use := true, dirty := true } },
              { m with mainMemory :=
                  Function.update m.mainMemory (e.physicalPage * c.PageSize + offset) b })
    else none

/-- What can happen to the system: a process image is loaded, a page fault of
the `i`-th live address space is handled by one of the two policies, or the
emulator accesses a resident page of the `i`-th address space. -/
inductive Event where
  | create (executable : Bytes) (stored : NoffHeader) (j : Indeterminate)
  | fifo (i : Nat) (faultPageAddr : Int)
  | secondChance (i : Nat) (fuel : Nat) (faultPageAddr : Int)
  | access (i : Nat) (vpn offset : Int) (store : Option Byte)

/-- Runs an operation of the `i`-th live address space on the shared machine. -/
def Kernel.onSpace (k : Kernel) (i : Nat)
    (op : AddrSpace → Machine → Option (AddrSpace × Machine)) : Option Kernel :=
  match k.spaces[i]? with
  | none => none
  | some s =>
    match op s k.machine with
    | none => none
    | some (s', m') => some { k with machine := m', spaces := k.spaces.set i s' }

/-- The effect of an event; `none` when it is fatal or undefined. -/
def Kernel.exec (c : Params) (k : Kernel) : Event → Option Kernel
  | Event.create executable stored j =>
    match AddrSpace.construct c executable stored j k with
    | none => none
    | some (s, k') => some { k' with spaces := k'.spaces ++ [s] }
  | Event.fifo i a => k.onSpace i (AddrSpace.FIFO c a)
  | Event.secondChance i fuel a => k.onSpace i (AddrSpace.SecondChance c fuel a)
  | Event.access i vpn offset store => k.onSpace i (AddrSpace.access c vpn offset store)

/-- The system before any process is loaded: `new BitMap(NumPhysPages)` and
`spaceIdMap[128] = { 0 }`. -/
def Kernel.boot (c : Params) (m : Machine) : Kernel :=
  { machine := m
    bitmap := List.replicate c.NumPhysPages false
    spaceIdMap := fun _ => false
    spaces := [] }

/-- The states the system reaches from boot through events that `allowed`
admits in the state in which they happen. -/
inductive Reach (c : Params) (allowed : Kernel → Event → Prop) : Kernel → Prop where
  | boot (m : Machine) : Reach c allowed (Kernel.boot c m)
  | step {k k' : Kernel} (e : Event) :
      Reach c allowed k → allowed k e → Kernel.exec c k e = some k' → Reach c allowed k'

/-- Destruction of the `i`-th live address space: its destructor runs and the
object is no longer live. -/
def Kernel.destroy (k : Kernel) (i : Nat) : Option Kernel :=
  match k.spaces[i]? with
  | none => none
  | some s => (AddrSpace.destroy s k).map fun k' => { k' with spaces := k.spaces.eraseIdx i }

/-- The states the system reaches from boot through events and destructions of
live address spaces, in any order. -/
inductive Lives (c : Params) : Kernel → Prop where
  | boot (m : Machine) : Lives c (Kernel.boot c m)
  | step {k k' : Kernel} (e : Event) : Lives c k → Kernel.exec c k e = some k' → Lives c k'
  | destroy {k k' : Kernel} (i : Nat) : Lives c k → Kernel.destroy k i = some k' → Lives c k'

/-- Some live address space has space id `id`. -/
def Kernel.holds (k : Kernel) (id : Nat) : Prop :=
  ∃ (i : Nat) (s : AddrSpace), k.spaces[i]? = some s ∧ s.spaceId = id

/-- The bookkeeping of space ids: every live address space has an id below 128
that is marked in `spaceIdMap`, no two live address spaces have the same id, and
every id marked in `spaceIdMap` is the id of a live address space. -/
def Kernel.SpaceIds (k : Kernel) : Prop :=
  (∀ (i : Nat) (s : AddrSpace), k.spaces[i]? = some s →
    s.spaceId < 128 ∧ k.spaceIdMap s.spaceId = true) ∧
  (∀ (i i' : Nat) (s s' : AddrSpace), k.spaces[i]? = some s → k.spaces[i']? = some s' →
    s.spaceId = s'.spaceId → i = i') ∧
  ∀ id, k.spaceIdMap id = true → k.holds id

/-- Page `p` of the address space is resident. -/
def AddrSpace.resident (s : AddrSpace) (p : Int) : Prop :=
  ∃ e, getEntry s.pageTable p = some e ∧ e.valid = true

/-- Page `p` exists in the page table and is not resident. -/
def AddrSpace.nonResident (s : AddrSpace) (p : Int) : Prop :=
  ∃ e, getEntry s.pageTable p = some e ∧ e.valid = false

/-- The page that a fault at `addr` makes resident, as `FIFO` passes it to `Swap`. -/
def AddrSpace.faultPage (c : Params) (s : AddrSpace) (addr : Int) : Int :=
  toInt32 (AddrSpace.Translate c s addr).1

/-- The page that `FIFO` evicts in this state, as it passes it to `Swap`: the
page named by the slot at the cursor `firstInPage`. -/
def AddrSpace.victim (s : AddrSpace) : Int :=
  toInt32 (u32 (s.virtualPages s.firstInPage))

/-- The page named by slot `slot` of `virtualPages`, read as `FIFO` reads it. -/
def AddrSpace.slotPage (s : AddrSpace) (slot : Nat) : Int :=
  toInt32 (u32 (s.virtualPages slot))

/-- Page loads, FIFO page faults on non-resident pages, and accesses of the
emulator. -/
def fifoOnNonResident (c : Params) (k : Kernel) : Event → Prop
  | Event.create _ _ _ => True
  | Event.fifo i a => ∃ s, k.spaces[i]? = some s ∧ s.nonResident (s.faultPage c a)
  | Event.secondChance _ _ _ => False
  | Event.access _ _ _ _ => True

/-- Boolean test of `AddrSpace.nonResident`. -/
def AddrSpace.nonResidentB (s : AddrSpace) (p : Int) : Bool :=
  match getEntry s.pageTable p with
  | some e => !e.valid
  | none => false

/-- Boolean test of `fifoOnNonResident`. -/
def fifoOnNonResidentB (c : Params) (k : Kernel) : Event → Bool
  | Event.create _ _ _ => true
  | Event.fifo i a =>
    match k.spaces[i]? with
    | some s => s.nonResidentB (s.faultPage c a)
    | none => false
  | Event.secondChance _ _ _ => false
  | Event.access _ _ _ _ => true

/-- Runs a list of events from state `k`, each one only if `ok` admits it in the
state in which it happens. -/
def runChecked (c : Params) (ok : Kernel → Event → Bool) : List Event → Kernel → Option Kernel
  | [], k => some k
  | e :: es, k => if ok k e then (Kernel.exec c k e).bind (runChecked c ok es) else none

/-- Every event: any load, any fault handled by either policy, any access. -/
def anyEvent (_k : Kernel) (_e : Event) : Prop := True

/-- No physical frame is the `physicalPage` of more than one resident entry
across all live address spaces. -/
def Kernel.FramesUnique (k : Kernel) : Prop :=
  ∀ (i i' p p' : Nat) (s s' : AddrSpace) (e e' : TranslationEntry),
    k.spaces[i]? = some s → k.spaces[i']? = some s' →
    s.pageTable[p]? = some e → s'.pageTable[p']? = some e' →
    e.valid = true → e'.valid = true → e.physicalPage = e'.physicalPage → i = i' ∧ p = p'

/-- Every resident entry's `physicalPage` is a frame marked claimed in the frame
allocator. -/
def Kernel.FramesClaimed (k : Kernel) : Prop :=
  ∀ (i p : Nat) (s : AddrSpace) (e : TranslationEntry),
    k.spaces[i]? = some s → s.pageTable[p]? = some e → e.valid = true →
    BitMap.Test k.bitmap e.physicalPage = true

/-- The cursor is a slot, and either every page of the table is resident or the
`AvailablePages` slots of `virtualPages` name resident pages, different slots
different pages. -/
def AddrSpace.SlotsResident (s : AddrSpace) : Prop :=
  s.firstInPage < AvailablePages ∧
  ((∀ (p : Nat) (e : TranslationEntry), s.pageTable[p]? = some e → e.valid = true) ∨
   ((∀ slot, slot < AvailablePages → s.resident (s.slotPage slot)) ∧
    ∀ slot slot', slot < AvailablePages → slot' < AvailablePages →
      s.slotPage slot = s.slotPage slot' → slot = slot'))

/-- The resident entries of `s'` hold frames that resident entries of `s` held,
different entries the frames of different entries. -/
def FramesFrom (s s' : AddrSpace) : Prop :=
  ∃ φ : Nat → Nat,
    (∀ (p : Nat) (e' : TranslationEntry), s'.pageTable[p]? = some e' → e'.valid = true →
      ∃ e, s.pageTable[φ p]? = some e ∧ e.valid = true ∧ e.physicalPage = e'.physicalPage) ∧
    ∀ (p p' : Nat) (e e' : TranslationEntry), s'.pageTable[p]? = some e →
      s'.pageTable[p']? = some e' → e.valid = true → e'.valid = true → φ p = φ p' → p = p'

/-- Frame uniqueness with the bookkeeping that carries it from state to state. -/
def Kernel.FrameInv (k : Kernel) : Prop :=
  k.FramesUnique ∧ k.FramesClaimed ∧
    ∀ (i : Nat) (s : AddrSpace), k.spaces[i]? = some s → s.SlotsResident

/-- Resident-set bookkeeping that every event keeps: the table has `numPages`
entries, the cursor is a slot, every resident page is named by one of the
`AvailablePages` slots of `virtualPages`, and the entries that the scan of
`SecondChance` inspects (entries `0 .. AvailablePages - 1`) have their `use` bit
set. -/
def AddrSpace.Tracked (s : AddrSpace) : Prop :=
  s.pageTable.length = s.numPages ∧ s.firstInPage < AvailablePages ∧
  (∀ (p : Nat) (e : TranslationEntry), s.pageTable[p]? = some e → e.valid = true →
    ∃ slot, slot < AvailablePages ∧ s.slotPage slot = (p : Int)) ∧
  ∀ (i : Nat) (e : TranslationEntry), i < AvailablePages → s.pageTable[i]? = some e →
    e.use = true

/-- The page is backed by the swap file: its kind is uninitData or stack. -/
def TranslationEntry.swapKind (e : TranslationEntry) : Bool :=
  e.type = some PageType.uninitData || e.type = some PageType.userStack

/-- The swap slot that the entry records: `inFileAddr / PageSize` for a page
backed by the swap file whose `inFileAddr` is not the sentinel. -/
def TranslationEntry.slot (c : Params) (e : TranslationEntry) : Option Int :=
  if e.swapKind = true ∧ 0 ≤ e.inFileAddr then some (Int.tdiv e.inFileAddr c.PageSize) else none

/-- Swap-slot ownership of a page table and a swap-region allocator: the slot
that an entry records is claimed in the allocator, and no two pages record the
same slot. -/
def SlotsOwned (c : Params) (pt : List TranslationEntry) (map : BitMap) : Prop :=
  ∀ (r : Int) (e : TranslationEntry) (z : Int), getEntry pt r = some e → e.slot c = some z →
    BitMap.Test map z = true ∧
      ∀ (r' : Int) (e' : TranslationEntry), getEntry pt r' = some e' → e'.slot c = some z → r' = r

/-- Swap-slot ownership of an address space. -/
def AddrSpace.SwapOwned (c : Params) (s : AddrSpace) : Prop :=
  SlotsOwned c s.pageTable s.virtualSpaceMap

/-- Page `p` is of a kind backed by the swap file and slot `slot` of the swap
file, which its entry records, holds the bytes `B`. -/
def Backed (c : Params) (pt : List TranslationEntry) (file : Bytes) (p slot : Int)
    (B : Int → Byte) : Prop :=
  ∃ e, getEntry pt p = some e ∧ e.swapKind = true ∧ e.inFileAddr = slot * c.PageSize ∧
    0 ≤ slot ∧ ∀ k, 0 ≤ k → k < c.PageSize → file (slot * c.PageSize + k) = B k

/-- Page `p` is swapped out: it is not resident and not dirty, and slot `slot`
of the swap file holds its bytes `B`. -/
def AddrSpace.SwappedOut (c : Params) (s : AddrSpace) (p slot : Int) (B : Int → Byte) : Prop :=
  Backed c s.pageTable s.virtualSpaceFile p slot B ∧
    ∃ e, getEntry s.pageTable p = some e ∧ e.valid = false ∧ e.dirty = false

/-- What may happen between the eviction of page `p` and its reload: other
pages are swapped in (by either policy, evicting any page), the emulator
accesses resident pages, the resident-set bookkeeping is rewritten, and memory
changes in any way. -/
inductive Meanwhile (c : Params) (p : Int) : AddrSpace × Machine → AddrSpace × Machine → Prop where
  | refl (st : AddrSpace × Machine) : Meanwhile c p st st
  | swap {st st' st'' : AddrSpace × Machine} (oldPage newPage : Int) :
      Meanwhile c p st st' → newPage ≠ p →
      AddrSpace.Swap c oldPage newPage st'.1 st'.2 = some st'' → Meanwhile c p st st''
  | access {st st' st'' : AddrSpace × Machine} (vpn offset : Int) (store : Option Byte) :
      Meanwhile c p st st' →
      AddrSpace.access c vpn offset store st'.1 st'.2 = some st'' → Meanwhile c p st st''
  | slots {st st' : AddrSpace × Machine} (virtualPages : Nat → Int) (firstInPage : Nat) :
      Meanwhile c p st st' →
      Meanwhile c p st
        ({ st'.1 with virtualPages := virtualPages, firstInPage := firstInPage }, st'.2)
  | memory {st st' : AddrSpace × Machine} (m : Machine) :
      Meanwhile c p st st' → Meanwhile c p st (st'.1, m)

/-- Number of resident (valid) entries of a page table. -/
def residentCount (pt : List TranslationEntry) : Nat := pt.countP fun e => e.valid

/-- The constants relate as the spec assumes: pages are not empty, the stack
region of `UserStackSize` bytes is the top `StackPages` pages, and physical
addresses fit a C `int`. -/
def Params.WellFormed (c : Params) : Prop :=
  0 < c.PageSize ∧ UserStackSize = c.StackPages * c.PageSize ∧
    (c.NumPhysPages : Int) * c.PageSize < 2147483648

/-- The constants of a stock Nachos 3.4 machine (`PageSize` 128, 32 frames,
`NOFFMAGIC` 0xbadfad), the stack region of 1024 bytes being 8 pages. -/
def stock : Params :=
  { PageSize := 128, StackPages := 8, NumPhysPages := 32, NOFFMAGIC := 0xbadfad }

/-- The states of one address space and the machine that are reached from its
construction by calls `Swap(oldPage, newPage)` with `oldPage` resident and
`newPage` not resident, by accesses of the emulator (which sets `dirty` on
resident entries only) and by the updates of the resident-set bookkeeping with
which the replacement policies precede their call of `Swap`. -/
inductive Swapped (c : Params) : AddrSpace → Machine → Prop where
  | built {executable : Bytes} {stored : NoffHeader} {j : Indeterminate} {k k' : Kernel}
      {s : AddrSpace} :
      AddrSpace.construct c executable stored j k = some (s, k') → Swapped c s k'.machine
  | swap {s s' : AddrSpace} {m m' : Machine} (oldPage newPage : Int) :
      Swapped c s m → s.resident oldPage → s.nonResident newPage →
      AddrSpace.Swap c oldPage newPage s m = some (s', m') → Swapped c s' m'
  | access {s s' : AddrSpace} {m m' : Machine} (vpn offset : Int) (store : Option Byte) :
      Swapped c s m → AddrSpace.access c vpn offset store s m = some (s', m') →
      Swapped c s' m'
  | slots {s : AddrSpace} {m : Machine} (virtualPages : Nat → Int) (firstInPage : Nat) :
      Swapped c s m →
      Swapped c { s with virtualPages := virtualPages, firstInPage := firstInPage } m

/-! ## Registers and the Exec system call -/

/-- The register numbers of machine.h that the sources use but do not declare;
they are inputs of the embedding. -/
structure Regs where
  /-- Number of registers (`NumTotalRegs`). -/
  NumTotalRegs : Nat
  /-- The stack pointer (`StackReg`). -/
  StackReg : Int
  /-- The program counter (`PCReg`). -/
  PCReg : Int
  /-- The counter of the next instruction (`NextPCReg`). -/
  NextPCReg : Int
  /-- The counter of the previous instruction (`PrevPCReg`). -/
  PrevPCReg : Int

/-- The register numbers of a stock Nachos 3.4 machine. -/
def stockRegs : Regs :=
  { NumTotalRegs := 40, StackReg := 29, PCReg := 34, NextPCReg := 35, PrevPCReg := 36 }

/-- Modelled from the spec: `Machine::WriteRegister(num, value)` on "a register
file ... accessed by index". -/
def Machine.WriteRegister (m : Machine) (num value : Int) : Machine :=
  { m with registers := Function.update m.registers num value }

/-- `AddrSpace::InitRegisters()`.  The stack pointer is computed in unsigned
arithmetic (`numPages` is unsigned) and passed as an `int`. -/
def AddrSpace.InitRegisters (c : Params) (r : Regs) (s : AddrSpace) (m : Machine) : Machine :=
  let m1 := (List.range r.NumTotalRegs).foldl (fun m i => m.WriteRegister (i : Int) 0) m
  let m2 := m1.WriteRegister r.PCReg 0
  let m3 := m2.WriteRegister r.NextPCReg 4
  m3.WriteRegister r.StackReg (toInt32 (u32 (u32 ((s.numPages : Int) * c.PageSize) - 16)))

/-- The kinds of exception of machine.h, as far as the handler tells them
apart. -/
inductive ExceptionType where
  | SyscallException
  | other (code : Nat)
deriving DecidableEq, Repr

/-- A file that `fileSystem->Open` has opened: its contents and its first bytes
read as a NOFF header. -/
structure OpenedFile where
  contents : Bytes
  header : NoffHeader

/-- The kernel as `ExceptionHandler` sees it: the statics and live address
spaces, the global `AddrSpace *space` (the position of the object among the live
address spaces, `none` while it points to none) and the number of threads that
have been forked. -/
structure System where
  kernel : Kernel
  space : Option Nat
  forked : Nat

/-- What `ExceptionHandler` uses and the sources do not contain: the system-call
codes of syscall.h, `Machine::ReadMem` of one byte of user memory (`none` when
the address does not translate; what the emulator does to a page table while it
translates is not part of the handler), `fileSystem->Open` (`none` for `NULL`),
what happens until `currentThread->Yield()` returns (`none` if it never does),
and the register numbers. -/
structure Collaborators where
  SC_Halt : Int
  SC_Exec : Int
  ReadMem : System → Int → Option Byte
  Open : List Byte → Option OpenedFile
  Yield : System → Option System
  regs : Regs

/-- The loop of the handler that copies the file name from user memory into
`char filename[50]`: the bytes before the first `'\0'`; `none` when a byte cannot
be read or no `'\0'` is among the first `room` bytes (the loop then writes behind
the array). -/
def readFilename (read : Int → Option Byte) (addr : Int) : Nat → Nat → Option (List Byte)
  | 0, _ => none
  | room + 1, i =>
    match read (addr + (i : Int)) with
    | none => none
    | some b => if b = 0 then some [] else (readFilename read addr room (i + 1)).map (b :: ·)

/-- `AdvancePC()`. -/
def AdvancePC (r : Regs) (m : Machine) : Machine :=
  let m1 := m.WriteRegister r.PrevPCReg (m.registers r.PCReg)
  let m2 := m1.WriteRegister r.PCReg (toInt32 (m1.registers r.PCReg + 4))
  m2.WriteRegister r.NextPCReg (toInt32 (m2.registers r.NextPCReg + 4))

/-- `ExceptionHandler(which)`: the system when the handler returns; `none` when
it does not return (`interrupt->Halt()`, a failed `ASSERT`, a yield that never
comes back) or its behaviour is undefined.  `j` is what the constructor finds
uninitialised, should one run. -/
def ExceptionHandler (c : Params) (x : Collaborators) (j : Indeterminate)
    (which : ExceptionType) (σ : System) : Option System :=
  let type := σ.kernel.machine.registers 2
  if which = ExceptionType.SyscallException ∧ type = x.SC_Halt then none
  else if which = ExceptionType.SyscallException ∧ type = x.SC_Exec then
    let addr := σ.kernel.machine.registers 4
    match readFilename (x.ReadMem σ) addr 50 0 with
    | none => none
    | some filename =>
      match x.Open filename with
      | none => some σ
      | some executable =>
        match AddrSpace.construct c executable.contents executable.header j σ.kernel with
        | none => none
        | some (s, k') =>
          let σ1 : System :=
            { kernel := { k' with spaces := k'.spaces ++ [s] }
              space := some k'.spaces.length
              forked := σ.forked + 1 }
          (x.Yield σ1).bind fun σ2 =>
            (σ2.space.bind fun i => σ2.kernel.spaces[i]?).map fun sp =>
              let m1 := σ2.kernel.machine.WriteRegister 2 (sp.spaceId : Int)
              { σ2 with kernel := { σ2.kernel with machine := AdvancePC x.regs m1 } }
  else none

/-! ## Facts about a freshly built page table -/

/-- The `type` field that `setUpTranslation` leaves in entry `p` of a table of
`numPages` pages. -/
def initialType (c : Params) (j : Indeterminate) (numPages p : Nat) : Option PageType :=
  if u32 p ≥ u32 ((numPages : Int) - c.StackPages) then some PageType.userStack else j.pageType p

/-- What holds after `n` iterations of the loop of `setUpTranslation` started on
the object `s0` and the frame allocator `b0`. -/
structure SetupInv (c : Params) (j : Indeterminate) (s0 : AddrSpace) (b0 : BitMap) (n : Nat)
    (st : AddrSpace × BitMap) : Prop where
  noffH : st.1.noffH = s0.noffH
  numPages : st.1.numPages = s0.numPages
  executable : st.1.executable = s0.executable
  virtualSpaceFile : st.1.virtualSpaceFile = s0.virtualSpaceFile
  virtualSpaceMap : st.1.virtualSpaceMap = s0.virtualSpaceMap
  spaceId : st.1.spaceId = s0.spaceId
  length : st.1.pageTable.length = n
  first : st.1.firstInPage = (min n AvailablePages) % AvailablePages
  slots : ∀ slot, st.1.virtualPages slot =
    if slot < min n AvailablePages then (slot : Int) else s0.virtualPages slot
  entry : ∀ (p : Nat) (e : TranslationEntry), st.1.pageTable[p]? = some e →
    e = ({ virtualPage := (p : Int)
           physicalPage := e.physicalPage
           valid := decide (p < AvailablePages)
           readOnly := false
           use := decide (p < AvailablePages)
           dirty := false
           inFileAddr := -1
           type := initialType c j s0.numPages p } : TranslationEntry)
  absent : ∀ p e, st.1.pageTable[p]? = some e → ¬ p < AvailablePages → e.physicalPage = -1
  frame : ∀ p e, st.1.pageTable[p]? = some e → p < AvailablePages →
    BitMap.Test st.2 e.physicalPage = true ∧ BitMap.Test b0 e.physicalPage = false
  distinct : ∀ p q e e', st.1.pageTable[p]? = some e → st.1.pageTable[q]? = some e' →
    p < AvailablePages → q < AvailablePages → e.physicalPage = e'.physicalPage → p = q
  kept : ∀ f, BitMap.Test b0 f = true → BitMap.Test st.2 f = true
  claimed : ∀ f, BitMap.Test st.2 f = true → BitMap.Test b0 f = true ∨
    ∃ p e, st.1.pageTable[p]? = some e ∧ p < AvailablePages ∧ e.physicalPage = f
  size : st.2.length = b0.length

/-- The fields of an entry that record residency: everything but the backing
offset `inFileAddr` and the segment kind `type`. -/
def TranslationEntry.core (e : TranslationEntry) : Int × Int × Bool × Bool × Bool × Bool :=
  (e.virtualPage, e.physicalPage, e.valid, e.readOnly, e.use, e.dirty)

/-- Object `s'` differs from `s` at most in the `inFileAddr` and `type` fields of
page-table entries. -/
structure SameButBacking (s s' : AddrSpace) : Prop where
  noffH : s'.noffH = s.noffH
  numPages : s'.numPages = s.numPages
  executable : s'.executable = s.executable
  virtualSpaceFile : s'.virtualSpaceFile = s.virtualSpaceFile
  virtualSpaceMap : s'.virtualSpaceMap = s.virtualSpaceMap
  spaceId : s'.spaceId = s.spaceId
  firstInPage : s'.firstInPage = s.firstInPage
  virtualPages : s'.virtualPages = s.virtualPages
  core : s'.pageTable.map TranslationEntry.core = s.pageTable.map TranslationEntry.core

/-- What holds of the object `s` and the system `k'` that the constructor
produces from the system `k`. -/
structure Built (c : Params) (stored : NoffHeader) (j : Indeterminate) (k : Kernel)
    (s : AddrSpace) (k' : Kernel) : Prop where
  header : parseHeader c stored = some s.noffH
  numPages : s.numPages = pageCount c s.noffH
  fits : s.numPages ≤ c.NumPhysPages
  length : s.pageTable.length = s.numPages
  first : s.firstInPage = (min s.numPages AvailablePages) % AvailablePages
  slots : ∀ slot, s.virtualPages slot =
    if slot < min s.numPages AvailablePages then (slot : Int) else j.virtualPages slot
  entry : ∀ (p : Nat) (e : TranslationEntry), s.pageTable[p]? = some e →
    e.virtualPage = p ∧ e.valid = decide (p < AvailablePages) ∧
      e.use = decide (p < AvailablePages) ∧ e.dirty = false ∧ e.readOnly = false
  absent : ∀ p e, s.pageTable[p]? = some e → ¬ p < AvailablePages → e.physicalPage = -1
  frame : ∀ p e, s.pageTable[p]? = some e → p < AvailablePages →
    BitMap.Test k'.bitmap e.physicalPage = true ∧ BitMap.Test k.bitmap e.physicalPage = false
  distinct : ∀ p q e e', s.pageTable[p]? = some e → s.pageTable[q]? = some e' →
    p < AvailablePages → q < AvailablePages → e.physicalPage = e'.physicalPage → p = q
  kept : ∀ f, BitMap.Test k.bitmap f = true → BitMap.Test k'.bitmap f = true
  claimed : ∀ f, BitMap.Test k'.bitmap f = true → BitMap.Test k.bitmap f = true ∨
    ∃ p e, s.pageTable[p]? = some e ∧ p < AvailablePages ∧ e.physicalPage = f
  spaces : k'.spaces = k.spaces
  swapMap : s.virtualSpaceMap = j.virtualSpaceMap
  swapFile : s.virtualSpaceFile = j.virtualSpaceFile
  spaceId : findSpaceId k.spaceIdMap = some s.spaceId
  spaceIdMap : k'.spaceIdMap = Function.update k.spaceIdMap s.spaceId true

/-- The `type` field of entry `p` after construction from header `h`: the kind
that the last loop of `copy2Mem` covering page `p` assigns, else what
`setUpTranslation` left. -/
def builtType (c : Params) (j : Indeterminate) (h : NoffHeader) (numPages p : Nat) :
    Option PageType :=
  let codeEnd := divRoundUp h.code.size c.PageSize
  let initEnd := codeEnd + divRoundUp h.initData.size c.PageSize
  let uninitEnd := initEnd + divRoundUp h.uninitData.size c.PageSize
  if initEnd ≤ (p : Int) ∧ (p : Int) < uninitEnd then some PageType.uninitData
  else if codeEnd ≤ (p : Int) ∧ (p : Int) < initEnd then some PageType.initData
  else if (p : Int) < codeEnd then some PageType.code
  else initialType c j numPages p

/-! ## Segments of an image -/

/-- Address `a` lies inside the declared segment `g` (of non-zero size). -/
def Segment.contains (g : Segment) (a : Int) : Prop :=
  0 < g.size ∧ g.virtualAddr ≤ a ∧ a < g.virtualAddr + g.size

instance (g : Segment) (a : Int) : Decidable (g.contains a) := by
  unfold Segment.contains; infer_instance

/-- The segment that address `a` falls in: the stack for the top `StackPages`
pages of the address space, else uninitData, initData or code when `a` lies
inside that declared segment; `none` when `a` is in no declared segment. -/
def AddrSpace.segmentOf (c : Params) (s : AddrSpace) (a : Int) : Option PageType :=
  if 0 ≤ a ∧ ((s.numPages : Int) - c.StackPages) * c.PageSize ≤ a
      ∧ a < (s.numPages : Int) * c.PageSize then some PageType.userStack
  else if s.noffH.uninitData.contains a then some PageType.uninitData
  else if s.noffH.initData.contains a then some PageType.initData
  else if s.noffH.code.contains a then some PageType.code
  else none

/-- No two resident entries of the page table have the same frame. -/
def FramesDistinct (pt : List TranslationEntry) : Prop :=
  ∀ (p q : Nat) (e e' : TranslationEntry), pt[p]? = some e → pt[q]? = some e' →
    e.valid = true → e'.valid = true → e.physicalPage = e'.physicalPage → p = q

/-- What holds while `copy2Mem` runs on the object `s0` and the machine `m0`,
the pages `p` with `F p = some a` having been given the backing offset `a` and
loaded so far: the entries differ from those of `s0` in `type` and, for these
pages, in `inFileAddr`; the frame of each of these pages that is resident holds
the bytes of the executable from its offset; memory outside these frames is as
in `m0`. -/
structure Loaded (c : Params) (s0 : AddrSpace) (m0 : Machine) (F : Nat → Option Int)
    (st : AddrSpace × Machine) : Prop where
  executable : st.1.executable = s0.executable
  noffH : st.1.noffH = s0.noffH
  entry : ∀ (p : Nat) (e : TranslationEntry), st.1.pageTable[p]? = some e →
    ∃ e0, s0.pageTable[p]? = some e0 ∧ e.core = e0.core ∧
      e.inFileAddr = (F p).getD e0.inFileAddr
  bytes : ∀ (p : Nat) (e : TranslationEntry) (a : Int), st.1.pageTable[p]? = some e →
    F p = some a → e.valid = true → ∀ x, 0 ≤ x → x < c.PageSize →
      st.2.mainMemory (e.physicalPage * c.PageSize + x) = s0.executable (a + x)
  rest : ∀ y,
    (∀ (p : Nat) (e : TranslationEntry), st.1.pageTable[p]? = some e → (F p).isSome = true →
      e.valid = true →
      ¬ (e.physicalPage * c.PageSize ≤ y ∧ y < e.physicalPage * c.PageSize + c.PageSize)) →
    st.2.mainMemory y = m0.mainMemory y

/-- The backing offset that `copy2Mem` records for page `p` of an image with
header `h`: pages below `divRoundUp(code.size, PageSize)` are pages of the code
segment, the next `divRoundUp(initData.size, PageSize)` pages are pages of the
initData segment, and page number `k` of a segment lies `k * PageSize` bytes
behind the segment's `inFileAddr`; the other pages are given none. -/
def backingOffset (c : Params) (h : NoffHeader) (p : Nat) : Option Int :=
  let codePages := divRoundUp h.code.size c.PageSize
  let initPages := divRoundUp h.initData.size c.PageSize
  if codePages ≤ (p : Int) ∧ (p : Int) < codePages + initPages then
    some (h.initData.inFileAddr + ((p : Int) - codePages) * c.PageSize)
  else if (p : Int) < codePages then some (h.code.inFileAddr + (p : Int) * c.PageSize)
  else none

/-- The backing offset that `copy2Mem` computes for page `p`, in the arithmetic
of the source: for a page of the initData segment the page number within the
segment is unsigned, so the sum is an unsigned value converted to `int`. -/
def recordedOffset (c : Params) (h : NoffHeader) (p : Nat) : Option Int :=
  let codePages := divRoundUp h.code.size c.PageSize
  let initPages := divRoundUp h.initData.size c.PageSize
  if codePages ≤ (p : Int) ∧ (p : Int) < codePages + initPages then
    some (toInt32 (u32 (h.initData.inFileAddr + u32 ((p : Int) - codePages) * c.PageSize)))
  else if (p : Int) < codePages then some (h.code.inFileAddr + (p : Int) * c.PageSize)
  else none

/-- The initData and uninitData segments, when not empty, start at or behind the
end of the segments before them, the code being taken to start at address 0. -/
def NoffHeader.InOrder (h : NoffHeader) : Prop :=
  (0 < h.initData.size → h.code.size ≤ h.initData.virtualAddr) ∧
  (0 < h.uninitData.size → h.code.size + h.initData.size ≤ h.uninitData.virtualAddr)

instance (h : NoffHeader) : Decidable h.InOrder := by
  unfold NoffHeader.InOrder; infer_instance

/-- The file offsets of the initData segment fit a C `int`. -/
def NoffHeader.FileFits (h : NoffHeader) : Prop :=
  0 ≤ h.initData.inFileAddr ∧ h.initData.inFileAddr + h.initData.size < 2147483648

instance (h : NoffHeader) : Decidable h.FileFits := by
  unfold NoffHeader.FileFits; infer_instance

/-- The four bytes of a 32-bit word, least significant first. -/
def wordBytes (w : Int) : List Int :=
  let x := u32 w
  [x % 256, x / 256 % 256, x / 65536 % 256, x / 16777216]

/-- The 32-bit word with the given four bytes, least significant first. -/
def wordOfBytes : List Int → Int
  | [b0, b1, b2, b3] => b0 + 256 * b1 + 65536 * b2 + 16777216 * b3
  | _ => 0

/-- The byte-swapped value of a 32-bit `int` field, in the words of the spec:
the `int` whose four bytes are those of `w` in the opposite order. -/
def byteSwapped (w : Int) : Int := toInt32 (wordOfBytes (wordBytes w).reverse)

/-- The page count in the words of the spec: "total virtual pages =
ceil((code+initData+uninitData size + fixed stack size) / pageSize)", the
division being exact division of rationals. -/
def specPageCount (c : Params) (h : NoffHeader) : Int :=
  ⌈((h.code.size + h.initData.size + h.uninitData.size + UserStackSize : Int) : ℚ)
    / (c.PageSize : ℚ)⌉

/-- The segment sizes are not negative and the total size fits a C `int`. -/
def NoffHeader.Plain (h : NoffHeader) : Prop :=
  0 ≤ h.code.size ∧ 0 ≤ h.initData.size ∧ 0 ≤ h.uninitData.size ∧
    h.code.size + h.initData.size + h.uninitData.size + UserStackSize < 2147483648

/-- The initData and uninitData segments, when not empty, start at the page
boundary at which `copy2Mem` places their first page. -/
def NoffHeader.PageAligned (c : Params) (h : NoffHeader) : Prop :=
  (0 < h.initData.size →
    h.initData.virtualAddr = divRoundUp h.code.size c.PageSize * c.PageSize) ∧
  (0 < h.uninitData.size →
    h.uninitData.virtualAddr =
      (divRoundUp h.code.size c.PageSize + divRoundUp h.initData.size c.PageSize) * c.PageSize)

/-- The layout under which pages keep the kind of their segment: the code starts
at address 0, the declared segments follow one another in the order code,
initData, uninitData without overlap and end below the stack region, and the
pages that `copy2Mem` gives the three segments end below the stack pages. -/
def AddrSpace.Separated (c : Params) (s : AddrSpace) : Prop :=
  let h := s.noffH
  let stackBase := ((s.numPages : Int) - c.StackPages) * c.PageSize
  h.code.virtualAddr = 0 ∧ h.code.size ≤ stackBase ∧
  (0 < h.initData.size →
    h.code.size ≤ h.initData.virtualAddr ∧ h.initData.virtualAddr + h.initData.size ≤ stackBase) ∧
  (0 < h.uninitData.size →
    h.code.size ≤ h.uninitData.virtualAddr ∧
    (0 < h.initData.size → h.initData.virtualAddr + h.initData.size ≤ h.uninitData.virtualAddr) ∧
    h.uninitData.virtualAddr + h.uninitData.size ≤ stackBase) ∧
  divRoundUp h.code.size c.PageSize + divRoundUp h.initData.size c.PageSize
    + divRoundUp h.uninitData.size c.PageSize ≤ (s.numPages : Int) - c.StackPages

instance (c : Params) (s : AddrSpace) : Decidable (s.Separated c) := by
  unfold AddrSpace.Separated; infer_instance

instance (c : Params) : Decidable c.WellFormed := by
  unfold Params.WellFormed; infer_instance

instance (h : NoffHeader) : Decidable h.Plain := by
  unfold NoffHeader.Plain; infer_instance

instance (c : Params) (h : NoffHeader) : Decidable (h.PageAligned c) := by
  unfold NoffHeader.PageAligned; infer_instance

/-! ## Sample inputs -/

/-- Image loads whose header, as the constructor reads it, has sizes that are
not negative and do not overflow, and for which the swap-region allocator is
empty when the constructor runs; FIFO page faults on non-resident pages; and
accesses of the emulator. -/
def plainLoads (c : Params) (k : Kernel) : Event → Prop
  | Event.create _ stored j =>
    (∀ h, parseHeader c stored = some h → h.Plain) ∧
      ∀ z, BitMap.Test j.virtualSpaceMap z = false
  | Event.fifo i a => ∃ s, k.spaces[i]? = some s ∧ s.nonResident (s.faultPage c a)
  | Event.secondChance _ _ _ => False
  | Event.access _ _ _ _ => True

/-- Exact ownership of the swap slots of an address space: a resident page
backed by the swap file has `inFileAddr = -1`; a page backed by the swap file
whose `inFileAddr` is not -1 records `slot * PageSize` for a claimed slot;
different such pages record different offsets; and every claimed slot is the one
recorded by a page backed by the swap file that is not resident. -/
structure AddrSpace.SwapExact (c : Params) (s : AddrSpace) : Prop where
  atHome : ∀ (p : Int) (e : TranslationEntry), getEntry s.pageTable p = some e →
    e.swapKind = true → e.valid = true → e.inFileAddr = -1
  recorded : ∀ (p : Int) (e : TranslationEntry), getEntry s.pageTable p = some e →
    e.swapKind = true → e.inFileAddr ≠ -1 →
    ∃ z : Int, 0 ≤ z ∧ e.inFileAddr = z * c.PageSize ∧ BitMap.Test s.virtualSpaceMap z = true
  apart : ∀ (p p' : Int) (e e' : TranslationEntry), getEntry s.pageTable p = some e →
    getEntry s.pageTable p' = some e' → e.swapKind = true → e'.swapKind = true →
    0 ≤ e.inFileAddr → e.inFileAddr = e'.inFileAddr → p = p'
  owned : ∀ z : Int, BitMap.Test s.virtualSpaceMap z = true →
    ∃ (p : Int) (e : TranslationEntry), getEntry s.pageTable p = some e ∧ e.swapKind = true ∧
      e.valid = false ∧ e.inFileAddr = z * c.PageSize

/-- Boolean test of `plainLoads`. -/
def plainLoadsB (c : Params) (k : Kernel) : Event → Bool
  | Event.create _ stored j =>
    (match parseHeader c stored with
     | some h => decide h.Plain
     | none => true) && j.virtualSpaceMap.all (fun b => !b)
  | Event.fifo i a =>
    match k.spaces[i]? with
    | some s => s.nonResidentB (s.faultPage c a)
    | none => false
  | Event.secondChance _ _ _ => false
  | Event.access _ _ _ _ => true

/-- A machine whose memory and registers are all zero. -/
def zeroMachine : Machine := { mainMemory := fun _ => 0, registers := fun _ => 0 }

/-- An executable file whose every byte is 1. -/
def onesFile : Bytes := fun _ => 1

/-- What a constructor may find: `virtualPages` holding -7 in every slot, no
page type outside the enumerators, a swap-region allocator of 16 free slots. -/
def sampleJunk : Indeterminate :=
  { virtualPages := fun _ => -7
    pageType := fun _ => none
    virtualSpaceMap := List.replicate 16 false
    createSucceeds := true
    virtualSpaceFile := fun _ => 0 }

/-- An image as the linker lays it out: 300 bytes of code at address 0, 100
bytes of initialized data right behind it at 300, 50 bytes of uninitialized data
at 400. -/
def packedHeader : NoffHeader :=
  { noffMagic := 0xbadfad
    code := { virtualAddr := 0, inFileAddr := 40, size := 300 }
    initData := { virtualAddr := 300, inFileAddr := 340, size := 100 }
    uninitData := { virtualAddr := 400, inFileAddr := 0, size := 50 } }

/-- An image whose segments start on page boundaries: 300 bytes of code at 0
(3 pages), 100 bytes of initialized data at 384, 50 bytes of uninitialized data
at 512. -/
def alignedHeader : NoffHeader :=
  { noffMagic := 0xbadfad
    code := { virtualAddr := 0, inFileAddr := 40, size := 300 }
    initData := { virtualAddr := 384, inFileAddr := 340, size := 100 }
    uninitData := { virtualAddr := 512, inFileAddr := 0, size := 50 } }

/-- An image whose segments fill whole pages, packed from address 0: 256 bytes
of code, 128 bytes of initialized data at 256, 128 bytes of uninitialized data at
384; with the stack its 12 pages are 2 + 1 + 1 + 8. -/
def wholePageHeader : NoffHeader :=
  { noffMagic := 0xbadfad
    code := { virtualAddr := 0, inFileAddr := 40, size := 256 }
    initData := { virtualAddr := 256, inFileAddr := 296, size := 128 }
    uninitData := { virtualAddr := 384, inFileAddr := 0, size := 128 } }

/-- The system booted on `zeroMachine` with the stock constants. -/
def bootedStock : Kernel := Kernel.boot stock zeroMachine

/-- An address space with a resident, dirty stack page: the whole-page image is
loaded on the stock machine, takes a FIFO fault at address 1500 (page 11, a
stack page, which receives frame 0) and the emulator stores byte 7 at offset 5
of page 11. -/
def dirtyStackPage : AddrSpace × Machine :=
  ((AddrSpace.construct stock onesFile wholePageHeader sampleJunk bootedStock).bind fun r =>
    (AddrSpace.FIFO stock 1500 r.1 r.2.machine).bind fun st =>
      AddrSpace.access stock 11 5 (some 7) st.1 st.2).get (by decide)

/-- The state after page 11 of `dirtyStackPage` is evicted for page 5. -/
def stackPageEvicted : AddrSpace × Machine :=
  (AddrSpace.Swap stock 11 5 dirtyStackPage.1 dirtyStackPage.2).get (by decide)

/-- The state after, meanwhile, page 1 is evicted for page 6. -/
def otherPageSwapped : AddrSpace × Machine :=
  (AddrSpace.Swap stock 1 6 stackPageEvicted.1 stackPageEvicted.2).get (by decide)

/-- The state after page 11 is reloaded, page 5 being evicted for it. -/
def stackPageReloaded : AddrSpace × Machine :=
  (AddrSpace.Swap stock 5 11 otherPageSwapped.1 otherPageSwapped.2).get (by decide)

/-- The whole-page image loaded on the freshly booted stock machine: the new
address space and the system after the load. -/
def loadedSpace : AddrSpace × Kernel :=
  (AddrSpace.construct stock onesFile wholePageHeader sampleJunk bootedStock).get (by decide)

/-- The state after the first FIFO fault of `loadedSpace`, at address 1500
(page 11). -/
def firstFault : AddrSpace × Machine :=
  (AddrSpace.FIFO stock 1500 loadedSpace.1 loadedSpace.2.machine).get (by decide)

/-- The state after the second FIFO fault, at address 1300 (page 10). -/
def secondFault : AddrSpace × Machine :=
  (AddrSpace.FIFO stock 1300 firstFault.1 firstFault.2).get (by decide)

/-- A run on the stock machine: the whole-page image is loaded; stack page 11
faults in (address 1500) and the emulator stores byte 7 at its offset 5; faults
on pages 10, 9, 8 and 7 follow, the last one evicting page 11, dirty, to the
swap file; page 11 faults again and is read back from the swap file; faults on
pages 6, 5 and 4 follow. -/
def staleRun : List Event :=
  [Event.create onesFile wholePageHeader sampleJunk,
   Event.fifo 0 1500, Event.access 0 11 5 (some 7),
   Event.fifo 0 1300, Event.fifo 0 1152, Event.fifo 0 1024, Event.fifo 0 896,
   Event.fifo 0 1500,
   Event.fifo 0 768, Event.fifo 0 640, Event.fifo 0 512]

/-- The state after `staleRun`: page 11 is resident and clean, and is next in
the queue. -/
def beforeCleanEviction : Kernel :=
  (runChecked stock (fifoOnNonResidentB stock) staleRun bootedStock).get (by decide!)

/-- The state after the next fault, on page 10 (address 1300), which evicts page
11. -/
def afterCleanEviction : Kernel :=
  (runChecked stock (fifoOnNonResidentB stock) [Event.fifo 0 1300] beforeCleanEviction).get
    (by decide!)

/-- The state after page 11 has then faulted again (address 1500). -/
def afterReload : Kernel :=
  (runChecked stock (fifoOnNonResidentB stock) [Event.fifo 0 1500] afterCleanEviction).get
    (by decide!)

/-- What a constructor may find, as `sampleJunk`, but with a `virtualSpaceMap`
in which slot 0 is claimed. -/
def staleJunk : Indeterminate :=
  { sampleJunk with virtualSpaceMap := true :: List.replicate 15 false }

/-- The system after the whole-page image has been loaded on the stock machine by
a constructor that finds `staleJunk`. -/
def staleLoaded : Kernel :=
  (runChecked stock (fifoOnNonResidentB stock)
    [Event.create onesFile wholePageHeader staleJunk] bootedStock).get (by decide)

/-- A run in which stack page 11 is written and, four faults later, evicted to
the swap file. -/
def dirtyEvictionRun : List Event :=
  [Event.create onesFile wholePageHeader sampleJunk,
   Event.fifo 0 1500, Event.access 0 11 5 (some 7),
   Event.fifo 0 1300, Event.fifo 0 1152, Event.fifo 0 1024, Event.fifo 0 896]

/-- The system after `dirtyEvictionRun` on the stock machine: page 11 is in slot
0 of the swap file. -/
def dirtyEvicted : Kernel :=
  (runChecked stock (plainLoadsB stock) dirtyEvictionRun bootedStock).get (by decide!)

/-- An image of 4096 bytes of code: with the stack, 40 pages of 128 bytes. -/
def bigHeader : NoffHeader :=
  { noffMagic := 0xbadfad
    code := { virtualAddr := 0, inFileAddr := 40, size := 4096 }
    initData := { virtualAddr := 4096, inFileAddr := 4136, size := 0 }
    uninitData := { virtualAddr := 4096, inFileAddr := 0, size := 0 } }

/-- An image whose uninitData segment is declared at address 0, over the code:
1280 bytes of code at 0 (10 pages), no initData, 128 bytes of uninitData at 0;
with the stack, 19 pages. -/
def overlapHeader : NoffHeader :=
  { noffMagic := 0xbadfad
    code := { virtualAddr := 0, inFileAddr := 40, size := 1280 }
    initData := { virtualAddr := 1280, inFileAddr := 1320, size := 0 }
    uninitData := { virtualAddr := 0, inFileAddr := 0, size := 128 } }

/-- The address space that the constructor builds from `overlapHeader` on the
stock machine, with the system after the load. -/
def overlapSpace : AddrSpace × Kernel :=
  (AddrSpace.construct stock onesFile overlapHeader sampleJunk bootedStock).get (by decide)

/-- An image whose declared sizes add up past `2^32`: code and initData of
`2^31 - 1` bytes each, no uninitData.  With the stack the unsigned total is
1022. -/
def wrappingHeader : NoffHeader :=
  { noffMagic := 0xbadfad
    code := { virtualAddr := 0, inFileAddr := 40, size := 2147483647 }
    initData := { virtualAddr := 0, inFileAddr := 40, size := 2147483647 }
    uninitData := { virtualAddr := 0, inFileAddr := 0, size := 0 } }

/-- The object and the frame allocator after `setUpTranslation()` in the
construction from `wrappingHeader` on the stock machine. -/
def wrappingSetup : AddrSpace × BitMap :=
  ((AddrSpace.construct.prepare stock onesFile wrappingHeader sampleJunk
      bootedStock.spaceIdMap).toOption.bind fun r =>
    AddrSpace.setUpTranslation stock sampleJunk r.1 bootedStock.bitmap).get (by decide)

/-- A machine with pages of 1024 bytes, so that the stack is one page. -/
def roomy : Params :=
  { PageSize := 1024, StackPages := 1, NumPhysPages := 32, NOFFMAGIC := 0xbadfad }

/-- An image whose three segments are empty; with the stack it has one page on
`roomy`. -/
def emptyHeader : NoffHeader :=
  { noffMagic := 0xbadfad
    code := { virtualAddr := 0, inFileAddr := 40, size := 0 }
    initData := { virtualAddr := 0, inFileAddr := 40, size := 0 }
    uninitData := { virtualAddr := 0, inFileAddr := 0, size := 0 } }

/-- The system `roomy` after the empty image is loaded once. -/
def oneSpace : Kernel :=
  (Kernel.exec roomy (Kernel.boot roomy zeroMachine)
    (Event.create onesFile emptyHeader sampleJunk)).get (by decide)

/-- After it is loaded a second time: two live address spaces, ids 0 and 1. -/
def twoSpaces : Kernel :=
  (Kernel.exec roomy oneSpace (Event.create onesFile emptyHeader sampleJunk)).get (by decide)

/-- After the first of the two address spaces (id 0) is destroyed. -/
def firstDestroyed : Kernel := (Kernel.destroy twoSpaces 0).get (by decide)

/-- After the image is loaded once more. -/
def idReused : Kernel :=
  (Kernel.exec roomy firstDestroyed (Event.create onesFile emptyHeader sampleJunk)).get
    (by decide)

/-- A machine with a single frame of 1024 bytes. -/
def snug : Params :=
  { PageSize := 1024, StackPages := 1, NumPhysPages := 1, NOFFMAGIC := 0xbadfad }

/-- The system `snug` after the empty image is loaded once; its only frame is
claimed. -/
def snugFull : Kernel :=
  (Kernel.exec snug (Kernel.boot snug zeroMachine)
    (Event.create onesFile emptyHeader sampleJunk)).get (by decide)

/-- Collaborators for a sample run: `Halt` is call 0 and `Exec` call 2, user
memory is read at the physical address of the same number, the only file that
can be opened is the one named by the single byte 116, and a yield returns at
once. -/
def sampleCollaborators : Collaborators :=
  { SC_Halt := 0
    SC_Exec := 2
    ReadMem := fun σ a => some (σ.kernel.machine.mainMemory a)
    Open := fun name =>
      if name = [116] then some { contents := onesFile, header := wholePageHeader } else none
    Yield := fun σ => some σ
    regs := stockRegs }

/-- The same collaborators with a file system in which every name opens the
whole-page image. -/
def openingCollaborators : Collaborators :=
  { sampleCollaborators with
    Open := fun _ => some (OpenedFile.mk onesFile wholePageHeader) }

/-- The system in which the address space of `loadedSpace` is live and its
thread makes the system call `Exec` (register 2 holds 2) with the name at
address 383 (register 4), where memory holds the bytes 1, 0. -/
def execCall : System :=
  { kernel :=
      { loadedSpace.2 with
        machine :=
          { loadedSpace.2.machine with
            registers := fun r => if r = 2 then 2 else if r = 4 then 383 else 0 }
        spaces := [loadedSpace.1] }
    space := some 0
    forked := 1 }

/-- An image is loaded and its address space takes a FIFO fault at address 300,
an address of page 2, which is resident. -/
def loadAndFaultOnResident : List Event :=
  [Event.create onesFile wholePageHeader sampleJunk, Event.fifo 0 300]

/-- Two images are loaded, then the first address space takes a FIFO fault at
address 1500 (a stack page that is not resident). -/
def twoLoadsOneFault : List Event :=
  [Event.create onesFile wholePageHeader sampleJunk,
   Event.create onesFile packedHeader sampleJunk,
   Event.fifo 0 1500]

/-! ## Arithmetic of the integer conversions -/

theorem u32_of_range {x : Int} (h0 : 0 ≤ x) (h1 : x < 4294967296) : u32 x = x := by
  unfold u32; omega

theorem toInt32_of_range {x : Int} (h0 : -2147483648 ≤ x) (h1 : x < 2147483648) :
    toInt32 x = x := by
  unfold toInt32; omega

theorem toInt32_u32_of_range {x : Int} (h0 : -2147483648 ≤ x) (h1 : x < 2147483648) :
    toInt32 (u32 x) = x := by
  unfold toInt32 u32; omega

theorem toInt32_range (x : Int) : -2147483648 ≤ toInt32 x ∧ toInt32 x < 2147483648 := by
  unfold toInt32; omega

theorem tdiv_mul_add_tmod (x p : Int) : Int.tdiv x p * p + Int.tmod x p = x := by
  have := Int.tdiv_add_tmod x p
  linarith [mul_comm p (Int.tdiv x p)]

theorem divRoundUp_nonneg {n p : Int} (hn : 0 ≤ n) (hp : 0 < p) : 0 ≤ divRoundUp n p := by
  unfold divRoundUp
  have := Int.ediv_nonneg hn hp.le
  split <;> omega

theorem le_divRoundUp_mul {n p : Int} (hp : 0 < p) : n ≤ divRoundUp n p * p := by
  unfold divRoundUp
  have h1 := Int.ediv_add_emod n p
  have h2 := Int.emod_nonneg n hp.ne'
  have h3 := Int.emod_lt_of_pos n hp
  split
  · nlinarith
  · nlinarith

theorem divRoundUp_mul_lt {n p : Int} (hp : 0 < p) : divRoundUp n p * p < n + p := by
  unfold divRoundUp
  have h1 := Int.ediv_add_emod n p
  have h2 := Int.emod_nonneg n hp.ne'
  have h3 := Int.emod_lt_of_pos n hp
  split
  · nlinarith
  · nlinarith

/-- A quotient-remainder pair of a non-negative address is a pair of unsigned
values. -/
theorem page_offset_range {x p q r : Int} (hp : 0 < p) (hq : 0 ≤ q) (hr : 0 ≤ r)
    (h : q * p + r = x) (hx : x < 2147483648) : q < 2147483648 := by
  nlinarith

/-! ## Loops and bit maps -/

theorem forLoop_succ_eq_some {σ : Type} {body : Nat → σ → Option σ} {n : Nat} {s0 s' : σ}
    (h : forLoop body (n + 1) s0 = some s') :
    ∃ s1, forLoop body n s0 = some s1 ∧ body n s1 = some s' := by
  simpa [forLoop, Option.bind_eq_some] using h

/-- Invariant rule for `forLoop`: a property that holds before the loop and is
carried from iteration `k` to iteration `k + 1` holds after `n` iterations. -/
theorem forLoop_inv {σ : Type} {body : Nat → σ → Option σ} (I : Nat → σ → Prop) {s0 : σ}
    (h0 : I 0 s0) :
    ∀ (n : Nat) (s' : σ), forLoop body n s0 = some s' →
      (∀ k s t, k < n → I k s → body k s = some t → I (k + 1) t) → I n s' := by
  intro n
  induction n with
  | zero =>
    intro s' h _
    simp [forLoop] at h
    subst h
    exact h0
  | succ n ih =>
    intro s' h hstep
    obtain ⟨s1, h1, h2⟩ := forLoop_succ_eq_some h
    exact hstep n s1 s' (Nat.lt_succ_self n)
      (ih s1 h1 fun k s t hk => hstep k s t (Nat.lt_succ_of_lt hk)) h2

theorem firstClear_spec : ∀ (b : BitMap) (i : Nat), BitMap.firstClear b = some i →
    b[i]? = some false ∧ ∀ j, j < i → b[j]? = some true := by
  intro b
  induction b with
  | nil => intro i h; simp [BitMap.firstClear] at h
  | cons x rest ih =>
    intro i h
    unfold BitMap.firstClear at h
    by_cases hx : x = false
    · simp [hx] at h
      subst h
      simp [hx]
    · simp [hx] at h
      obtain ⟨a, ha, rfl⟩ := h
      obtain ⟨h1, h2⟩ := ih a ha
      refine ⟨by simpa using h1, ?_⟩
      intro j hj
      cases j with
      | zero => simpa using hx
      | succ j => simpa using h2 j (by omega)

theorem Test_natCast (b : BitMap) (i : Nat) : BitMap.Test b (i : Int) = b.getD i false := by
  simp [BitMap.Test]

theorem Test_true_iff (b : BitMap) (f : Int) :
    BitMap.Test b f = true ↔ 0 ≤ f ∧ b[f.toNat]? = some true := by
  unfold BitMap.Test
  by_cases h : 0 ≤ f
  · simp only [h, if_true, true_and, List.getD_eq_getElem?_getD]
    cases hb : b[f.toNat]? with
    | none => simp
    | some v => simp
  · simp [h]

/-- `Find` returns an index that was free, marks it claimed and leaves every
other index as it was. -/
theorem Find_spec {b b' : BitMap} {f : Int} (h : BitMap.Find b = some (f, b')) :
    BitMap.Test b f = false ∧ 0 ≤ f ∧ f.toNat < b.length ∧ b'.length = b.length ∧
      ∀ g, BitMap.Test b' g = if g = f then true else BitMap.Test b g := by
  unfold BitMap.Find at h
  cases hi : BitMap.firstClear b with
  | none => simp [hi] at h
  | some i =>
    simp only [hi, Option.some.injEq, Prod.mk.injEq] at h
    obtain ⟨rfl, rfl⟩ := h
    obtain ⟨h1, _⟩ := firstClear_spec b i hi
    have hlt : i < b.length := by
      by_contra hc
      rw [List.getElem?_eq_none (by omega)] at h1
      exact absurd h1 (by simp)
    refine ⟨?_, by omega, by simpa using hlt, by simp, ?_⟩
    · rw [Test_natCast]; simp [List.getD_eq_getElem?_getD, h1]
    · intro g
      unfold BitMap.Test
      by_cases hg : 0 ≤ g
      · by_cases hgi : g = (i : Int)
        · subst hgi
          simp [List.getD_eq_getElem?_getD, List.getElem?_set, hlt]
        · have : i ≠ g.toNat := by omega
          simp [hg, hgi, List.getD_eq_getElem?_getD, List.getElem?_set, this]
      · have : g ≠ (i : Int) := by omega
        simp [hg, this]

/-! ## The loop of `setUpTranslation` -/

theorem getElem?_append_singleton {α : Type} (l : List α) (x : α) (p : Nat) (e : α)
    (h : (l ++ [x])[p]? = some e) : (p < l.length ∧ l[p]? = some e) ∨ (p = l.length ∧ e = x) := by
  rw [List.getElem?_append] at h
  by_cases hp : p < l.length
  · left; simpa [hp] using h
  · right
    simp only [hp, if_false] at h
    have : p - l.length = 0 := by
      by_contra hc
      rw [List.getElem?_eq_none (by simp; omega)] at h
      exact absurd h (by simp)
    rw [this] at h
    simp at h
    exact ⟨by omega, h.symm⟩

theorem getElem?_append_at {α : Type} (l : List α) (x : α) {k : Nat} (h : l.length = k) :
    (l ++ [x])[k]? = some x := by
  subst h; simp

theorem setUp_start (c : Params) (j : Indeterminate) (s0 : AddrSpace) (b0 : BitMap) :
    SetupInv c j s0 b0 0 ({ s0 with firstInPage := 0, pageTable := [] }, b0) := by
  constructor <;> simp [AvailablePages]

theorem setUp_step (c : Params) (j : Indeterminate) (s0 : AddrSpace) (b0 : BitMap) (k : Nat)
    (st t : AddrSpace × BitMap) (hI : SetupInv c j s0 b0 k st)
    (hb : AddrSpace.setUpTranslation.body c j k st = some t) : SetupInv c j s0 b0 (k + 1) t := by
  unfold AddrSpace.setUpTranslation.body at hb
  by_cases hk : k < AvailablePages
  · simp only [hk, if_true] at hb
    cases hF : BitMap.Find st.2 with
    | none => simp [hF] at hb
    | some r =>
      obtain ⟨frame, bm⟩ := r
      simp only [hF, Option.some.injEq] at hb
      subst hb
      obtain ⟨hf0, hf1, hf2, hf3, hf4⟩ := Find_spec hF
      have hk4 : k < 4 := hk
      constructor
      · exact hI.noffH
      · exact hI.numPages
      · exact hI.executable
      · exact hI.virtualSpaceFile
      · exact hI.virtualSpaceMap
      · exact hI.spaceId
      · simp [hI.length]
      · simp only [hI.first, AvailablePages]; omega
      · intro slot
        have h1 := hI.slots slot
        have hfi : st.1.firstInPage = k := by
          rw [hI.first]; simp only [AvailablePages]; omega
        simp only [hfi, Function.update_apply]
        simp only [AvailablePages] at h1 ⊢
        by_cases hs : slot = k
        · subst hs; simp [hk4]
        · simp only [hs, if_false, h1]
          by_cases hs2 : slot < k
          · have : slot < min k 4 := by omega
            have : slot < min (k + 1) 4 := by omega
            simp [*]
          · have : ¬ slot < min k 4 := by omega
            have : ¬ slot < min (k + 1) 4 := by omega
            simp [*]
      · intro p e he
        rcases getElem?_append_singleton _ _ _ _ he with ⟨_, h⟩ | ⟨hp, rfl⟩
        · exact hI.entry p e h
        · rw [hI.length] at hp
          subst hp
          simp [hk, initialType, hI.numPages]
      · intro p e he hp
        rcases getElem?_append_singleton _ _ _ _ he with ⟨_, h⟩ | ⟨hp', rfl⟩
        · exact hI.absent p e h hp
        · rw [hI.length] at hp'
          subst hp'
          exact absurd hk hp
      · intro p e he hp
        rcases getElem?_append_singleton _ _ _ _ he with ⟨_, h⟩ | ⟨_, rfl⟩
        · obtain ⟨h1, h2⟩ := hI.frame p e h hp
          refine ⟨?_, h2⟩
          rw [hf4]; split <;> simp [h1]
        · refine ⟨by simp [hf4], ?_⟩
          by_contra hc
          have := hI.kept frame (by simpa using hc)
          simp [hf0] at this
      · intro p q e e' he he' hp hq hpq
        rcases getElem?_append_singleton _ _ _ _ he with ⟨h1, h⟩ | ⟨h1, rfl⟩ <;>
          rcases getElem?_append_singleton _ _ _ _ he' with ⟨h2, h'⟩ | ⟨h2, rfl⟩
        · exact hI.distinct p q e e' h h' hp hq hpq
        · have := (hI.frame p e h hp).1
          simp only at hpq
          rw [hpq, hf0] at this
          exact absurd this (by simp)
        · have := (hI.frame q e' h' hq).1
          simp only at hpq
          rw [← hpq, hf0] at this
          exact absurd this (by simp)
        · omega
      · intro f hf
        rw [hf4]; split
        · rfl
        · exact hI.kept f hf
      · intro f hf
        rw [hf4] at hf
        by_cases hfe : f = frame
        · right
          refine ⟨k, _, getElem?_append_at _ _ hI.length, hk, ?_⟩
          exact hfe.symm
        · simp only [hfe, if_false] at hf
          rcases hI.claimed f hf with h | ⟨p, e, h1, h2, h3⟩
          · exact Or.inl h
          · right
            refine ⟨p, e, ?_, h2, h3⟩
            rw [List.getElem?_append_left]
            · exact h1
            · by_contra hc
              rw [List.getElem?_eq_none (by omega)] at h1
              exact absurd h1 (by simp)
      · simp [hf3, hI.size]
  · simp only [hk, if_false, Option.some.injEq] at hb
    subst hb
    have hk4 : ¬ k < 4 := hk
    constructor
    · exact hI.noffH
    · exact hI.numPages
    · exact hI.executable
    · exact hI.virtualSpaceFile
    · exact hI.virtualSpaceMap
    · exact hI.spaceId
    · simp [hI.length]
    · simp only [hI.first, AvailablePages]; omega
    · intro slot
      have h1 := hI.slots slot
      simp only [AvailablePages] at h1 ⊢
      have : (slot < min (k + 1) 4) ↔ (slot < min k 4) := by omega
      simp only [this]; exact h1
    · intro p e he
      rcases getElem?_append_singleton _ _ _ _ he with ⟨_, h⟩ | ⟨hp, rfl⟩
      · exact hI.entry p e h
      · rw [hI.length] at hp
        subst hp
        simp [hk, initialType, hI.numPages]
    · intro p e he hp
      rcases getElem?_append_singleton _ _ _ _ he with ⟨_, h⟩ | ⟨_, rfl⟩
      · exact hI.absent p e h hp
      · rfl
    · intro p e he hp
      rcases getElem?_append_singleton _ _ _ _ he with ⟨_, h⟩ | ⟨hp', rfl⟩
      · exact hI.frame p e h hp
      · rw [hI.length] at hp'
        subst hp'
        exact absurd hp hk
    · intro p q e e' he he' hp hq hpq
      rcases getElem?_append_singleton _ _ _ _ he with ⟨h1, h⟩ | ⟨h1, rfl⟩ <;>
        rcases getElem?_append_singleton _ _ _ _ he' with ⟨h2, h'⟩ | ⟨h2, rfl⟩
      · exact hI.distinct p q e e' h h' hp hq hpq
      · rw [hI.length] at h2; subst h2; exact absurd hq hk
      · rw [hI.length] at h1; subst h1; exact absurd hp hk
      · omega
    · exact hI.kept
    · intro f hf
      rcases hI.claimed f hf with h | ⟨p, e, h1, h2, h3⟩
      · exact Or.inl h
      · right
        refine ⟨p, e, ?_, h2, h3⟩
        rw [List.getElem?_append_left]
        · exact h1
        · by_contra hc
          rw [List.getElem?_eq_none (by omega)] at h1
          exact absurd h1 (by simp)
    · exact hI.size

/-- The state in which `setUpTranslation` leaves the object and the frame
allocator. -/
theorem setUpTranslation_spec {c : Params} {j : Indeterminate} {s s1 : AddrSpace}
    {b b1 : BitMap} (h : AddrSpace.setUpTranslation c j s b = some (s1, b1)) :
    SetupInv c j s b s.numPages (s1, b1) := by
  unfold AddrSpace.setUpTranslation at h
  exact forLoop_inv (fun n st => SetupInv c j s b n st)
    (setUp_start c j s b) s.numPages (s1, b1) h
    (fun k st t _ hI hb => setUp_step c j s b k st t hI hb)

/-! ## `copy2Mem` and the constructor -/

theorem set_eq_of_getElem? {α : Type} {l : List α} {i : Nat} {x : α} (h : l[i]? = some x) :
    l.set i x = l := by
  apply List.ext_getElem?
  intro n
  rw [List.getElem?_set]
  by_cases hn : i = n
  · subst hn
    have hlt : i < l.length := by
      by_contra hc
      rw [List.getElem?_eq_none (by omega)] at h
      exact absurd h (by simp)
    simp [hlt, h]
  · simp [hn]

theorem map_set_of_eq {α β : Type} (f : α → β) {l : List α} {i : Nat} {x y : α}
    (h : l[i]? = some x) (hf : f y = f x) : (l.set i y).map f = l.map f := by
  rw [List.map_set, hf]
  exact set_eq_of_getElem? (by simp [List.getElem?_map, h])

theorem getEntry_eq_some {pt : List TranslationEntry} {i : Int} {e : TranslationEntry}
    (h : getEntry pt i = some e) : 0 ≤ i ∧ pt[i.toNat]? = some e := by
  unfold getEntry at h
  by_cases hi : 0 ≤ i
  · exact ⟨hi, by simpa [hi] using h⟩
  · simp [hi] at h

theorem getEntry_natCast (pt : List TranslationEntry) (p : Nat) :
    getEntry pt (p : Int) = pt[p]? := by
  simp [getEntry]

theorem SameButBacking.refl (s : AddrSpace) : SameButBacking s s := by
  constructor <;> rfl

theorem SameButBacking.trans {s t u : AddrSpace} (h1 : SameButBacking s t)
    (h2 : SameButBacking t u) : SameButBacking s u := by
  constructor
  · rw [h2.noffH, h1.noffH]
  · rw [h2.numPages, h1.numPages]
  · rw [h2.executable, h1.executable]
  · rw [h2.virtualSpaceFile, h1.virtualSpaceFile]
  · rw [h2.virtualSpaceMap, h1.virtualSpaceMap]
  · rw [h2.spaceId, h1.spaceId]
  · rw [h2.firstInPage, h1.firstInPage]
  · rw [h2.virtualPages, h1.virtualPages]
  · rw [h2.core, h1.core]

/-- Replacing an entry by one with the same residency fields. -/
theorem SameButBacking.set {s : AddrSpace} {i : Int} {e e1 : TranslationEntry}
    (h : getEntry s.pageTable i = some e) (hc : e1.core = e.core) :
    SameButBacking s { s with pageTable := s.pageTable.set i.toNat e1 } := by
  constructor <;> try rfl
  exact map_set_of_eq TranslationEntry.core (getEntry_eq_some h).2 hc

theorem codeBody_same {c : Params} {k : Nat} {st t : AddrSpace × Machine}
    (h : AddrSpace.copy2Mem.codeBody c k st = some t) : SameButBacking st.1 t.1 := by
  unfold AddrSpace.copy2Mem.codeBody at h
  cases he : getEntry st.1.pageTable (k : Int) with
  | none => simp [he] at h
  | some e =>
    simp only [he, Option.some.injEq] at h
    subst h
    exact SameButBacking.set he rfl

theorem initDataBody_same {c : Params} {start : Int} {k : Nat} {st t : AddrSpace × Machine}
    (h : AddrSpace.copy2Mem.initDataBody c start k st = some t) : SameButBacking st.1 t.1 := by
  unfold AddrSpace.copy2Mem.initDataBody at h
  cases he : getEntry st.1.pageTable (toInt32 start + (k : Int)) with
  | none => simp [he] at h
  | some e =>
    simp only [he, Option.some.injEq] at h
    subst h
    exact SameButBacking.set he rfl

theorem uninitDataBody_same {start : Int} {k : Nat} {st t : AddrSpace × Machine}
    (h : AddrSpace.copy2Mem.uninitDataBody start k st = some t) : SameButBacking st.1 t.1 := by
  unfold AddrSpace.copy2Mem.uninitDataBody at h
  cases he : getEntry st.1.pageTable (toInt32 start + (k : Int)) with
  | none => simp [he] at h
  | some e =>
    simp only [he, Option.some.injEq] at h
    subst h
    exact SameButBacking.set he rfl

theorem forLoop_same {body : Nat → AddrSpace × Machine → Option (AddrSpace × Machine)}
    (hbody : ∀ k st t, body k st = some t → SameButBacking st.1 t.1)
    {n : Nat} {st t : AddrSpace × Machine} (h : forLoop body n st = some t) :
    SameButBacking st.1 t.1 :=
  forLoop_inv (fun _ u => SameButBacking st.1 u.1) (SameButBacking.refl st.1) n t h
    (fun k u v _ hI hb => hI.trans (hbody k u v hb))

/-- `copy2Mem` assigns only `inFileAddr` and `type` fields (and memory). -/
theorem copy2Mem_same {c : Params} {s s' : AddrSpace} {m m' : Machine}
    (h : AddrSpace.copy2Mem c s m = some (s', m')) : SameButBacking s s' := by
  unfold AddrSpace.copy2Mem at h
  simp only [Option.bind_eq_some] at h
  obtain ⟨st2, ⟨st1, h1, h2⟩, h3⟩ := h
  have e1 : SameButBacking s st1.1 := by
    by_cases hc : s.noffH.code.size > 0
    · simp only [hc, if_true] at h1
      exact forLoop_same (fun k st t => codeBody_same) h1
    · simp only [hc, if_false, Option.some.injEq] at h1
      subst h1; exact SameButBacking.refl s
  have e2 : SameButBacking st1.1 st2.1 := by
    by_cases hc : s.noffH.initData.size > 0
    · simp only [hc, if_true] at h2
      exact forLoop_same (fun k st t => initDataBody_same) h2
    · simp only [hc, if_false, Option.some.injEq] at h2
      subst h2; exact SameButBacking.refl _
  have e3 : SameButBacking st2.1 s' := by
    by_cases hc : s.noffH.uninitData.size > 0
    · simp only [hc, if_true] at h3
      exact forLoop_same (fun k st t => uninitDataBody_same) h3
    · simp only [hc, if_false, Option.some.injEq] at h3
      subst h3; exact SameButBacking.refl _
  exact (e1.trans e2).trans e3

theorem core_of_map_eq {pt pt' : List TranslationEntry}
    (h : pt'.map TranslationEntry.core = pt.map TranslationEntry.core) {p : Nat}
    {e' : TranslationEntry} (he : pt'[p]? = some e') :
    ∃ e, pt[p]? = some e ∧ e.core = e'.core := by
  have h1 : (pt'.map TranslationEntry.core)[p]? = some e'.core := by
    simp [List.getElem?_map, he]
  rw [h, List.getElem?_map] at h1
  cases hp : pt[p]? with
  | none => simp [hp] at h1
  | some e => exact ⟨e, rfl, by simpa [hp] using h1⟩

theorem core_eq_iff {e e' : TranslationEntry} : e.core = e'.core ↔
    e.virtualPage = e'.virtualPage ∧ e.physicalPage = e'.physicalPage ∧ e.valid = e'.valid ∧
      e.readOnly = e'.readOnly ∧ e.use = e'.use ∧ e.dirty = e'.dirty := by
  simp [TranslationEntry.core]

/-- The object and the system that the constructor produces. -/
theorem construct_spec {c : Params} {executable : Bytes} {stored : NoffHeader}
    {j : Indeterminate} {k k' : Kernel} {s : AddrSpace}
    (h : AddrSpace.construct c executable stored j k = some (s, k')) :
    Built c stored j k s k' := by
  unfold AddrSpace.construct at h
  simp only [Option.bind_eq_some] at h
  obtain ⟨spaceId, hid, hdr, hhdr, h⟩ := h
  by_cases hok : j.createSucceeds = true ∧ pageCount c hdr ≤ c.NumPhysPages
  · simp only [hok, and_self, if_true, Option.bind_eq_some] at h
    obtain ⟨⟨s1, b1⟩, hset, ⟨s2, m2⟩, hcopy, h⟩ := h
    simp only [Option.some.injEq, Prod.mk.injEq] at h
    obtain ⟨rfl, rfl⟩ := h
    have hI := setUpTranslation_spec hset
    have hS := copy2Mem_same hcopy
    have hlen : s2.pageTable.length = s1.pageTable.length := by
      have := congrArg List.length hS.core
      simpa using this
    have back : ∀ {p : Nat} {e : TranslationEntry}, s2.pageTable[p]? = some e →
        ∃ e1, s1.pageTable[p]? = some e1 ∧ e1.core = e.core := fun he => core_of_map_eq hS.core he
    constructor
    · rw [hS.noffH, hI.noffH]; exact hhdr
    · rw [hS.noffH, hS.numPages, hI.noffH, hI.numPages]
    · rw [hS.numPages, hI.numPages]; exact hok.2
    · rw [hlen, hI.length, hS.numPages, hI.numPages]
    · rw [hS.firstInPage, hI.first, hS.numPages, hI.numPages]
    · intro slot
      rw [hS.virtualPages, hI.slots slot, hS.numPages, hI.numPages]
    · intro p e he
      obtain ⟨e1, h1, hc⟩ := back he
      have := hI.entry p e1 h1
      rw [core_eq_iff] at hc
      obtain ⟨c1, c2, c3, c4, c5, c6⟩ := hc
      rw [← c1, ← c3, ← c4, ← c5, ← c6, this]
      simp
    · intro p e he hp
      obtain ⟨e1, h1, hc⟩ := back he
      rw [core_eq_iff] at hc
      rw [← hc.2.1]; exact hI.absent p e1 h1 hp
    · intro p e he hp
      obtain ⟨e1, h1, hc⟩ := back he
      rw [core_eq_iff] at hc
      rw [← hc.2.1]; exact hI.frame p e1 h1 hp
    · intro p q e e' he he' hp hq hpq
      obtain ⟨e1, h1, hc⟩ := back he
      obtain ⟨e2, h2, hc'⟩ := back he'
      rw [core_eq_iff] at hc hc'
      exact hI.distinct p q e1 e2 h1 h2 hp hq (by rw [hc.2.1, hc'.2.1]; exact hpq)
    · exact hI.kept
    · intro f hf
      rcases hI.claimed f hf with h | ⟨p, e1, h1, h2, h3⟩
      · exact Or.inl h
      · right
        have h1 : s1.pageTable[p]? = some e1 := h1
        have : p < s2.pageTable.length := by
          rw [hlen]
          by_contra hc
          rw [List.getElem?_eq_none (by omega)] at h1
          exact absurd h1 (by simp)
        refine ⟨p, s2.pageTable[p], by simp [this], h2, ?_⟩
        obtain ⟨e1', h1', hc⟩ := back (show s2.pageTable[p]? = some s2.pageTable[p] by simp [this])
        rw [h1] at h1'
        simp only [Option.some.injEq] at h1'
        subst h1'
        rw [core_eq_iff] at hc
        rw [← hc.2.1]; exact h3
    · rfl
    · rw [hS.virtualSpaceMap, hI.virtualSpaceMap]
    · rw [hS.virtualSpaceFile, hI.virtualSpaceFile]
    · rw [hS.spaceId, hI.spaceId]; exact hid
    · show Function.update k.spaceIdMap spaceId true = Function.update k.spaceIdMap s2.spaceId true
      rw [hS.spaceId, hI.spaceId]
  · simp [hok] at h

/-! ## Address translation -/

theorem pageSize_le {c : Params} (hc : c.WellFormed) : c.PageSize ≤ 1024 := by
  obtain ⟨hP, hS, _⟩ := hc
  unfold UserStackSize at hS
  by_contra hcon
  have h1 : 1 ≤ c.StackPages := by
    by_contra h
    have : c.StackPages * c.PageSize ≤ 0 := by nlinarith
    omega
  nlinarith

/-- The page count of a plain header, as an integer. -/
theorem pageCount_plain {c : Params} {h : NoffHeader} (hP : 0 < c.PageSize) (hp : h.Plain) :
    (pageCount c h : Int) =
      divRoundUp (h.code.size + h.initData.size + h.uninitData.size + UserStackSize) c.PageSize := by
  obtain ⟨h1, h2, h3, h4⟩ := hp
  unfold pageCount
  have hs : 0 ≤ h.code.size + h.initData.size + h.uninitData.size + UserStackSize := by
    unfold UserStackSize; omega
  rw [u32_of_range hs (by omega)]
  exact Int.toNat_of_nonneg (divRoundUp_nonneg hs hP)

/-- Quotient and remainder of C agree with `/` and `%` on a non-negative
dividend, and rebuild it. -/
theorem tdiv_tmod_nonneg {d p : Int} (hd : 0 ≤ d) (hp : 0 < p) :
    0 ≤ Int.tdiv d p ∧ 0 ≤ Int.tmod d p ∧ Int.tmod d p < p ∧
      Int.tdiv d p * p + Int.tmod d p = d := by
  rw [Int.tdiv_eq_ediv hd hp.le, Int.tmod_eq_emod hd hp.le]
  refine ⟨Int.ediv_nonneg hd hp.le, Int.emod_nonneg d hp.ne', Int.emod_lt_of_pos d hp, ?_⟩
  have := Int.ediv_add_emod d p
  linarith [mul_comm p (d / p)]

/-- The facts about sizes that translation relies on, for an object built from a
plain header. -/
theorem built_sizes {c : Params} {stored : NoffHeader} {j : Indeterminate} {k k' : Kernel}
    {s : AddrSpace} (hc : c.WellFormed) (hb : Built c stored j k s k') (hp : s.noffH.Plain) :
    UserStackSize ≤ (s.numPages : Int) * c.PageSize ∧
      (s.numPages : Int) * c.PageSize < 2147483648 ∧
      c.StackPages ≤ (s.numPages : Int) ∧ (s.numPages : Int) < 2147483648 ∧
      0 ≤ c.StackPages := by
  obtain ⟨hP, hS, hN⟩ := hc
  have hn := pageCount_plain hP hp
  rw [← hb.numPages] at hn
  have h1 := le_divRoundUp_mul (n := s.noffH.code.size + s.noffH.initData.size
    + s.noffH.uninitData.size + UserStackSize) hP
  rw [← hn] at h1
  obtain ⟨p1, p2, p3, _⟩ := hp
  have h2 : UserStackSize ≤ (s.numPages : Int) * c.PageSize := by omega
  have h3 : (s.numPages : Int) ≤ c.NumPhysPages := by exact_mod_cast hb.fits
  have h4 : (s.numPages : Int) * c.PageSize ≤ (c.NumPhysPages : Int) * c.PageSize :=
    mul_le_mul_of_nonneg_right h3 hP.le
  have h5 : c.StackPages ≤ (s.numPages : Int) := by
    rw [hS] at h2
    exact le_of_mul_le_mul_right h2 hP
  have h6 : (0 : Int) ≤ s.numPages := Int.ofNat_nonneg _
  have h7 : (s.numPages : Int) ≤ (s.numPages : Int) * c.PageSize := by nlinarith
  have h8 : 0 ≤ c.StackPages := by
    by_contra h
    have : c.StackPages * c.PageSize < 0 := by nlinarith
    unfold UserStackSize at hS; omega
  exact ⟨h2, by omega, h5, by omega, h8⟩

/-- Translation of a non-negative address of an object built from a plain,
page-aligned header: the page and the offset rebuild the address, and both are
values of an unsigned int. -/
theorem Translate_rebuilds {c : Params} {stored : NoffHeader} {j : Indeterminate}
    {k k' : Kernel} {s : AddrSpace} (hc : c.WellFormed) (hb : Built c stored j k s k')
    (hplain : s.noffH.Plain) (halign : s.noffH.PageAligned c) {a : Int} (ha : 0 ≤ a)
    (ha' : a < 2147483648) :
    (s.Translate c a).1 * c.PageSize + (s.Translate c a).2 = a := by
  obtain ⟨z1, z2, z3, z4, z5⟩ := built_sizes hc hb hplain
  have hP := hc.1
  have hS := hc.2.1
  have hP' := pageSize_le hc
  have hU : UserStackSize = 1024 := rfl
  obtain ⟨p1, p2, p3, _⟩ := hplain
  have hcC := divRoundUp_nonneg p1 hP
  have hcI := divRoundUp_nonneg p2 hP
  -- every branch computes `base + d / P` and `d % P` for a non-negative `d`
  have key : ∀ base d : Int, 0 ≤ base → 0 ≤ d → base * c.PageSize + d = a →
      u32 (base + Int.tdiv d c.PageSize) * c.PageSize + u32 (Int.tmod d c.PageSize) = a := by
    intro base d hbase hd hsum
    obtain ⟨q0, r0, r1, qr⟩ := tdiv_tmod_nonneg hd hP
    have e1 : (base + Int.tdiv d c.PageSize) * c.PageSize + Int.tmod d c.PageSize = a := by
      have : (base + Int.tdiv d c.PageSize) * c.PageSize
          = base * c.PageSize + Int.tdiv d c.PageSize * c.PageSize := by ring
      omega
    have e2 := page_offset_range hP (by omega) r0 e1 ha'
    rw [u32_of_range (by omega) (by omega), u32_of_range r0 (by omega)]
    exact e1
  unfold AddrSpace.Translate
  split
  · rename_i hstack
    rw [u32_of_range ha (by omega), u32_of_range (by omega) (by omega)] at hstack
    have hu : toInt32 (u32 ((s.numPages : Int) - c.StackPages)) = (s.numPages : Int) - c.StackPages :=
      toInt32_u32_of_range (by omega) (by omega)
    simp only [hu]
    have e : ((s.numPages : Int) - c.StackPages) * c.PageSize
        = (s.numPages : Int) * c.PageSize - c.StackPages * c.PageSize := by ring
    exact key _ _ (by omega) (by omega) (by omega)
  · split
    · rename_i hcond
      have hal := halign.2 hcond.1
      have := key (divRoundUp s.noffH.code.size c.PageSize
        + divRoundUp s.noffH.initData.size c.PageSize)
        (a - s.noffH.uninitData.virtualAddr) (by omega) (by omega) (by omega)
      simpa using this
    · split
      · rename_i hcond
        have hal := halign.1 hcond.1
        have := key (divRoundUp s.noffH.code.size c.PageSize)
          (a - s.noffH.initData.virtualAddr) (by omega) (by omega) (by omega)
        simpa using this
      · have := key 0 a (by omega) ha (by omega)
        simpa using this

/-! ## C1: translation rebuilds the address -/

/-- The header of a built object, when the stored header has the magic number. -/
theorem built_header_eq {c : Params} {stored : NoffHeader} {j : Indeterminate} {k k' : Kernel}
    {s : AddrSpace} (hb : Built c stored j k s k') (hm : stored.noffMagic = c.NOFFMAGIC) :
    s.noffH = stored := by
  have h := hb.header
  unfold parseHeader at h
  simp [hm] at h
  exact h.symm

/-- C1 (amended). For every header that the constructor accepts, whose segment
sizes are not negative and whose initData and uninitData segments (when not
empty) start on the page boundary at which `copy2Mem` places their first page,
and for every non-negative virtual address `a` of type `int` (so for every
address inside a declared segment: code, initData, uninitData or the stack
region), `Translate(a)` returns `(vpn, offset)` with
`vpn * PageSize + offset = a`. -/
theorem translate_rebuilds_address (c : Params) (executable : Bytes) (stored : NoffHeader)
    (j : Indeterminate) (k k' : Kernel) (s : AddrSpace) (a : Int)
    (hc : c.WellFormed)
    (hcons : AddrSpace.construct c executable stored j k = some (s, k'))
    (hplain : s.noffH.Plain) (halign : s.noffH.PageAligned c)
    (ha : 0 ≤ a) (ha' : a < 2147483648) :
    (s.Translate c a).1 * c.PageSize + (s.Translate c a).2 = a :=
  Translate_rebuilds hc (construct_spec hcons) hplain halign ha ha'

/-- C1, witness: the page-aligned sample image on the stock machine, at address
400 of its initData segment. -/
theorem translate_rebuilds_address_witness :
    ∃ s k', AddrSpace.construct stock onesFile alignedHeader sampleJunk bootedStock = some (s, k') ∧
      s.segmentOf stock 400 = some PageType.initData ∧
      (s.Translate stock 400).1 * stock.PageSize + (s.Translate stock 400).2 = 400 := by
  have hsome :
      (AddrSpace.construct stock onesFile alignedHeader sampleJunk bootedStock).isSome = true := by
    decide
  obtain ⟨⟨s, k'⟩, hs⟩ := Option.isSome_iff_exists.mp hsome
  have hb := construct_spec hs
  have hH : s.noffH = alignedHeader := built_header_eq hb (by decide)
  have hN : s.numPages = 12 := by rw [hb.numPages, hH]; decide
  refine ⟨s, k', hs, ?_, ?_⟩
  · unfold AddrSpace.segmentOf
    rw [hH, hN]; decide
  · exact translate_rebuilds_address stock onesFile alignedHeader sampleJunk bootedStock k' s 400
      (by decide) hs (by rw [hH]; decide) (by rw [hH]; decide) (by decide) (by decide)

/-- C1, counterexample: the packed sample image (initData right behind 300 bytes
of code) is accepted by the constructor on the stock machine; address 300, the
first byte of its initData segment, is translated to page 3, offset 0, and
`3 * 128 + 0 = 384`, not 300. -/
theorem translate_misses_packed_address :
    ∃ s k', AddrSpace.construct stock onesFile packedHeader sampleJunk bootedStock = some (s, k') ∧
      s.segmentOf stock 300 = some PageType.initData ∧
      s.Translate stock 300 = (3, 0) ∧
      (s.Translate stock 300).1 * stock.PageSize + (s.Translate stock 300).2 ≠ 300 := by
  have hsome :
      (AddrSpace.construct stock onesFile packedHeader sampleJunk bootedStock).isSome = true := by
    decide
  obtain ⟨⟨s, k'⟩, hs⟩ := Option.isSome_iff_exists.mp hsome
  have hb := construct_spec hs
  have hH : s.noffH = packedHeader := built_header_eq hb (by decide)
  have hN : s.numPages = 12 := by rw [hb.numPages, hH]; decide
  have hT : s.Translate stock 300 = (3, 0) := by
    unfold AddrSpace.Translate
    rw [hH, hN]; decide
  refine ⟨s, k', hs, ?_, hT, ?_⟩
  · unfold AddrSpace.segmentOf
    rw [hH, hN]; decide
  · rw [hT]; decide

/-! ## The segment kinds that `copy2Mem` records -/

theorem divRoundUp_le_self {n p : Int} (hn : 0 ≤ n) (hp : 0 < p) : divRoundUp n p ≤ n := by
  have h1 := divRoundUp_mul_lt (n := n) hp
  have h2 := divRoundUp_nonneg hn hp
  by_contra hc
  have : (n + 1) * p ≤ divRoundUp n p * p := mul_le_mul_of_nonneg_right (by omega) hp.le
  nlinarith

theorem ediv_lt_divRoundUp {d n p : Int} (hp : 0 < p) (hd : d < n) : d / p < divRoundUp n p := by
  have h1 := le_divRoundUp_mul (n := n) hp
  exact Int.ediv_lt_of_lt_mul hp (by omega)

/-- Kinds after a loop whose `k`-th iteration assigns kind `τ` to entry
`lo + k` and no kind elsewhere. -/
theorem forLoop_type {body : Nat → AddrSpace × Machine → Option (AddrSpace × Machine)}
    {lo : Nat} {τ : PageType}
    (hbody : ∀ k st t, body k st = some t →
      ∃ e e1, st.1.pageTable[lo + k]? = some e ∧
        t.1.pageTable = st.1.pageTable.set (lo + k) e1 ∧ e1.type = some τ)
    {T0 : Nat → Option PageType} {st0 t : AddrSpace × Machine} {n : Nat}
    (h0 : ∀ p e, st0.1.pageTable[p]? = some e → e.type = T0 p)
    (h : forLoop body n st0 = some t) :
    ∀ p e, t.1.pageTable[p]? = some e →
      e.type = if lo ≤ p ∧ p < lo + n then some τ else T0 p := by
  refine forLoop_inv
    (fun k (st : AddrSpace × Machine) => ∀ p e, st.1.pageTable[p]? = some e →
      e.type = if lo ≤ p ∧ p < lo + k then some τ else T0 p) ?_ n t h ?_
  · intro p e he
    have : ¬ (lo ≤ p ∧ p < lo + 0) := by omega
    simp only [this, if_false]
    exact h0 p e he
  · intro k st u _ hI hb p e he
    obtain ⟨e0, e1, hget, hpt, hty⟩ := hbody k st u hb
    rw [hpt, List.getElem?_set] at he
    by_cases hp : lo + k = p
    · subst hp
      have hlt : lo + k < st.1.pageTable.length := by
        by_contra hc
        rw [List.getElem?_eq_none (by omega)] at hget
        exact absurd hget (by simp)
      simp only [hlt, if_true, Option.some.injEq] at he
      subst he
      have : lo ≤ lo + k ∧ lo + k < lo + (k + 1) := by omega
      simp [this, hty]
    · simp only [hp, if_false] at he
      rw [hI p e he]
      have : (lo ≤ p ∧ p < lo + (k + 1)) ↔ (lo ≤ p ∧ p < lo + k) := by omega
      simp only [this]

theorem codeBody_sets {c : Params} (k : Nat) (st t : AddrSpace × Machine)
    (h : AddrSpace.copy2Mem.codeBody c k st = some t) :
    ∃ e e1, st.1.pageTable[0 + k]? = some e ∧
      t.1.pageTable = st.1.pageTable.set (0 + k) e1 ∧ e1.type = some PageType.code := by
  unfold AddrSpace.copy2Mem.codeBody at h
  cases he : getEntry st.1.pageTable (k : Int) with
  | none => simp only [he] at h; cases h
  | some e =>
    have hk : (k : Int).toNat = 0 + k := by simp
    simp only [he, Option.some.injEq, hk] at h
    subst h
    rw [getEntry_natCast] at he
    exact ⟨e, _, by simpa using he, rfl, rfl⟩

theorem initDataBody_sets {c : Params} {start : Int} (h0 : 0 ≤ start) (h1 : start < 2147483648)
    (k : Nat) (st t : AddrSpace × Machine)
    (h : AddrSpace.copy2Mem.initDataBody c start k st = some t) :
    ∃ e e1, st.1.pageTable[start.toNat + k]? = some e ∧
      t.1.pageTable = st.1.pageTable.set (start.toNat + k) e1 ∧ e1.type = some PageType.initData := by
  unfold AddrSpace.copy2Mem.initDataBody at h
  have hi : toInt32 start + (k : Int) = ((start.toNat + k : Nat) : Int) := by
    rw [toInt32_of_range (by omega) h1]; omega
  rw [hi] at h
  cases he : getEntry st.1.pageTable ((start.toNat + k : Nat) : Int) with
  | none => simp only [he] at h; cases h
  | some e =>
    simp only [he, Option.some.injEq, Int.toNat_ofNat] at h
    subst h
    rw [getEntry_natCast] at he
    exact ⟨e, _, he, rfl, rfl⟩

theorem uninitDataBody_sets {start : Int} (h0 : 0 ≤ start) (h1 : start < 2147483648)
    (k : Nat) (st t : AddrSpace × Machine)
    (h : AddrSpace.copy2Mem.uninitDataBody start k st = some t) :
    ∃ e e1, st.1.pageTable[start.toNat + k]? = some e ∧
      t.1.pageTable = st.1.pageTable.set (start.toNat + k) e1 ∧ e1.type = some PageType.uninitData := by
  unfold AddrSpace.copy2Mem.uninitDataBody at h
  have hi : toInt32 start + (k : Int) = ((start.toNat + k : Nat) : Int) := by
    rw [toInt32_of_range (by omega) h1]; omega
  rw [hi] at h
  cases he : getEntry st.1.pageTable ((start.toNat + k : Nat) : Int) with
  | none => simp only [he] at h; cases h
  | some e =>
    simp only [he, Option.some.injEq, Int.toNat_ofNat] at h
    subst h
    rw [getEntry_natCast] at he
    exact ⟨e, _, he, rfl, rfl⟩

theorem loopCount_plain {start numPage : Int} (h0 : 0 ≤ start) (h1 : 0 ≤ numPage)
    (h2 : numPage + start < 4294967296) : loopCount start numPage = numPage.toNat := by
  unfold loopCount
  rw [u32_of_range (by omega) h2]
  congr 1; omega

/-- The kinds that `copy2Mem` leaves in a page table whose kinds were `T0`, for a
header with non-negative sizes. -/
theorem copy2Mem_types {c : Params} {s s' : AddrSpace} {m m' : Machine} (hP : 0 < c.PageSize)
    (hplain : s.noffH.Plain) (h : AddrSpace.copy2Mem c s m = some (s', m'))
    {T0 : Nat → Option PageType} (h0 : ∀ p e, s.pageTable[p]? = some e → e.type = T0 p) :
    ∀ (p : Nat) (e : TranslationEntry), s'.pageTable[p]? = some e →
      e.type =
        if divRoundUp s.noffH.code.size c.PageSize + divRoundUp s.noffH.initData.size c.PageSize
              ≤ (p : Int) ∧
            (p : Int) < divRoundUp s.noffH.code.size c.PageSize
              + divRoundUp s.noffH.initData.size c.PageSize
              + divRoundUp s.noffH.uninitData.size c.PageSize
        then some PageType.uninitData
        else if divRoundUp s.noffH.code.size c.PageSize ≤ (p : Int) ∧
            (p : Int) < divRoundUp s.noffH.code.size c.PageSize
              + divRoundUp s.noffH.initData.size c.PageSize
        then some PageType.initData
        else if (p : Int) < divRoundUp s.noffH.code.size c.PageSize then some PageType.code
        else T0 p := by
  obtain ⟨p1, p2, p3, p4⟩ := hplain
  have hU : UserStackSize = 1024 := rfl
  have a0 := divRoundUp_nonneg p1 hP
  have b0 := divRoundUp_nonneg p2 hP
  have d0 := divRoundUp_nonneg p3 hP
  have a1 := divRoundUp_le_self p1 hP
  have b1 := divRoundUp_le_self p2 hP
  have d1 := divRoundUp_le_self p3 hP
  generalize hA : divRoundUp s.noffH.code.size c.PageSize = A at *
  generalize hB : divRoundUp s.noffH.initData.size c.PageSize = B at *
  generalize hD : divRoundUp s.noffH.uninitData.size c.PageSize = D at *
  unfold AddrSpace.copy2Mem at h
  simp only [Option.bind_eq_some, hA, hB, hD] at h
  obtain ⟨st2, ⟨st1, h1, h2⟩, h3⟩ := h
  -- the code loop
  have t1 : ∀ (p : Nat) (e : TranslationEntry), st1.1.pageTable[p]? = some e →
      e.type = if (p : Int) < A then some PageType.code else T0 p := by
    intro p e he
    by_cases hc : s.noffH.code.size > 0
    · simp only [hc, if_true] at h1
      rw [u32_of_range a0 (by omega)] at h1
      have := forLoop_type (fun k st t => codeBody_sets k st t) h0 h1 p e he
      rw [this]
      have : (0 ≤ p ∧ p < 0 + A.toNat) ↔ (p : Int) < A := by omega
      simp only [this]
    · simp only [hc, if_false, Option.some.injEq] at h1
      subst h1
      have hz : s.noffH.code.size = 0 := by omega
      have : A = 0 := by rw [← hA, hz]; simp [divRoundUp]
      have : ¬ (p : Int) < A := by omega
      simp only [this, if_false]
      exact h0 p e he
  -- the initData loop
  have t2 : ∀ (p : Nat) (e : TranslationEntry), st2.1.pageTable[p]? = some e →
      e.type = if A ≤ (p : Int) ∧ (p : Int) < A + B then some PageType.initData
        else if (p : Int) < A then some PageType.code else T0 p := by
    intro p e he
    by_cases hc : s.noffH.initData.size > 0
    · simp only [hc, if_true] at h2
      rw [u32_of_range a0 (by omega), u32_of_range b0 (by omega),
        loopCount_plain a0 b0 (by omega)] at h2
      have := forLoop_type (fun k st t => initDataBody_sets a0 (by omega) k st t) t1 h2 p e he
      rw [this]
      have : (A.toNat ≤ p ∧ p < A.toNat + B.toNat) ↔ (A ≤ (p : Int) ∧ (p : Int) < A + B) := by
        omega
      simp only [this]
    · simp only [hc, if_false, Option.some.injEq] at h2
      subst h2
      have hz : s.noffH.initData.size = 0 := by omega
      have : B = 0 := by rw [← hB, hz]; simp [divRoundUp]
      have : ¬ (A ≤ (p : Int) ∧ (p : Int) < A + B) := by omega
      simp only [this, if_false]
      exact t1 p e he
  -- the uninitData loop
  intro p e he
  by_cases hc : s.noffH.uninitData.size > 0
  · simp only [hc, if_true] at h3
    rw [u32_of_range (by omega) (by omega), u32_of_range d0 (by omega),
      loopCount_plain (by omega) d0 (by omega)] at h3
    have := forLoop_type (fun k st t => uninitDataBody_sets (by omega) (by omega) k st t) t2 h3 p e he
    rw [this]
    have : ((A + B).toNat ≤ p ∧ p < (A + B).toNat + D.toNat) ↔
        (A + B ≤ (p : Int) ∧ (p : Int) < A + B + D) := by omega
    simp only [this]
  · simp only [hc, if_false, Option.some.injEq] at h3
    subst h3
    have hz : s.noffH.uninitData.size = 0 := by omega
    have : D = 0 := by rw [← hD, hz]; simp [divRoundUp]
    have : ¬ (A + B ≤ (p : Int) ∧ (p : Int) < A + B + D) := by omega
    simp only [this, if_false]
    exact t2 p e he

/-! ## C2: the recorded segment kind -/

/-- The two phases of a successful construction. -/
theorem construct_parts {c : Params} {executable : Bytes} {stored : NoffHeader}
    {j : Indeterminate} {k k' : Kernel} {s : AddrSpace}
    (h : AddrSpace.construct c executable stored j k = some (s, k')) :
    ∃ s0 s1 b1, s0.numPages = s.numPages ∧ s0.noffH = s.noffH ∧
      AddrSpace.setUpTranslation c j s0 k.bitmap = some (s1, b1) ∧
      AddrSpace.copy2Mem c s1 k.machine = some (s, k'.machine) := by
  have hb := construct_spec h
  unfold AddrSpace.construct at h
  simp only [Option.bind_eq_some] at h
  obtain ⟨spaceId, hid, hdr, hhdr, h⟩ := h
  by_cases hok : j.createSucceeds = true ∧ pageCount c hdr ≤ c.NumPhysPages
  · simp only [hok, and_self, if_true, Option.bind_eq_some] at h
    obtain ⟨⟨s1, b1⟩, hset, ⟨s2, m2⟩, hcopy, h⟩ := h
    simp only [Option.some.injEq, Prod.mk.injEq] at h
    obtain ⟨rfl, rfl⟩ := h
    have hI := setUpTranslation_spec hset
    have hS := copy2Mem_same hcopy
    refine ⟨_, s1, b1, ?_, ?_, hset, hcopy⟩
    · rw [hS.numPages, hI.numPages]
    · rw [hS.noffH, hI.noffH]
  · simp [hok] at h

/-- The segment kind recorded in each entry of a page table built from a header
with non-negative sizes. -/
theorem built_types {c : Params} {executable : Bytes} {stored : NoffHeader}
    {j : Indeterminate} {k k' : Kernel} {s : AddrSpace} (hP : 0 < c.PageSize)
    (h : AddrSpace.construct c executable stored j k = some (s, k')) (hplain : s.noffH.Plain) :
    ∀ (p : Nat) (e : TranslationEntry), s.pageTable[p]? = some e →
      e.type = builtType c j s.noffH s.numPages p := by
  obtain ⟨s0, s1, b1, hn, hH, hset, hcopy⟩ := construct_parts h
  have hI := setUpTranslation_spec hset
  have hH1 : s1.noffH = s.noffH := by rw [← hH]; exact hI.noffH
  have h0 : ∀ p e, s1.pageTable[p]? = some e → e.type = initialType c j s.numPages p := by
    intro p e he
    have := hI.entry p e he
    rw [this, hn]
  intro p e he
  have := copy2Mem_types hP (by rw [hH1]; exact hplain) hcopy h0 p e he
  rw [this, hH1]
  unfold builtType
  simp only [add_assoc]

theorem getEntry_of_lt (pt : List TranslationEntry) {v : Int} (h0 : 0 ≤ v)
    (h1 : v < (pt.length : Int)) : ∃ e, getEntry pt v = some e ∧ pt[v.toNat]? = some e := by
  have hlt : v.toNat < pt.length := by omega
  exact ⟨pt[v.toNat], by simp [getEntry, h0, hlt], by simp [hlt]⟩

/-- A page number computed as `base + d / PageSize` from a non-negative `d`. -/
theorem u32_page {base d p : Int} (hp : 0 < p) (hb : 0 ≤ base) (hd : 0 ≤ d)
    (hlt : base + d / p < 4294967296) : u32 (base + Int.tdiv d p) = base + d / p := by
  rw [Int.tdiv_eq_ediv hd hp.le]
  exact u32_of_range (by have := Int.ediv_nonneg hd hp.le; omega) hlt

/-- The recorded kind of the page that `Translate` returns, for a built object
with the layout `Separated`. -/
theorem built_kind_matches {c : Params} {executable : Bytes} {stored : NoffHeader}
    {j : Indeterminate} {k k' : Kernel} {s : AddrSpace} (hc : c.WellFormed)
    (hcons : AddrSpace.construct c executable stored j k = some (s, k'))
    (hplain : s.noffH.Plain) (hsep : s.Separated c) {a : Int} {τ : PageType}
    (hseg : s.segmentOf c a = some τ) :
    ∃ e, getEntry s.pageTable (s.Translate c a).1 = some e ∧ e.type = some τ := by
  have hb := construct_spec hcons
  obtain ⟨z1, z2, z3, z4, z5⟩ := built_sizes hc hb hplain
  have hP := hc.1
  have hS := hc.2.1
  have hU : UserStackSize = 1024 := rfl
  have hty := built_types hP hcons hplain
  have hlen : (s.pageTable.length : Int) = s.numPages := by rw [hb.length]
  obtain ⟨p1, p2, p3, _⟩ := hplain
  have a0 := divRoundUp_nonneg p1 hP
  have b0 := divRoundUp_nonneg p2 hP
  have d0 := divRoundUp_nonneg p3 hP
  unfold AddrSpace.Separated at hsep
  simp only at hsep
  obtain ⟨q1, q2, q3, q4, q5⟩ := hsep
  have hbase : ((s.numPages : Int) - c.StackPages) * c.PageSize
      = (s.numPages : Int) * c.PageSize - UserStackSize := by rw [hS]; ring
  -- it is enough to name the page and bound it
  have finish : ∀ v : Int, (s.Translate c a).1 = v → 0 ≤ v → v < s.numPages →
      builtType c j s.noffH s.numPages v.toNat = some τ →
      ∃ e, getEntry s.pageTable (s.Translate c a).1 = some e ∧ e.type = some τ := by
    intro v hv h0 h1 h2
    obtain ⟨e, he, he'⟩ := getEntry_of_lt s.pageTable h0 (by omega)
    exact ⟨e, by rw [hv]; exact he, by rw [hty _ e he', h2]⟩
  unfold AddrSpace.segmentOf at hseg
  split at hseg
  · -- the stack region
    rename_i hst
    obtain ⟨s0, s1, s2⟩ := hst
    simp only [Option.some.injEq] at hseg
    subst hseg
    have hd0 : 0 ≤ a - ((s.numPages : Int) - c.StackPages) * c.PageSize := by omega
    have hq : (a - ((s.numPages : Int) - c.StackPages) * c.PageSize) / c.PageSize < c.StackPages :=
      Int.ediv_lt_of_lt_mul hP (by rw [← hS]; omega)
    have hq0 := Int.ediv_nonneg hd0 hP.le
    refine finish ((s.numPages : Int) - c.StackPages
      + (a - ((s.numPages : Int) - c.StackPages) * c.PageSize) / c.PageSize) ?_ (by omega)
      (by omega) ?_
    · unfold AddrSpace.Translate
      have hcond : u32 a ≥ u32 ((s.numPages : Int) * c.PageSize - UserStackSize) := by
        rw [u32_of_range s0 (by omega), u32_of_range (by omega) (by omega)]; omega
      simp only [hcond, if_true]
      rw [toInt32_u32_of_range (by omega) (by omega)]
      exact u32_page hP (by omega) hd0 (by omega)
    · unfold builtType initialType
      simp only
      generalize (a - ((s.numPages : Int) - c.StackPages) * c.PageSize) / c.PageSize = q at *
      have hv : (((s.numPages : Int) - c.StackPages + q).toNat : Int)
          = (s.numPages : Int) - c.StackPages + q := Int.toNat_of_nonneg (by omega)
      rw [hv]
      have e1 : u32 ((s.numPages : Int) - c.StackPages + q) = (s.numPages : Int) - c.StackPages + q :=
        u32_of_range (by omega) (by omega)
      have e2 : u32 ((s.numPages : Int) - c.StackPages) = (s.numPages : Int) - c.StackPages :=
        u32_of_range (by omega) (by omega)
      rw [e1, e2]
      rw [if_neg (by omega), if_neg (by omega), if_neg (by omega), if_pos (by omega)]
  · rename_i hst
    have hnot : ∀ x : Int, 0 ≤ x → x < ((s.numPages : Int) - c.StackPages) * c.PageSize →
        ¬ u32 x ≥ u32 ((s.numPages : Int) * c.PageSize - UserStackSize) := by
      intro x h0 h1
      rw [u32_of_range h0 (by omega), u32_of_range (by omega) (by omega)]; omega
    split at hseg
    · -- the uninitData segment
      rename_i hin
      obtain ⟨u0, u1, u2⟩ := hin
      simp only [Option.some.injEq] at hseg
      subst hseg
      obtain ⟨r1, r2, r3⟩ := q4 u0
      have hd0 : 0 ≤ a - s.noffH.uninitData.virtualAddr := by omega
      have hq := ediv_lt_divRoundUp (d := a - s.noffH.uninitData.virtualAddr)
        (n := s.noffH.uninitData.size) hP (by omega)
      have hq0 := Int.ediv_nonneg hd0 hP.le
      refine finish (divRoundUp s.noffH.code.size c.PageSize
        + divRoundUp s.noffH.initData.size c.PageSize
        + (a - s.noffH.uninitData.virtualAddr) / c.PageSize) ?_ (by omega) (by omega) ?_
      · unfold AddrSpace.Translate
        rw [if_neg (hnot a (by omega) (by omega)), if_pos ⟨u0, u1⟩]
        exact u32_page hP (by omega) hd0 (by omega)
      · unfold builtType
        simp only
        generalize (a - s.noffH.uninitData.virtualAddr) / c.PageSize = q at *
        rw [Int.toNat_of_nonneg (by omega), if_pos (by omega)]
    · rename_i hnu
      split at hseg
      · -- the initData segment
        rename_i hin
        obtain ⟨i0, i1, i2⟩ := hin
        simp only [Option.some.injEq] at hseg
        subst hseg
        obtain ⟨r1, r2⟩ := q3 i0
        have hd0 : 0 ≤ a - s.noffH.initData.virtualAddr := by omega
        have hq := ediv_lt_divRoundUp (d := a - s.noffH.initData.virtualAddr)
          (n := s.noffH.initData.size) hP (by omega)
        have hq0 := Int.ediv_nonneg hd0 hP.le
        have hnotU : ¬ (s.noffH.uninitData.size > 0 ∧ a ≥ s.noffH.uninitData.virtualAddr) := by
          intro hcon
          have := (q4 hcon.1).2.1 i0
          omega
        refine finish (divRoundUp s.noffH.code.size c.PageSize
          + (a - s.noffH.initData.virtualAddr) / c.PageSize) ?_ (by omega) (by omega) ?_
        · unfold AddrSpace.Translate
          rw [if_neg (hnot a (by omega) (by omega)), if_neg hnotU, if_pos ⟨i0, i1⟩]
          exact u32_page hP (by omega) hd0 (by omega)
        · unfold builtType
          simp only
          generalize (a - s.noffH.initData.virtualAddr) / c.PageSize = q at *
          rw [Int.toNat_of_nonneg (by omega), if_neg (by omega), if_pos (by omega)]
      · rename_i hni
        split at hseg
        · -- the code segment
          rename_i hin
          obtain ⟨c0, c1, c2⟩ := hin
          simp only [Option.some.injEq] at hseg
          subst hseg
          rw [q1] at c1 c2
          have hq := ediv_lt_divRoundUp (d := a) (n := s.noffH.code.size) hP (by omega)
          have hq0 := Int.ediv_nonneg c1 hP.le
          have hnotU : ¬ (s.noffH.uninitData.size > 0 ∧ a ≥ s.noffH.uninitData.virtualAddr) := by
            intro hcon
            have := (q4 hcon.1).1
            omega
          have hnotI : ¬ (s.noffH.initData.size > 0 ∧ a ≥ s.noffH.initData.virtualAddr) := by
            intro hcon
            have := (q3 hcon.1).1
            omega
          refine finish (a / c.PageSize) ?_ (by omega) (by omega) ?_
          · unfold AddrSpace.Translate
            rw [if_neg (hnot a (by omega) (by omega)), if_neg hnotU, if_neg hnotI]
            have := @u32_page 0 a c.PageSize hP (le_refl 0) c1 (by omega)
            simpa using this
          · unfold builtType
            simp only
            generalize a / c.PageSize = q at *
            rw [Int.toNat_of_nonneg (by omega), if_neg (by omega), if_neg (by omega),
              if_pos (by omega)]
        · simp at hseg

/-- C2 (amended). For every header that the constructor accepts, with
non-negative segment sizes and the layout `Separated` (code at address 0, the
declared segments in the order code, initData, uninitData without overlap and
below the stack region, and the pages that `copy2Mem` gives the three segments
ending below the stack pages), and for every virtual address `a` inside a
declared segment, the entry `pageTable[vpn]` of the page `vpn` returned by
`Translate(a)` exists and the kind recorded in it after construction equals the
segment that `a` falls in. -/
theorem recorded_kind_matches_segment (c : Params) (executable : Bytes) (stored : NoffHeader)
    (j : Indeterminate) (k k' : Kernel) (s : AddrSpace) (a : Int) (τ : PageType)
    (hc : c.WellFormed)
    (hcons : AddrSpace.construct c executable stored j k = some (s, k'))
    (hplain : s.noffH.Plain) (hsep : s.Separated c)
    (hseg : s.segmentOf c a = some τ) :
    ∃ e, getEntry s.pageTable (s.Translate c a).1 = some e ∧ e.type = some τ :=
  built_kind_matches hc hcons hplain hsep hseg

/-- C2, witness: the whole-page sample image on the stock machine, at address 300
of its initData segment. -/
theorem recorded_kind_matches_segment_witness :
    ∃ s k', AddrSpace.construct stock onesFile wholePageHeader sampleJunk bootedStock
        = some (s, k') ∧
      s.segmentOf stock 300 = some PageType.initData ∧
      ∃ e, getEntry s.pageTable (s.Translate stock 300).1 = some e ∧
        e.type = some PageType.initData := by
  have hsome :
      (AddrSpace.construct stock onesFile wholePageHeader sampleJunk bootedStock).isSome = true := by
    decide
  obtain ⟨⟨s, k'⟩, hs⟩ := Option.isSome_iff_exists.mp hsome
  have hb := construct_spec hs
  have hH : s.noffH = wholePageHeader := built_header_eq hb (by decide)
  have hN : s.numPages = 12 := by rw [hb.numPages, hH]; decide
  have hseg : s.segmentOf stock 300 = some PageType.initData := by
    unfold AddrSpace.segmentOf
    rw [hH, hN]; decide
  have hsep : s.Separated stock := by
    unfold AddrSpace.Separated
    rw [hH, hN]; decide
  exact ⟨s, k', hs, hseg,
    recorded_kind_matches_segment stock onesFile wholePageHeader sampleJunk bootedStock k' s 300
      PageType.initData (by decide) hs (by rw [hH]; decide) hsep hseg⟩

/-- C2, counterexample: the packed sample image on the stock machine has 12
pages, so its stack region is pages 4 to 11, bytes 512 to 1535.  Address 600
lies in the stack region and `Translate` returns page 4, but `copy2Mem` has
recorded page 4 as the page of the uninitData segment. -/
theorem stack_page_recorded_as_uninitData :
    ∃ s k' e, AddrSpace.construct stock onesFile packedHeader sampleJunk bootedStock
        = some (s, k') ∧
      s.segmentOf stock 600 = some PageType.userStack ∧
      s.Translate stock 600 = (4, 88) ∧
      getEntry s.pageTable (s.Translate stock 600).1 = some e ∧
      e.type = some PageType.uninitData := by
  have h : (AddrSpace.construct stock onesFile packedHeader sampleJunk bootedStock).map
      (fun r => (r.1.segmentOf stock 600, r.1.Translate stock 600,
        (getEntry r.1.pageTable (r.1.Translate stock 600).1).map fun e => e.type))
      = some (some PageType.userStack, (4, 88), some (some PageType.uninitData)) := by
    decide
  obtain ⟨⟨s, k'⟩, hs, hv⟩ := Option.map_eq_some'.mp h
  simp only [Prod.mk.injEq] at hv
  obtain ⟨h1, h2, h4⟩ := hv
  obtain ⟨e, he, het⟩ := Option.map_eq_some'.mp h4
  exact ⟨s, k', e, hs, h1, h2, he, het⟩

/-! ## The page table under write-back, read-in and swap -/

theorem getEntry_set {pt : List TranslationEntry} {i : Int} {e : TranslationEntry}
    (h : getEntry pt i = some e) (x : TranslationEntry) (j : Int) :
    getEntry (pt.set i.toNat x) j = if j = i then some x else getEntry pt j := by
  obtain ⟨hi, he⟩ := getEntry_eq_some h
  have hlt : i.toNat < pt.length := by
    by_contra hc
    rw [List.getElem?_eq_none (by omega)] at he
    exact absurd he (by simp)
  unfold getEntry
  by_cases hj : 0 ≤ j
  · simp only [hj, if_true, List.getElem?_set]
    by_cases hji : j = i
    · subst hji; simp [hlt]
    · have : i.toNat ≠ j.toNat := by omega
      simp [hji, this]
  · have : j ≠ i := by omega
    simp [hj, this]

theorem modifyEntry_eq_some {pt pt' : List TranslationEntry} {i : Int}
    {f : TranslationEntry → TranslationEntry} (h : modifyEntry pt i f = some pt') :
    ∃ e, getEntry pt i = some e ∧ pt' = pt.set i.toNat (f e) := by
  unfold modifyEntry at h
  cases he : getEntry pt i with
  | none => simp [he] at h
  | some e =>
    simp only [he, Option.some.injEq] at h
    exact ⟨e, rfl, h.symm⟩

/-- `WriteBack` changes, in the page table, at most the `dirty` bit (to false)
and the backing offset of the page written back; it leaves the resident-set
bookkeeping alone. -/
theorem WriteBack_table {c : Params} {o : Int} {s s1 : AddrSpace} {m : Machine}
    (h : AddrSpace.WriteBack c o s m = some s1) :
    ∃ e a, getEntry s.pageTable o = some e ∧
      s1.pageTable = s.pageTable.set o.toNat { e with dirty := false, inFileAddr := a } ∧
      s1.virtualPages = s.virtualPages ∧ s1.firstInPage = s.firstInPage ∧
      s1.numPages = s.numPages ∧ s1.noffH = s.noffH ∧ s1.spaceId = s.spaceId := by
  unfold AddrSpace.WriteBack at h
  cases he : getEntry s.pageTable o with
  | none => simp [he] at h
  | some e =>
    simp only [he] at h
    by_cases hd : e.dirty = true
    · simp only [hd, if_true] at h
      cases hty : e.type with
      | none =>
        simp only [hty, Option.some.injEq] at h
        subst h
        exact ⟨e, e.inFileAddr, rfl, by simp [hty], rfl, rfl, rfl, rfl, rfl⟩
      | some τ =>
        cases τ with
        | code =>
          simp only [hty, Option.some.injEq] at h
          subst h
          exact ⟨e, e.inFileAddr, rfl, by simp [hty], rfl, rfl, rfl, rfl, rfl⟩
        | initData =>
          simp only [hty, Option.some.injEq] at h
          subst h
          exact ⟨e, e.inFileAddr, rfl, by simp [hty], rfl, rfl, rfl, rfl, rfl⟩
        | uninitData =>
          simp only [hty] at h
          cases hF : BitMap.Find s.virtualSpaceMap with
          | none => simp [hF] at h
          | some r =>
            obtain ⟨slot, map⟩ := r
            simp only [hF, Option.some.injEq] at h
            subst h
            exact ⟨e, slot * c.PageSize, rfl, by simp [hty], rfl, rfl, rfl, rfl, rfl⟩
        | userStack =>
          simp only [hty] at h
          cases hF : BitMap.Find s.virtualSpaceMap with
          | none => simp [hF] at h
          | some r =>
            obtain ⟨slot, map⟩ := r
            simp only [hF, Option.some.injEq] at h
            subst h
            exact ⟨e, slot * c.PageSize, rfl, by simp [hty], rfl, rfl, rfl, rfl, rfl⟩
    · have hdf : e.dirty = false := by simpa using hd
      rw [if_neg hd] at h
      simp only [Option.some.injEq] at h
      subst h
      refine ⟨e, e.inFileAddr, rfl, ?_, rfl, rfl, rfl, rfl, rfl⟩
      have : ({ e with dirty := false, inFileAddr := e.inFileAddr } : TranslationEntry) = e := by
        cases e; simp_all
      rw [this]
      exact (set_eq_of_getElem? (getEntry_eq_some he).2).symm

/-- `ReadIn` changes, in the page table, at most the backing offset of the page
read in. -/
theorem ReadIn_table {c : Params} {n : Int} {s s' : AddrSpace} {m m' : Machine}
    (h : AddrSpace.ReadIn c n s m = some (s', m')) :
    ∃ e a, getEntry s.pageTable n = some e ∧
      s'.pageTable = s.pageTable.set n.toNat { e with inFileAddr := a } ∧
      s'.virtualPages = s.virtualPages ∧ s'.firstInPage = s.firstInPage ∧
      s'.numPages = s.numPages ∧ s'.noffH = s.noffH ∧ s'.spaceId = s.spaceId := by
  unfold AddrSpace.ReadIn at h
  cases he : getEntry s.pageTable n with
  | none => simp [he] at h
  | some e =>
    have hself : s.pageTable = s.pageTable.set n.toNat { e with inFileAddr := e.inFileAddr } :=
      (set_eq_of_getElem? (getEntry_eq_some he).2).symm
    simp only [he] at h
    cases hty : e.type with
    | none =>
      simp only [hty, Option.some.injEq, Prod.mk.injEq] at h
      obtain ⟨rfl, rfl⟩ := h
      exact ⟨e, e.inFileAddr, rfl, hself, rfl, rfl, rfl, rfl, rfl⟩
    | some τ =>
      cases τ with
      | code =>
        simp only [hty, Option.some.injEq, Prod.mk.injEq] at h
        obtain ⟨rfl, rfl⟩ := h
        exact ⟨e, e.inFileAddr, rfl, hself, rfl, rfl, rfl, rfl, rfl⟩
      | initData =>
        simp only [hty, Option.some.injEq, Prod.mk.injEq] at h
        obtain ⟨rfl, rfl⟩ := h
        exact ⟨e, e.inFileAddr, rfl, hself, rfl, rfl, rfl, rfl, rfl⟩
      | uninitData =>
        simp only [hty] at h
        by_cases hz : e.inFileAddr ≥ 0
        · simp only [hz, if_true] at h
          cases hC : BitMap.Clear s.virtualSpaceMap (Int.tdiv e.inFileAddr c.PageSize) with
          | none => simp [hC] at h
          | some map =>
            simp only [hC, Option.some.injEq, Prod.mk.injEq] at h
            obtain ⟨rfl, rfl⟩ := h
            exact ⟨e, -1, rfl, by simp [hty], rfl, rfl, rfl, rfl, rfl⟩
        · simp only [hz, if_false, Option.some.injEq, Prod.mk.injEq] at h
          obtain ⟨rfl, rfl⟩ := h
          exact ⟨e, e.inFileAddr, rfl, hself, rfl, rfl, rfl, rfl, rfl⟩
      | userStack =>
        simp only [hty] at h
        by_cases hz : e.inFileAddr ≥ 0
        · simp only [hz, if_true] at h
          cases hC : BitMap.Clear s.virtualSpaceMap (Int.tdiv e.inFileAddr c.PageSize) with
          | none => simp [hC] at h
          | some map =>
            simp only [hC, Option.some.injEq, Prod.mk.injEq] at h
            obtain ⟨rfl, rfl⟩ := h
            exact ⟨e, -1, rfl, by simp [hty], rfl, rfl, rfl, rfl, rfl⟩
        · simp only [hz, if_false, Option.some.injEq, Prod.mk.injEq] at h
          obtain ⟨rfl, rfl⟩ := h
          exact ⟨e, e.inFileAddr, rfl, hself, rfl, rfl, rfl, rfl, rfl⟩

/-- The page table and the bookkeeping after `Swap(oldPage, newPage)`: the old
page's entry loses its frame, the new page's entry receives it. -/
theorem Swap_table {c : Params} {o n : Int} {s s' : AddrSpace} {m m' : Machine}
    (h : AddrSpace.Swap c o n s m = some (s', m')) :
    ∃ eo en a b, getEntry s.pageTable o = some eo ∧ getEntry s.pageTable n = some en ∧
      s'.pageTable =
        (s.pageTable.set o.toNat
          { eo with physicalPage := -1, valid := false, dirty := false, inFileAddr := a }).set n.toNat
          { (if n = o then eo else en) with
            physicalPage := if n = o then -1 else eo.physicalPage
            valid := true, use := true, dirty := false, inFileAddr := b } ∧
      s'.virtualPages = s.virtualPages ∧ s'.firstInPage = s.firstInPage ∧
      s'.numPages = s.numPages ∧ s'.noffH = s.noffH ∧ s'.spaceId = s.spaceId := by
  unfold AddrSpace.Swap at h
  simp only [Option.bind_eq_some] at h
  obtain ⟨s1, hW, eo1, hget, pt1, h1, pt2, h2, pt3, h3, hR⟩ := h
  obtain ⟨eo, a, heo, hs1, f1, f2, f3, f4, f5⟩ := WriteBack_table hW
  obtain ⟨e1, hg1, rfl⟩ := modifyEntry_eq_some h1
  obtain ⟨e2, hg2, rfl⟩ := modifyEntry_eq_some h2
  obtain ⟨e3, hg3, rfl⟩ := modifyEntry_eq_some h3
  obtain ⟨e4, b, hg4, hs', g1, g2, g3, g4, g5⟩ := ReadIn_table hR
  simp only at hg4 hs' g1 g2 g3 g4 g5
  rw [hs1] at hget hg1 hg2 hg3 hg4 hs'
  have ho := (getEntry_eq_some heo).1
  rw [getEntry_set heo] at hget hg1
  simp only [if_true, Option.some.injEq] at hget
  subst hget
  by_cases hno : n = o
  · subst hno
    simp only [if_true, Option.some.injEq] at hg1
    subst hg1
    have k1 := getEntry_set heo
      ({ eo with dirty := false, inFileAddr := a } : TranslationEntry) n
    simp only [if_true] at k1
    rw [getEntry_set k1] at hg2
    simp only [if_true, Option.some.injEq] at hg2
    subst hg2
    have k2 := getEntry_set k1 ({ ({ eo with dirty := false, inFileAddr := a } : TranslationEntry)
      with physicalPage := eo.physicalPage } : TranslationEntry) n
    simp only [if_true] at k2
    rw [getEntry_set k2] at hg3
    simp only [if_true, Option.some.injEq] at hg3
    subst hg3
    have k3 := getEntry_set k2 ({ ({ ({ eo with dirty := false, inFileAddr := a } : TranslationEntry)
      with physicalPage := eo.physicalPage } : TranslationEntry)
      with physicalPage := -1, valid := false } : TranslationEntry) n
    simp only [if_true] at k3
    rw [getEntry_set k3] at hg4
    simp only [if_true, Option.some.injEq] at hg4
    subst hg4
    refine ⟨eo, eo, a, b, heo, heo, ?_, by rw [g1, f1], by rw [g2, f2], by rw [g3, f3],
      by rw [g4, f4], by rw [g5, f5]⟩
    rw [hs']
    simp only [List.set_set, if_true]
  · have hn' : n ≠ o := hno
    simp only [hno, if_false] at hg1
    have hn0 := (getEntry_eq_some hg1).1
    have hne : n.toNat ≠ o.toNat := by omega
    have k1 := getEntry_set heo
      ({ eo with dirty := false, inFileAddr := a } : TranslationEntry)
    -- entry `n` of the table after the write-back
    have kn1 : getEntry (s.pageTable.set o.toNat { eo with dirty := false, inFileAddr := a }) n
        = some e1 := by rw [k1]; simp [hno, hg1]
    rw [getEntry_set kn1] at hg2
    have hon : o ≠ n := fun hc => hno hc.symm
    simp only [hon, if_false] at hg2
    rw [k1] at hg2
    simp only [if_true, Option.some.injEq] at hg2
    subst hg2
    have ko2 : getEntry ((s.pageTable.set o.toNat { eo with dirty := false, inFileAddr := a }).set
        n.toNat { e1 with physicalPage := eo.physicalPage }) o
        = some { eo with dirty := false, inFileAddr := a } := by
      rw [getEntry_set kn1]; simp [hon, k1]
    rw [getEntry_set ko2] at hg3
    simp only [hno, if_false] at hg3
    rw [getEntry_set kn1] at hg3
    simp only [if_true, Option.some.injEq] at hg3
    subst hg3
    have kn3 : getEntry (((s.pageTable.set o.toNat { eo with dirty := false, inFileAddr := a }).set
        n.toNat { e1 with physicalPage := eo.physicalPage }).set o.toNat
        { ({ eo with dirty := false, inFileAddr := a } : TranslationEntry) with
          physicalPage := -1, valid := false }) n
        = some { e1 with physicalPage := eo.physicalPage } := by
      rw [getEntry_set ko2]; simp only [hno, if_false]; rw [getEntry_set kn1]; simp
    rw [getEntry_set kn3] at hg4
    simp only [if_true, Option.some.injEq] at hg4
    subst hg4
    refine ⟨eo, e1, a, b, heo, hg1, ?_, by rw [g1, f1], by rw [g2, f2], by rw [g3, f3],
      by rw [g4, f4], by rw [g5, f5]⟩
    rw [hs']
    simp only [hno, if_false, List.set_set]
    rw [List.set_comm _ _ _ hne.symm, List.set_set, List.set_comm _ _ _ hne, List.set_set]

/-! ## C3: frame uniqueness -/

theorem FIFO_eq_Swap (c : Params) (a : Int) (s : AddrSpace) (m : Machine) :
    AddrSpace.FIFO c a s m =
      AddrSpace.Swap c s.victim (s.faultPage c a)
        { s with
          virtualPages := Function.update s.virtualPages s.firstInPage (s.faultPage c a)
          firstInPage := (s.firstInPage + 1) % AvailablePages } m := rfl

theorem toInt32_u32_toInt32 (x : Int) : toInt32 (u32 (toInt32 x)) = toInt32 x := by
  unfold toInt32 u32; omega

/-- The page table and the resident-set bookkeeping after a FIFO fault. -/
theorem FIFO_table {c : Params} {a : Int} {s s' : AddrSpace} {m m' : Machine}
    (h : AddrSpace.FIFO c a s m = some (s', m')) :
    ∃ eo en x y, getEntry s.pageTable s.victim = some eo ∧
      getEntry s.pageTable (s.faultPage c a) = some en ∧
      s'.pageTable =
        (s.pageTable.set s.victim.toNat
          { eo with physicalPage := -1, valid := false, dirty := false, inFileAddr := x }).set
          (s.faultPage c a).toNat
          { (if s.faultPage c a = s.victim then eo else en) with
            physicalPage := if s.faultPage c a = s.victim then -1 else eo.physicalPage
            valid := true, use := true, dirty := false, inFileAddr := y } ∧
      s'.virtualPages = Function.update s.virtualPages s.firstInPage (s.faultPage c a) ∧
      s'.firstInPage = (s.firstInPage + 1) % AvailablePages ∧
      s'.numPages = s.numPages ∧ s'.noffH = s.noffH ∧ s'.spaceId = s.spaceId := by
  rw [FIFO_eq_Swap] at h
  obtain ⟨eo, en, x, y, h1, h2, h3, h4, h5, h6, h7, h8⟩ := Swap_table h
  exact ⟨eo, en, x, y, h1, h2, h3, h4, h5, h6, h7, h8⟩

theorem getElem?_of_getEntry {pt : List TranslationEntry} {i : Int} {e : TranslationEntry}
    (h : getEntry pt i = some e) : pt[i.toNat]? = some e := (getEntry_eq_some h).2

theorem getEntry_of_getElem? {pt : List TranslationEntry} {p : Nat} {e : TranslationEntry}
    (h : pt[p]? = some e) : getEntry pt (p : Int) = some e := by
  rw [getEntry_natCast]; exact h

/-- A FIFO fault on a non-resident page keeps the slots naming resident pages
and moves the victim's frame to the faulting page. -/
theorem FIFO_nonResident {c : Params} {a : Int} {s s' : AddrSpace} {m m' : Machine}
    (hI : s.SlotsResident) (hn : s.nonResident (s.faultPage c a))
    (h : AddrSpace.FIFO c a s m = some (s', m')) : s'.SlotsResident ∧ FramesFrom s s' := by
  obtain ⟨eo, en, x, y, heo, hen, hpt, hvp, hfi, _, _, _⟩ := FIFO_table h
  obtain ⟨en', hen', hinv⟩ := hn
  rw [hen] at hen'
  simp only [Option.some.injEq] at hen'
  subst hen'
  obtain ⟨hfirst, hslots⟩ := hI
  have hn0 := (getEntry_eq_some hen).1
  have ho0 := (getEntry_eq_some heo).1
  rcases hslots with hall | ⟨hres, hinj⟩
  · have := hall _ _ (getElem?_of_getEntry hen)
    rw [hinv] at this
    exact absurd this (by simp)
  · -- the victim is resident, hence another page than the faulting one
    have hvic : s.victim = s.slotPage s.firstInPage := rfl
    obtain ⟨eo', heo', hov⟩ := hres s.firstInPage hfirst
    rw [← hvic, heo] at heo'
    simp only [Option.some.injEq] at heo'
    subst heo'
    have hno : s.faultPage c a ≠ s.victim := by
      intro hc
      rw [hc, heo] at hen
      simp only [Option.some.injEq] at hen
      rw [hen, hinv] at hov
      exact absurd hov (by simp)
    simp only [hno, if_false] at hpt
    have hne : (s.faultPage c a).toNat ≠ s.victim.toNat := by omega
    -- entries of the new table
    generalize hX : ({ eo with
      physicalPage := -1, valid := false, dirty := false, inFileAddr := x } : TranslationEntry)
        = X at hpt
    generalize hY : ({ en with
      physicalPage := eo.physicalPage, valid := true, use := true, dirty := false
      inFileAddr := y } : TranslationEntry) = Y at hpt
    have hXv : X.valid = false := by rw [← hX]
    have hYv : Y.valid = true := by rw [← hY]
    have hYp : Y.physicalPage = eo.physicalPage := by rw [← hY]
    have hold := getEntry_set heo X
    have hnew1 : getEntry (s.pageTable.set s.victim.toNat X) (s.faultPage c a) = some en := by
      rw [hold]; simp [hno, hen]
    have hnew := getEntry_set hnew1 Y
    have hget : ∀ q : Int, getEntry s'.pageTable q =
        if q = s.faultPage c a then some Y
        else if q = s.victim then some X else getEntry s.pageTable q := by
      intro q
      rw [hpt, hnew, hold]
    refine ⟨⟨?_, Or.inr ⟨?_, ?_⟩⟩, ?_⟩
    · rw [hfi]; exact Nat.mod_lt _ (by decide)
    · intro slot hs
      unfold AddrSpace.resident AddrSpace.slotPage
      rw [hvp, Function.update_apply]
      by_cases hsf : slot = s.firstInPage
      · simp only [hsf, if_true]
        unfold AddrSpace.faultPage
        rw [toInt32_u32_toInt32]
        refine ⟨Y, ?_, hYv⟩
        have := hget (s.faultPage c a)
        simpa only [AddrSpace.faultPage, if_true] using this
      · simp only [hsf, if_false]
        obtain ⟨ev, hev, hvv⟩ := hres slot hs
        have h1 : s.slotPage slot ≠ s.faultPage c a := by
          intro hc
          rw [hc, hen] at hev
          simp only [Option.some.injEq] at hev
          rw [← hev, hinv] at hvv
          exact absurd hvv (by simp)
        have h2 : s.slotPage slot ≠ s.victim := by
          intro hc
          exact hsf (hinj slot s.firstInPage hs hfirst hc)
        refine ⟨ev, ?_, hvv⟩
        have := hget (s.slotPage slot)
        simp only [h1, h2, if_false] at this
        rw [← hev]; exact this
    · intro slot slot' hs hs' heq
      unfold AddrSpace.slotPage at heq
      rw [hvp] at heq
      simp only [Function.update_apply] at heq
      have key : ∀ t, t < AvailablePages → t ≠ s.firstInPage →
          toInt32 (u32 (s.faultPage c a)) ≠ toInt32 (u32 (s.virtualPages t)) := by
        intro t ht htf hc
        have e1 : toInt32 (u32 (s.faultPage c a)) = s.faultPage c a := by
          unfold AddrSpace.faultPage; exact toInt32_u32_toInt32 _
        obtain ⟨ev, hev, hvv⟩ := hres t ht
        unfold AddrSpace.slotPage at hev
        rw [← hc, e1, hen] at hev
        simp only [Option.some.injEq] at hev
        rw [← hev, hinv] at hvv
        exact absurd hvv (by simp)
      by_cases h1 : slot = s.firstInPage <;> by_cases h2 : slot' = s.firstInPage
      · rw [h1, h2]
      · simp only [h1, h2, if_true, if_false] at heq
        exact absurd heq (key slot' hs' h2)
      · simp only [h1, h2, if_true, if_false] at heq
        exact absurd heq.symm (key slot hs h1)
      · simp only [h1, h2, if_false] at heq
        exact hinj slot slot' hs hs' heq
    · refine ⟨fun p => if p = (s.faultPage c a).toNat then s.victim.toNat else p, ?_, ?_⟩
      · intro p e' he' hv'
        have hq := hget (p : Int)
        rw [getEntry_natCast, he'] at hq
        by_cases hp : p = (s.faultPage c a).toNat
        · have : (p : Int) = s.faultPage c a := by omega
          simp only [this, if_true, Option.some.injEq] at hq
          subst hq
          simp only [hp, if_true]
          exact ⟨eo, getElem?_of_getEntry heo, hov, hYp.symm⟩
        · have h1 : (p : Int) ≠ s.faultPage c a := by omega
          simp only [h1, if_false] at hq
          by_cases hp2 : (p : Int) = s.victim
          · rw [if_pos hp2] at hq
            simp only [Option.some.injEq] at hq
            rw [hq, hXv] at hv'
            exact absurd hv' (by simp)
          · rw [if_neg hp2] at hq
            simp only [hp, if_false]
            rw [getEntry_natCast] at hq
            exact ⟨e', hq.symm, hv', rfl⟩
      · intro p p' e e' he he' hv hv' hφ
        have hq := hget (p : Int)
        have hq' := hget (p' : Int)
        rw [getEntry_natCast, he] at hq
        rw [getEntry_natCast, he'] at hq'
        have notvic : ∀ (q : Nat) (e : TranslationEntry), e.valid = true →
            some e = (if (q : Int) = s.faultPage c a then some Y
              else if (q : Int) = s.victim then some X else getEntry s.pageTable q) →
            q ≠ (s.faultPage c a).toNat → q ≠ s.victim.toNat := by
          intro q e hv hq hqn hqv
          have h1 : (q : Int) ≠ s.faultPage c a := by omega
          have h2 : (q : Int) = s.victim := by omega
          rw [h2] at h1 hq
          simp only [h1, if_false, if_true, Option.some.injEq] at hq
          rw [hq, hXv] at hv
          exact absurd hv (by simp)
        by_cases h1 : p = (s.faultPage c a).toNat <;> by_cases h2 : p' = (s.faultPage c a).toNat
        · rw [h1, h2]
        · simp only [h1, h2, if_true, if_false] at hφ
          exact absurd hφ.symm (notvic p' e' hv' hq' h2)
        · simp only [h1, h2, if_true, if_false] at hφ
          exact absurd hφ (notvic p e hv hq h1)
        · simpa only [h1, h2, if_false] using hφ

/-- The page table after an access of the emulator. -/
theorem access_table {c : Params} {vpn offset : Int} {store : Option Byte} {s s' : AddrSpace}
    {m m' : Machine} (h : AddrSpace.access c vpn offset store s m = some (s', m')) :
    ∃ e e1, getEntry s.pageTable vpn = some e ∧ e.valid = true ∧
      s'.pageTable = s.pageTable.set vpn.toNat e1 ∧
      e1.valid = e.valid ∧ e1.physicalPage = e.physicalPage ∧ e1.use = true ∧
      e1.type = e.type ∧ e1.inFileAddr = e.inFileAddr ∧
      s'.virtualPages = s.virtualPages ∧ s'.firstInPage = s.firstInPage ∧
      s'.numPages = s.numPages ∧ s'.noffH = s.noffH := by
  unfold AddrSpace.access at h
  cases he : getEntry s.pageTable vpn with
  | none => simp [he] at h
  | some e =>
    simp only [he] at h
    by_cases hc : e.valid = true ∧ 0 ≤ offset ∧ offset < c.PageSize
    · rw [if_pos hc] at h
      cases store with
      | none =>
        simp only [Option.some.injEq, Prod.mk.injEq] at h
        obtain ⟨rfl, rfl⟩ := h
        exact ⟨e, _, rfl, hc.1, rfl, rfl, rfl, rfl, rfl, rfl, rfl, rfl, rfl, rfl⟩
      | some b =>
        simp only [Option.some.injEq, Prod.mk.injEq] at h
        obtain ⟨rfl, rfl⟩ := h
        exact ⟨e, _, rfl, hc.1, rfl, rfl, rfl, rfl, rfl, rfl, rfl, rfl, rfl, rfl⟩
    · rw [if_neg hc] at h
      cases h

/-- Replacing an entry by one with the same `valid` bit and frame keeps the
frame bookkeeping. -/
theorem set_same_residency {s s' : AddrSpace} {i : Int} {e e1 : TranslationEntry}
    (he : getEntry s.pageTable i = some e) (hv : e1.valid = e.valid)
    (hp : e1.physicalPage = e.physicalPage) (hpt : s'.pageTable = s.pageTable.set i.toNat e1)
    (hvp : s'.virtualPages = s.virtualPages) (hfi : s'.firstInPage = s.firstInPage) :
    (s.SlotsResident → s'.SlotsResident) ∧ FramesFrom s s' := by
  have hget : ∀ q : Int, getEntry s'.pageTable q = if q = i then some e1 else getEntry s.pageTable q := by
    intro q; rw [hpt, getEntry_set he]
  have hi0 := (getEntry_eq_some he).1
  -- every entry of the new table has a twin in the old one
  have twin : ∀ (p : Nat) (e' : TranslationEntry), s'.pageTable[p]? = some e' →
      ∃ e0, s.pageTable[p]? = some e0 ∧ e0.valid = e'.valid ∧ e0.physicalPage = e'.physicalPage := by
    intro p e' he'
    have hq := hget (p : Int)
    rw [getEntry_natCast, he'] at hq
    by_cases hpi : (p : Int) = i
    · rw [if_pos hpi] at hq
      simp only [Option.some.injEq] at hq
      subst hq
      have : s.pageTable[p]? = some e := by
        have := getElem?_of_getEntry he
        rw [← hpi] at this
        simpa using this
      exact ⟨e, this, hv.symm, hp.symm⟩
    · rw [if_neg hpi, getEntry_natCast] at hq
      exact ⟨e', hq.symm, rfl, rfl⟩
  have res : ∀ q : Int, s.resident q → s'.resident q := by
    intro q ⟨e0, h0, hv0⟩
    by_cases hqi : q = i
    · subst hqi
      rw [he] at h0
      simp only [Option.some.injEq] at h0
      subst h0
      exact ⟨e1, by rw [hget]; simp, by rw [hv, hv0]⟩
    · exact ⟨e0, by rw [hget, if_neg hqi]; exact h0, hv0⟩
  refine ⟨?_, ?_⟩
  · intro ⟨hfirst, hslots⟩
    refine ⟨by rw [hfi]; exact hfirst, ?_⟩
    rcases hslots with hall | ⟨hres, hinj⟩
    · left
      intro p e' he'
      obtain ⟨e0, h0, hv0, _⟩ := twin p e' he'
      rw [← hv0]; exact hall p e0 h0
    · right
      refine ⟨?_, ?_⟩
      · intro slot hs
        have := res _ (hres slot hs)
        simpa only [AddrSpace.slotPage, hvp] using this
      · intro slot slot' hs hs' heq
        simp only [AddrSpace.slotPage, hvp] at heq
        exact hinj slot slot' hs hs' heq
  · refine ⟨fun p => p, ?_, ?_⟩
    · intro p e' he' hv'
      obtain ⟨e0, h0, hv0, hp0⟩ := twin p e' he'
      exact ⟨e0, h0, by rw [hv0]; exact hv', hp0⟩
    · intro p p' _ _ _ _ _ _ h
      exact h

/-- An access of the emulator keeps the frame bookkeeping. -/
theorem access_frames {c : Params} {vpn offset : Int} {store : Option Byte} {s s' : AddrSpace}
    {m m' : Machine} (hI : s.SlotsResident)
    (h : AddrSpace.access c vpn offset store s m = some (s', m')) :
    s'.SlotsResident ∧ FramesFrom s s' := by
  obtain ⟨e, e1, he, _, hpt, hv, hp, _, _, _, hvp, hfi, _, _⟩ := access_table h
  obtain ⟨h1, h2⟩ := set_same_residency he hv hp hpt hvp hfi
  exact ⟨h1 hI, h2⟩

theorem onSpace_eq_some {k k' : Kernel} {i : Nat}
    {op : AddrSpace → Machine → Option (AddrSpace × Machine)} (h : k.onSpace i op = some k') :
    ∃ s s' m', k.spaces[i]? = some s ∧ op s k.machine = some (s', m') ∧
      k' = { k with machine := m', spaces := k.spaces.set i s' } := by
  unfold Kernel.onSpace at h
  cases hs : k.spaces[i]? with
  | none => simp [hs] at h
  | some s =>
    simp only [hs] at h
    cases ho : op s k.machine with
    | none => simp [ho] at h
    | some r =>
      obtain ⟨s', m'⟩ := r
      simp only [ho, Option.some.injEq] at h
      exact ⟨s, s', m', rfl, ho, h.symm⟩

theorem getElem?_set_space {l : List AddrSpace} {i : Nat} {s : AddrSpace} (s' : AddrSpace)
    (hs : l[i]? = some s) (j : Nat) :
    (l.set i s')[j]? = if j = i then some s' else l[j]? := by
  have hlt : i < l.length := by
    by_contra hc
    rw [List.getElem?_eq_none (by omega)] at hs
    exact absurd hs (by simp)
  rw [List.getElem?_set]
  by_cases hji : j = i
  · subst hji; simp [hlt]
  · have : i ≠ j := fun hc => hji hc.symm
    simp [hji, this]

/-- An operation of one address space that keeps the frame bookkeeping of that
space keeps frame uniqueness of the system. -/
theorem onSpace_frames {k k' : Kernel} {i : Nat}
    {op : AddrSpace → Machine → Option (AddrSpace × Machine)} (h : k.onSpace i op = some k')
    (hop : ∀ s s' m', k.spaces[i]? = some s → s.SlotsResident →
      op s k.machine = some (s', m') → s'.SlotsResident ∧ FramesFrom s s')
    (hI : k.FrameInv) : k'.FrameInv := by
  obtain ⟨s, s', m', hs, ho, rfl⟩ := onSpace_eq_some h
  obtain ⟨hU, hC, hS⟩ := hI
  obtain ⟨hS', φ, hφ1, hφ2⟩ := hop s s' m' hs (hS i s hs) ho
  have hsp := fun j => getElem?_set_space s' hs j
  -- a resident entry of the new system and the entry of the old one it comes from
  have origin : ∀ (j p : Nat) (t : AddrSpace) (e : TranslationEntry),
      (k.spaces.set i s')[j]? = some t → t.pageTable[p]? = some e → e.valid = true →
      ∃ t0 e0, k.spaces[j]? = some t0 ∧
        t0.pageTable[if j = i then φ p else p]? = some e0 ∧ e0.valid = true ∧
        e0.physicalPage = e.physicalPage := by
    intro j p t e ht he hv
    rw [hsp] at ht
    by_cases hji : j = i
    · rw [if_pos hji] at ht
      simp only [Option.some.injEq] at ht
      subst ht
      obtain ⟨e0, h0, hv0, hp0⟩ := hφ1 p e he hv
      exact ⟨s, e0, by rw [hji]; exact hs, by rw [if_pos hji]; exact h0, hv0, hp0⟩
    · rw [if_neg hji] at ht
      exact ⟨t, e, ht, by rw [if_neg hji]; exact he, hv, rfl⟩
  refine ⟨?_, ?_, ?_⟩
  · intro j j' p p' t t' e e' ht ht' he he' hv hv' hpp
    obtain ⟨t0, e0, a1, a2, a3, a4⟩ := origin j p t e ht he hv
    obtain ⟨t0', e0', b1, b2, b3, b4⟩ := origin j' p' t' e' ht' he' hv'
    obtain ⟨hjj, hpq⟩ := hU j j' _ _ t0 t0' e0 e0' a1 b1 a2 b2 a3 b3 (by rw [a4, b4]; exact hpp)
    refine ⟨hjj, ?_⟩
    subst hjj
    by_cases hji : j = i
    · simp only [hji, if_true] at hpq
      simp only [hsp, hji, if_true, Option.some.injEq] at ht ht'
      subst ht; subst ht'
      exact hφ2 p p' e e' he he' hv hv' hpq
    · simpa only [hji, if_false] using hpq
  · intro j p t e ht he hv
    obtain ⟨t0, e0, a1, a2, a3, a4⟩ := origin j p t e ht he hv
    have := hC j _ t0 e0 a1 a2 a3
    rw [a4] at this
    exact this
  · intro j t ht
    simp only [hsp] at ht
    by_cases hji : j = i
    · simp only [hji, if_true, Option.some.injEq] at ht
      subst ht; exact hS'
    · simp only [hji, if_false] at ht
      exact hS j t ht

theorem exec_create_eq_some {c : Params} {k k' : Kernel} {executable : Bytes}
    {stored : NoffHeader} {j : Indeterminate}
    (h : Kernel.exec c k (Event.create executable stored j) = some k') :
    ∃ s k1, AddrSpace.construct c executable stored j k = some (s, k1) ∧
      k' = { k1 with spaces := k1.spaces ++ [s] } := by
  unfold Kernel.exec at h
  cases hc : AddrSpace.construct c executable stored j k with
  | none => simp [hc] at h
  | some r =>
    obtain ⟨s, k1⟩ := r
    simp only [hc, Option.some.injEq] at h
    exact ⟨s, k1, rfl, h.symm⟩

/-- A freshly built address space has its slots naming resident pages. -/
theorem built_slotsResident {c : Params} {stored : NoffHeader} {j : Indeterminate}
    {k k' : Kernel} {s : AddrSpace} (hb : Built c stored j k s k') : s.SlotsResident := by
  have hfirst : s.firstInPage < AvailablePages := by
    rw [hb.first]; exact Nat.mod_lt _ (by decide)
  refine ⟨hfirst, ?_⟩
  by_cases hn : s.numPages < AvailablePages
  · left
    intro p e he
    have hp : p < s.pageTable.length := by
      by_contra hc
      rw [List.getElem?_eq_none (by omega)] at he
      exact absurd he (by simp)
    rw [hb.length] at hp
    rw [(hb.entry p e he).2.1]
    simp only [decide_eq_true_eq]; omega
  · right
    have hmin : min s.numPages AvailablePages = AvailablePages := by omega
    have hslot : ∀ slot, slot < AvailablePages → s.slotPage slot = (slot : Int) := by
      intro slot hs
      unfold AddrSpace.slotPage
      rw [hb.slots slot, hmin, if_pos hs]
      unfold AvailablePages at hs
      exact toInt32_u32_of_range (by omega) (by omega)
    refine ⟨?_, ?_⟩
    · intro slot hs
      rw [hslot slot hs]
      have hlt : slot < s.pageTable.length := by rw [hb.length]; omega
      refine ⟨s.pageTable[slot], by rw [getEntry_natCast]; simp [hlt], ?_⟩
      rw [(hb.entry slot _ (by simp [hlt])).2.1]
      simpa using hs
    · intro slot slot' hs hs' heq
      rw [hslot slot hs, hslot slot' hs'] at heq
      exact_mod_cast heq

/-- Loading a process image keeps frame uniqueness. -/
theorem create_frames {c : Params} {k k' : Kernel} {executable : Bytes}
    {stored : NoffHeader} {j : Indeterminate}
    (h : Kernel.exec c k (Event.create executable stored j) = some k')
    (hI : k.FrameInv) : k'.FrameInv := by
  obtain ⟨s, k1, hcons, rfl⟩ := exec_create_eq_some h
  have hb := construct_spec hcons
  obtain ⟨hU, hC, hS⟩ := hI
  have hvalid : ∀ (p : Nat) (e : TranslationEntry), s.pageTable[p]? = some e → e.valid = true →
      p < AvailablePages := by
    intro p e he hv
    rw [(hb.entry p e he).2.1] at hv
    simpa using hv
  have hspaces : ∀ (i : Nat) (t : AddrSpace), (k1.spaces ++ [s])[i]? = some t →
      k.spaces[i]? = some t ∨ t = s ∧ i = k.spaces.length := by
    intro i t ht
    rw [hb.spaces] at ht
    rcases getElem?_append_singleton _ _ _ _ ht with ⟨_, h1⟩ | ⟨h1, h2⟩
    · exact Or.inl h1
    · exact Or.inr ⟨h2, h1⟩
  have hold : ∀ (i : Nat) (t : AddrSpace), k.spaces[i]? = some t → i ≠ k.spaces.length := by
    intro i t ht hc
    rw [List.getElem?_eq_none (by omega)] at ht
    exact absurd ht (by simp)
  refine ⟨?_, ?_, ?_⟩
  · intro i i' p p' t t' e e' ht ht' he he' hv hv' hpp
    rcases hspaces i t ht with h1 | ⟨rfl, h1⟩ <;> rcases hspaces i' t' ht' with h2 | ⟨rfl, h2⟩
    · exact hU i i' p p' t t' e e' h1 h2 he he' hv hv' hpp
    · have a1 := hC i p t e h1 he hv
      have a2 := (hb.frame p' e' he' (hvalid p' e' he' hv')).2
      rw [hpp, a2] at a1
      exact absurd a1 (by simp)
    · have a1 := hC i' p' t' e' h2 he' hv'
      have a2 := (hb.frame p e he (hvalid p e he hv)).2
      rw [← hpp, a2] at a1
      exact absurd a1 (by simp)
    · exact ⟨by rw [h1, h2],
        hb.distinct p p' e e' he he' (hvalid p e he hv) (hvalid p' e' he' hv') hpp⟩
  · intro i p t e ht he hv
    rcases hspaces i t ht with h1 | ⟨rfl, _⟩
    · exact hb.kept _ (hC i p t e h1 he hv)
    · exact (hb.frame p e he (hvalid p e he hv)).1
  · intro i t ht
    rcases hspaces i t ht with h1 | ⟨rfl, _⟩
    · exact hS i t h1
    · exact built_slotsResident hb

/-- Frame uniqueness, with its bookkeeping, holds in every state reached by
loading images, FIFO faults on non-resident pages and accesses. -/
theorem reach_frameInv {c : Params} {k : Kernel} (h : Reach c (fifoOnNonResident c) k) :
    k.FrameInv := by
  induction h with
  | boot m =>
    refine ⟨?_, ?_, ?_⟩
    · intro i i' p p' s s' e e' hs
      simp [Kernel.boot] at hs
    · intro i p s e hs
      simp [Kernel.boot] at hs
    · intro i s hs
      simp [Kernel.boot] at hs
  | step ev _ hal hex ih =>
    cases ev with
    | create executable stored j => exact create_frames hex ih
    | fifo i a =>
      obtain ⟨s0, hs0, hnr⟩ := hal
      refine onSpace_frames hex ?_ ih
      intro s s' m' hs hI hop
      rw [hs0] at hs
      simp only [Option.some.injEq] at hs
      subst hs
      exact FIFO_nonResident hI hnr hop
    | secondChance i fuel a => exact absurd hal id
    | access i vpn offset store =>
      refine onSpace_frames hex ?_ ih
      intro s s' m' _ hI hop
      exact access_frames hI hop

/-- C3. Frame uniqueness: in every state reached by constructing address spaces
over the shared frame allocator and applying FIFO page faults on non-resident
pages (in any order, with accesses of the emulator to resident pages in
between), no physical frame number is the `physicalPage` of more than one
resident (valid) page-table entry across all live address spaces, and every
resident entry's `physicalPage` is a frame marked claimed in the frame
allocator. -/
theorem frames_unique_and_claimed (c : Params) (k : Kernel)
    (h : Reach c (fifoOnNonResident c) k) : k.FramesUnique ∧ k.FramesClaimed :=
  ⟨(reach_frameInv h).1, (reach_frameInv h).2.1⟩

theorem nonResidentB_iff (s : AddrSpace) (p : Int) :
    s.nonResidentB p = true ↔ s.nonResident p := by
  unfold AddrSpace.nonResidentB AddrSpace.nonResident
  cases h : getEntry s.pageTable p with
  | none => simp
  | some e => simp

theorem fifoOnNonResidentB_sound (c : Params) (k : Kernel) (e : Event)
    (h : fifoOnNonResidentB c k e = true) : fifoOnNonResident c k e := by
  cases e with
  | create _ _ _ => trivial
  | fifo i a =>
    unfold fifoOnNonResidentB at h
    cases hs : k.spaces[i]? with
    | none => simp [hs] at h
    | some s =>
      simp only [hs] at h
      exact ⟨s, hs, (nonResidentB_iff s _).mp h⟩
  | secondChance _ _ _ => simp [fifoOnNonResidentB] at h
  | access _ _ _ _ => trivial

/-- A checked run stays inside the reachable states. -/
theorem runChecked_reach {c : Params} {allowed : Kernel → Event → Prop}
    {ok : Kernel → Event → Bool} (hok : ∀ k e, ok k e = true → allowed k e) :
    ∀ (es : List Event) (k k' : Kernel), Reach c allowed k → runChecked c ok es k = some k' →
      Reach c allowed k' := by
  intro es
  induction es with
  | nil =>
    intro k k' hr h
    simp only [runChecked, Option.some.injEq] at h
    subst h; exact hr
  | cons e es ih =>
    intro k k' hr h
    unfold runChecked at h
    by_cases hc : ok k e = true
    · rw [if_pos hc] at h
      obtain ⟨k1, h1, h2⟩ := Option.bind_eq_some.mp h
      exact ih k1 k' (Reach.step e hr (hok k e hc) h1) h2
    · rw [if_neg hc] at h
      cases h

/-- C3, witness: on the stock machine two images are loaded and the first
address space takes a FIFO fault on a non-resident stack page. -/
theorem frames_unique_and_claimed_witness :
    ∃ k, Reach stock (fifoOnNonResident stock) k ∧ k.spaces.length = 2 ∧
      k.FramesUnique ∧ k.FramesClaimed := by
  have h : (runChecked stock (fifoOnNonResidentB stock) twoLoadsOneFault bootedStock).map
      (fun k => k.spaces.length) = some 2 := by decide
  obtain ⟨k, hk, hlen⟩ := Option.map_eq_some'.mp h
  have hr : Reach stock (fifoOnNonResident stock) k :=
    runChecked_reach (fifoOnNonResidentB_sound stock) _ _ _ (Reach.boot zeroMachine) hk
  exact ⟨k, hr, hlen, frames_unique_and_claimed stock k hr⟩

/-! ## C4: the residency bound -/

/-- A list has at most as many entries satisfying `q` as a finite set that
contains the index of each such entry has elements. -/
theorem countP_le_card {α : Type} (q : α → Bool) :
    ∀ (l : List α) (S : Finset Nat), (∀ (p : Nat) (x : α), l[p]? = some x → q x = true → p ∈ S) →
      l.countP q ≤ S.card := by
  intro l
  induction l using List.reverseRecOn with
  | nil => intro S _; simp
  | append_singleton l x ih =>
    intro S hS
    rw [List.countP_append]
    have hl : ∀ (p : Nat) (y : α), l[p]? = some y → q y = true → p ∈ S := by
      intro p y hy hq
      refine hS p y ?_ hq
      rw [List.getElem?_append_left]
      · exact hy
      · by_contra hc
        rw [List.getElem?_eq_none (by omega)] at hy
        exact absurd hy (by simp)
    by_cases hx : q x = true
    · have hmem : l.length ∈ S := hS l.length x (getElem?_append_at l x rfl) hx
      have h1 : l.countP q ≤ (S.erase l.length).card := by
        apply ih
        intro p y hy hq
        have hp : p < l.length := by
          by_contra hc
          rw [List.getElem?_eq_none (by omega)] at hy
          exact absurd hy (by simp)
        exact Finset.mem_erase.mpr ⟨by omega, hl p y hy hq⟩
      have h2 := Finset.card_erase_of_mem hmem
      have h3 : 0 < S.card := Finset.card_pos.mpr ⟨_, hmem⟩
      simp only [List.countP_cons, List.countP_nil, hx, if_true]
      omega
    · have h1 := ih S hl
      simp only [List.countP_cons, List.countP_nil, hx]
      simpa using h1

/-- The bound that the bookkeeping `Tracked` gives. -/
theorem tracked_bound {s : AddrSpace} (h : s.Tracked) :
    residentCount s.pageTable ≤ AvailablePages ∧ residentCount s.pageTable ≤ s.numPages := by
  obtain ⟨hlen, _, hslots, _⟩ := h
  refine ⟨?_, ?_⟩
  · have := countP_le_card (fun e : TranslationEntry => e.valid) s.pageTable
      ((Finset.range AvailablePages).image fun slot => (s.slotPage slot).toNat) (by
        intro p e he hv
        obtain ⟨slot, hs, hp⟩ := hslots p e he hv
        exact Finset.mem_image.mpr ⟨slot, Finset.mem_range.mpr hs, by rw [hp]; simp⟩)
    exact le_trans this (le_trans Finset.card_image_le (by simp))
  · rw [← hlen]
    exact List.countP_le_length _

/-- When the entries that the scan inspects all have their `use` bit set, the
scan of `SecondChance` never selects a victim. -/
theorem scan_never_done {pt : List TranslationEntry}
    (huse : ∀ (i : Nat) (e : TranslationEntry), i < AvailablePages → pt[i]? = some e →
      e.use = true) :
    ∀ (fuel : Nat) (idx : Int), 0 ≤ idx → idx < (AvailablePages : Int) →
      ∀ r, AddrSpace.SecondChance.scan pt fuel idx ≠ LoopResult.done r := by
  intro fuel
  induction fuel with
  | zero => intro idx _ _ r h; simp [AddrSpace.SecondChance.scan] at h
  | succ fuel ih =>
    intro idx h0 h1 r h
    unfold AddrSpace.SecondChance.scan at h
    cases he : getEntry pt idx with
    | none => simp [he] at h
    | some e =>
      simp only [he] at h
      have hu : e.use = true :=
        huse idx.toNat e (by omega) (getElem?_of_getEntry he)
      rw [if_pos hu] at h
      have hA : (AvailablePages : Int) = 4 := rfl
      rw [hA] at h h1
      exact ih ((idx + 1) % 4) (by omega) (by rw [hA]; omega) r h

theorem SecondChance_none {c : Params} {fuel : Nat} {a : Int} {s : AddrSpace} {m : Machine}
    (h : s.Tracked) : AddrSpace.SecondChance c fuel a s m = none := by
  unfold AddrSpace.SecondChance
  cases hscan : AddrSpace.SecondChance.scan s.pageTable fuel 0 with
  | done r =>
    exact absurd hscan (scan_never_done h.2.2.2 fuel 0 (le_refl 0) (by decide) r)
  | undefined => rfl
  | unfinished r => rfl

/-- A FIFO fault at any address keeps the bookkeeping `Tracked`. -/
theorem FIFO_tracked {c : Params} {a : Int} {s s' : AddrSpace} {m m' : Machine}
    (hT : s.Tracked) (h : AddrSpace.FIFO c a s m = some (s', m')) : s'.Tracked := by
  obtain ⟨eo, en, x, y, heo, hen, hpt, hvp, hfi, hnum, _, _⟩ := FIFO_table h
  obtain ⟨hlen, hfirst, hslots, huse⟩ := hT
  generalize hX : ({ eo with
    physicalPage := -1, valid := false, dirty := false, inFileAddr := x } : TranslationEntry)
      = X at hpt
  generalize hY : ({ (if s.faultPage c a = s.victim then eo else en) with
    physicalPage := if s.faultPage c a = s.victim then -1 else eo.physicalPage
    valid := true, use := true, dirty := false, inFileAddr := y } : TranslationEntry) = Y at hpt
  have hXv : X.valid = false := by rw [← hX]
  have hXu : X.use = eo.use := by rw [← hX]
  have hYu : Y.use = true := by rw [← hY]
  have hold := getEntry_set heo X
  have hnew1 : ∃ z, getEntry (s.pageTable.set s.victim.toNat X) (s.faultPage c a) = some z := by
    rw [hold]
    by_cases hc : s.faultPage c a = s.victim
    · exact ⟨X, by rw [if_pos hc]⟩
    · exact ⟨en, by rw [if_neg hc]; exact hen⟩
  obtain ⟨z, hz⟩ := hnew1
  have hnew := getEntry_set hz Y
  have hget : ∀ q : Int, getEntry s'.pageTable q =
      if q = s.faultPage c a then some Y
      else if q = s.victim then some X else getEntry s.pageTable q := by
    intro q
    rw [hpt, hnew, hold]
  have ho0 := (getEntry_eq_some heo).1
  refine ⟨?_, ?_, ?_, ?_⟩
  · rw [hpt, hnum]; simpa using hlen
  · rw [hfi]; exact Nat.mod_lt _ (by decide)
  · intro p e he hv
    have hq := hget (p : Int)
    rw [getEntry_natCast, he] at hq
    by_cases hp : (p : Int) = s.faultPage c a
    · refine ⟨s.firstInPage, hfirst, ?_⟩
      unfold AddrSpace.slotPage
      rw [hvp, Function.update_same, hp]
      unfold AddrSpace.faultPage
      exact toInt32_u32_toInt32 _
    · rw [if_neg hp] at hq
      by_cases hp2 : (p : Int) = s.victim
      · rw [if_pos hp2] at hq
        simp only [Option.some.injEq] at hq
        rw [hq, hXv] at hv
        exact absurd hv (by simp)
      · rw [if_neg hp2, getEntry_natCast] at hq
        obtain ⟨slot, hs, hsp⟩ := hslots p e hq.symm hv
        have hsf : slot ≠ s.firstInPage := by
          intro hc
          rw [hc] at hsp
          exact hp2 hsp.symm
        refine ⟨slot, hs, ?_⟩
        unfold AddrSpace.slotPage at hsp ⊢
        rw [hvp, Function.update_noteq hsf]
        exact hsp
  · intro i e hi he
    have hq := hget (i : Int)
    rw [getEntry_natCast, he] at hq
    by_cases hp : (i : Int) = s.faultPage c a
    · rw [if_pos hp] at hq
      simp only [Option.some.injEq] at hq
      rw [hq]; exact hYu
    · rw [if_neg hp] at hq
      by_cases hp2 : (i : Int) = s.victim
      · rw [if_pos hp2] at hq
        simp only [Option.some.injEq] at hq
        rw [hq, hXu]
        have h1 := getElem?_of_getEntry heo
        rw [← hp2] at h1
        exact huse i eo hi (by simpa using h1)
      · rw [if_neg hp2, getEntry_natCast] at hq
        exact huse i e hi hq.symm

/-- An access of the emulator keeps the bookkeeping `Tracked`. -/
theorem access_tracked {c : Params} {vpn offset : Int} {store : Option Byte} {s s' : AddrSpace}
    {m m' : Machine} (hT : s.Tracked)
    (h : AddrSpace.access c vpn offset store s m = some (s', m')) : s'.Tracked := by
  obtain ⟨e, e1, he, hev, hpt, hv, _, hu, _, _, hvp, hfi, hnum, _⟩ := access_table h
  obtain ⟨hlen, hfirst, hslots, huse⟩ := hT
  have hget : ∀ q : Int, getEntry s'.pageTable q =
      if q = vpn then some e1 else getEntry s.pageTable q := by
    intro q; rw [hpt, getEntry_set he]
  refine ⟨?_, by rw [hfi]; exact hfirst, ?_, ?_⟩
  · rw [hpt, hnum]; simpa using hlen
  · intro p e' he' hv'
    have hq := hget (p : Int)
    rw [getEntry_natCast, he'] at hq
    have : ∃ e0, s.pageTable[p]? = some e0 ∧ e0.valid = true := by
      by_cases hp : (p : Int) = vpn
      · have h1 := getElem?_of_getEntry he
        rw [← hp] at h1
        exact ⟨e, by simpa using h1, hev⟩
      · rw [if_neg hp, getEntry_natCast] at hq
        exact ⟨e', hq.symm, hv'⟩
    obtain ⟨e0, h0, hv0⟩ := this
    obtain ⟨slot, hs, hsp⟩ := hslots p e0 h0 hv0
    exact ⟨slot, hs, by unfold AddrSpace.slotPage at hsp ⊢; rw [hvp]; exact hsp⟩
  · intro i e' hi he'
    have hq := hget (i : Int)
    rw [getEntry_natCast, he'] at hq
    by_cases hp : (i : Int) = vpn
    · rw [if_pos hp] at hq
      simp only [Option.some.injEq] at hq
      rw [hq]; exact hu
    · rw [if_neg hp, getEntry_natCast] at hq
      exact huse i e' hi hq.symm

/-- A freshly built address space satisfies `Tracked`. -/
theorem built_tracked {c : Params} {stored : NoffHeader} {j : Indeterminate}
    {k k' : Kernel} {s : AddrSpace} (hb : Built c stored j k s k') : s.Tracked := by
  refine ⟨hb.length, ?_, ?_, ?_⟩
  · rw [hb.first]; exact Nat.mod_lt _ (by decide)
  · intro p e he hv
    have hp : p < s.pageTable.length := by
      by_contra hc
      rw [List.getElem?_eq_none (by omega)] at he
      exact absurd he (by simp)
    rw [hb.length] at hp
    rw [(hb.entry p e he).2.1] at hv
    have hp4 : p < AvailablePages := by simpa using hv
    refine ⟨p, hp4, ?_⟩
    unfold AddrSpace.slotPage
    rw [hb.slots p, if_pos (by omega)]
    unfold AvailablePages at hp4
    exact toInt32_u32_of_range (by omega) (by omega)
  · intro i e hi he
    rw [(hb.entry i e he).2.2.1]
    simpa using hi

/-- Every live address space of a reachable state satisfies `Tracked`, whatever
the events were. -/
theorem reach_tracked {c : Params} {k : Kernel} (h : Reach c anyEvent k) :
    ∀ (i : Nat) (s : AddrSpace), k.spaces[i]? = some s → s.Tracked := by
  induction h with
  | boot m =>
    intro i s hs
    simp [Kernel.boot] at hs
  | step ev _ _ hex ih =>
    have lift : ∀ {k k' : Kernel} {i : Nat}
        {op : AddrSpace → Machine → Option (AddrSpace × Machine)},
        k.onSpace i op = some k' →
        (∀ s s' m', s.Tracked → op s k.machine = some (s', m') → s'.Tracked) →
        (∀ (j : Nat) (t : AddrSpace), k.spaces[j]? = some t → t.Tracked) →
        ∀ (j : Nat) (t : AddrSpace), k'.spaces[j]? = some t → t.Tracked := by
      intro k k' i op hon hop hall j t ht
      obtain ⟨s, s', m', hs, ho, rfl⟩ := onSpace_eq_some hon
      simp only [getElem?_set_space s' hs] at ht
      by_cases hji : j = i
      · simp only [hji, if_true, Option.some.injEq] at ht
        subst ht
        exact hop s _ m' (hall i s hs) ho
      · simp only [hji, if_false] at ht
        exact hall j t ht
    cases ev with
    | create executable stored j =>
      obtain ⟨s, k1, hcons, rfl⟩ := exec_create_eq_some hex
      have hb := construct_spec hcons
      intro i t ht
      simp only [hb.spaces] at ht
      rcases getElem?_append_singleton _ _ _ _ ht with ⟨_, h1⟩ | ⟨_, rfl⟩
      · exact ih i t h1
      · exact built_tracked hb
    | fifo i a =>
      exact lift hex (fun s s' m' hT hop => FIFO_tracked hT hop) ih
    | secondChance i fuel a =>
      exact lift hex (fun s s' m' hT hop => by
        rw [SecondChance_none hT] at hop
        cases hop) ih
    | access i vpn offset store =>
      exact lift hex (fun s s' m' hT hop => access_tracked hT hop) ih

/-- C4. Residency bound: in every state reached from construction by any
sequence of page faults handled by `FIFO` or by `SecondChance` (at any address,
with any bound on the scan, and with accesses of the emulator in between), the
number of resident (valid) page-table entries of each address space is at most
`AvailablePages` and at most `numPages`. -/
theorem residency_bound (c : Params) (k : Kernel) (h : Reach c anyEvent k) (i : Nat)
    (s : AddrSpace) (hs : k.spaces[i]? = some s) :
    residentCount s.pageTable ≤ AvailablePages ∧ residentCount s.pageTable ≤ s.numPages :=
  tracked_bound (reach_tracked h i s hs)

/-- C4, witness: on the stock machine an image of 12 pages is loaded and takes a
FIFO fault on a page that is already resident; 3 of its pages are resident
afterwards. -/
theorem residency_bound_witness :
    ∃ k s, Reach stock anyEvent k ∧ k.spaces[0]? = some s ∧
      residentCount s.pageTable = 3 ∧ s.numPages = 12 ∧
      residentCount s.pageTable ≤ AvailablePages ∧ residentCount s.pageTable ≤ s.numPages := by
  have h : (runChecked stock (fun _ _ => true) loadAndFaultOnResident bootedStock).bind
      (fun k => k.spaces[0]?.map fun s => (residentCount s.pageTable, s.numPages))
      = some (3, 12) := by decide
  obtain ⟨k, hk, hv⟩ := Option.bind_eq_some.mp h
  obtain ⟨s, hs, hv⟩ := Option.map_eq_some'.mp hv
  simp only [Prod.mk.injEq] at hv
  have hr : Reach stock anyEvent k :=
    runChecked_reach (fun _ _ _ => trivial) _ _ _ (Reach.boot zeroMachine) hk
  exact ⟨k, s, hr, hs, hv.1, hv.2, residency_bound stock k hr 0 s hs⟩

/-! ## C5: the swap round trip -/

theorem Clear_spec {b b' : BitMap} {z : Int} (h : BitMap.Clear b z = some b') :
    0 ≤ z ∧ ∀ g, BitMap.Test b' g = if g = z then false else BitMap.Test b g := by
  unfold BitMap.Clear at h
  by_cases hc : 0 ≤ z ∧ z.toNat < b.length
  · rw [if_pos hc] at h
    simp only [Option.some.injEq] at h
    subst h
    refine ⟨hc.1, ?_⟩
    intro g
    unfold BitMap.Test
    by_cases hg : 0 ≤ g
    · by_cases hgz : g = z
      · subst hgz
        simp [hg, List.getD_eq_getElem?_getD, List.getElem?_set, hc.2]
      · have : z.toNat ≠ g.toNat := by omega
        simp [hg, hgz, List.getD_eq_getElem?_getD, List.getElem?_set, this]
    · have : g ≠ z := by omega
      simp [hg, this]
  · rw [if_neg hc] at h
    cases h

/-- What `WriteBack` does: nothing but clearing `dirty` unless the page is dirty
and backed by the swap file; then it claims a slot, records it and writes the
frame into it. -/
theorem WriteBack_effect {c : Params} {o : Int} {s s1 : AddrSpace} {m : Machine}
    (h : AddrSpace.WriteBack c o s m = some s1) :
    ∃ e, getEntry s.pageTable o = some e ∧
      ((¬ (e.dirty = true ∧ e.swapKind = true) ∧
          s1.virtualSpaceMap = s.virtualSpaceMap ∧ s1.virtualSpaceFile = s.virtualSpaceFile ∧
          s1.pageTable = s.pageTable.set o.toNat { e with dirty := false }) ∨
       (e.dirty = true ∧ e.swapKind = true ∧ ∃ f map, BitMap.Find s.virtualSpaceMap = some (f, map) ∧
          s1.virtualSpaceMap = map ∧
          s1.virtualSpaceFile =
            WriteAt s.virtualSpaceFile m.mainMemory (e.physicalPage * c.PageSize) c.PageSize
              (f * c.PageSize) ∧
          s1.pageTable =
            s.pageTable.set o.toNat { e with inFileAddr := f * c.PageSize, dirty := false })) := by
  unfold AddrSpace.WriteBack at h
  cases he : getEntry s.pageTable o with
  | none => simp [he] at h
  | some e =>
    simp only [he] at h
    refine ⟨e, rfl, ?_⟩
    by_cases hd : e.dirty = true
    · rw [if_pos hd] at h
      cases hty : e.type with
      | none =>
        simp only [hty, Option.some.injEq] at h
        subst h
        exact Or.inl ⟨by simp [TranslationEntry.swapKind, hty], rfl, rfl, by simp [hty]⟩
      | some τ =>
        cases τ with
        | code =>
          simp only [hty, Option.some.injEq] at h
          subst h
          exact Or.inl ⟨by simp [TranslationEntry.swapKind, hty], rfl, rfl, by simp [hty]⟩
        | initData =>
          simp only [hty, Option.some.injEq] at h
          subst h
          exact Or.inl ⟨by simp [TranslationEntry.swapKind, hty], rfl, rfl, by simp [hty]⟩
        | uninitData =>
          simp only [hty] at h
          cases hF : BitMap.Find s.virtualSpaceMap with
          | none => simp [hF] at h
          | some r =>
            obtain ⟨f, map⟩ := r
            simp only [hF, Option.some.injEq] at h
            subst h
            exact Or.inr ⟨hd, by simp [TranslationEntry.swapKind, hty], f, map, rfl, rfl, rfl,
              by simp [hty]⟩
        | userStack =>
          simp only [hty] at h
          cases hF : BitMap.Find s.virtualSpaceMap with
          | none => simp [hF] at h
          | some r =>
            obtain ⟨f, map⟩ := r
            simp only [hF, Option.some.injEq] at h
            subst h
            exact Or.inr ⟨hd, by simp [TranslationEntry.swapKind, hty], f, map, rfl, rfl, rfl,
              by simp [hty]⟩
    · rw [if_neg hd] at h
      simp only [Option.some.injEq] at h
      subst h
      have hdf : e.dirty = false := by simpa using hd
      refine Or.inl ⟨fun hc => hd hc.1, rfl, rfl, ?_⟩
      have : ({ e with dirty := false } : TranslationEntry) = e := by
        cases e; simp_all
      rw [this]
      exact (set_eq_of_getElem? (getEntry_eq_some he).2).symm

/-- What `ReadIn` does to the swap store, the page table and memory. -/
theorem ReadIn_effect {c : Params} {n : Int} {s s' : AddrSpace} {m m' : Machine}
    (h : AddrSpace.ReadIn c n s m = some (s', m')) :
    ∃ e, getEntry s.pageTable n = some e ∧ s'.virtualSpaceFile = s.virtualSpaceFile ∧
      ((e.swapKind = true ∧ 0 ≤ e.inFileAddr ∧
          ∃ map, BitMap.Clear s.virtualSpaceMap (Int.tdiv e.inFileAddr c.PageSize) = some map ∧
            s'.virtualSpaceMap = map ∧
            s'.pageTable = s.pageTable.set n.toNat { e with inFileAddr := -1 } ∧
            m'.mainMemory =
              ReadAt s.virtualSpaceFile m.mainMemory (e.physicalPage * c.PageSize) c.PageSize
                e.inFileAddr) ∨
       (¬ (e.swapKind = true ∧ 0 ≤ e.inFileAddr) ∧ s'.virtualSpaceMap = s.virtualSpaceMap ∧
          s'.pageTable = s.pageTable)) := by
  unfold AddrSpace.ReadIn at h
  cases he : getEntry s.pageTable n with
  | none => simp [he] at h
  | some e =>
    simp only [he] at h
    refine ⟨e, rfl, ?_⟩
    cases hty : e.type with
    | none =>
      simp only [hty, Option.some.injEq, Prod.mk.injEq] at h
      obtain ⟨rfl, rfl⟩ := h
      exact ⟨rfl, Or.inr ⟨by simp [TranslationEntry.swapKind, hty], rfl, rfl⟩⟩
    | some τ =>
      cases τ with
      | code =>
        simp only [hty, Option.some.injEq, Prod.mk.injEq] at h
        obtain ⟨rfl, rfl⟩ := h
        exact ⟨rfl, Or.inr ⟨by simp [TranslationEntry.swapKind, hty], rfl, rfl⟩⟩
      | initData =>
        simp only [hty, Option.some.injEq, Prod.mk.injEq] at h
        obtain ⟨rfl, rfl⟩ := h
        exact ⟨rfl, Or.inr ⟨by simp [TranslationEntry.swapKind, hty], rfl, rfl⟩⟩
      | uninitData =>
        simp only [hty] at h
        by_cases hz : e.inFileAddr ≥ 0
        · rw [if_pos hz] at h
          cases hC : BitMap.Clear s.virtualSpaceMap (Int.tdiv e.inFileAddr c.PageSize) with
          | none => simp [hC] at h
          | some map =>
            simp only [hC, Option.some.injEq, Prod.mk.injEq] at h
            obtain ⟨rfl, rfl⟩ := h
            exact ⟨rfl, Or.inl ⟨by simp [TranslationEntry.swapKind, hty], hz, map, rfl, rfl,
              by simp [hty], rfl⟩⟩
        · rw [if_neg hz] at h
          simp only [Option.some.injEq, Prod.mk.injEq] at h
          obtain ⟨rfl, rfl⟩ := h
          exact ⟨rfl, Or.inr ⟨fun hc => hz hc.2, rfl, rfl⟩⟩
      | userStack =>
        simp only [hty] at h
        by_cases hz : e.inFileAddr ≥ 0
        · rw [if_pos hz] at h
          cases hC : BitMap.Clear s.virtualSpaceMap (Int.tdiv e.inFileAddr c.PageSize) with
          | none => simp [hC] at h
          | some map =>
            simp only [hC, Option.some.injEq, Prod.mk.injEq] at h
            obtain ⟨rfl, rfl⟩ := h
            exact ⟨rfl, Or.inl ⟨by simp [TranslationEntry.swapKind, hty], hz, map, rfl, rfl,
              by simp [hty], rfl⟩⟩
        · rw [if_neg hz] at h
          simp only [Option.some.injEq, Prod.mk.injEq] at h
          obtain ⟨rfl, rfl⟩ := h
          exact ⟨rfl, Or.inr ⟨fun hc => hz hc.2, rfl, rfl⟩⟩

theorem slot_of_backed {c : Params} (hP : 0 < c.PageSize) {e : TranslationEntry} {z : Int}
    (hk : e.swapKind = true) (ha : e.inFileAddr = z * c.PageSize) (hz : 0 ≤ z) :
    e.slot c = some z := by
  unfold TranslationEntry.slot
  have h0 : 0 ≤ e.inFileAddr := by rw [ha]; exact Int.mul_nonneg hz hP.le
  rw [if_pos ⟨hk, h0⟩, ha, Int.mul_tdiv_cancel _ hP.ne']

theorem slot_eq_of_same {c : Params} {e x : TranslationEntry} (ht : x.type = e.type)
    (ha : x.inFileAddr = e.inFileAddr) : x.slot c = e.slot c := by
  unfold TranslationEntry.slot TranslationEntry.swapKind
  rw [ht, ha]

/-- Swap-slot ownership after one entry and the allocator change, when the slots
of the other entries stay claimed and the slot of the new entry is claimed and
recorded by no other entry. -/
theorem SlotsOwned_update {c : Params} {pt : List TranslationEntry} {map map' : BitMap}
    {i : Int} {e x : TranslationEntry} (hO : SlotsOwned c pt map) (he : getEntry pt i = some e)
    (ha : ∀ r er z, r ≠ i → getEntry pt r = some er → er.slot c = some z →
      BitMap.Test map' z = true)
    (hb : ∀ f, x.slot c = some f → BitMap.Test map' f = true ∧
      ∀ r er, r ≠ i → getEntry pt r = some er → er.slot c ≠ some f) :
    SlotsOwned c (pt.set i.toNat x) map' := by
  intro r e' z hget hslot
  rw [getEntry_set he] at hget
  by_cases hri : r = i
  · rw [if_pos hri] at hget
    simp only [Option.some.injEq] at hget
    subst hget
    refine ⟨(hb z hslot).1, ?_⟩
    intro r' e'' hget' hslot'
    rw [getEntry_set he] at hget'
    by_cases hr' : r' = i
    · rw [hr', hri]
    · rw [if_neg hr'] at hget'
      exact absurd hslot' ((hb z hslot).2 r' e'' hr' hget')
  · rw [if_neg hri] at hget
    refine ⟨ha r e' z hri hget hslot, ?_⟩
    intro r' e'' hget' hslot'
    rw [getEntry_set he] at hget'
    by_cases hr' : r' = i
    · rw [if_pos hr'] at hget'
      simp only [Option.some.injEq] at hget'
      subst hget'
      exact absurd hslot ((hb z hslot').2 r e' hri hget)
    · rw [if_neg hr'] at hget'
      exact (hO r e' z hget hslot).2 r' e'' hget' hslot'

/-- An assignment that leaves kind and backing offset of the entry alone keeps
swap-slot ownership. -/
theorem SlotsOwned_set_same {c : Params} {pt : List TranslationEntry} {map : BitMap}
    {i : Int} {e x : TranslationEntry} (hO : SlotsOwned c pt map) (he : getEntry pt i = some e)
    (ht : x.type = e.type) (hx : x.inFileAddr = e.inFileAddr) :
    SlotsOwned c (pt.set i.toNat x) map := by
  refine SlotsOwned_update hO he ?_ ?_
  · intro r er z _ hr hz
    exact (hO r er z hr hz).1
  · intro f hf
    rw [slot_eq_of_same ht hx] at hf
    refine ⟨(hO i e f he hf).1, ?_⟩
    intro r er hri hr hc
    exact hri ((hO i e f he hf).2 r er hr hc)

/-- The same for the record that page `p` is backed by its slot. -/
theorem Backed_set_same {c : Params} {pt : List TranslationEntry} {file : Bytes}
    {p slot : Int} {B : Int → Byte} {i : Int} {e x : TranslationEntry}
    (hB : Backed c pt file p slot B) (he : getEntry pt i = some e)
    (ht : x.type = e.type) (hx : x.inFileAddr = e.inFileAddr) :
    Backed c (pt.set i.toNat x) file p slot B := by
  obtain ⟨ep, hp, hk, ha, hz, hf⟩ := hB
  by_cases hpi : p = i
  · subst hpi
    rw [he] at hp
    simp only [Option.some.injEq] at hp
    subst hp
    refine ⟨x, by rw [getEntry_set he]; simp, ?_, by rw [hx, ha], hz, hf⟩
    unfold TranslationEntry.swapKind at hk ⊢
    rw [ht]; exact hk
  · exact ⟨ep, by rw [getEntry_set he, if_neg hpi]; exact hp, hk, ha, hz, hf⟩

/-- `modifyEntry` with an assignment that leaves kind and backing offset alone. -/
theorem modify_keeps {c : Params} {pt pt' : List TranslationEntry} {map : BitMap}
    {file : Bytes} {p slot : Int} {B : Int → Byte} {i : Int}
    {f : TranslationEntry → TranslationEntry} (h : modifyEntry pt i f = some pt')
    (ht : ∀ e, (f e).type = e.type) (hx : ∀ e, (f e).inFileAddr = e.inFileAddr)
    (hO : SlotsOwned c pt map) (hB : Backed c pt file p slot B) :
    SlotsOwned c pt' map ∧ Backed c pt' file p slot B := by
  obtain ⟨e, he, rfl⟩ := modifyEntry_eq_some h
  exact ⟨SlotsOwned_set_same hO he (ht e) (hx e), Backed_set_same hB he (ht e) (hx e)⟩

theorem region_disjoint {P f z k : Int} (hP : 0 < P) (hfz : f ≠ z) (hk0 : 0 ≤ k) (hk1 : k < P) :
    ¬ (f * P ≤ z * P + k ∧ z * P + k < f * P + P) := by
  intro ⟨h1, h2⟩
  rcases lt_or_gt_of_ne hfz with h | h
  · have : (f + 1) * P ≤ z * P := mul_le_mul_of_nonneg_right (by omega) hP.le
    have e : (f + 1) * P = f * P + P := by ring
    omega
  · have : (z + 1) * P ≤ f * P := mul_le_mul_of_nonneg_right (by omega) hP.le
    have e : (z + 1) * P = z * P + P := by ring
    omega

/-- `WriteBack` of any page keeps swap-slot ownership and, when page `p` is not
dirty, the record that `p` is backed by its slot; the `valid` bits stay. -/
theorem WriteBack_keeps {c : Params} (hP : 0 < c.PageSize) {o : Int} {s s1 : AddrSpace}
    {m : Machine} {p slot : Int} {B : Int → Byte} (h : AddrSpace.WriteBack c o s m = some s1)
    (hO : SlotsOwned c s.pageTable s.virtualSpaceMap)
    (hB : Backed c s.pageTable s.virtualSpaceFile p slot B)
    (hclean : ∃ e, getEntry s.pageTable p = some e ∧ e.dirty = false) :
    SlotsOwned c s1.pageTable s1.virtualSpaceMap ∧
      Backed c s1.pageTable s1.virtualSpaceFile p slot B := by
  obtain ⟨e, he, hcase⟩ := WriteBack_effect h
  rcases hcase with ⟨_, hm, hf, hpt⟩ | ⟨hd, hk, f, map, hF, hm, hf, hpt⟩
  · rw [hm, hf, hpt]
    exact ⟨SlotsOwned_set_same hO he rfl rfl, Backed_set_same hB he rfl rfl⟩
  · obtain ⟨hf0, hf1, _, _, hf4⟩ := Find_spec hF
    have hop : o ≠ p := by
      intro hc
      obtain ⟨ep, hep, hdp⟩ := hclean
      rw [← hc, he] at hep
      simp only [Option.some.injEq] at hep
      rw [hep, hdp] at hd
      exact absurd hd (by simp)
    rw [hm, hf, hpt]
    refine ⟨?_, ?_⟩
    · refine SlotsOwned_update hO he ?_ ?_
      · intro r er z _ hr hz
        rw [hf4]; split
        · rfl
        · exact (hO r er z hr hz).1
      · intro g hg
        have hslot : ({ e with inFileAddr := f * c.PageSize, dirty := false } :
            TranslationEntry).slot c = some f := slot_of_backed hP hk rfl hf1
        rw [hslot] at hg
        simp only [Option.some.injEq] at hg
        subst hg
        refine ⟨by rw [hf4]; simp, ?_⟩
        intro r er _ hr hc
        have := (hO r er f hr hc).1
        rw [hf0] at this
        exact absurd this (by simp)
    · obtain ⟨ep, hp, hkp, hap, hz, hfile⟩ := hB
      refine ⟨ep, by rw [getEntry_set he, if_neg (Ne.symm hop)]; exact hp, hkp, hap, hz, ?_⟩
      intro k hk0 hk1
      have hfs : f ≠ slot := by
        intro hc
        have := (hO p ep slot hp (slot_of_backed hP hkp hap hz)).1
        rw [← hc, hf0] at this
        exact absurd this (by simp)
      unfold WriteAt
      rw [if_neg (region_disjoint hP hfs hk0 hk1)]
      exact hfile k hk0 hk1

theorem WriteBack_flags {c : Params} {o : Int} {s s1 : AddrSpace} {m : Machine} {p : Int}
    (h : AddrSpace.WriteBack c o s m = some s1)
    (hclean : ∃ e, getEntry s.pageTable p = some e ∧ e.valid = false ∧ e.dirty = false) :
    ∃ e, getEntry s1.pageTable p = some e ∧ e.valid = false ∧ e.dirty = false := by
  obtain ⟨e, a, he, hpt, _⟩ := WriteBack_table h
  obtain ⟨ep, hp, hv, hd⟩ := hclean
  rw [hpt]
  by_cases hpo : p = o
  · subst hpo
    rw [he] at hp
    simp only [Option.some.injEq] at hp
    subst hp
    exact ⟨{ e with dirty := false, inFileAddr := a }, by rw [getEntry_set he, if_pos rfl], hv, rfl⟩
  · exact ⟨ep, by rw [getEntry_set he, if_neg hpo]; exact hp, hv, hd⟩

theorem Swap_parts {c : Params} {o n : Int} {s s' : AddrSpace} {m m' : Machine}
    (h : AddrSpace.Swap c o n s m = some (s', m')) :
    ∃ s1 eo pt1 pt2 pt3, AddrSpace.WriteBack c o s m = some s1 ∧
      getEntry s1.pageTable o = some eo ∧
      modifyEntry s1.pageTable n (fun e => { e with physicalPage := eo.physicalPage }) = some pt1 ∧
      modifyEntry pt1 o (fun e => { e with physicalPage := -1, valid := false }) = some pt2 ∧
      modifyEntry pt2 n (fun e => { e with valid := true, use := true, dirty := false })
        = some pt3 ∧
      AddrSpace.ReadIn c n { s1 with pageTable := pt3 } m = some (s', m') := by
  unfold AddrSpace.Swap at h
  simp only [Option.bind_eq_some] at h
  obtain ⟨s1, hW, eo, hget, pt1, h1, pt2, h2, pt3, h3, hR⟩ := h
  exact ⟨s1, eo, pt1, pt2, pt3, hW, hget, h1, h2, h3, hR⟩

/-- The `valid` and `dirty` bits of page `p` under an assignment to entry `i`. -/
theorem modify_flags {pt pt' : List TranslationEntry} {i p : Int}
    {f : TranslationEntry → TranslationEntry} (h : modifyEntry pt i f = some pt')
    (hp : ∃ e, getEntry pt p = some e ∧ e.valid = false ∧ e.dirty = false)
    (hf : i = p → ∀ e, e.valid = false → e.dirty = false →
      (f e).valid = false ∧ (f e).dirty = false) :
    ∃ e, getEntry pt' p = some e ∧ e.valid = false ∧ e.dirty = false := by
  obtain ⟨e, he, rfl⟩ := modifyEntry_eq_some h
  obtain ⟨ep, hep, hv, hd⟩ := hp
  by_cases hpi : p = i
  · subst hpi
    rw [he] at hep
    simp only [Option.some.injEq] at hep
    subst hep
    exact ⟨f e, by rw [getEntry_set he, if_pos rfl], hf rfl e hv hd⟩
  · exact ⟨ep, by rw [getEntry_set he, if_neg hpi]; exact hep, hv, hd⟩

/-- `ReadIn` of another page than `p` keeps swap-slot ownership, the record that
`p` is backed by its slot, and the entry of `p`. -/
theorem ReadIn_keeps {c : Params} {n : Int} {s s' : AddrSpace} {m m' : Machine}
    {p slot : Int} {B : Int → Byte} (h : AddrSpace.ReadIn c n s m = some (s', m'))
    (hnp : n ≠ p) (hO : SlotsOwned c s.pageTable s.virtualSpaceMap)
    (hB : Backed c s.pageTable s.virtualSpaceFile p slot B) :
    SlotsOwned c s'.pageTable s'.virtualSpaceMap ∧
      Backed c s'.pageTable s'.virtualSpaceFile p slot B ∧
      getEntry s'.pageTable p = getEntry s.pageTable p := by
  obtain ⟨e, he, hf, hcase⟩ := ReadIn_effect h
  rcases hcase with ⟨hk, h0, map, hC, hm, hpt, _⟩ | ⟨_, hm, hpt⟩
  · obtain ⟨_, hc4⟩ := Clear_spec hC
    have hslot : e.slot c = some (Int.tdiv e.inFileAddr c.PageSize) := by
      unfold TranslationEntry.slot
      rw [if_pos ⟨hk, h0⟩]
    rw [hm, hf, hpt]
    refine ⟨?_, ?_, by rw [getEntry_set he, if_neg (Ne.symm hnp)]⟩
    · refine SlotsOwned_update hO he ?_ ?_
      · intro r er z hr hget hz
        rw [hc4]
        have : z ≠ Int.tdiv e.inFileAddr c.PageSize := by
          intro hc
          rw [hc] at hz
          exact hr ((hO n e _ he hslot).2 r er hget hz)
        rw [if_neg this]
        exact (hO r er z hget hz).1
      · intro f hf
        unfold TranslationEntry.slot at hf
        simp at hf
    · obtain ⟨ep, hp, hkp, hap, hz, hfile⟩ := hB
      exact ⟨ep, by rw [getEntry_set he, if_neg (Ne.symm hnp)]; exact hp, hkp, hap, hz, hfile⟩
  · rw [hm, hf, hpt]
    exact ⟨hO, hB, rfl⟩

/-- Swapping in another page than `p` keeps swap-slot ownership and keeps `p`
swapped out in its slot. -/
theorem Swap_keeps {c : Params} (hP : 0 < c.PageSize) {o n : Int} {s s' : AddrSpace}
    {m m' : Machine} {p slot : Int} {B : Int → Byte}
    (h : AddrSpace.Swap c o n s m = some (s', m')) (hnp : n ≠ p)
    (hO : s.SwapOwned c) (hS : s.SwappedOut c p slot B) :
    s'.SwapOwned c ∧ s'.SwappedOut c p slot B := by
  obtain ⟨s1, eo, pt1, pt2, pt3, hW, _, h1, h2, h3, hR⟩ := Swap_parts h
  obtain ⟨hB, hfl⟩ := hS
  have hclean : ∃ e, getEntry s.pageTable p = some e ∧ e.dirty = false := by
    obtain ⟨e, he, _, hd⟩ := hfl
    exact ⟨e, he, hd⟩
  obtain ⟨a1, a2⟩ := WriteBack_keeps hP hW hO hB hclean
  have a3 := WriteBack_flags hW hfl
  obtain ⟨b1, b2⟩ := modify_keeps h1 (fun _ => rfl) (fun _ => rfl) a1 a2
  have b3 := modify_flags h1 a3 (fun hc => absurd hc hnp)
  obtain ⟨c1, c2⟩ := modify_keeps h2 (fun _ => rfl) (fun _ => rfl) b1 b2
  have c3 := modify_flags h2 b3 (fun _ e _ hd => ⟨rfl, hd⟩)
  obtain ⟨d1, d2⟩ := modify_keeps h3 (fun _ => rfl) (fun _ => rfl) c1 c2
  have d3 := modify_flags h3 c3 (fun hc => absurd hc hnp)
  obtain ⟨e1, e2, e3⟩ := ReadIn_keeps (p := p) (B := B) hR hnp d1 d2
  exact ⟨e1, e2, by rw [e3]; exact d3⟩

/-- An access of the emulator keeps swap-slot ownership and keeps `p` swapped
out in its slot. -/
theorem access_keeps {c : Params} {vpn offset : Int} {store : Option Byte} {s s' : AddrSpace}
    {m m' : Machine} {p slot : Int} {B : Int → Byte}
    (h : AddrSpace.access c vpn offset store s m = some (s', m'))
    (hO : s.SwapOwned c) (hS : s.SwappedOut c p slot B) :
    s'.SwapOwned c ∧ s'.SwappedOut c p slot B := by
  obtain ⟨e, e1, he, hev, hpt, _, _, _, hty, hin, _, _, _, _⟩ := access_table h
  obtain ⟨hB, ep, hep, hv, hd⟩ := hS
  have hvp : vpn ≠ p := by
    intro hc
    rw [hc, hep] at he
    simp only [Option.some.injEq] at he
    rw [← he, hv] at hev
    exact absurd hev (by simp)
  have hmap : s'.virtualSpaceMap = s.virtualSpaceMap := by
    unfold AddrSpace.access at h
    simp only [he] at h
    split at h
    · cases store <;> simp only [Option.some.injEq, Prod.mk.injEq] at h <;>
        obtain ⟨rfl, _⟩ := h <;> rfl
    · cases h
  have hfile : s'.virtualSpaceFile = s.virtualSpaceFile := by
    unfold AddrSpace.access at h
    simp only [he] at h
    split at h
    · cases store <;> simp only [Option.some.injEq, Prod.mk.injEq] at h <;>
        obtain ⟨rfl, _⟩ := h <;> rfl
    · cases h
  unfold AddrSpace.SwapOwned AddrSpace.SwappedOut
  rw [hmap, hfile, hpt]
  exact ⟨SlotsOwned_set_same hO he hty hin, Backed_set_same hB he hty hin,
    ep, by rw [getEntry_set he, if_neg (Ne.symm hvp)]; exact hep, hv, hd⟩

/-- Whatever happens between eviction and reload, page `p` stays swapped out in
its slot. -/
theorem Meanwhile_keeps {c : Params} (hP : 0 < c.PageSize) {p slot : Int} {B : Int → Byte}
    {st st' : AddrSpace × Machine} (h : Meanwhile c p st st')
    (hO : st.1.SwapOwned c) (hS : st.1.SwappedOut c p slot B) :
    st'.1.SwapOwned c ∧ st'.1.SwappedOut c p slot B := by
  induction h with
  | refl => exact ⟨hO, hS⟩
  | swap oldPage newPage _ hnp hsw ih =>
    exact Swap_keeps hP hsw hnp ih.1 ih.2
  | access vpn offset store _ hac ih =>
    exact access_keeps hac ih.1 ih.2
  | slots virtualPages firstInPage _ ih => exact ih
  | memory m _ ih => exact ih

/-- Evicting a dirty page backed by the swap file stores the bytes of its frame
in a slot that was free, and leaves the page swapped out in that slot. -/
theorem evict_stores {c : Params} (hP : 0 < c.PageSize) {p q : Int} {s s1 : AddrSpace}
    {m m1 : Machine} {e : TranslationEntry} (h : AddrSpace.Swap c p q s m = some (s1, m1))
    (hqp : q ≠ p) (hO : s.SwapOwned c) (he : getEntry s.pageTable p = some e)
    (hd : e.dirty = true) (hk : e.swapKind = true) :
    ∃ slot, BitMap.Test s.virtualSpaceMap slot = false ∧ s1.SwapOwned c ∧
      s1.SwappedOut c p slot (fun k => m.mainMemory (e.physicalPage * c.PageSize + k)) := by
  obtain ⟨s0, eo, pt1, pt2, pt3, hW, _, h1, h2, h3, hR⟩ := Swap_parts h
  obtain ⟨e', he', hcase⟩ := WriteBack_effect hW
  rw [he] at he'
  simp only [Option.some.injEq] at he'
  subst he'
  rcases hcase with ⟨hno, _⟩ | ⟨_, _, f, map, hF, hm, hf, hpt⟩
  · exact absurd ⟨hd, hk⟩ hno
  · obtain ⟨hf0, hf1, _, _, hf4⟩ := Find_spec hF
    have hslot : ({ e with inFileAddr := f * c.PageSize, dirty := false } :
        TranslationEntry).slot c = some f := slot_of_backed hP hk rfl hf1
    have hp0 : getEntry s0.pageTable p
        = some { e with inFileAddr := f * c.PageSize, dirty := false } := by
      rw [hpt, getEntry_set he, if_pos rfl]
    -- ownership and backing right after the write-back
    have a1 : SlotsOwned c s0.pageTable s0.virtualSpaceMap := by
      rw [hm, hpt]
      refine SlotsOwned_update hO he ?_ ?_
      · intro r er z _ hr hz
        rw [hf4]; split
        · rfl
        · exact (hO r er z hr hz).1
      · intro g hg
        rw [hslot] at hg
        simp only [Option.some.injEq] at hg
        subst hg
        refine ⟨by rw [hf4]; simp, ?_⟩
        intro r er _ hr hc
        have := (hO r er f hr hc).1
        rw [hf0] at this
        exact absurd this (by simp)
    have a2 : Backed c s0.pageTable s0.virtualSpaceFile p f
        (fun k => m.mainMemory (e.physicalPage * c.PageSize + k)) := by
      refine ⟨_, hp0, hk, rfl, hf1, ?_⟩
      intro k hk0 hk1
      rw [hf]
      unfold WriteAt
      rw [if_pos ⟨by omega, by omega⟩]
      congr 1; ring
    obtain ⟨b1, b2⟩ := modify_keeps h1 (fun _ => rfl) (fun _ => rfl) a1 a2
    obtain ⟨c1, c2⟩ := modify_keeps h2 (fun _ => rfl) (fun _ => rfl) b1 b2
    -- the second assignment marks `p` non-resident
    have c3 : ∃ x, getEntry pt2 p = some x ∧ x.valid = false ∧ x.dirty = false := by
      obtain ⟨x1, hx1, rfl⟩ := modifyEntry_eq_some h1
      obtain ⟨x2, hx2, rfl⟩ := modifyEntry_eq_some h2
      refine ⟨_, by rw [getEntry_set hx2, if_pos rfl], rfl, ?_⟩
      rw [getEntry_set hx1, if_neg (Ne.symm hqp), hp0] at hx2
      simp only [Option.some.injEq] at hx2
      rw [← hx2]
    obtain ⟨d1, d2⟩ := modify_keeps h3 (fun _ => rfl) (fun _ => rfl) c1 c2
    have d3 := modify_flags h3 c3 (fun hc => absurd hc hqp)
    obtain ⟨e1, e2, e3⟩ := ReadIn_keeps hR hqp d1 d2
    exact ⟨f, hf0, e1, e2, by rw [e3]; exact d3⟩

/-- Reloading a page that is swapped out brings the bytes of its slot into its
frame and frees the slot. -/
theorem reload_restores {c : Params} (hP : 0 < c.PageSize) {r p slot : Int} {B : Int → Byte}
    {s s' : AddrSpace} {m m' : Machine} (h : AddrSpace.Swap c r p s m = some (s', m'))
    (hO : s.SwapOwned c) (hS : s.SwappedOut c p slot B) :
    ∃ e', getEntry s'.pageTable p = some e' ∧ e'.valid = true ∧
      (∀ k, 0 ≤ k → k < c.PageSize → m'.mainMemory (e'.physicalPage * c.PageSize + k) = B k) ∧
      BitMap.Test s'.virtualSpaceMap slot = false := by
  obtain ⟨s0, eo, pt1, pt2, pt3, hW, _, h1, h2, h3, hR⟩ := Swap_parts h
  obtain ⟨hB, hfl⟩ := hS
  have hclean : ∃ e, getEntry s.pageTable p = some e ∧ e.dirty = false := by
    obtain ⟨e, he, _, hd⟩ := hfl
    exact ⟨e, he, hd⟩
  obtain ⟨a1, a2⟩ := WriteBack_keeps hP hW hO hB hclean
  obtain ⟨b1, b2⟩ := modify_keeps h1 (fun _ => rfl) (fun _ => rfl) a1 a2
  obtain ⟨c1, c2⟩ := modify_keeps h2 (fun _ => rfl) (fun _ => rfl) b1 b2
  obtain ⟨d1, d2⟩ := modify_keeps h3 (fun _ => rfl) (fun _ => rfl) c1 c2
  have hvalid : ∃ x, getEntry pt3 p = some x ∧ x.valid = true := by
    obtain ⟨x3, hx3, rfl⟩ := modifyEntry_eq_some h3
    exact ⟨_, by rw [getEntry_set hx3, if_pos rfl], rfl⟩
  obtain ⟨x, hx, hxv⟩ := hvalid
  obtain ⟨ex, hex, hk, ha, hz, hfile⟩ := d2
  rw [hx] at hex
  simp only [Option.some.injEq] at hex
  subst hex
  obtain ⟨e, he, hf, hcase⟩ := ReadIn_effect hR
  simp only at he hf hcase
  rw [hx] at he
  simp only [Option.some.injEq] at he
  subst he
  have h0 : 0 ≤ x.inFileAddr := by rw [ha]; exact Int.mul_nonneg hz hP.le
  rcases hcase with ⟨_, _, map, hC, hm, hpt, hmem⟩ | ⟨hno, _⟩
  · rw [ha, Int.mul_tdiv_cancel _ hP.ne'] at hC
    obtain ⟨_, hc4⟩ := Clear_spec hC
    refine ⟨{ x with inFileAddr := -1 }, by rw [hpt, getEntry_set hx, if_pos rfl], hxv, ?_, ?_⟩
    · intro k hk0 hk1
      rw [hmem]
      unfold ReadAt
      rw [if_pos ⟨by simp only; omega, by simp only; omega⟩, ha]
      simp only
      rw [← hfile k hk0 hk1]
      congr 1; ring
    · rw [hm, hc4, if_pos rfl]
  · exact absurd ⟨hk, h0⟩ hno

/-- C5. Swap round trip: let page `p` be resident, dirty and of kind uninitData
or stack, in an address space whose swap slots are owned (`SwapOwned`: the slot
an entry records is claimed, no two entries record the same slot).  If `p` is
evicted through `Swap(p, q)` and, whatever swaps of other pages, accesses,
bookkeeping and memory changes happen meanwhile, is later reloaded through
`Swap(r, p)`, then the frame of `p` after the reload holds byte for byte what
its frame held when it was evicted, and the swap slot that held these bytes
(a slot claimed at the eviction) is free right after the reload. -/
theorem swap_round_trip (c : Params) (s s1 s2 s3 : AddrSpace) (m m1 m2 m3 : Machine)
    (p q r : Int) (e : TranslationEntry) (hP : 0 < c.PageSize) (hO : s.SwapOwned c)
    (he : getEntry s.pageTable p = some e) (hres : e.valid = true) (hdirty : e.dirty = true)
    (hkind : e.type = some PageType.uninitData ∨ e.type = some PageType.userStack)
    (hq : q ≠ p) (hevict : AddrSpace.Swap c p q s m = some (s1, m1))
    (hlater : Meanwhile c p (s1, m1) (s2, m2))
    (hreload : AddrSpace.Swap c r p s2 m2 = some (s3, m3)) :
    ∃ slot e3, BitMap.Test s.virtualSpaceMap slot = false ∧
      s1.SwappedOut c p slot (fun k => m.mainMemory (e.physicalPage * c.PageSize + k)) ∧
      getEntry s3.pageTable p = some e3 ∧ e3.valid = true ∧
      (∀ k, 0 ≤ k → k < c.PageSize →
        m3.mainMemory (e3.physicalPage * c.PageSize + k)
          = m.mainMemory (e.physicalPage * c.PageSize + k)) ∧
      BitMap.Test s3.virtualSpaceMap slot = false := by
  have _ := hres
  have hk : e.swapKind = true := by
    unfold TranslationEntry.swapKind
    rcases hkind with h | h <;> simp [h]
  obtain ⟨slot, hfree, hO1, hS1⟩ := evict_stores hP hevict hq hO he hdirty hk
  obtain ⟨hO2, hS2⟩ := Meanwhile_keeps hP hlater hO1 hS1
  obtain ⟨e3, h3, hv3, hmem, hclear⟩ := reload_restores hP hreload hO2 hS2
  exact ⟨slot, e3, hfree, hS1, h3, hv3, hmem, hclear⟩

/-- A page table in which no entry records a swap slot has its slots owned. -/
theorem SlotsOwned_of_no_slot {c : Params} {pt : List TranslationEntry} (map : BitMap)
    (h : pt.all (fun e => (e.slot c).isNone) = true) : SlotsOwned c pt map := by
  intro r e z hget hslot
  have hmem : e ∈ pt := List.mem_iff_getElem?.mpr ⟨_, getElem?_of_getEntry hget⟩
  have := List.all_eq_true.mp h e hmem
  rw [hslot] at this
  exact absurd this (by simp)

theorem eq_some_get {α : Type} {o : Option α} (h : o.isSome = true) : o = some (o.get h) :=
  (Option.some_get h).symm

/-- C5, witness: on the stock machine stack page 11 is resident in frame 0 and
dirty, byte 5 of the frame being 7; it is evicted for page 5, meanwhile page 1
is evicted for page 6, then page 11 is reloaded; its frame again holds 7 at
byte 5. -/
theorem swap_round_trip_witness :
    ∃ slot e3, BitMap.Test dirtyStackPage.1.virtualSpaceMap slot = false ∧
      stackPageEvicted.1.SwappedOut stock 11 slot
        (fun k => dirtyStackPage.2.mainMemory (0 * stock.PageSize + k)) ∧
      getEntry stackPageReloaded.1.pageTable 11 = some e3 ∧ e3.valid = true ∧
      (∀ k, 0 ≤ k → k < stock.PageSize →
        stackPageReloaded.2.mainMemory (e3.physicalPage * stock.PageSize + k)
          = dirtyStackPage.2.mainMemory (0 * stock.PageSize + k)) ∧
      BitMap.Test stackPageReloaded.1.virtualSpaceMap slot = false ∧
      dirtyStackPage.2.mainMemory 5 = 7 :=
  have he : getEntry dirtyStackPage.1.pageTable 11 = some
      { virtualPage := 11, physicalPage := 0, valid := true, readOnly := false, use := true,
        dirty := true, inFileAddr := -1, type := some PageType.userStack } := by decide
  have h1 : AddrSpace.Swap stock 11 5 dirtyStackPage.1 dirtyStackPage.2
      = some stackPageEvicted := eq_some_get _
  have h2 : AddrSpace.Swap stock 1 6 stackPageEvicted.1 stackPageEvicted.2
      = some otherPageSwapped := eq_some_get _
  have h3 : AddrSpace.Swap stock 5 11 otherPageSwapped.1 otherPageSwapped.2
      = some stackPageReloaded := eq_some_get _
  have h := swap_round_trip stock dirtyStackPage.1 stackPageEvicted.1 otherPageSwapped.1
    stackPageReloaded.1 dirtyStackPage.2 stackPageEvicted.2 otherPageSwapped.2
    stackPageReloaded.2 11 5 5 _ (by decide)
    (SlotsOwned_of_no_slot _ (by decide)) he rfl rfl (Or.inr rfl) (by decide) h1
    (Meanwhile.swap 1 6 (Meanwhile.refl _) (by decide) h2) h3
  let ⟨slot, e3, h1, h2, h3, h4, h5, h6⟩ := h
  ⟨slot, e3, h1, h2, h3, h4, h5, h6, by decide⟩

/-! ## C6: zero-fill on first fault -/

/-- C6: `ReadIn` of a page of kind uninitData or stack whose `inFileAddr` is the
sentinel -1 returns, and what it returns is the address space it was given (so
the swap-region allocator, every `inFileAddr` and the swap file are as before)
with a memory in which all `PageSize` bytes of the frame of the page are zero and
every other byte is as before; the result is the same whatever the swap file
holds, so nothing is read from it. -/
theorem readIn_zero_fills (c : Params) (s : AddrSpace) (m : Machine) (newPage : Int)
    (e : TranslationEntry) (he : getEntry s.pageTable newPage = some e)
    (hkind : e.type = some PageType.uninitData ∨ e.type = some PageType.userStack)
    (hsentinel : e.inFileAddr = -1) :
    ∃ m', AddrSpace.ReadIn c newPage s m = some (s, m') ∧
      (∀ x, e.physicalPage * c.PageSize ≤ x → x < e.physicalPage * c.PageSize + c.PageSize →
        m'.mainMemory x = 0) ∧
      (∀ x, ¬ (e.physicalPage * c.PageSize ≤ x ∧ x < e.physicalPage * c.PageSize + c.PageSize) →
        m'.mainMemory x = m.mainMemory x) ∧
      m'.registers = m.registers ∧
      ∀ swapFile : Bytes,
        AddrSpace.ReadIn c newPage { s with virtualSpaceFile := swapFile } m
          = some ({ s with virtualSpaceFile := swapFile }, m') := by
  have hlt : ¬ e.inFileAddr ≥ 0 := by omega
  refine ⟨{ m with mainMemory := bzero m.mainMemory (e.physicalPage * c.PageSize) c.PageSize },
    ?_, ?_, ?_, rfl, ?_⟩
  · unfold AddrSpace.ReadIn
    rcases hkind with hk | hk <;> simp only [he, hk, if_neg hlt]
  · intro x h1 h2
    simp only [bzero]
    rw [if_pos ⟨h1, h2⟩]
  · intro x hx
    simp only [bzero]
    rw [if_neg hx]
  · intro swapFile
    unfold AddrSpace.ReadIn
    rcases hkind with hk | hk <;> simp only [he, hk, if_neg hlt]

/-- C6, witness: in the address space in which stack page 11 has been written
(it sits in frame 0 and was never swapped out) `ReadIn(11)` zero-fills
the 128 bytes of frame 0 and changes nothing else. -/
theorem readIn_zero_fills_witness :
    ∃ e m', getEntry dirtyStackPage.1.pageTable 11 = some e ∧
      e.type = some PageType.userStack ∧ e.inFileAddr = -1 ∧ e.physicalPage = 0 ∧
      AddrSpace.ReadIn stock 11 dirtyStackPage.1 dirtyStackPage.2 = some (dirtyStackPage.1, m') ∧
      (∀ x, 0 * stock.PageSize ≤ x → x < 0 * stock.PageSize + stock.PageSize →
        m'.mainMemory x = 0) ∧
      dirtyStackPage.2.mainMemory 5 = 7 := by
  have h : (getEntry dirtyStackPage.1.pageTable 11).map
      (fun e => (e.type, e.inFileAddr, e.physicalPage)) = some (some PageType.userStack, -1, 0) := by
    decide
  obtain ⟨e, he, hv⟩ := Option.map_eq_some'.mp h
  simp only [Prod.mk.injEq] at hv
  obtain ⟨hty, hin, hph⟩ := hv
  obtain ⟨m', h1, h2, _, _, _⟩ :=
    readIn_zero_fills stock dirtyStackPage.1 dirtyStackPage.2 11 e he (Or.inr hty) hin
  rw [hph] at h2
  exact ⟨e, m', he, hty, hin, hph, h1, h2, by decide⟩

/-! ## C7: FIFO ordering -/

/-- The entry of a page after a FIFO fault on another page that evicted it, and
the entry of the faulting page. -/
theorem FIFO_moves_frame {c : Params} {a : Int} {s s' : AddrSpace} {m m' : Machine}
    (h : AddrSpace.FIFO c a s m = some (s', m')) (hne : s.faultPage c a ≠ s.victim) :
    ∃ eo eo' en', getEntry s.pageTable s.victim = some eo ∧
      getEntry s'.pageTable s.victim = some eo' ∧ eo'.valid = false ∧ eo'.physicalPage = -1 ∧
      getEntry s'.pageTable (s.faultPage c a) = some en' ∧ en'.valid = true ∧
      en'.physicalPage = eo.physicalPage := by
  obtain ⟨eo, en, x, y, heo, hen, hpt, _⟩ := FIFO_table h
  have ho := getEntry_eq_some heo
  have hn := getEntry_eq_some hen
  have hlt := (List.getElem?_eq_some_iff.mp ho.2).1
  have hlt2 := (List.getElem?_eq_some_iff.mp hn.2).1
  have hne2 : (s.faultPage c a).toNat ≠ s.victim.toNat := by
    intro hc; apply hne; omega
  rw [if_neg hne, if_neg hne] at hpt
  simp only at hpt
  generalize hX : TranslationEntry.mk eo.virtualPage (-1) false eo.readOnly eo.use false x
    eo.type = X at hpt
  generalize hY : TranslationEntry.mk en.virtualPage eo.physicalPage true en.readOnly true false y
    en.type = Y at hpt
  refine ⟨eo, X, Y, heo, ?_, ?_, ?_, ?_, ?_, ?_⟩
  · unfold getEntry
    rw [if_pos ho.1, hpt, List.getElem?_set_ne hne2, List.getElem?_set_self hlt]
  · rw [← hX]
  · rw [← hX]
  · unfold getEntry
    rw [if_pos hn.1, hpt, List.getElem?_set_self (by rw [List.length_set]; exact hlt2)]
  · rw [← hY]
  · rw [← hY]

/-- C7: after construction of an address space of at least `AvailablePages`
pages, slots 0..3 of `virtualPages` name pages 0..3, exactly those pages are
resident and the cursor is slot 0, so the first FIFO fault evicts page 0 and the
second evicts page 1.  In general a FIFO fault that returns has written the
number of the faulting page into the slot at the cursor, advanced the cursor by
one modulo `AvailablePages` and left the other slots as they were; the page it
evicted is the one that slot named: when the faulting page is another page, that
page is no longer resident and its frame belongs to the faulting page. -/
theorem fifo_order (c : Params) :
    (∀ (executable : Bytes) (stored : NoffHeader) (j : Indeterminate) (k k' : Kernel)
        (s : AddrSpace),
      AddrSpace.construct c executable stored j k = some (s, k') → AvailablePages ≤ s.numPages →
        (∀ slot, slot < AvailablePages → s.virtualPages slot = (slot : Int)) ∧
        (∀ (p : Nat) (e : TranslationEntry), s.pageTable[p]? = some e →
          (e.valid = true ↔ p < AvailablePages)) ∧
        s.firstInPage = 0 ∧ s.victim = 0 ∧
        ∀ (a : Int) (m m1 : Machine) (s1 : AddrSpace),
          AddrSpace.FIFO c a s m = some (s1, m1) → s1.victim = 1) ∧
    (∀ (s s' : AddrSpace) (m m' : Machine) (a : Int),
      AddrSpace.FIFO c a s m = some (s', m') →
        s'.virtualPages s.firstInPage = s.faultPage c a ∧
        s'.firstInPage = (s.firstInPage + 1) % AvailablePages ∧
        (∀ slot, slot ≠ s.firstInPage → s'.virtualPages slot = s.virtualPages slot) ∧
        (s.faultPage c a ≠ s.victim →
          ∃ eo eo' en', getEntry s.pageTable s.victim = some eo ∧
            getEntry s'.pageTable s.victim = some eo' ∧ eo'.valid = false ∧
            eo'.physicalPage = -1 ∧
            getEntry s'.pageTable (s.faultPage c a) = some en' ∧ en'.valid = true ∧
            en'.physicalPage = eo.physicalPage)) := by
  refine ⟨?_, ?_⟩
  · intro executable stored j k k' s hcons hn
    have hB := construct_spec hcons
    have hA : AvailablePages = 4 := rfl
    have hmin : min s.numPages AvailablePages = 4 := by rw [hA] at hn ⊢; omega
    have hslots : ∀ slot, slot < AvailablePages → s.virtualPages slot = (slot : Int) := by
      intro slot hs
      rw [hB.slots slot, hmin, if_pos (by rw [hA] at hs; exact hs)]
    have hfirst : s.firstInPage = 0 := by rw [hB.first, hmin]; rfl
    refine ⟨hslots, ?_, hfirst, ?_, ?_⟩
    · intro p e he
      rw [(hB.entry p e he).2.1]
      simp
    · unfold AddrSpace.victim
      rw [hfirst, hslots 0 (by decide)]
      rfl
    · intro a m m1 s1 hf
      obtain ⟨_, _, _, _, _, _, _, hvp, hfi, _⟩ := FIFO_table hf
      unfold AddrSpace.victim
      rw [hfi, hvp, hfirst]
      have h1 : (0 + 1) % AvailablePages = 1 := rfl
      rw [h1, Function.update_noteq (by decide), hslots 1 (by decide)]
      rfl
  · intro s s' m m' a hf
    obtain ⟨_, _, _, _, _, _, _, hvp, hfi, _⟩ := FIFO_table hf
    refine ⟨?_, hfi, ?_, ?_⟩
    · rw [hvp, Function.update_same]
    · intro slot hs
      rw [hvp, Function.update_noteq hs]
    · intro hne
      exact FIFO_moves_frame hf hne

/-- C7, witness: the whole-page image (12 pages) is loaded on the stock machine;
the first FIFO fault, on page 11, evicts page 0 and leaves slots [11,1,2,3] with
the cursor at 1; the second, on page 10, evicts page 1 and leaves slots
[11,10,2,3] with the cursor at 2. -/
theorem fifo_order_witness :
    AddrSpace.construct stock onesFile wholePageHeader sampleJunk bootedStock = some loadedSpace ∧
    AvailablePages ≤ loadedSpace.1.numPages ∧
    AddrSpace.FIFO stock 1500 loadedSpace.1 loadedSpace.2.machine = some firstFault ∧
    AddrSpace.FIFO stock 1300 firstFault.1 firstFault.2 = some secondFault ∧
    loadedSpace.1.victim = 0 ∧ firstFault.1.victim = 1 ∧
    loadedSpace.1.faultPage stock 1500 = 11 ∧ firstFault.1.faultPage stock 1300 = 10 ∧
    (List.range 4).map firstFault.1.virtualPages = [11, 1, 2, 3] ∧
    (List.range 4).map secondFault.1.virtualPages = [11, 10, 2, 3] ∧
    firstFault.1.firstInPage = 1 ∧ secondFault.1.firstInPage = 2 ∧
    secondFault.1.virtualPages firstFault.1.firstInPage = firstFault.1.faultPage stock 1300 ∧
    secondFault.1.nonResident 1 :=
  have hc : AddrSpace.construct stock onesFile wholePageHeader sampleJunk bootedStock
      = some loadedSpace := eq_some_get _
  have h1 : AddrSpace.FIFO stock 1500 loadedSpace.1 loadedSpace.2.machine = some firstFault :=
    eq_some_get _
  have h2 : AddrSpace.FIFO stock 1300 firstFault.1 firstFault.2 = some secondFault :=
    eq_some_get _
  have hn : AvailablePages ≤ loadedSpace.1.numPages := by decide
  have hA := (fifo_order stock).1 onesFile wholePageHeader sampleJunk bootedStock loadedSpace.2
    loadedSpace.1 hc hn
  have hB := (fifo_order stock).2 firstFault.1 secondFault.1 firstFault.2 secondFault.2 1300 h2
  have hv : firstFault.1.victim = 1 :=
    hA.2.2.2.2 1500 loadedSpace.2.machine firstFault.2 firstFault.1 h1
  have hne : firstFault.1.faultPage stock 1300 ≠ firstFault.1.victim := by decide
  have hout : secondFault.1.nonResident 1 := by
    obtain ⟨_, eo', _, _, h3, h4, _⟩ := hB.2.2.2 hne
    rw [hv] at h3
    exact ⟨eo', h3, h4⟩
  ⟨hc, hn, h1, h2, hA.2.2.2.1, hv, by decide, by decide, by decide, by decide, by decide,
    by decide, hB.1, hout⟩

/-! ## C8, C9: the victim scan of `SecondChance` -/

/-- When entries `0 .. AvailablePages - 1` of the page table exist and have
their `use` bit set, the scan is still running after any number of evaluations
of its condition, with the page table it started from. -/
theorem scan_unfinished {pt : List TranslationEntry}
    (huse : ∀ i : Nat, i < AvailablePages → ∃ e, pt[i]? = some e ∧ e.use = true) :
    ∀ (fuel : Nat) (idx : Int), 0 ≤ idx → idx < (AvailablePages : Int) →
      AddrSpace.SecondChance.scan pt fuel idx
        = LoopResult.unfinished (pt, (idx + fuel) % (AvailablePages : Int)) := by
  have hA : (AvailablePages : Int) = 4 := rfl
  intro fuel
  induction fuel with
  | zero =>
    intro idx h0 h1
    rw [hA] at h1 ⊢
    simp only [AddrSpace.SecondChance.scan, Nat.cast_zero, add_zero]
    rw [Int.emod_eq_of_lt h0 h1]
  | succ fuel ih =>
    intro idx h0 h1
    rw [hA] at h1
    obtain ⟨e, he, hu⟩ := huse idx.toNat (by have : AvailablePages = 4 := rfl; omega)
    have hget : getEntry pt idx = some e := by
      unfold getEntry
      rw [if_pos h0]; exact he
    unfold AddrSpace.SecondChance.scan
    simp only [hget]
    rw [if_pos hu]
    rw [ih ((idx + 1) % (AvailablePages : Int)) (by rw [hA]; omega) (by rw [hA]; omega)]
    rw [hA]
    congr 2
    push_cast
    omega

/-- The scan never changes the page table it is given. -/
theorem scan_table (pt : List TranslationEntry) :
    ∀ (fuel : Nat) (idx : Int),
      match AddrSpace.SecondChance.scan pt fuel idx with
      | LoopResult.done r => r.1 = pt
      | LoopResult.unfinished r => r.1 = pt
      | LoopResult.undefined => True := by
  intro fuel
  induction fuel with
  | zero => intro idx; simp [AddrSpace.SecondChance.scan]
  | succ fuel ih =>
    intro idx
    unfold AddrSpace.SecondChance.scan
    cases he : getEntry pt idx with
    | none => simp
    | some e =>
      by_cases hu : e.use = true
      · simp only [hu, if_true]
        exact ih _
      · simp [hu]

/-- C8: in every state reachable from boot by loads, faults and accesses, for
an address space of at least `AvailablePages` pages and every fault address, the
victim scan of `SecondChance` is still running after any number `fuel` of
evaluations of its condition (in particular after more than
`2 * AvailablePages`), and `SecondChance` returns nothing. -/
theorem secondChance_scan_never_ends (c : Params) (k : Kernel) (h : Reach c anyEvent k)
    (i : Nat) (s : AddrSpace) (hs : k.spaces[i]? = some s) (hn : AvailablePages ≤ s.numPages)
    (fuel : Nat) (a : Int) (m : Machine) :
    AddrSpace.SecondChance.scan s.pageTable fuel 0
        = LoopResult.unfinished (s.pageTable, ((fuel % AvailablePages : Nat) : Int)) ∧
      AddrSpace.SecondChance c fuel a s m = none := by
  have ht := reach_tracked h i s hs
  have huse : ∀ i : Nat, i < AvailablePages →
      ∃ e, s.pageTable[i]? = some e ∧ e.use = true := by
    intro p hp
    have hlt : p < s.pageTable.length := by rw [ht.1]; omega
    exact ⟨s.pageTable[p], List.getElem?_eq_getElem hlt,
      ht.2.2.2 p _ hp (List.getElem?_eq_getElem hlt)⟩
  have hscan := scan_unfinished huse fuel 0 (le_refl 0) (by decide)
  refine ⟨?_, SecondChance_none ht⟩
  rw [hscan]
  congr 2
  push_cast
  rw [zero_add]

/-- C8, witness: the whole-page image (12 pages) is loaded on the stock machine;
after 9 evaluations of its condition, more than `2 * AvailablePages`, the scan
is still running, about to test entry 1 again. -/
theorem secondChance_scan_never_ends_witness :
    ∃ k s, Reach stock anyEvent k ∧ k.spaces[0]? = some s ∧ s.numPages = 12 ∧
      AddrSpace.SecondChance.scan s.pageTable 9 0 = LoopResult.unfinished (s.pageTable, 1) ∧
      AddrSpace.SecondChance stock 9 1500 s k.machine = none := by
  have h : (runChecked stock (fun _ _ => true)
      [Event.create onesFile wholePageHeader sampleJunk] bootedStock).bind
      (fun k => k.spaces[0]?.map fun s => s.numPages) = some 12 := by decide
  obtain ⟨k, hk, hv⟩ := Option.bind_eq_some.mp h
  obtain ⟨s, hs, hv⟩ := Option.map_eq_some'.mp hv
  have hr : Reach stock anyEvent k :=
    runChecked_reach (fun _ _ _ => trivial) _ _ _ (Reach.boot zeroMachine) hk
  have hn : AvailablePages ≤ s.numPages := by rw [hv]; decide
  have := secondChance_scan_never_ends stock k hr 0 s hs hn 9 1500 k.machine
  exact ⟨k, s, hr, hs, hv, this.1, this.2⟩

/-- C9: the victim scan stores nothing: whatever page table, bound and starting
index it is given, the page table it ends with is the one it started from.  In
the address space that the constructor builds from the whole-page image, page 0
is resident with its `use` bit set; the scan visits it first, and after any
number of further evaluations the scan is still running on the same page table,
in which the `use` bit of page 0 is still set. -/
theorem scan_clears_no_use_bit :
    (∀ (pt : List TranslationEntry) (fuel : Nat) (idx : Int),
      match AddrSpace.SecondChance.scan pt fuel idx with
      | LoopResult.done r => r.1 = pt
      | LoopResult.unfinished r => r.1 = pt
      | LoopResult.undefined => True) ∧
    (getEntry loadedSpace.1.pageTable 0).map (fun e => (e.valid, e.use)) = some (true, true) ∧
    ∀ fuel : Nat,
      AddrSpace.SecondChance.scan loadedSpace.1.pageTable (fuel + 1) 0
        = LoopResult.unfinished
            (loadedSpace.1.pageTable, (((fuel + 1) % AvailablePages : Nat) : Int)) := by
  refine ⟨scan_table, by decide, ?_⟩
  intro fuel
  have hc : AddrSpace.construct stock onesFile wholePageHeader sampleJunk bootedStock
      = some loadedSpace := eq_some_get _
  have hB := construct_spec hc
  have hlen : loadedSpace.1.pageTable.length = 12 := by decide
  have huse : ∀ i : Nat, i < AvailablePages →
      ∃ e, loadedSpace.1.pageTable[i]? = some e ∧ e.use = true := by
    intro p hp
    have hlt : p < loadedSpace.1.pageTable.length := by
      rw [hlen]; have : AvailablePages = 4 := rfl; omega
    refine ⟨_, List.getElem?_eq_getElem hlt, ?_⟩
    rw [(hB.entry p _ (List.getElem?_eq_getElem hlt)).2.2.1]
    simpa using hp
  rw [scan_unfinished huse (fuel + 1) 0 (le_refl 0) (by decide)]
  congr 2
  push_cast
  rw [zero_add]

/-! ## C10: the postcondition of `Swap` -/

/-- C10: when `Swap(oldPage, newPage)` returns, `oldPage` having had frame `f`
and `newPage` being another page (in particular: `oldPage` resident, `newPage`
not), the entry of `newPage` has `physicalPage = f`, `valid = true`,
`use = true` and `dirty = false`, and the entry of `oldPage` has
`physicalPage = -1`, `valid = false` and `dirty = false`. -/
theorem swap_postcondition (c : Params) (s s' : AddrSpace) (m m' : Machine)
    (oldPage newPage f : Int) (eo : TranslationEntry)
    (ho : getEntry s.pageTable oldPage = some eo) (hf : eo.physicalPage = f)
    (hne : newPage ≠ oldPage)
    (h : AddrSpace.Swap c oldPage newPage s m = some (s', m')) :
    ∃ en' eo', getEntry s'.pageTable newPage = some en' ∧ en'.physicalPage = f ∧
      en'.valid = true ∧ en'.use = true ∧ en'.dirty = false ∧
      getEntry s'.pageTable oldPage = some eo' ∧ eo'.physicalPage = -1 ∧
      eo'.valid = false ∧ eo'.dirty = false := by
  obtain ⟨eo1, en, x, y, heo, hen, hpt, _⟩ := Swap_table h
  rw [ho] at heo
  simp only [Option.some.injEq] at heo
  subst heo
  have ho2 := getEntry_eq_some ho
  have hn2 := getEntry_eq_some hen
  have hlt := (List.getElem?_eq_some_iff.mp ho2.2).1
  have hlt2 := (List.getElem?_eq_some_iff.mp hn2.2).1
  have hne2 : newPage.toNat ≠ oldPage.toNat := by
    intro hc; apply hne; omega
  rw [if_neg hne, if_neg hne] at hpt
  simp only at hpt
  generalize hX : TranslationEntry.mk eo.virtualPage (-1) false eo.readOnly eo.use false x
    eo.type = X at hpt
  generalize hY : TranslationEntry.mk en.virtualPage eo.physicalPage true en.readOnly true false y
    en.type = Y at hpt
  refine ⟨Y, X, ?_, ?_, ?_, ?_, ?_, ?_, ?_, ?_, ?_⟩
  · unfold getEntry
    rw [if_pos hn2.1, hpt, List.getElem?_set_self (by rw [List.length_set]; exact hlt2)]
  · rw [← hY, ← hf]
  · rw [← hY]
  · rw [← hY]
  · rw [← hY]
  · unfold getEntry
    rw [if_pos ho2.1, hpt, List.getElem?_set_ne hne2, List.getElem?_set_self hlt]
  · rw [← hX]
  · rw [← hX]
  · rw [← hX]

/-- C10, witness: stack page 11 is resident in frame 0 and dirty, page 5 is not
resident; after `Swap(11, 5)` page 5 is resident in frame 0, used and clean, and
page 11 has no frame, is not resident and is clean. -/
theorem swap_postcondition_witness :
    dirtyStackPage.1.resident 11 ∧ dirtyStackPage.1.nonResident 5 ∧
    AddrSpace.Swap stock 11 5 dirtyStackPage.1 dirtyStackPage.2 = some stackPageEvicted ∧
    ∃ en' eo', getEntry stackPageEvicted.1.pageTable 5 = some en' ∧ en'.physicalPage = 0 ∧
      en'.valid = true ∧ en'.use = true ∧ en'.dirty = false ∧
      getEntry stackPageEvicted.1.pageTable 11 = some eo' ∧ eo'.physicalPage = -1 ∧
      eo'.valid = false ∧ eo'.dirty = false :=
  have he : getEntry dirtyStackPage.1.pageTable 11 = some
      { virtualPage := 11, physicalPage := 0, valid := true, readOnly := false, use := true,
        dirty := true, inFileAddr := -1, type := some PageType.userStack } := by decide
  have hn : (getEntry dirtyStackPage.1.pageTable 5).map (fun e => e.valid) = some false := by
    decide
  have h1 : AddrSpace.Swap stock 11 5 dirtyStackPage.1 dirtyStackPage.2
      = some stackPageEvicted := eq_some_get _
  ⟨⟨_, he, rfl⟩, (Option.map_eq_some'.mp hn), h1,
    swap_postcondition stock dirtyStackPage.1 stackPageEvicted.1 dirtyStackPage.2
      stackPageEvicted.2 11 5 0 _ he rfl (by decide) h1⟩

/-! ## C11: what `WriteBack` persists -/

/-- The entries of a page table after one entry is replaced. -/
theorem getEntry_set_other {pt : List TranslationEntry} {o : Int} {e : TranslationEntry}
    (h : getEntry pt o = some e) (e1 : TranslationEntry) :
    getEntry (pt.set o.toNat e1) o = some e1 ∧
      ∀ q, q ≠ o → getEntry (pt.set o.toNat e1) q = getEntry pt q := by
  have hg := getEntry_set h e1
  refine ⟨by rw [hg o, if_pos rfl], ?_⟩
  intro q hq
  rw [hg q, if_neg hq]

/-- C11: `WriteBack(oldPage)` on an entry that is not dirty returns the address
space as it was (executable, swap file, swap-region allocator and page table
unchanged).  On a dirty entry of kind code or initData it writes the `PageSize`
bytes of the frame to the executable at the recorded `inFileAddr`, leaves the
swap file and the allocator alone and clears `dirty`.  On a dirty entry of kind
uninitData or stack, the allocator yielding slot `slot`, it writes the bytes of
the frame to the swap file at `slot * PageSize`; the slot was free and is now
claimed, the executable is untouched, `inFileAddr` is that offset and `dirty` is
false.  No other entry of the page table changes. -/
theorem writeBack_persists (c : Params) (s : AddrSpace) (m : Machine) (oldPage : Int)
    (e : TranslationEntry) (he : getEntry s.pageTable oldPage = some e) :
    (e.dirty = false → AddrSpace.WriteBack c oldPage s m = some s) ∧
    (e.dirty = true → (e.type = some PageType.code ∨ e.type = some PageType.initData) →
      ∃ s1, AddrSpace.WriteBack c oldPage s m = some s1 ∧
        (∀ x, 0 ≤ x → x < c.PageSize →
          s1.executable (e.inFileAddr + x) = m.mainMemory (e.physicalPage * c.PageSize + x)) ∧
        (∀ y, ¬ (e.inFileAddr ≤ y ∧ y < e.inFileAddr + c.PageSize) →
          s1.executable y = s.executable y) ∧
        s1.virtualSpaceFile = s.virtualSpaceFile ∧ s1.virtualSpaceMap = s.virtualSpaceMap ∧
        getEntry s1.pageTable oldPage = some { e with dirty := false } ∧
        ∀ q, q ≠ oldPage → getEntry s1.pageTable q = getEntry s.pageTable q) ∧
    (e.dirty = true → (e.type = some PageType.uninitData ∨ e.type = some PageType.userStack) →
      ∀ (slot : Int) (map : BitMap), BitMap.Find s.virtualSpaceMap = some (slot, map) →
      ∃ s1, AddrSpace.WriteBack c oldPage s m = some s1 ∧
        BitMap.Test s.virtualSpaceMap slot = false ∧ s1.virtualSpaceMap = map ∧
        BitMap.Test s1.virtualSpaceMap slot = true ∧
        (∀ x, 0 ≤ x → x < c.PageSize →
          s1.virtualSpaceFile (slot * c.PageSize + x)
            = m.mainMemory (e.physicalPage * c.PageSize + x)) ∧
        (∀ y, ¬ (slot * c.PageSize ≤ y ∧ y < slot * c.PageSize + c.PageSize) →
          s1.virtualSpaceFile y = s.virtualSpaceFile y) ∧
        s1.executable = s.executable ∧
        getEntry s1.pageTable oldPage
          = some { e with inFileAddr := slot * c.PageSize, dirty := false } ∧
        ∀ q, q ≠ oldPage → getEntry s1.pageTable q = getEntry s.pageTable q) := by
  refine ⟨?_, ?_, ?_⟩
  · intro hd
    unfold AddrSpace.WriteBack
    simp only [he, hd]
    rfl
  · intro hd hk
    have hset := getEntry_set_other he ({ e with dirty := false } : TranslationEntry)
    refine ⟨{ s with
        executable :=
          WriteAt s.executable m.mainMemory (e.physicalPage * c.PageSize) c.PageSize e.inFileAddr
        pageTable := s.pageTable.set oldPage.toNat { e with dirty := false } },
      ?_, ?_, ?_, rfl, rfl, hset.1, hset.2⟩
    · unfold AddrSpace.WriteBack
      rcases hk with hk | hk <;> simp only [he, hd, hk, if_true]
    · intro x h0 h1
      simp only [WriteAt]
      rw [if_pos ⟨by omega, by omega⟩]
      congr 1
      omega
    · intro y hy
      simp only [WriteAt]
      rw [if_neg hy]
  · intro hd hk slot map hF
    have hset := getEntry_set_other he
      ({ e with inFileAddr := slot * c.PageSize, dirty := false } : TranslationEntry)
    obtain ⟨hfree, _, _, _, htest⟩ := Find_spec hF
    refine ⟨{ s with
        virtualSpaceMap := map
        virtualSpaceFile :=
          WriteAt s.virtualSpaceFile m.mainMemory (e.physicalPage * c.PageSize) c.PageSize
            (slot * c.PageSize)
        pageTable :=
          s.pageTable.set oldPage.toNat
            { e with inFileAddr := slot * c.PageSize, dirty := false } },
      ?_, hfree, rfl, ?_, ?_, ?_, rfl, hset.1, hset.2⟩
    · unfold AddrSpace.WriteBack
      rcases hk with hk | hk <;> simp only [he, hd, hk, hF, if_true]
    · simp only
      rw [htest slot, if_pos rfl]
    · intro x h0 h1
      simp only [WriteAt]
      rw [if_pos ⟨by omega, by omega⟩]
      congr 1
      omega
    · intro y hy
      simp only [WriteAt]
      rw [if_neg hy]

/-- C11, witness: stack page 11 is resident in frame 0 and dirty, byte 5 of the
frame being 7; `WriteBack(11)` claims swap slot 0, writes the frame there (byte 5
of the swap file is 7), records offset 0 and clears `dirty`. -/
theorem writeBack_persists_witness :
    ∃ s1, AddrSpace.WriteBack stock 11 dirtyStackPage.1 dirtyStackPage.2 = some s1 ∧
      BitMap.Test dirtyStackPage.1.virtualSpaceMap 0 = false ∧
      BitMap.Test s1.virtualSpaceMap 0 = true ∧
      s1.virtualSpaceFile (0 * stock.PageSize + 5) = 7 ∧
      s1.executable = dirtyStackPage.1.executable ∧
      getEntry s1.pageTable 11 = some
        { virtualPage := 11, physicalPage := 0, valid := true, readOnly := false, use := true,
          dirty := false, inFileAddr := 0 * stock.PageSize, type := some PageType.userStack } :=
  have he : getEntry dirtyStackPage.1.pageTable 11 = some
      { virtualPage := 11, physicalPage := 0, valid := true, readOnly := false, use := true,
        dirty := true, inFileAddr := -1, type := some PageType.userStack } := by decide
  have hF : BitMap.Find dirtyStackPage.1.virtualSpaceMap
      = some (0, (List.replicate 16 false).set 0 true) := by decide
  have hm : dirtyStackPage.2.mainMemory (0 * stock.PageSize + 5) = 7 := by decide
  let ⟨s1, h1, h2, _, h4, h5, _, h7, h8, _⟩ :=
    (writeBack_persists stock dirtyStackPage.1 dirtyStackPage.2 11 _ he).2.2 rfl (Or.inr rfl)
      0 _ hF
  ⟨s1, h1, h2, h4, (h5 5 (by decide) (by decide)).trans hm, h7, h8⟩

/-! ## C12: destruction -/

/-- A loop in which some iteration below the bound fails whatever state it is
given does not complete. -/
theorem forLoop_none {σ : Type} (body : Nat → σ → Option σ) (i : Nat)
    (hbody : ∀ st, body i st = none) :
    ∀ (n : Nat) (s : σ), i < n → forLoop body n s = none := by
  intro n
  induction n with
  | zero => intro s h; omega
  | succ n ih =>
    intro s h
    unfold forLoop
    by_cases hin : i < n
    · rw [ih s hin]; rfl
    · have : i = n := by omega
      subst this
      cases forLoop body i s with
      | none => rfl
      | some st => exact hbody st

/-- No call `Clear(-1)` returns. -/
theorem Clear_sentinel (b : BitMap) : BitMap.Clear b (-1) = none := by
  unfold BitMap.Clear
  rw [if_neg (by omega)]

/-- C12: when entry `i` of the page table of an address space has
`physicalPage = -1` (the entry of a page that is not resident), iteration `i` of
the loop of the destructor calls `Clear(-1)` on the frame allocator, and the
destructor does not complete. -/
theorem destructor_clears_sentinel (s : AddrSpace) (k : Kernel) (i : Nat)
    (e : TranslationEntry) (hi : i < s.numPages) (he : s.pageTable[i]? = some e)
    (hout : e.physicalPage = -1) :
    (∀ b, AddrSpace.destroy.body s i b = BitMap.Clear b (-1)) ∧
      AddrSpace.destroy s k = none := by
  have hbody : ∀ b, AddrSpace.destroy.body s i b = BitMap.Clear b (-1) := by
    intro b
    unfold AddrSpace.destroy.body
    rw [getEntry_of_getElem? he]
    simp only [hout]
  refine ⟨hbody, ?_⟩
  unfold AddrSpace.destroy
  rw [forLoop_none (AddrSpace.destroy.body s) i (fun b => by rw [hbody b, Clear_sentinel])
    s.numPages k.bitmap hi]
  rfl

/-- C12, witness: the address space built from the whole-page image has 12
pages, of which page 4 is not resident and has `physicalPage = -1`; its
destructor calls `Clear(-1)` at `i = 4` and does not complete, in whatever state
the statics are. -/
theorem destructor_clears_sentinel_witness :
    loadedSpace.1.numPages = 12 ∧
    (getEntry loadedSpace.1.pageTable 4).map (fun e => (e.valid, e.physicalPage))
      = some (false, -1) ∧
    (∀ b, AddrSpace.destroy.body loadedSpace.1 4 b = BitMap.Clear b (-1)) ∧
    AddrSpace.destroy loadedSpace.1 loadedSpace.2 = none := by
  have h : (loadedSpace.1.pageTable[4]?).map (fun e => (e.valid, e.physicalPage))
      = some (false, -1) := by decide
  obtain ⟨e, he, hv⟩ := Option.map_eq_some'.mp h
  simp only [Prod.mk.injEq] at hv
  have := destructor_clears_sentinel loadedSpace.1 loadedSpace.2 4 e (by decide) he hv.2
  exact ⟨by decide, by decide, this.1, this.2⟩

/-! ## C13, C14: space ids -/

/-- The first number below `n` that satisfies `p`. -/
theorem find?_range_spec (p : Nat → Bool) :
    ∀ n : Nat,
      (∀ id, (List.range n).find? p = some id →
        id < n ∧ p id = true ∧ ∀ i, i < id → p i = false) ∧
      ((List.range n).find? p = none ↔ ∀ i, i < n → p i = false) := by
  intro n
  induction n with
  | zero =>
    refine ⟨?_, ?_⟩
    · intro id h; simp at h
    · simp
  | succ n ih =>
    obtain ⟨ih1, ih2⟩ := ih
    rw [List.range_succ, List.find?_append]
    cases hf : (List.range n).find? p with
    | some a =>
      obtain ⟨h1, h2, h3⟩ := ih1 a hf
      refine ⟨?_, ?_⟩
      · intro id h
        simp only [Option.or, Option.some.injEq] at h
        subst h
        exact ⟨by omega, h2, h3⟩
      · simp only [Option.or]
        constructor
        · intro h; cases h
        · intro h
          have := h a (by omega)
          rw [h2] at this
          cases this
    | none =>
      have hall := ih2.mp hf
      simp only [Option.or]
      by_cases hp : p n = true
      · simp only [List.find?_cons, hp, List.find?_nil]
        refine ⟨?_, ?_⟩
        · intro id h
          simp only [Option.some.injEq] at h
          subst h
          exact ⟨by omega, hp, hall⟩
        · constructor
          · intro h; cases h
          · intro h
            have := h n (by omega)
            rw [hp] at this
            cases this
      · have hp2 : p n = false := by simpa using hp
        simp only [List.find?_cons, hp2, List.find?_nil]
        refine ⟨?_, ?_⟩
        · intro id h; cases h
        · constructor
          · intro _ i hi
            by_cases hin : i < n
            · exact hall i hin
            · have : i = n := by omega
              subst this; exact hp2
          · intro _; trivial

/-- The id that the constructor draws is the lowest one below 128 not marked in
`spaceIdMap`; none is drawn exactly when all 128 are marked. -/
theorem findSpaceId_spec (spaceIdMap : Nat → Bool) :
    (∀ id, findSpaceId spaceIdMap = some id →
      id < 128 ∧ spaceIdMap id = false ∧ ∀ i, i < id → spaceIdMap i = true) ∧
    (findSpaceId spaceIdMap = none ↔ ∀ i, i < 128 → spaceIdMap i = true) := by
  obtain ⟨h1, h2⟩ := find?_range_spec (fun i => !spaceIdMap i) 128
  unfold findSpaceId
  refine ⟨?_, ?_⟩
  · intro id h
    obtain ⟨a, b, d⟩ := h1 id h
    refine ⟨a, by simpa using b, ?_⟩
    intro i hi
    simpa using d i hi
  · rw [h2]
    constructor
    · intro h i hi; simpa using h i hi
    · intro h i hi; simpa using h i hi

theorem access_spaceId {c : Params} {vpn offset : Int} {store : Option Byte} {s s' : AddrSpace}
    {m m' : Machine} (h : AddrSpace.access c vpn offset store s m = some (s', m')) :
    s'.spaceId = s.spaceId := by
  unfold AddrSpace.access at h
  cases he : getEntry s.pageTable vpn with
  | none => simp [he] at h
  | some e =>
    simp only [he] at h
    by_cases hc : e.valid = true ∧ 0 ≤ offset ∧ offset < c.PageSize
    · rw [if_pos hc] at h
      cases store with
      | none =>
        simp only [Option.some.injEq, Prod.mk.injEq] at h
        rw [← h.1]
      | some b =>
        simp only [Option.some.injEq, Prod.mk.injEq] at h
        rw [← h.1]
    · rw [if_neg hc] at h
      cases h

theorem SecondChance_spaceId {c : Params} {fuel : Nat} {a : Int} {s s' : AddrSpace}
    {m m' : Machine} (h : AddrSpace.SecondChance c fuel a s m = some (s', m')) :
    s'.spaceId = s.spaceId := by
  unfold AddrSpace.SecondChance at h
  cases hscan : AddrSpace.SecondChance.scan s.pageTable fuel 0 with
  | done r =>
    obtain ⟨pt, idx⟩ := r
    simp only [hscan] at h
    obtain ⟨_, _, _, _, _, _, _, _, _, _, _, hid⟩ := Swap_table h
    exact hid
  | undefined => simp [hscan] at h
  | unfinished r => simp [hscan] at h

theorem lt_length_of_getElem? {α : Type} {l : List α} {i : Nat} {x : α} (h : l[i]? = some x) :
    i < l.length := by
  by_contra hc
  rw [List.getElem?_eq_none (by omega)] at h
  exact absurd h (by simp)

theorem SpaceIds_boot (c : Params) (m : Machine) : (Kernel.boot c m).SpaceIds := by
  refine ⟨?_, ?_, ?_⟩
  · intro i s hs; simp [Kernel.boot] at hs
  · intro i i' s s' hs; simp [Kernel.boot] at hs
  · intro id h; simp [Kernel.boot] at h

/-- A construction keeps the bookkeeping of space ids. -/
theorem SpaceIds_create {c : Params} {executable : Bytes} {stored : NoffHeader}
    {j : Indeterminate} {k k1 : Kernel} {s : AddrSpace} (hI : k.SpaceIds)
    (h : AddrSpace.construct c executable stored j k = some (s, k1)) :
    Kernel.SpaceIds { k1 with spaces := k1.spaces ++ [s] } := by
  have hB := construct_spec h
  obtain ⟨hlt, hfree, _⟩ := (findSpaceId_spec k.spaceIdMap).1 s.spaceId hB.spaceId
  obtain ⟨h1, h2, h3⟩ := hI
  have hold : ∀ (i : Nat) (t : AddrSpace), k.spaces[i]? = some t → t.spaceId ≠ s.spaceId := by
    intro i t ht hc
    have := (h1 i t ht).2
    rw [hc, hfree] at this
    cases this
  refine ⟨?_, ?_, ?_⟩
  · intro i t ht
    simp only [hB.spaces, hB.spaceIdMap] at ht ⊢
    rcases getElem?_append_singleton _ _ _ _ ht with ⟨_, hi⟩ | ⟨_, rfl⟩
    · refine ⟨(h1 i t hi).1, ?_⟩
      rw [Function.update_noteq (hold i t hi)]
      exact (h1 i t hi).2
    · exact ⟨hlt, by rw [Function.update_same]⟩
  · intro i i' t t' ht ht' hid
    simp only [hB.spaces] at ht ht'
    rcases getElem?_append_singleton _ _ _ _ ht with ⟨_, hi⟩ | ⟨hi, rfl⟩
    · rcases getElem?_append_singleton _ _ _ _ ht' with ⟨_, hi'⟩ | ⟨_, rfl⟩
      · exact h2 i i' t t' hi hi' hid
      · exact absurd hid (hold i t hi)
    · rcases getElem?_append_singleton _ _ _ _ ht' with ⟨_, hi'⟩ | ⟨hi', _⟩
      · exact absurd hid.symm (hold i' t' hi')
      · rw [hi, hi']
  · intro id hid
    simp only [hB.spaceIdMap] at hid
    simp only [Kernel.holds, hB.spaces]
    by_cases hc : id = s.spaceId
    · refine ⟨k.spaces.length, s, ?_, hc.symm⟩
      exact getElem?_append_at _ _ rfl
    · rw [Function.update_noteq hc] at hid
      obtain ⟨i, t, ht, htid⟩ := h3 id hid
      refine ⟨i, t, ?_, htid⟩
      rw [List.getElem?_append_left (lt_length_of_getElem? ht)]
      exact ht

/-- An operation of an address space that keeps its id keeps the bookkeeping of
space ids. -/
theorem SpaceIds_onSpace {k k' : Kernel} {i : Nat}
    {op : AddrSpace → Machine → Option (AddrSpace × Machine)} (hI : k.SpaceIds)
    (h : k.onSpace i op = some k')
    (hop : ∀ s s' m', op s k.machine = some (s', m') → s'.spaceId = s.spaceId) :
    k'.SpaceIds := by
  obtain ⟨s, s', m', hs, ho, rfl⟩ := onSpace_eq_some h
  have hid := hop s s' m' ho
  obtain ⟨h1, h2, h3⟩ := hI
  have back : ∀ (p : Nat) (t : AddrSpace), (k.spaces.set i s')[p]? = some t →
      ∃ t0, k.spaces[p]? = some t0 ∧ t.spaceId = t0.spaceId := by
    intro p t ht
    rw [getElem?_set_space s' hs] at ht
    by_cases hpi : p = i
    · simp only [hpi, if_true, Option.some.injEq] at ht
      subst ht
      exact ⟨s, by rw [hpi]; exact hs, hid⟩
    · simp only [hpi, if_false] at ht
      exact ⟨t, ht, rfl⟩
  refine ⟨?_, ?_, ?_⟩
  · intro p t ht
    obtain ⟨t0, ht0, he⟩ := back p t ht
    rw [he]
    exact h1 p t0 ht0
  · intro p p' t t' ht ht' he
    obtain ⟨t0, ht0, he0⟩ := back p t ht
    obtain ⟨t0', ht0', he0'⟩ := back p' t' ht'
    exact h2 p p' t0 t0' ht0 ht0' (by rw [← he0, ← he0', he])
  · intro id hmap
    obtain ⟨p, t, ht, htid⟩ := h3 id hmap
    by_cases hpi : p = i
    · refine ⟨i, s', ?_, ?_⟩
      · simp only [getElem?_set_space s' hs, if_true]
      · rw [hid, ← htid]
        rw [hpi, hs] at ht
        simp only [Option.some.injEq] at ht
        rw [ht]
    · refine ⟨p, t, ?_, htid⟩
      simp only [getElem?_set_space s' hs, hpi, if_false]
      exact ht

theorem Kernel.destroy_eq_some {k k' : Kernel} {i : Nat} (h : Kernel.destroy k i = some k') :
    ∃ s bitmap, k.spaces[i]? = some s ∧
      forLoop (AddrSpace.destroy.body s) s.numPages k.bitmap = some bitmap ∧
      k'.spaces = k.spaces.eraseIdx i ∧
      k'.spaceIdMap = Function.update k.spaceIdMap s.spaceId false ∧
      k'.bitmap = bitmap ∧ k'.machine = k.machine := by
  unfold Kernel.destroy at h
  cases hs : k.spaces[i]? with
  | none => simp [hs] at h
  | some s =>
    simp only [hs, AddrSpace.destroy, Option.map_map, Option.map_eq_some'] at h
    obtain ⟨b, hb, rfl⟩ := h
    exact ⟨s, b, rfl, hb, rfl, rfl, rfl, rfl⟩

/-- A destruction keeps the bookkeeping of space ids. -/
theorem SpaceIds_destroy {k k' : Kernel} {i : Nat} (hI : k.SpaceIds)
    (h : Kernel.destroy k i = some k') : k'.SpaceIds := by
  obtain ⟨s, b, hs, _, hsp, hmap, _, _⟩ := Kernel.destroy_eq_some h
  obtain ⟨h1, h2, h3⟩ := hI
  have back : ∀ (p : Nat) (t : AddrSpace), k'.spaces[p]? = some t →
      ∃ p0, k.spaces[p0]? = some t ∧ p0 ≠ i ∧ p0 = if p < i then p else p + 1 := by
    intro p t ht
    rw [hsp, List.getElem?_eraseIdx] at ht
    by_cases hpi : p < i
    · rw [if_pos hpi] at ht
      exact ⟨p, ht, by omega, by rw [if_pos hpi]⟩
    · rw [if_neg hpi] at ht
      exact ⟨p + 1, ht, by omega, by rw [if_neg hpi]⟩
  refine ⟨?_, ?_, ?_⟩
  · intro p t ht
    obtain ⟨p0, ht0, hne, _⟩ := back p t ht
    refine ⟨(h1 p0 t ht0).1, ?_⟩
    rw [hmap, Function.update_noteq]
    · exact (h1 p0 t ht0).2
    · intro hc
      exact hne (h2 p0 i t s ht0 hs hc)
  · intro p p' t t' ht ht' he
    obtain ⟨p0, ht0, _, hp0⟩ := back p t ht
    obtain ⟨p0', ht0', _, hp0'⟩ := back p' t' ht'
    have := h2 p0 p0' t t' ht0 ht0' he
    split_ifs at hp0 hp0' <;> omega
  · intro id hid
    rw [hmap] at hid
    by_cases hc : id = s.spaceId
    · rw [hc, Function.update_same] at hid
      cases hid
    · rw [Function.update_noteq hc] at hid
      obtain ⟨p, t, ht, htid⟩ := h3 id hid
      have hpi : p ≠ i := by
        intro hpi
        rw [hpi, hs] at ht
        simp only [Option.some.injEq] at ht
        rw [← ht] at htid
        exact hc htid.symm
      by_cases hlt : p < i
      · refine ⟨p, t, ?_, htid⟩
        rw [hsp, List.getElem?_eraseIdx, if_pos hlt]
        exact ht
      · refine ⟨p - 1, t, ?_, htid⟩
        rw [hsp, List.getElem?_eraseIdx, if_neg (by omega)]
        have : p - 1 + 1 = p := by omega
        rw [this]
        exact ht

/-- The bookkeeping of space ids holds in every state that constructions,
destructions, faults and accesses reach. -/
theorem lives_spaceIds {c : Params} {k : Kernel} (h : Lives c k) : k.SpaceIds := by
  induction h with
  | boot m => exact SpaceIds_boot c m
  | step ev _ hex ih =>
    cases ev with
    | create executable stored j =>
      obtain ⟨s, k1, hcons, rfl⟩ := exec_create_eq_some hex
      exact SpaceIds_create ih hcons
    | fifo i a =>
      refine SpaceIds_onSpace ih hex ?_
      intro s s' m' hop
      obtain ⟨_, _, _, _, _, _, _, _, _, _, _, hid⟩ := FIFO_table hop
      exact hid
    | secondChance i fuel a =>
      exact SpaceIds_onSpace ih hex (fun s s' m' hop => SecondChance_spaceId hop)
    | access i vpn offset store =>
      exact SpaceIds_onSpace ih hex (fun s s' m' hop => access_spaceId hop)
  | destroy i _ hd ih => exact SpaceIds_destroy ih hd

/-- The constructor is its part before `setUpTranslation()` followed by
`setUpTranslation()` and `copy2Mem()`. -/
theorem construct_eq_prepare (c : Params) (executable : Bytes) (stored : NoffHeader)
    (j : Indeterminate) (k : Kernel) :
    AddrSpace.construct c executable stored j k =
      match AddrSpace.construct.prepare c executable stored j k.spaceIdMap with
      | Except.error _ => none
      | Except.ok (s0, spaceIdMap) =>
        (AddrSpace.setUpTranslation c j s0 k.bitmap).bind fun (s1, bitmap) =>
        (AddrSpace.copy2Mem c s1 k.machine).bind fun (s2, machine) =>
        some (s2, { k with machine := machine, bitmap := bitmap, spaceIdMap := spaceIdMap }) := by
  unfold AddrSpace.construct AddrSpace.construct.prepare
  cases hid : findSpaceId k.spaceIdMap with
  | none => rfl
  | some spaceId =>
    cases hh : parseHeader c stored with
    | none => rfl
    | some noffH =>
      simp only [Option.some_bind]
      by_cases hc : j.createSucceeds = true
      · by_cases hn : pageCount c noffH ≤ c.NumPhysPages
        · simp only [hc, hn, and_self, if_true]
        · simp only [hc, hn, and_false, if_false, if_true]
      · have hc2 : j.createSucceeds = false := by simpa using hc
        simp [hc2]

/-- The chain of loads and the destruction that lead to `idReused`. -/
theorem lives_idReused : Lives roomy oneSpace ∧ Lives roomy twoSpaces ∧
    Lives roomy firstDestroyed ∧ Lives roomy idReused := by
  have h1 : Lives roomy oneSpace :=
    Lives.step (Event.create onesFile emptyHeader sampleJunk) (Lives.boot zeroMachine)
      (eq_some_get _)
  have h2 : Lives roomy twoSpaces :=
    Lives.step (Event.create onesFile emptyHeader sampleJunk) h1 (eq_some_get _)
  have h3 : Lives roomy firstDestroyed := Lives.destroy 0 h2 (eq_some_get _)
  exact ⟨h1, h2, h3,
    Lives.step (Event.create onesFile emptyHeader sampleJunk) h3 (eq_some_get _)⟩

/-- C13: in every state that a sequence of constructions and destructions
(faults and accesses in between) reaches, every live address space has a
`spaceId` below 128, no two live address spaces have the same `spaceId`, and a
construction in that state does not assign an id that a live address space
holds. -/
theorem space_ids_unique (c : Params) (k : Kernel) (h : Lives c k) :
    (∀ (i : Nat) (s : AddrSpace), k.spaces[i]? = some s → s.spaceId < 128) ∧
    (∀ (i i' : Nat) (s s' : AddrSpace), k.spaces[i]? = some s → k.spaces[i']? = some s' →
      i ≠ i' → s.spaceId ≠ s'.spaceId) ∧
    ∀ (executable : Bytes) (stored : NoffHeader) (j : Indeterminate) (s : AddrSpace)
      (k1 : Kernel),
      AddrSpace.construct c executable stored j k = some (s, k1) → ¬ k.holds s.spaceId := by
  obtain ⟨h1, h2, _⟩ := lives_spaceIds h
  refine ⟨fun i s hs => (h1 i s hs).1, ?_, ?_⟩
  · intro i i' s s' hs hs' hne hid
    exact hne (h2 i i' s s' hs hs' hid)
  · intro executable stored j s k1 hcons hheld
    obtain ⟨i, t, ht, hid⟩ := hheld
    have hB := construct_spec hcons
    have hfree := ((findSpaceId_spec k.spaceIdMap).1 s.spaceId hB.spaceId).2.1
    have := (h1 i t ht).2
    rw [hid, hfree] at this
    cases this

/-- C13, witness: on the machine with 1024-byte pages the empty image is loaded
twice (ids 0 and 1), the first address space is destroyed and the image is
loaded again: the live address spaces then have ids 1 and 0. -/
theorem space_ids_unique_witness :
    Lives roomy idReused ∧ idReused.spaces.map (fun s => s.spaceId) = [1, 0] ∧
    (∀ (i : Nat) (s : AddrSpace), idReused.spaces[i]? = some s → s.spaceId < 128) ∧
    (∀ (i i' : Nat) (s s' : AddrSpace), idReused.spaces[i]? = some s →
      idReused.spaces[i']? = some s' → i ≠ i' → s.spaceId ≠ s'.spaceId) :=
  have h := space_ids_unique roomy idReused lives_idReused.2.2.2
  ⟨lives_idReused.2.2.2, by decide, h.1, h.2.1⟩

/-- C14: in every state that constructions and destructions reach, a
construction that returns gives the new address space the lowest id below 128
that no live address space holds.  So when the address space with id `k` is
destroyed and a construction follows, the new id is at most `k`, and it is `k`
when all ids below `k` are held.  The constructor stops at `ASSERT(flag)`, the
assertion of the id draw, exactly when all 128 ids are held, and then the
construction yields nothing. -/
theorem space_id_reuse (c : Params) (k : Kernel) (h : Lives c k) :
    (∀ (executable : Bytes) (stored : NoffHeader) (j : Indeterminate) (s : AddrSpace)
      (k1 : Kernel), AddrSpace.construct c executable stored j k = some (s, k1) →
        s.spaceId < 128 ∧ ¬ k.holds s.spaceId ∧ ∀ id, id < s.spaceId → k.holds id) ∧
    (∀ (i : Nat) (s0 : AddrSpace) (k1 : Kernel) (executable : Bytes) (stored : NoffHeader)
      (j : Indeterminate) (s : AddrSpace) (k2 : Kernel),
      k.spaces[i]? = some s0 → Kernel.destroy k i = some k1 →
      AddrSpace.construct c executable stored j k1 = some (s, k2) →
        s.spaceId ≤ s0.spaceId ∧
        ((∀ id, id < s0.spaceId → k.holds id) → s.spaceId = s0.spaceId)) ∧
    (∀ (executable : Bytes) (stored : NoffHeader) (j : Indeterminate),
      (AddrSpace.construct.prepare c executable stored j k.spaceIdMap = Except.error Halt.flag
        ↔ ∀ id, id < 128 → k.holds id) ∧
      ((∀ id, id < 128 → k.holds id) →
        AddrSpace.construct c executable stored j k = none)) := by
  obtain ⟨h1, h2, h3⟩ := lives_spaceIds h
  have held_iff : ∀ id, k.holds id ↔ k.spaceIdMap id = true := by
    intro id
    constructor
    · rintro ⟨i, t, ht, hid⟩
      rw [← hid]
      exact (h1 i t ht).2
    · exact h3 id
  have hnone : findSpaceId k.spaceIdMap = none ↔ ∀ id, id < 128 → k.holds id := by
    rw [(findSpaceId_spec k.spaceIdMap).2]
    constructor
    · intro hall id hid; exact (held_iff id).mpr (hall id hid)
    · intro hall id hid; exact (held_iff id).mp (hall id hid)
  refine ⟨?_, ?_, ?_⟩
  · intro executable stored j s k1 hcons
    have hB := construct_spec hcons
    obtain ⟨hlt, hfree, hlow⟩ := (findSpaceId_spec k.spaceIdMap).1 s.spaceId hB.spaceId
    refine ⟨hlt, ?_, ?_⟩
    · intro hheld
      have := (held_iff _).mp hheld
      rw [hfree] at this
      cases this
    · intro id hid
      exact (held_iff id).mpr (hlow id hid)
  · intro i s0 k1 executable stored j s k2 hs0 hd hcons
    obtain ⟨s0', b, hs0', _, _, hmap, _, _⟩ := Kernel.destroy_eq_some hd
    rw [hs0] at hs0'
    simp only [Option.some.injEq] at hs0'
    subst hs0'
    have hB := construct_spec hcons
    obtain ⟨_, hfree, hlow⟩ := (findSpaceId_spec k1.spaceIdMap).1 s.spaceId hB.spaceId
    have hle : s.spaceId ≤ s0.spaceId := by
      by_contra hc
      have := hlow s0.spaceId (by omega)
      rw [hmap, Function.update_same] at this
      cases this
    refine ⟨hle, ?_⟩
    intro hall
    by_contra hne
    have hlt : s.spaceId < s0.spaceId := by omega
    have hk := (held_iff _).mp (hall s.spaceId hlt)
    rw [hmap, Function.update_noteq (by omega), hk] at hfree
    cases hfree
  · intro executable stored j
    have hprep : AddrSpace.construct.prepare c executable stored j k.spaceIdMap
        = Except.error Halt.flag ↔ findSpaceId k.spaceIdMap = none := by
      unfold AddrSpace.construct.prepare
      cases hid : findSpaceId k.spaceIdMap with
      | none => simp
      | some spaceId =>
        cases parseHeader c stored with
        | none => simp
        | some noffH =>
          simp only
          split_ifs <;> simp
    refine ⟨hprep.trans hnone, ?_⟩
    intro hall
    rw [construct_eq_prepare, hprep.mpr (hnone.mpr hall)]

/-- C14, witness: after two loads (ids 0 and 1) the address space with id 0 is
destroyed; the next load is given id 0 again. -/
theorem space_id_reuse_witness :
    Lives roomy twoSpaces ∧ twoSpaces.spaces.map (fun s => s.spaceId) = [0, 1] ∧
    firstDestroyed.spaces.map (fun s => s.spaceId) = [1] ∧
    ∃ s0 s k2, twoSpaces.spaces[0]? = some s0 ∧ s0.spaceId = 0 ∧
      Kernel.destroy twoSpaces 0 = some firstDestroyed ∧
      AddrSpace.construct roomy onesFile emptyHeader sampleJunk firstDestroyed = some (s, k2) ∧
      s.spaceId ≤ s0.spaceId ∧ s.spaceId = 0 := by
  have hd : Kernel.destroy twoSpaces 0 = some firstDestroyed := eq_some_get _
  have hs0 : (twoSpaces.spaces[0]?).map (fun s => s.spaceId) = some 0 := by decide
  obtain ⟨s0, hs0, hid0⟩ := Option.map_eq_some'.mp hs0
  have hc : (AddrSpace.construct roomy onesFile emptyHeader sampleJunk firstDestroyed).map
      (fun r => r.1.spaceId) = some 0 := by decide
  obtain ⟨⟨s, k2⟩, hc, hid⟩ := Option.map_eq_some'.mp hc
  have := (space_id_reuse roomy twoSpaces lives_idReused.2.1).2.1 0 s0 firstDestroyed onesFile
    emptyHeader sampleJunk s k2 hs0 hd hc
  exact ⟨lives_idReused.2.1, by decide, by decide, s0, s, k2, hs0, hid0, hd, hc, this.1, hid⟩

/-! ## C15: the page count -/

/-- For a positive divisor `divRoundUp` is the ceiling of the exact quotient. -/
theorem divRoundUp_eq_ceil (n p : Int) (hp : 0 < p) :
    divRoundUp n p = ⌈(n : ℚ) / (p : ℚ)⌉ := by
  have hpq : (0 : ℚ) < (p : ℚ) := by exact_mod_cast hp
  symm
  rw [Int.ceil_eq_iff]
  constructor
  · rw [lt_div_iff₀ hpq]
    have := divRoundUp_mul_lt (n := n) hp
    have h2 : (divRoundUp n p - 1) * p < n := by linarith
    exact_mod_cast h2
  · rw [div_le_iff₀ hpq]
    have := le_divRoundUp_mul (n := n) hp
    exact_mod_cast this

/-- C15: for a header that the constructor accepts, with segment sizes that are
not negative and a total size (stack included) below `2^32`, the constructor
sets `numPages` to the ceiling of
`(code.size + initData.size + uninitData.size + UserStackSize) / PageSize`. -/
theorem numPages_is_ceiling (c : Params) (executable : Bytes) (stored : NoffHeader)
    (j : Indeterminate) (k k' : Kernel) (s : AddrSpace)
    (hcons : AddrSpace.construct c executable stored j k = some (s, k'))
    (hP : 0 < c.PageSize) (hcode : 0 ≤ s.noffH.code.size) (hinit : 0 ≤ s.noffH.initData.size)
    (huninit : 0 ≤ s.noffH.uninitData.size)
    (hfits : s.noffH.code.size + s.noffH.initData.size + s.noffH.uninitData.size
      + UserStackSize < 4294967296) :
    parseHeader c stored = some s.noffH ∧ (s.numPages : Int) = specPageCount c s.noffH := by
  have hB := construct_spec hcons
  refine ⟨hB.header, ?_⟩
  rw [hB.numPages]
  unfold pageCount specPageCount
  have hs : 0 ≤ s.noffH.code.size + s.noffH.initData.size + s.noffH.uninitData.size
      + UserStackSize := by
    unfold UserStackSize; omega
  rw [u32_of_range hs hfits, Int.toNat_of_nonneg (divRoundUp_nonneg hs hP)]
  exact divRoundUp_eq_ceil _ _ hP

/-- C15, witness: the whole-page image has 256 + 128 + 128 bytes and the stack
1024; on the stock machine (pages of 128 bytes) the constructor sets
`numPages = 12`. -/
theorem numPages_is_ceiling_witness :
    AddrSpace.construct stock onesFile wholePageHeader sampleJunk bootedStock = some loadedSpace ∧
    loadedSpace.1.noffH = wholePageHeader ∧ loadedSpace.1.numPages = 12 ∧
    (loadedSpace.1.numPages : Int) = specPageCount stock loadedSpace.1.noffH :=
  have hc : AddrSpace.construct stock onesFile wholePageHeader sampleJunk bootedStock
      = some loadedSpace := eq_some_get _
  have hh : loadedSpace.1.noffH = wholePageHeader := by decide
  ⟨hc, hh, by decide,
    (numPages_is_ceiling stock onesFile wholePageHeader sampleJunk bootedStock loadedSpace.2
      loadedSpace.1 hc (by decide) (by rw [hh]; decide) (by rw [hh]; decide)
      (by rw [hh]; decide) (by rw [hh]; decide)).2⟩

/-! ## C16: the endianness of the header -/

/-- `WordToHost` reverses the four bytes of a word. -/
theorem WordToHost_eq (w : Int) : WordToHost w = wordOfBytes (wordBytes w).reverse := by
  simp only [WordToHost, wordBytes, wordOfBytes, List.reverse_cons, List.reverse_nil,
    List.nil_append, List.cons_append]
  ring

/-- The bytes of a word are bytes, and they make up the word. -/
theorem wordOfBytes_wordBytes (w : Int) : wordOfBytes (wordBytes w) = u32 w := by
  simp only [wordBytes, wordOfBytes]
  have h : 0 ≤ u32 w ∧ u32 w < 4294967296 := by unfold u32; omega
  omega

theorem SwapSegment_eq (g : Segment) :
    SwapSegment g = { virtualAddr := byteSwapped g.virtualAddr
                      inFileAddr := byteSwapped g.inFileAddr
                      size := byteSwapped g.size } := by
  simp only [SwapSegment, byteSwapped, WordToHost_eq]

/-- C16: with `NOFFMAGIC` a 32-bit `int`, the constructor accepts the header
exactly when the stored magic equals `NOFFMAGIC` directly or after
byte-swapping.  In the first case the header is used as read; in the second each
of the ten fields is replaced by its byte-swapped value; in neither case no
construction returns.  A construction that returns uses the accepted header. -/
theorem header_negotiation (c : Params) (stored : NoffHeader)
    (hM : -2147483648 ≤ c.NOFFMAGIC ∧ c.NOFFMAGIC < 2147483648) :
    ((parseHeader c stored).isSome = true ↔
      (stored.noffMagic = c.NOFFMAGIC ∨ byteSwapped stored.noffMagic = c.NOFFMAGIC)) ∧
    (stored.noffMagic = c.NOFFMAGIC → parseHeader c stored = some stored) ∧
    (stored.noffMagic ≠ c.NOFFMAGIC → byteSwapped stored.noffMagic = c.NOFFMAGIC →
      parseHeader c stored = some
        { noffMagic := byteSwapped stored.noffMagic
          code := { virtualAddr := byteSwapped stored.code.virtualAddr
                    inFileAddr := byteSwapped stored.code.inFileAddr
                    size := byteSwapped stored.code.size }
          initData := { virtualAddr := byteSwapped stored.initData.virtualAddr
                        inFileAddr := byteSwapped stored.initData.inFileAddr
                        size := byteSwapped stored.initData.size }
          uninitData := { virtualAddr := byteSwapped stored.uninitData.virtualAddr
                          inFileAddr := byteSwapped stored.uninitData.inFileAddr
                          size := byteSwapped stored.uninitData.size } }) ∧
    (stored.noffMagic ≠ c.NOFFMAGIC → byteSwapped stored.noffMagic ≠ c.NOFFMAGIC →
      parseHeader c stored = none ∧
      ∀ (executable : Bytes) (j : Indeterminate) (k : Kernel),
        AddrSpace.construct c executable stored j k = none) ∧
    (∀ (executable : Bytes) (j : Indeterminate) (k k' : Kernel) (s : AddrSpace),
      AddrSpace.construct c executable stored j k = some (s, k') →
        parseHeader c stored = some s.noffH) := by
  have hsw : SwapHeader stored =
      { noffMagic := byteSwapped stored.noffMagic
        code := { virtualAddr := byteSwapped stored.code.virtualAddr
                  inFileAddr := byteSwapped stored.code.inFileAddr
                  size := byteSwapped stored.code.size }
        initData := { virtualAddr := byteSwapped stored.initData.virtualAddr
                      inFileAddr := byteSwapped stored.initData.inFileAddr
                      size := byteSwapped stored.initData.size }
        uninitData := { virtualAddr := byteSwapped stored.uninitData.virtualAddr
                        inFileAddr := byteSwapped stored.uninitData.inFileAddr
                        size := byteSwapped stored.uninitData.size } } := by
    simp only [SwapHeader, SwapSegment_eq, byteSwapped, WordToHost_eq]
  have hbs : byteSwapped stored.noffMagic = toInt32 (WordToHost stored.noffMagic) := by
    simp only [byteSwapped, WordToHost_eq]
  have hcmp : u32 (WordToHost stored.noffMagic) = u32 c.NOFFMAGIC ↔
      byteSwapped stored.noffMagic = c.NOFFMAGIC := by
    rw [hbs]
    unfold toInt32 u32
    omega
  have h1 : stored.noffMagic = c.NOFFMAGIC → parseHeader c stored = some stored := by
    intro h
    unfold parseHeader
    simp only [h, ne_eq, not_true_eq_false, false_and, if_false, if_true]
  have h2 : stored.noffMagic ≠ c.NOFFMAGIC → byteSwapped stored.noffMagic = c.NOFFMAGIC →
      parseHeader c stored = some (SwapHeader stored) := by
    intro hne hb
    unfold parseHeader
    simp only [ne_eq, hne, not_false_eq_true, hcmp.mpr hb, and_self, if_true]
    have : (SwapHeader stored).noffMagic = c.NOFFMAGIC := by rw [hsw]; exact hb
    rw [if_pos this]
  have h3 : stored.noffMagic ≠ c.NOFFMAGIC → byteSwapped stored.noffMagic ≠ c.NOFFMAGIC →
      parseHeader c stored = none := by
    intro hne hb
    unfold parseHeader
    have : ¬ (stored.noffMagic ≠ c.NOFFMAGIC ∧
        u32 (WordToHost stored.noffMagic) = u32 c.NOFFMAGIC) := fun h => hb (hcmp.mp h.2)
    simp only [this, if_false, hne]
  refine ⟨?_, h1, ?_, ?_, ?_⟩
  · constructor
    · intro hs
      by_contra hc
      rw [not_or] at hc
      rw [h3 hc.1 hc.2] at hs
      cases hs
    · rintro (h | h)
      · rw [h1 h]; rfl
      · by_cases hd : stored.noffMagic = c.NOFFMAGIC
        · rw [h1 hd]; rfl
        · rw [h2 hd h]; rfl
  · intro hne hb
    rw [h2 hne hb, hsw]
  · intro hne hb
    refine ⟨h3 hne hb, ?_⟩
    intro executable j k
    unfold AddrSpace.construct
    rw [h3 hne hb]
    cases findSpaceId k.spaceIdMap <;> rfl
  · intro executable j k k' s hcons
    exact (construct_spec hcons).header

/-- C16, witness: on the stock machine the whole-page header is accepted as
read, and stored with every field byte-swapped (its magic then reads
`0xaddfba00`) it is accepted as the same header; a header with magic 1 is
accepted in neither way. -/
theorem header_negotiation_witness :
    parseHeader stock wholePageHeader = some wholePageHeader ∧
    (SwapHeader wholePageHeader).noffMagic = -1377846784 ∧
    parseHeader stock (SwapHeader wholePageHeader) = some wholePageHeader ∧
    parseHeader stock { wholePageHeader with noffMagic := 1 } = none :=
  have hM : -2147483648 ≤ stock.NOFFMAGIC ∧ stock.NOFFMAGIC < 2147483648 := by decide
  ⟨(header_negotiation stock wholePageHeader hM).2.1 rfl, by decide,
    ((header_negotiation stock (SwapHeader wholePageHeader) hM).2.2.1 (by decide)
      (by decide)).trans (by decide),
    ((header_negotiation stock { wholePageHeader with noffMagic := 1 } hM).2.2.2.1 (by decide)
      (by decide)).1⟩

/-! ## C17: images that are too big -/

/-- C17: for a header with a valid magic (accepted as `noffH`), when the page
count exceeds `NumPhysPages` no construction returns: the constructor stops at
an assertion that precedes `setUpTranslation()`, the only part that builds
page-table entries and claims frames, and when an id is free and the swap file
is created that assertion is `ASSERT(numPages <= NumPhysPages)`.  When the page
count is at most `NumPhysPages` that assertion does not fail. -/
theorem oversized_image_rejected (c : Params) (executable : Bytes) (stored : NoffHeader)
    (j : Indeterminate) (k : Kernel) (noffH : NoffHeader)
    (hh : parseHeader c stored = some noffH) :
    (c.NumPhysPages < pageCount c noffH →
      AddrSpace.construct c executable stored j k = none ∧
      ∃ halt, AddrSpace.construct.prepare c executable stored j k.spaceIdMap
          = Except.error halt ∧
        (findSpaceId k.spaceIdMap ≠ none → j.createSucceeds = true → halt = Halt.size)) ∧
    (pageCount c noffH ≤ c.NumPhysPages →
      AddrSpace.construct.prepare c executable stored j k.spaceIdMap
        ≠ Except.error Halt.size) := by
  refine ⟨?_, ?_⟩
  · intro hbig
    have hn : ¬ pageCount c noffH ≤ c.NumPhysPages := by omega
    have hprep : ∃ halt, AddrSpace.construct.prepare c executable stored j k.spaceIdMap
          = Except.error halt ∧
        (findSpaceId k.spaceIdMap ≠ none → j.createSucceeds = true → halt = Halt.size) := by
      unfold AddrSpace.construct.prepare
      cases hid : findSpaceId k.spaceIdMap with
      | none => exact ⟨Halt.flag, rfl, fun h => absurd rfl h⟩
      | some spaceId =>
        simp only [hh]
        by_cases hc : j.createSucceeds = true
        · rw [if_pos hc, if_neg hn]
          exact ⟨Halt.size, rfl, fun _ _ => rfl⟩
        · rw [if_neg hc]
          exact ⟨Halt.create, rfl, fun _ h => absurd h hc⟩
    refine ⟨?_, hprep⟩
    obtain ⟨halt, hp, _⟩ := hprep
    rw [construct_eq_prepare, hp]
  · intro hle
    unfold AddrSpace.construct.prepare
    cases hid : findSpaceId k.spaceIdMap with
    | none => simp
    | some spaceId =>
      simp only [hh]
      by_cases hc : j.createSucceeds = true
      · rw [if_pos hc, if_pos hle]
        simp
      · rw [if_neg hc]
        simp

/-- C17, witness: an image of 4096 bytes of code has 40 pages on the stock
machine of 32 frames; its construction stops at
`ASSERT(numPages <= NumPhysPages)`. -/
theorem oversized_image_rejected_witness :
    parseHeader stock bigHeader = some bigHeader ∧ pageCount stock bigHeader = 40 ∧
    stock.NumPhysPages = 32 ∧
    AddrSpace.construct stock onesFile bigHeader sampleJunk bootedStock = none ∧
    AddrSpace.construct.prepare stock onesFile bigHeader sampleJunk bootedStock.spaceIdMap
      = Except.error Halt.size := by
  have hh : parseHeader stock bigHeader = some bigHeader := by decide
  obtain ⟨h1, halt, h2, h3⟩ :=
    (oversized_image_rejected stock onesFile bigHeader sampleJunk bootedStock bigHeader hh).1
      (by decide)
  have : halt = Halt.size := h3 (by decide) rfl
  rw [this] at h2
  exact ⟨hh, by decide, rfl, h1, h2⟩

/-! ## C18: exhaustion of the frame allocator -/

/-- A loop does not complete when one of its iterations fails in the state that
the iterations before it produce. -/
theorem forLoop_none_at {σ : Type} (body : Nat → σ → Option σ) (i : Nat) (s st : σ)
    (hi : forLoop body i s = some st) (hbody : body i st = none) :
    ∀ n : Nat, i < n → forLoop body n s = none := by
  intro n
  induction n with
  | zero => intro h; omega
  | succ n ih =>
    intro h
    unfold forLoop
    by_cases hin : i < n
    · rw [ih hin]; rfl
    · have : i = n := by omega
      subst this
      rw [hi]
      exact hbody

/-- A map in which every index is claimed has no free index. -/
theorem firstClear_full (b : BitMap) (h : ∀ x ∈ b, x = true) : BitMap.firstClear b = none := by
  induction b with
  | nil => rfl
  | cons x rest ih =>
    unfold BitMap.firstClear
    have hx : x = true := h x (List.mem_cons_self _ _)
    rw [if_neg (by rw [hx]; decide), ih (fun y hy => h y (List.mem_cons_of_mem _ hy))]
    rfl

/-- C18: when the constructor has come as far as `setUpTranslation()` and, at
an iteration `i` of its loop that makes page `i` resident (`i < numPages`,
`i < AvailablePages`), every frame of the allocator is claimed, no construction
returns.  A construction that returns has, in every page-table entry with
`valid = true`, a frame that is claimed in the allocator afterwards and was free
before. -/
theorem frame_exhaustion_fatal (c : Params) (executable : Bytes) (stored : NoffHeader)
    (j : Indeterminate) (k : Kernel) :
    (∀ (s0 : AddrSpace) (ids : Nat → Bool) (i : Nat) (st : AddrSpace × BitMap),
      AddrSpace.construct.prepare c executable stored j k.spaceIdMap = Except.ok (s0, ids) →
      i < s0.numPages → i < AvailablePages →
      forLoop (AddrSpace.setUpTranslation.body c j) i
        ({ s0 with firstInPage := 0, pageTable := [] }, k.bitmap) = some st →
      (∀ x ∈ st.2, x = true) →
        AddrSpace.construct c executable stored j k = none) ∧
    (∀ (s : AddrSpace) (k' : Kernel),
      AddrSpace.construct c executable stored j k = some (s, k') →
        ∀ (p : Nat) (e : TranslationEntry), s.pageTable[p]? = some e → e.valid = true →
          BitMap.Test k'.bitmap e.physicalPage = true ∧
          BitMap.Test k.bitmap e.physicalPage = false) := by
  refine ⟨?_, ?_⟩
  · intro s0 ids i st hprep hn hA hloop hfull
    have hbody : AddrSpace.setUpTranslation.body c j i st = none := by
      unfold AddrSpace.setUpTranslation.body
      simp only [if_pos hA, BitMap.Find, firstClear_full st.2 hfull]
    rw [construct_eq_prepare, hprep]
    simp only
    unfold AddrSpace.setUpTranslation
    rw [forLoop_none_at _ i _ st hloop hbody s0.numPages hn]
    rfl
  · intro s k' hcons p e he hv
    have hB := construct_spec hcons
    have hp : p < AvailablePages := by
      have := (hB.entry p e he).2.1
      rw [hv] at this
      simpa using this.symm
    exact hB.frame p e he hp

/-- C18, witness: on the machine with a single frame the empty image (one page)
is loaded once, which claims the frame; a second construction finds every frame
claimed at `i = 0` and does not return. -/
theorem frame_exhaustion_fatal_witness :
    Reach snug anyEvent snugFull ∧ snugFull.bitmap = [true] ∧
    (AddrSpace.construct.prepare snug onesFile emptyHeader sampleJunk snugFull.spaceIdMap).isOk
      = true ∧
    AddrSpace.construct snug onesFile emptyHeader sampleJunk snugFull = none := by
  have hr : Reach snug anyEvent snugFull :=
    Reach.step (Event.create onesFile emptyHeader sampleJunk) (Reach.boot zeroMachine) trivial
      (eq_some_get _)
  have hok : (AddrSpace.construct.prepare snug onesFile emptyHeader sampleJunk
      snugFull.spaceIdMap).isOk = true := by decide
  refine ⟨hr, by decide, hok, ?_⟩
  cases hp : AddrSpace.construct.prepare snug onesFile emptyHeader sampleJunk
      snugFull.spaceIdMap with
  | error halt => rw [hp] at hok; cases hok
  | ok r =>
    obtain ⟨s0, ids⟩ := r
    have hn : (AddrSpace.construct.prepare snug onesFile emptyHeader sampleJunk
        snugFull.spaceIdMap).toOption.map (fun r => r.1.numPages) = some 1 := by decide
    rw [hp] at hn
    simp only [Except.toOption, Option.map_some', Option.some.injEq] at hn
    exact (frame_exhaustion_fatal snug onesFile emptyHeader sampleJunk snugFull).1 s0 ids 0
      (_, snugFull.bitmap) hp (by omega) (by decide) rfl
      (show ∀ x ∈ snugFull.bitmap, x = true by decide)

/-! ## What `copy2Mem` loads -/

theorem Loaded.start (c : Params) (s0 : AddrSpace) (m0 : Machine) :
    Loaded c s0 m0 (fun _ => none) (s0, m0) where
  executable := rfl
  noffH := rfl
  entry := fun p e he => ⟨e, he, rfl, rfl⟩
  bytes := fun p e a _ hF => by cases hF
  rest := fun y _ => rfl

/-- The frames of two resident entries of a table with distinct frames do not
overlap. -/
theorem frames_apart {c : Params} (hP : 0 < c.PageSize) {pt : List TranslationEntry}
    (hD : FramesDistinct pt) {p q : Nat} {e e' : TranslationEntry} (he : pt[p]? = some e)
    (he' : pt[q]? = some e') (hv : e.valid = true) (hv' : e'.valid = true) (hpq : p ≠ q)
    {x : Int} (h0 : 0 ≤ x) (h1 : x < c.PageSize) :
    ¬ (e'.physicalPage * c.PageSize ≤ e.physicalPage * c.PageSize + x ∧
        e.physicalPage * c.PageSize + x < e'.physicalPage * c.PageSize + c.PageSize) :=
  region_disjoint hP (fun h => hpq (hD p q e e' he he' hv hv' h.symm)) h0 h1

/-- One iteration that gives page `q` the backing offset `a` and, when the page
is resident, reads its frame from the executable. -/
theorem Loaded.load {c : Params} {s0 : AddrSpace} {m0 : Machine} {F F' : Nat → Option Int}
    {st t : AddrSpace × Machine} (hP : 0 < c.PageSize) (hD : FramesDistinct s0.pageTable)
    (hI : Loaded c s0 m0 F st) {q : Nat} {e e1 : TranslationEntry} {a : Int}
    (hF : F q = none) (hFq : F' q = some a) (hFo : ∀ p, p ≠ q → F' p = F p)
    (he : st.1.pageTable[q]? = some e) (hc : e1.core = e.core) (ha : e1.inFileAddr = a)
    (ht1 : t.1 = { st.1 with pageTable := st.1.pageTable.set q e1 })
    (ht2 : t.2 = if e1.valid = true then
        { st.2 with mainMemory :=
            (ReadAt st.1.executable st.2.mainMemory (e1.physicalPage * c.PageSize) c.PageSize
              e1.inFileAddr) }
      else st.2) :
    Loaded c s0 m0 F' t := by
  have hlt := lt_length_of_getElem? he
  have hget : ∀ p, t.1.pageTable[p]? = if p = q then some e1 else st.1.pageTable[p]? := by
    intro p
    rw [ht1]
    simp only [List.getElem?_set]
    by_cases hpq : p = q
    · subst hpq; simp [hlt]
    · have : ¬ q = p := fun h => hpq h.symm
      simp [hpq, this]
  obtain ⟨e0, he0, hce0, _⟩ := hI.entry q e he
  have hcore : ∀ (p : Nat) (x : TranslationEntry), t.1.pageTable[p]? = some x →
      ∃ x0, s0.pageTable[p]? = some x0 ∧ x.core = x0.core := by
    intro p x hx
    rw [hget p] at hx
    by_cases hpq : p = q
    · simp only [hpq, if_true, Option.some.injEq] at hx
      subst hx
      exact ⟨e0, by rw [hpq]; exact he0, hc.trans hce0⟩
    · simp only [hpq, if_false] at hx
      obtain ⟨x0, h1, h2, _⟩ := hI.entry p x hx
      exact ⟨x0, h1, h2⟩
  have apart : ∀ (p : Nat) (x : TranslationEntry), t.1.pageTable[p]? = some x → p ≠ q →
      x.valid = true → e1.valid = true → ∀ z, 0 ≤ z → z < c.PageSize →
      ¬ (e1.physicalPage * c.PageSize ≤ x.physicalPage * c.PageSize + z ∧
        x.physicalPage * c.PageSize + z < e1.physicalPage * c.PageSize + c.PageSize) := by
    intro p x hx hpq hv hv1 z hz0 hz1
    obtain ⟨x0, hx0, hcx⟩ := hcore p x hx
    have k1 := core_eq_iff.mp hcx
    have k2 := core_eq_iff.mp (hc.trans hce0)
    rw [k1.2.1, k2.2.1]
    exact frames_apart hP hD hx0 he0 (by rw [← k1.2.2.1]; exact hv)
      (by rw [← k2.2.2.1]; exact hv1) hpq hz0 hz1
  refine ⟨?_, ?_, ?_, ?_, ?_⟩
  · rw [ht1]; exact hI.executable
  · rw [ht1]; exact hI.noffH
  · intro p x hx
    rw [hget p] at hx
    by_cases hpq : p = q
    · simp only [hpq, if_true, Option.some.injEq] at hx
      subst hx
      refine ⟨e0, by rw [hpq]; exact he0, hc.trans hce0, ?_⟩
      rw [hpq, hFq, ha]; rfl
    · simp only [hpq, if_false] at hx
      obtain ⟨x0, h1, h2, h3⟩ := hI.entry p x hx
      exact ⟨x0, h1, h2, by rw [hFo p hpq]; exact h3⟩
  · intro p x b hx hFp hv z hz0 hz1
    have hx' := hx
    rw [hget p] at hx
    by_cases hpq : p = q
    · simp only [hpq, if_true, Option.some.injEq] at hx
      subst hx
      rw [hpq, hFq] at hFp
      simp only [Option.some.injEq] at hFp
      rw [ht2, if_pos hv]
      simp only [ReadAt]
      rw [if_pos ⟨by omega, by omega⟩, hI.executable, ha, hFp]
      congr 1
      omega
    · simp only [hpq, if_false] at hx
      rw [hFo p hpq] at hFp
      have := hI.bytes p x b hx hFp hv z hz0 hz1
      rw [← this, ht2]
      by_cases hv1 : e1.valid = true
      · rw [if_pos hv1]
        simp only [ReadAt]
        rw [if_neg (apart p x hx' hpq hv hv1 z hz0 hz1)]
      · rw [if_neg hv1]
  · intro y hy
    have hst : st.2.mainMemory y = m0.mainMemory y := by
      apply hI.rest
      intro p x hx hFp hv
      have hpq : p ≠ q := by
        intro h
        rw [h, hF] at hFp
        cases hFp
      refine hy p x ?_ ?_ hv
      · rw [hget p, if_neg hpq]; exact hx
      · rw [hFo p hpq]; exact hFp
    rw [← hst, ht2]
    by_cases hv1 : e1.valid = true
    · rw [if_pos hv1]
      simp only [ReadAt]
      rw [if_neg]
      refine hy q e1 ?_ ?_ hv1
      · rw [hget q, if_pos rfl]
      · rw [hFq]; rfl
    · rw [if_neg hv1]

/-- One iteration that only assigns the `type` field of page `q`. -/
theorem Loaded.retype {c : Params} {s0 : AddrSpace} {m0 : Machine} {F : Nat → Option Int}
    {st t : AddrSpace × Machine} (hI : Loaded c s0 m0 F st) {q : Nat}
    {e e1 : TranslationEntry} (he : st.1.pageTable[q]? = some e) (hc : e1.core = e.core)
    (ha : e1.inFileAddr = e.inFileAddr)
    (ht1 : t.1 = { st.1 with pageTable := st.1.pageTable.set q e1 }) (ht2 : t.2 = st.2) :
    Loaded c s0 m0 F t := by
  have hlt := lt_length_of_getElem? he
  have hget : ∀ p, t.1.pageTable[p]? = if p = q then some e1 else st.1.pageTable[p]? := by
    intro p
    rw [ht1]
    simp only [List.getElem?_set]
    by_cases hpq : p = q
    · subst hpq; simp [hlt]
    · have : ¬ q = p := fun h => hpq h.symm
      simp [hpq, this]
  have back : ∀ (p : Nat) (x : TranslationEntry), t.1.pageTable[p]? = some x →
      ∃ x', st.1.pageTable[p]? = some x' ∧ x.core = x'.core ∧ x.inFileAddr = x'.inFileAddr := by
    intro p x hx
    rw [hget p] at hx
    by_cases hpq : p = q
    · simp only [hpq, if_true, Option.some.injEq] at hx
      subst hx
      exact ⟨e, by rw [hpq]; exact he, hc, ha⟩
    · simp only [hpq, if_false] at hx
      exact ⟨x, hx, rfl, rfl⟩
  refine ⟨?_, ?_, ?_, ?_, ?_⟩
  · rw [ht1]; exact hI.executable
  · rw [ht1]; exact hI.noffH
  · intro p x hx
    obtain ⟨x', hx', h1, h2⟩ := back p x hx
    obtain ⟨x0, g1, g2, g3⟩ := hI.entry p x' hx'
    exact ⟨x0, g1, h1.trans g2, h2.trans g3⟩
  · intro p x b hx hFp hv z hz0 hz1
    obtain ⟨x', hx', h1, _⟩ := back p x hx
    have k1 := core_eq_iff.mp h1
    rw [ht2, k1.2.1]
    exact hI.bytes p x' b hx' hFp (by rw [← k1.2.2.1]; exact hv) z hz0 hz1
  · intro y hy
    rw [ht2]
    apply hI.rest
    intro p x' hx' hFp hv'
    by_cases hpq : p = q
    · have hxe : x' = e := by
        rw [hpq, he] at hx'
        exact (Option.some.inj hx').symm
      have k1 := core_eq_iff.mp hc
      have := hy q e1 (by rw [hget q, if_pos rfl]) (by rw [← hpq]; exact hFp)
        (by rw [k1.2.2.1, ← hxe]; exact hv')
      rw [hxe, ← k1.2.1]
      exact this
    · exact hy p x' (by rw [hget p, if_neg hpq]; exact hx') hFp hv'

theorem Loaded.congr {c : Params} {s0 : AddrSpace} {m0 : Machine} {F F' : Nat → Option Int}
    {st : AddrSpace × Machine} (h : ∀ p, F p = F' p) (hI : Loaded c s0 m0 F st) :
    Loaded c s0 m0 F' st := by
  have : F = F' := funext h
  rw [← this]; exact hI

/-- A loop whose `k`-th iteration gives page `lo + k` the backing offset `off k`
and loads it. -/
theorem forLoop_loaded {c : Params} {s0 : AddrSpace} {m0 : Machine} (hP : 0 < c.PageSize)
    (hD : FramesDistinct s0.pageTable)
    {body : Nat → AddrSpace × Machine → Option (AddrSpace × Machine)} {lo : Nat}
    {off : Nat → Int} {F0 : Nat → Option Int}
    (hbody : ∀ k st t, st.1.noffH = s0.noffH → body k st = some t →
      ∃ e e1, st.1.pageTable[lo + k]? = some e ∧ e1.core = e.core ∧ e1.inFileAddr = off k ∧
        t.1 = { st.1 with pageTable := st.1.pageTable.set (lo + k) e1 } ∧
        t.2 = if e1.valid = true then
            { st.2 with mainMemory :=
                (ReadAt st.1.executable st.2.mainMemory (e1.physicalPage * c.PageSize)
                  c.PageSize e1.inFileAddr) }
          else st.2)
    (hF0 : ∀ p, lo ≤ p → F0 p = none) {st0 t : AddrSpace × Machine} {n : Nat}
    (h0 : Loaded c s0 m0 F0 st0) (h : forLoop body n st0 = some t) :
    Loaded c s0 m0 (fun p => if lo ≤ p ∧ p < lo + n then some (off (p - lo)) else F0 p) t := by
  refine forLoop_inv
    (fun k (st : AddrSpace × Machine) =>
      Loaded c s0 m0 (fun p => if lo ≤ p ∧ p < lo + k then some (off (p - lo)) else F0 p) st)
    ?_ n t h ?_
  · refine Loaded.congr ?_ h0
    intro p
    have : ¬ (lo ≤ p ∧ p < lo + 0) := by omega
    simp only [this, if_false]
  · intro k st u _ hI hb
    obtain ⟨e, e1, he, hc, ha, ht1, ht2⟩ := hbody k st u hI.noffH hb
    refine Loaded.load hP hD hI ?_ ?_ ?_ he hc ha ht1 ht2
    · have : ¬ (lo ≤ lo + k ∧ lo + k < lo + k) := by omega
      simp only [this, if_false]
      exact hF0 _ (by omega)
    · have : lo ≤ lo + k ∧ lo + k < lo + (k + 1) := by omega
      simp only [this, and_self, if_true]
      congr 2
      omega
    · intro p hp
      have : (lo ≤ p ∧ p < lo + (k + 1)) ↔ (lo ≤ p ∧ p < lo + k) := by omega
      simp only [this]

/-- A loop whose iterations only assign `type` fields. -/
theorem forLoop_retyped {c : Params} {s0 : AddrSpace} {m0 : Machine}
    {body : Nat → AddrSpace × Machine → Option (AddrSpace × Machine)} {F : Nat → Option Int}
    (hbody : ∀ k st t, body k st = some t →
      ∃ q e e1, st.1.pageTable[q]? = some e ∧ e1.core = e.core ∧
        e1.inFileAddr = e.inFileAddr ∧
        t.1 = { st.1 with pageTable := st.1.pageTable.set q e1 } ∧ t.2 = st.2)
    {st0 t : AddrSpace × Machine} {n : Nat}
    (h0 : Loaded c s0 m0 F st0) (h : forLoop body n st0 = some t) : Loaded c s0 m0 F t := by
  refine forLoop_inv (fun _ (st : AddrSpace × Machine) => Loaded c s0 m0 F st) h0 n t h ?_
  intro k st u _ hI hb
  obtain ⟨q, e, e1, he, hc, ha, ht1, ht2⟩ := hbody k st u hb
  exact Loaded.retype hI he hc ha ht1 ht2

theorem codeBody_step {c : Params} (k : Nat) (st t : AddrSpace × Machine)
    (h : AddrSpace.copy2Mem.codeBody c k st = some t) :
    ∃ e e1, st.1.pageTable[0 + k]? = some e ∧ e1.core = e.core ∧
      e1.inFileAddr = st.1.noffH.code.inFileAddr + (k : Int) * c.PageSize ∧
      t.1 = { st.1 with pageTable := st.1.pageTable.set (0 + k) e1 } ∧
      t.2 = if e1.valid = true then
          { st.2 with mainMemory :=
              (ReadAt st.1.executable st.2.mainMemory (e1.physicalPage * c.PageSize)
                c.PageSize e1.inFileAddr) }
        else st.2 := by
  unfold AddrSpace.copy2Mem.codeBody at h
  cases he : getEntry st.1.pageTable (k : Int) with
  | none => simp only [he] at h; cases h
  | some e =>
    have hk : (k : Int).toNat = 0 + k := by simp
    simp only [he, Option.some.injEq, hk] at h
    subst h
    rw [getEntry_natCast] at he
    exact ⟨e, TranslationEntry.mk e.virtualPage e.physicalPage e.valid e.readOnly e.use e.dirty
      (st.1.noffH.code.inFileAddr + (k : Int) * c.PageSize) (some PageType.code),
      by simpa using he, rfl, rfl, rfl, rfl⟩

theorem initDataBody_step {c : Params} {start : Int} (h0 : 0 ≤ start) (h1 : start < 2147483648)
    (k : Nat) (st t : AddrSpace × Machine)
    (h : AddrSpace.copy2Mem.initDataBody c start k st = some t) :
    ∃ e e1, st.1.pageTable[start.toNat + k]? = some e ∧ e1.core = e.core ∧
      e1.inFileAddr
        = toInt32 (u32 (st.1.noffH.initData.inFileAddr + u32 (k : Int) * c.PageSize)) ∧
      t.1 = { st.1 with pageTable := st.1.pageTable.set (start.toNat + k) e1 } ∧
      t.2 = if e1.valid = true then
          { st.2 with mainMemory :=
              (ReadAt st.1.executable st.2.mainMemory (e1.physicalPage * c.PageSize)
                c.PageSize e1.inFileAddr) }
        else st.2 := by
  unfold AddrSpace.copy2Mem.initDataBody at h
  have hi : toInt32 start + (k : Int) = ((start.toNat + k : Nat) : Int) := by
    rw [toInt32_of_range (by omega) h1]; omega
  have hd : ((start.toNat + k : Nat) : Int) - start = (k : Int) := by omega
  rw [hi] at h
  cases he : getEntry st.1.pageTable ((start.toNat + k : Nat) : Int) with
  | none => simp only [he] at h; cases h
  | some e =>
    simp only [he, Option.some.injEq, Int.toNat_ofNat, hd] at h
    subst h
    rw [getEntry_natCast] at he
    exact ⟨e, TranslationEntry.mk e.virtualPage e.physicalPage e.valid e.readOnly e.use e.dirty
      (toInt32 (u32 (st.1.noffH.initData.inFileAddr + u32 (k : Int) * c.PageSize)))
      (some PageType.initData), he, rfl, rfl, rfl, rfl⟩

theorem uninitDataBody_step {start : Int} (h0 : 0 ≤ start) (h1 : start < 2147483648)
    (k : Nat) (st t : AddrSpace × Machine)
    (h : AddrSpace.copy2Mem.uninitDataBody start k st = some t) :
    ∃ q e e1, st.1.pageTable[q]? = some e ∧ e1.core = e.core ∧
      e1.inFileAddr = e.inFileAddr ∧
      t.1 = { st.1 with pageTable := st.1.pageTable.set q e1 } ∧ t.2 = st.2 := by
  unfold AddrSpace.copy2Mem.uninitDataBody at h
  have hi : toInt32 start + (k : Int) = ((start.toNat + k : Nat) : Int) := by
    rw [toInt32_of_range (by omega) h1]; omega
  rw [hi] at h
  cases he : getEntry st.1.pageTable ((start.toNat + k : Nat) : Int) with
  | none => simp only [he] at h; cases h
  | some e =>
    simp only [he, Option.some.injEq, Int.toNat_ofNat] at h
    subst h
    rw [getEntry_natCast] at he
    exact ⟨start.toNat + k, e,
      TranslationEntry.mk e.virtualPage e.physicalPage e.valid e.readOnly e.use e.dirty
        e.inFileAddr (some PageType.uninitData), he, rfl, rfl, rfl, rfl⟩

/-- The offset that the initData loop computes in unsigned arithmetic is the
exact one when the file offsets of the segment fit a C `int`. -/
theorem initData_offset {P a size : Int} {k : Nat} (hP : 0 < P) (ha : 0 ≤ a)
    (hs : a + size < 2147483648) (hk : (k : Int) < divRoundUp size P) :
    toInt32 (u32 (a + u32 (k : Int) * P)) = a + (k : Int) * P := by
  have h1 := divRoundUp_mul_lt (n := size) hP
  have h2 : ((k : Int) + 1) * P ≤ divRoundUp size P * P :=
    mul_le_mul_of_nonneg_right (by omega) hP.le
  have h3 : ((k : Int) + 1) * P = (k : Int) * P + P := by ring
  have h4 : 0 ≤ (k : Int) * P := mul_nonneg (by omega) hP.le
  have h5 : (k : Int) ≤ (k : Int) * P := by nlinarith
  have h6 : u32 (k : Int) = (k : Int) := u32_of_range (by omega) (by omega)
  rw [h6]
  exact toInt32_u32_of_range (by omega) (by omega)

/-- What `copy2Mem` leaves: every page has the backing offset `backingOffset`
gives it (else the one it had), the frames of the resident pages that have one
hold the bytes of the executable from that offset, and the rest of memory is
untouched. -/
theorem copy2Mem_loaded {c : Params} {s s' : AddrSpace} {m m' : Machine} (hP : 0 < c.PageSize)
    (hplain : s.noffH.Plain) (hD : FramesDistinct s.pageTable)
    (h : AddrSpace.copy2Mem c s m = some (s', m')) :
    Loaded c s m (recordedOffset c s.noffH) (s', m') := by
  obtain ⟨p1, p2, p3, p4⟩ := hplain
  have hU : UserStackSize = 1024 := rfl
  have a0 := divRoundUp_nonneg p1 hP
  have b0 := divRoundUp_nonneg p2 hP
  have d0 := divRoundUp_nonneg p3 hP
  have a1 := divRoundUp_le_self p1 hP
  have b1 := divRoundUp_le_self p2 hP
  have d1 := divRoundUp_le_self p3 hP
  unfold recordedOffset
  simp only
  generalize hA : divRoundUp s.noffH.code.size c.PageSize = A at *
  generalize hB : divRoundUp s.noffH.initData.size c.PageSize = B at *
  generalize hDD : divRoundUp s.noffH.uninitData.size c.PageSize = D at *
  unfold AddrSpace.copy2Mem at h
  simp only [Option.bind_eq_some, hA, hB, hDD] at h
  obtain ⟨st2, ⟨st1, h1, h2⟩, h3⟩ := h
  -- the code loop
  have t1 : Loaded c s m
      (fun p => if (p : Int) < A then some (s.noffH.code.inFileAddr + (p : Int) * c.PageSize)
        else none) st1 := by
    by_cases hc : s.noffH.code.size > 0
    · simp only [hc, if_true] at h1
      rw [u32_of_range a0 (by omega)] at h1
      have := forLoop_loaded hP hD
        (fun k st t hn hb => by
          obtain ⟨e, e1, g1, g2, g3, g4, g5⟩ := codeBody_step k st t hb
          rw [hn] at g3
          exact ⟨e, e1, g1, g2, g3, g4, g5⟩)
        (fun p _ => rfl) (Loaded.start c s m) h1
      refine Loaded.congr ?_ this
      intro p
      have hiff : (0 ≤ p ∧ p < 0 + A.toNat) ↔ (p : Int) < A := by omega
      simp only [hiff, Nat.sub_zero]
    · simp only [hc, if_false, Option.some.injEq] at h1
      subst h1
      have hz : s.noffH.code.size = 0 := by omega
      have hA0 : A = 0 := by rw [← hA, hz]; simp [divRoundUp]
      refine Loaded.congr ?_ (Loaded.start c s m)
      intro p
      have : ¬ (p : Int) < A := by omega
      simp only [this, if_false]
  -- the initData loop
  have t2 : Loaded c s m
      (fun p => if A ≤ (p : Int) ∧ (p : Int) < A + B then
          some (toInt32 (u32 (s.noffH.initData.inFileAddr + u32 ((p : Int) - A) * c.PageSize)))
        else if (p : Int) < A then some (s.noffH.code.inFileAddr + (p : Int) * c.PageSize)
        else none) st2 := by
    by_cases hc : s.noffH.initData.size > 0
    · simp only [hc, if_true] at h2
      rw [u32_of_range a0 (by omega), u32_of_range b0 (by omega),
        loopCount_plain a0 b0 (by omega)] at h2
      have := forLoop_loaded hP hD
        (fun k st t hn hb => by
          obtain ⟨e, e1, g1, g2, g3, g4, g5⟩ := initDataBody_step a0 (by omega) k st t hb
          rw [hn] at g3
          exact ⟨e, e1, g1, g2, g3, g4, g5⟩)
        (fun p hp => by
          have : ¬ (p : Int) < A := by omega
          simp only [this, if_false])
        t1 h2
      refine Loaded.congr ?_ this
      intro p
      have hiff : (A.toNat ≤ p ∧ p < A.toNat + B.toNat) ↔ (A ≤ (p : Int) ∧ (p : Int) < A + B) := by
        omega
      simp only [hiff]
      by_cases hr : A ≤ (p : Int) ∧ (p : Int) < A + B
      · simp only [hr, and_self, if_true, Option.some.injEq]
        have hk : ((p - A.toNat : Nat) : Int) = (p : Int) - A := by omega
        rw [hk]
      · simp only [hr, if_false]
    · simp only [hc, if_false, Option.some.injEq] at h2
      subst h2
      have hz : s.noffH.initData.size = 0 := by omega
      have hB0 : B = 0 := by rw [← hB, hz]; simp [divRoundUp]
      refine Loaded.congr ?_ t1
      intro p
      have : ¬ (A ≤ (p : Int) ∧ (p : Int) < A + B) := by omega
      simp only [this, if_false]
  -- the uninitData loop
  by_cases hc : s.noffH.uninitData.size > 0
  · simp only [hc, if_true] at h3
    rw [u32_of_range (by omega) (by omega), u32_of_range d0 (by omega),
      loopCount_plain (by omega) d0 (by omega)] at h3
    exact forLoop_retyped
      (fun k st t hb => uninitDataBody_step (by omega) (by omega) k st t hb) t2 h3
  · simp only [hc, if_false, Option.some.injEq] at h3
    subst h3
    exact t2

/-- With file offsets that fit a C `int` the offsets that `copy2Mem` computes
are the exact ones. -/
theorem recordedOffset_eq {c : Params} {h : NoffHeader} (hP : 0 < c.PageSize)
    (hplain : h.Plain) (hfile : h.FileFits) (p : Nat) :
    recordedOffset c h p = backingOffset c h p := by
  obtain ⟨p1, p2, p3, p4⟩ := hplain
  obtain ⟨f1, f2⟩ := hfile
  have a0 := divRoundUp_nonneg p1 hP
  unfold recordedOffset backingOffset
  simp only
  by_cases hr : divRoundUp h.code.size c.PageSize ≤ (p : Int) ∧
      (p : Int) < divRoundUp h.code.size c.PageSize + divRoundUp h.initData.size c.PageSize
  · simp only [hr, and_self, if_true, Option.some.injEq]
    have hk : (p : Int) - divRoundUp h.code.size c.PageSize
        = ((p - (divRoundUp h.code.size c.PageSize).toNat : Nat) : Int) := by omega
    rw [hk]
    exact initData_offset hP f1 f2 (by omega)
  · simp only [hr, if_false]

/-! ## C19, C20: the page table and the memory after construction -/

/-- What the constructor has recorded and loaded when it returns, for a header
with non-negative sizes: the backing offsets, the contents of the frames of the
resident pages that have one, and the rest of memory. -/
theorem built_loaded {c : Params} {executable : Bytes} {stored : NoffHeader}
    {j : Indeterminate} {k k' : Kernel} {s : AddrSpace} (hP : 0 < c.PageSize)
    (h : AddrSpace.construct c executable stored j k = some (s, k')) (hplain : s.noffH.Plain) :
    (∀ (p : Nat) (e : TranslationEntry), s.pageTable[p]? = some e →
      e.inFileAddr = (recordedOffset c s.noffH p).getD (-1)) ∧
    (∀ (p : Nat) (e : TranslationEntry) (a : Int), s.pageTable[p]? = some e →
      recordedOffset c s.noffH p = some a → e.valid = true → ∀ x, 0 ≤ x → x < c.PageSize →
        k'.machine.mainMemory (e.physicalPage * c.PageSize + x) = s.executable (a + x)) ∧
    (∀ y,
      (∀ (p : Nat) (e : TranslationEntry), s.pageTable[p]? = some e →
        (recordedOffset c s.noffH p).isSome = true → e.valid = true →
        ¬ (e.physicalPage * c.PageSize ≤ y ∧ y < e.physicalPage * c.PageSize + c.PageSize)) →
      k'.machine.mainMemory y = k.machine.mainMemory y) := by
  obtain ⟨s0, s1, b1, hn, hH, hset, hcopy⟩ := construct_parts h
  have hI := setUpTranslation_spec hset
  have hH1 : s1.noffH = s.noffH := by rw [← hH]; exact hI.noffH
  have hD : FramesDistinct s1.pageTable := by
    intro p q e e' he he' hv hv' hf
    have g1 := hI.entry p e he
    have g2 := hI.entry q e' he'
    have v1 : decide (p < AvailablePages) = true := by rw [g1] at hv; exact hv
    have v2 : decide (q < AvailablePages) = true := by rw [g2] at hv'; exact hv'
    exact hI.distinct p q e e' he he' (by simpa using v1) (by simpa using v2) hf
  have hL := copy2Mem_loaded hP (by rw [hH1]; exact hplain) hD hcopy
  rw [hH1] at hL
  refine ⟨?_, ?_, ?_⟩
  · intro p e he
    obtain ⟨e0, he0, _, ha⟩ := hL.entry p e he
    have g := hI.entry p e0 he0
    have : e0.inFileAddr = -1 := by rw [g]
    rw [ha, this]
  · intro p e a he hF hv x h0 h1
    have := hL.bytes p e a he hF hv x h0 h1
    rw [this]
    exact congrFun hL.executable.symm _
  · intro y hy
    exact hL.rest y hy

/-- C19: after construction the page table has `numPages` entries; entry `i`
has `virtualPage = i`; the pages below `min(AvailablePages, numPages)` are
resident with `use = true`, `dirty = false` and a frame that was free in the
frame allocator before and is claimed after; every other page has
`valid = false` and `physicalPage = -1`; and, for a header with non-negative
sizes, an entry whose kind is neither code nor initData has `inFileAddr = -1`. -/
theorem initial_residency (c : Params) (executable : Bytes) (stored : NoffHeader)
    (j : Indeterminate) (k k' : Kernel) (s : AddrSpace)
    (hcons : AddrSpace.construct c executable stored j k = some (s, k')) :
    s.pageTable.length = s.numPages ∧
    (∀ (i : Nat) (e : TranslationEntry), s.pageTable[i]? = some e →
      e.virtualPage = (i : Int) ∧
      (i < min AvailablePages s.numPages →
        e.valid = true ∧ e.use = true ∧ e.dirty = false ∧
        BitMap.Test k.bitmap e.physicalPage = false ∧
        BitMap.Test k'.bitmap e.physicalPage = true) ∧
      (¬ i < min AvailablePages s.numPages → e.valid = false ∧ e.physicalPage = -1)) ∧
    (0 < c.PageSize → s.noffH.Plain →
      ∀ (i : Nat) (e : TranslationEntry), s.pageTable[i]? = some e →
        e.type ≠ some PageType.code → e.type ≠ some PageType.initData → e.inFileAddr = -1) := by
  have hB := construct_spec hcons
  refine ⟨hB.length, ?_, ?_⟩
  · intro i e he
    have hlt : i < s.numPages := by rw [← hB.length]; exact lt_length_of_getElem? he
    obtain ⟨h1, h2, h3, h4, _⟩ := hB.entry i e he
    refine ⟨h1, ?_, ?_⟩
    · intro hi
      have hA : i < AvailablePages := by omega
      have hf := hB.frame i e he hA
      refine ⟨by rw [h2]; simpa using hA, by rw [h3]; simpa using hA, h4, hf.2, hf.1⟩
    · intro hi
      have hA : ¬ i < AvailablePages := by omega
      exact ⟨by rw [h2]; simpa using hA, hB.absent i e he hA⟩
  · intro hP hplain i e he hcode hinit
    have hty := built_types hP hcons hplain i e he
    have hoff := (built_loaded hP hcons hplain).1 i e he
    rw [hoff]
    unfold builtType at hty
    unfold recordedOffset
    simp only at hty ⊢
    obtain ⟨p1, p2, p3, _⟩ := hplain
    have d0 := divRoundUp_nonneg p3 hP
    by_cases hr : divRoundUp s.noffH.code.size c.PageSize ≤ (i : Int) ∧
        (i : Int) < divRoundUp s.noffH.code.size c.PageSize
          + divRoundUp s.noffH.initData.size c.PageSize
    · have hnu : ¬ (divRoundUp s.noffH.code.size c.PageSize
            + divRoundUp s.noffH.initData.size c.PageSize ≤ (i : Int) ∧
          (i : Int) < divRoundUp s.noffH.code.size c.PageSize
            + divRoundUp s.noffH.initData.size c.PageSize
            + divRoundUp s.noffH.uninitData.size c.PageSize) := by omega
      rw [if_neg hnu, if_pos hr] at hty
      exact absurd hty hinit
    · rw [if_neg hr]
      by_cases hc : (i : Int) < divRoundUp s.noffH.code.size c.PageSize
      · have hnu : ¬ (divRoundUp s.noffH.code.size c.PageSize
              + divRoundUp s.noffH.initData.size c.PageSize ≤ (i : Int) ∧
            (i : Int) < divRoundUp s.noffH.code.size c.PageSize
              + divRoundUp s.noffH.initData.size c.PageSize
              + divRoundUp s.noffH.uninitData.size c.PageSize) := by
          have b0 := divRoundUp_nonneg p2 hP
          omega
        rw [if_neg hnu, if_neg hr, if_pos hc] at hty
        exact absurd hty hcode
      · rw [if_neg hc]
        rfl

/-- The object that the constructor returns reads from the file it was given. -/
theorem built_executable {c : Params} {executable : Bytes} {stored : NoffHeader}
    {j : Indeterminate} {k k' : Kernel} {s : AddrSpace}
    (h : AddrSpace.construct c executable stored j k = some (s, k')) :
    s.executable = executable := by
  unfold AddrSpace.construct at h
  simp only [Option.bind_eq_some] at h
  obtain ⟨spaceId, hid, hdr, hhdr, h⟩ := h
  by_cases hok : j.createSucceeds = true ∧ pageCount c hdr ≤ c.NumPhysPages
  · simp only [hok, and_self, if_true, Option.bind_eq_some] at h
    obtain ⟨⟨s1, b1⟩, hset, ⟨s2, m2⟩, hcopy, h⟩ := h
    simp only [Option.some.injEq, Prod.mk.injEq] at h
    obtain ⟨rfl, rfl⟩ := h
    have hI := setUpTranslation_spec hset
    have hS := copy2Mem_same hcopy
    rw [hS.executable, hI.executable]
  · simp [hok] at h

theorem built_framesDistinct {c : Params} {stored : NoffHeader} {j : Indeterminate}
    {k k' : Kernel} {s : AddrSpace} (hB : Built c stored j k s k') :
    FramesDistinct s.pageTable := by
  intro p q e e' he he' hv hv' hf
  have v1 := (hB.entry p e he).2.1
  have v2 := (hB.entry q e' he').2.1
  rw [hv] at v1
  rw [hv'] at v2
  exact hB.distinct p q e e' he he' (by simpa using v1.symm) (by simpa using v2.symm) hf

/-- C20: after construction from a header with non-negative sizes and file
offsets that fit a C `int`, a page `i` of the code or initData segment (pages
being numbered as `backingOffset` describes: code pages first, initData pages
next, page `k` of a segment `k * PageSize` bytes behind the segment's
`inFileAddr`) has that offset as `inFileAddr`, and when it is resident the
`PageSize` bytes of its frame are the bytes of the executable from that offset.
The frame of a resident page of kind uninitData or stack holds what it held
before the construction. -/
theorem initial_load (c : Params) (executable : Bytes) (stored : NoffHeader)
    (j : Indeterminate) (k k' : Kernel) (s : AddrSpace)
    (hcons : AddrSpace.construct c executable stored j k = some (s, k'))
    (hP : 0 < c.PageSize) (hplain : s.noffH.Plain) (hfile : s.noffH.FileFits) :
    ∀ (i : Nat) (e : TranslationEntry), s.pageTable[i]? = some e →
      (∀ a, backingOffset c s.noffH i = some a →
        e.inFileAddr = a ∧
        (e.type = some PageType.code ∨ e.type = some PageType.initData) ∧
        (e.valid = true → ∀ x, 0 ≤ x → x < c.PageSize →
          k'.machine.mainMemory (e.physicalPage * c.PageSize + x)
            = executable (e.inFileAddr + x))) ∧
      ((e.type = some PageType.uninitData ∨ e.type = some PageType.userStack) →
        e.valid = true → ∀ x, 0 ≤ x → x < c.PageSize →
          k'.machine.mainMemory (e.physicalPage * c.PageSize + x)
            = k.machine.mainMemory (e.physicalPage * c.PageSize + x)) := by
  have hB := construct_spec hcons
  obtain ⟨L1, L2, L3⟩ := built_loaded hP hcons hplain
  have hexe := built_executable hcons
  have hD := built_framesDistinct hB
  have htypes := built_types hP hcons hplain
  have hkind : ∀ (i : Nat) (e : TranslationEntry), s.pageTable[i]? = some e →
      (backingOffset c s.noffH i).isSome = true →
      (e.type = some PageType.code ∨ e.type = some PageType.initData) := by
    intro i e he hsome
    have hty := htypes i e he
    unfold builtType at hty
    unfold backingOffset at hsome
    simp only at hty hsome
    obtain ⟨p1, p2, p3, _⟩ := hplain
    have b0 := divRoundUp_nonneg p2 hP
    have d0 := divRoundUp_nonneg p3 hP
    by_cases hr : divRoundUp s.noffH.code.size c.PageSize ≤ (i : Int) ∧
        (i : Int) < divRoundUp s.noffH.code.size c.PageSize
          + divRoundUp s.noffH.initData.size c.PageSize
    · have hnu : ¬ (divRoundUp s.noffH.code.size c.PageSize
            + divRoundUp s.noffH.initData.size c.PageSize ≤ (i : Int) ∧
          (i : Int) < divRoundUp s.noffH.code.size c.PageSize
            + divRoundUp s.noffH.initData.size c.PageSize
            + divRoundUp s.noffH.uninitData.size c.PageSize) := by omega
      rw [if_neg hnu, if_pos hr] at hty
      exact Or.inr hty
    · rw [if_neg hr] at hsome
      by_cases hc : (i : Int) < divRoundUp s.noffH.code.size c.PageSize
      · have hnu : ¬ (divRoundUp s.noffH.code.size c.PageSize
              + divRoundUp s.noffH.initData.size c.PageSize ≤ (i : Int) ∧
            (i : Int) < divRoundUp s.noffH.code.size c.PageSize
              + divRoundUp s.noffH.initData.size c.PageSize
              + divRoundUp s.noffH.uninitData.size c.PageSize) := by omega
        rw [if_neg hnu, if_neg hr, if_pos hc] at hty
        exact Or.inl hty
      · rw [if_neg hc] at hsome
        cases hsome
  intro i e he
  refine ⟨?_, ?_⟩
  · intro a ha
    have hrec : recordedOffset c s.noffH i = some a := by
      rw [recordedOffset_eq hP hplain hfile]; exact ha
    have hin : e.inFileAddr = a := by rw [L1 i e he, hrec]; rfl
    refine ⟨hin, hkind i e he (by rw [ha]; rfl), ?_⟩
    intro hv x h0 h1
    rw [L2 i e a he hrec hv x h0 h1, hexe, hin]
  · intro hk hv x h0 h1
    apply L3
    intro p e' he' hsome hv'
    have hpi : i ≠ p := by
      intro hip
      subst hip
      rw [he] at he'
      simp only [Option.some.injEq] at he'
      subst he'
      rw [recordedOffset_eq hP hplain hfile] at hsome
      rcases hkind i e he hsome with h | h <;> rcases hk with h' | h' <;>
        · rw [h] at h'; cases h'
    exact frames_apart hP hD he he' hv hv' hpi h0 h1

/-- C19, witness: the address space built from the whole-page image on the
stock machine has 12 pages; pages 0..3 are resident in frames 0..3, pages 4..11
are not; the code pages 0 and 1 and the initData page 2 have backing offsets 40,
168 and 296, every other page has `inFileAddr = -1`. -/
theorem initial_residency_witness :
    AddrSpace.construct stock onesFile wholePageHeader sampleJunk bootedStock = some loadedSpace ∧
    loadedSpace.1.pageTable.length = loadedSpace.1.numPages ∧
    loadedSpace.1.pageTable.map (fun e => (e.valid, e.physicalPage, e.inFileAddr))
      = [(true, 0, 40), (true, 1, 168), (true, 2, 296), (true, 3, -1), (false, -1, -1),
         (false, -1, -1), (false, -1, -1), (false, -1, -1), (false, -1, -1), (false, -1, -1),
         (false, -1, -1), (false, -1, -1)] ∧
    (∀ (i : Nat) (e : TranslationEntry), loadedSpace.1.pageTable[i]? = some e →
      e.type ≠ some PageType.code → e.type ≠ some PageType.initData → e.inFileAddr = -1) :=
  have hc : AddrSpace.construct stock onesFile wholePageHeader sampleJunk bootedStock
      = some loadedSpace := eq_some_get _
  have hh : loadedSpace.1.noffH = wholePageHeader := by decide
  have h := initial_residency stock onesFile wholePageHeader sampleJunk bootedStock
    loadedSpace.2 loadedSpace.1 hc
  ⟨hc, h.1, by decide, h.2.2 (by decide) (by rw [hh]; decide)⟩

/-- C20, witness: in the address space built from the whole-page image, code
page 0 has backing offset 40 and its frame 0 holds bytes 40..167 of the
executable; page 3, of kind uninitData and resident in frame 3, has its frame as
it was before the load. -/
theorem initial_load_witness :
    ∃ e0 e3, loadedSpace.1.pageTable[0]? = some e0 ∧ backingOffset stock wholePageHeader 0 = some 40 ∧
      e0.inFileAddr = 40 ∧ e0.physicalPage = 0 ∧
      (∀ x, 0 ≤ x → x < stock.PageSize →
        loadedSpace.2.machine.mainMemory (0 * stock.PageSize + x) = onesFile (40 + x)) ∧
      loadedSpace.1.pageTable[3]? = some e3 ∧ e3.type = some PageType.uninitData ∧
      e3.physicalPage = 3 ∧
      (∀ x, 0 ≤ x → x < stock.PageSize →
        loadedSpace.2.machine.mainMemory (3 * stock.PageSize + x)
          = bootedStock.machine.mainMemory (3 * stock.PageSize + x)) := by
  have hc : AddrSpace.construct stock onesFile wholePageHeader sampleJunk bootedStock
      = some loadedSpace := eq_some_get _
  have hh : loadedSpace.1.noffH = wholePageHeader := by decide
  have h := initial_load stock onesFile wholePageHeader sampleJunk bootedStock
    loadedSpace.2 loadedSpace.1 hc (by decide) (by rw [hh]; decide) (by rw [hh]; decide)
  have g0 : (loadedSpace.1.pageTable[0]?).map (fun e => (e.valid, e.physicalPage))
      = some (true, 0) := by decide
  have g3 : (loadedSpace.1.pageTable[3]?).map (fun e => (e.valid, e.physicalPage, e.type))
      = some (true, 3, some PageType.uninitData) := by decide
  obtain ⟨e0, he0, hv0⟩ := Option.map_eq_some'.mp g0
  obtain ⟨e3, he3, hv3⟩ := Option.map_eq_some'.mp g3
  simp only [Prod.mk.injEq] at hv0 hv3
  have hb : backingOffset stock wholePageHeader 0 = some 40 := by decide
  obtain ⟨a1, _, a3⟩ := (h 0 e0 he0).1 40 (by rw [hh]; exact hb)
  have b1 := (h 3 e3 he3).2 (Or.inl hv3.2.2) hv3.1
  rw [hv0.2, a1] at a3
  rw [hv3.2.1] at b1
  exact ⟨e0, e3, he0, hb, a1, hv0.2, a3 hv0.1, he3, hv3.2.2, hv3.2.1, b1⟩

/-! ## C22: the initial registers -/

theorem WriteRegister_registers (m : Machine) (num value : Int) :
    (m.WriteRegister num value).registers = Function.update m.registers num value := rfl

theorem WriteRegister_mainMemory (m : Machine) (num value : Int) :
    (m.WriteRegister num value).mainMemory = m.mainMemory := rfl

/-- The registers after the loop `for (i = 0; i < n; i++) WriteRegister(i, 0)`. -/
theorem zeroed_registers (m : Machine) :
    ∀ n : Nat,
      ((List.range n).foldl (fun m i => m.WriteRegister (i : Int) 0) m).mainMemory = m.mainMemory ∧
      ∀ x : Int,
        ((List.range n).foldl (fun m i => m.WriteRegister (i : Int) 0) m).registers x
          = if 0 ≤ x ∧ x < (n : Int) then 0 else m.registers x := by
  intro n
  induction n with
  | zero =>
    refine ⟨rfl, ?_⟩
    intro x
    have : ¬ (0 ≤ x ∧ x < ((0 : Nat) : Int)) := by omega
    simp only [List.range_zero, List.foldl_nil, this, if_false]
  | succ n ih =>
    obtain ⟨ih1, ih2⟩ := ih
    rw [List.range_succ, List.foldl_append]
    simp only [List.foldl_cons, List.foldl_nil, WriteRegister_registers,
      WriteRegister_mainMemory]
    refine ⟨ih1, ?_⟩
    intro x
    by_cases hx : x = (n : Int)
    · subst hx
      rw [Function.update_same]
      have : 0 ≤ (n : Int) ∧ (n : Int) < ((n + 1 : Nat) : Int) := by omega
      simp only [this, and_self, if_true]
    · rw [Function.update_noteq hx, ih2 x]
      have : (0 ≤ x ∧ x < ((n + 1 : Nat) : Int)) ↔ (0 ≤ x ∧ x < (n : Int)) := by omega
      simp only [this]

/-- C22: with the three register numbers distinct and `numPages * PageSize` a
value of a C `int`, after `InitRegisters` the program counter is 0, the next-PC
register is 4, the stack register is `numPages * PageSize - 16`, every other
register among the `NumTotalRegs` registers is 0, and memory is untouched. -/
theorem initRegisters_post (c : Params) (r : Regs) (s : AddrSpace) (m : Machine)
    (hpn : r.PCReg ≠ r.NextPCReg) (hps : r.PCReg ≠ r.StackReg) (hns : r.NextPCReg ≠ r.StackReg)
    (h0 : 0 ≤ (s.numPages : Int) * c.PageSize)
    (h1 : (s.numPages : Int) * c.PageSize < 2147483648) :
    (AddrSpace.InitRegisters c r s m).registers r.PCReg = 0 ∧
    (AddrSpace.InitRegisters c r s m).registers r.NextPCReg = 4 ∧
    (AddrSpace.InitRegisters c r s m).registers r.StackReg
      = (s.numPages : Int) * c.PageSize - 16 ∧
    (∀ i : Nat, i < r.NumTotalRegs → (i : Int) ≠ r.PCReg → (i : Int) ≠ r.NextPCReg →
      (i : Int) ≠ r.StackReg → (AddrSpace.InitRegisters c r s m).registers (i : Int) = 0) ∧
    (AddrSpace.InitRegisters c r s m).mainMemory = m.mainMemory := by
  obtain ⟨z1, z2⟩ := zeroed_registers m r.NumTotalRegs
  have hsp : toInt32 (u32 (u32 ((s.numPages : Int) * c.PageSize) - 16))
      = (s.numPages : Int) * c.PageSize - 16 := by
    generalize (s.numPages : Int) * c.PageSize = v at h0 h1 ⊢
    unfold toInt32 u32
    omega
  unfold AddrSpace.InitRegisters
  simp only [WriteRegister_registers, WriteRegister_mainMemory]
  refine ⟨?_, ?_, ?_, ?_, z1⟩
  · rw [Function.update_noteq hps, Function.update_noteq hpn, Function.update_same]
  · rw [Function.update_noteq hns, Function.update_same]
  · rw [Function.update_same, hsp]
  · intro i hi a b d
    rw [Function.update_noteq d, Function.update_noteq b, Function.update_noteq a, z2]
    have : 0 ≤ (i : Int) ∧ (i : Int) < (r.NumTotalRegs : Int) := by omega
    simp only [this, and_self, if_true]

/-- C22, witness: for the address space built from the whole-page image (12
pages of 128 bytes) on a machine whose registers all hold 9, `InitRegisters`
leaves 0 in the program counter (register 34), 4 in register 35 and 1520 in the
stack register 29. -/
theorem initRegisters_post_witness :
    loadedSpace.1.numPages = 12 ∧
    (AddrSpace.InitRegisters stock stockRegs loadedSpace.1
      { mainMemory := fun _ => 0, registers := fun _ => 9 }).registers 34 = 0 ∧
    (AddrSpace.InitRegisters stock stockRegs loadedSpace.1
      { mainMemory := fun _ => 0, registers := fun _ => 9 }).registers 35 = 4 ∧
    (AddrSpace.InitRegisters stock stockRegs loadedSpace.1
      { mainMemory := fun _ => 0, registers := fun _ => 9 }).registers 29 = 1520 ∧
    (AddrSpace.InitRegisters stock stockRegs loadedSpace.1
      { mainMemory := fun _ => 0, registers := fun _ => 9 }).registers 7 = 0 := by
  have hn : loadedSpace.1.numPages = 12 := by decide
  have h := initRegisters_post stock stockRegs loadedSpace.1
    { mainMemory := fun _ => 0, registers := fun _ => 9 } (by decide) (by decide) (by decide)
    (by rw [hn]; decide) (by rw [hn]; decide)
  rw [hn] at h
  exact ⟨hn, h.1, h.2.1, h.2.2.1, h.2.2.2.1 7 (by decide) (by decide) (by decide) (by decide)⟩

/-! ## C21: Exec on a file that cannot be opened -/

/-- C21: when the system call is `Exec`, the file name is read from user memory
and `fileSystem->Open` cannot open it, `ExceptionHandler` returns and the system
is as it was: no `AddrSpace` is constructed, so `spaceIdMap`, the frame
allocator, the global `space`, the live address spaces with their page tables
and the number of forked threads are unchanged. -/
theorem exec_missing_file (c : Params) (x : Collaborators) (j : Indeterminate) (σ : System)
    (name : List Byte) (hexec : σ.kernel.machine.registers 2 = x.SC_Exec)
    (hnh : x.SC_Exec ≠ x.SC_Halt)
    (hname : readFilename (x.ReadMem σ) (σ.kernel.machine.registers 4) 50 0 = some name)
    (hopen : x.Open name = none) :
    ExceptionHandler c x j ExceptionType.SyscallException σ = some σ := by
  unfold ExceptionHandler
  simp only [hexec]
  rw [if_neg (fun h => hnh h.2), if_pos ⟨trivial, trivial⟩]
  simp only [hname, hopen]

/-- C21, witness: the live address space asks for the file named by the byte 1,
which cannot be opened; the handler returns and the system is unchanged, while
for a file that can be opened the same call constructs a second address
space. -/
theorem exec_missing_file_witness :
    readFilename (sampleCollaborators.ReadMem execCall) (execCall.kernel.machine.registers 4) 50 0
      = some [1] ∧
    sampleCollaborators.Open [1] = none ∧
    ExceptionHandler stock sampleCollaborators sampleJunk ExceptionType.SyscallException execCall
      = some execCall ∧
    (ExceptionHandler stock openingCollaborators sampleJunk
      ExceptionType.SyscallException execCall).map
        (fun σ => (σ.kernel.spaces.length, σ.space, σ.forked)) = some (2, some 1, 2) := by
  have hname : readFilename (sampleCollaborators.ReadMem execCall)
      (execCall.kernel.machine.registers 4) 50 0 = some [1] := by decide
  exact ⟨hname, rfl,
    exec_missing_file stock sampleCollaborators sampleJunk execCall [1] rfl (by decide) hname rfl,
    by decide⟩

/-! ## C25: dirty pages are resident -/

/-- After `Swap(o, n)` the entries of `o` and of `n` are not dirty, the entry of
`n` is resident, and the other entries are as before. -/
theorem Swap_dirty {c : Params} {o n : Int} {s s' : AddrSpace} {m m' : Machine}
    (h : AddrSpace.Swap c o n s m = some (s', m')) :
    (∃ eo en, getEntry s'.pageTable o = some eo ∧ eo.dirty = false ∧
      getEntry s'.pageTable n = some en ∧ en.dirty = false ∧ en.valid = true) ∧
    ∀ (p : Nat) (e : TranslationEntry), s'.pageTable[p]? = some e → (p : Int) ≠ o →
      (p : Int) ≠ n → s.pageTable[p]? = some e := by
  obtain ⟨eo, en, a, b, heo, hen, hpt, _⟩ := Swap_table h
  have ho := getEntry_eq_some heo
  have hn := getEntry_eq_some hen
  have hlo := lt_length_of_getElem? ho.2
  have hln := lt_length_of_getElem? hn.2
  simp only at hpt
  generalize hX : TranslationEntry.mk eo.virtualPage (-1) false eo.readOnly eo.use false a
    eo.type = X at hpt
  generalize hY : TranslationEntry.mk (if n = o then eo else en).virtualPage
    (if n = o then -1 else eo.physicalPage) true (if n = o then eo else en).readOnly true false b
    (if n = o then eo else en).type = Y at hpt
  have hXd : X.dirty = false := by rw [← hX]
  have hYd : Y.dirty = false := by rw [← hY]
  have hYv : Y.valid = true := by rw [← hY]
  have hgn : getEntry s'.pageTable n = some Y := by
    unfold getEntry
    rw [if_pos hn.1, hpt, List.getElem?_set_self (by rw [List.length_set]; exact hln)]
  refine ⟨?_, ?_⟩
  · by_cases hno : n = o
    · subst hno
      exact ⟨Y, Y, hgn, hYd, hgn, hYd, hYv⟩
    · have hne : n.toNat ≠ o.toNat := by
        intro hc; apply hno; omega
      refine ⟨X, Y, ?_, hXd, hgn, hYd, hYv⟩
      unfold getEntry
      rw [if_pos ho.1, hpt, List.getElem?_set_ne hne, List.getElem?_set_self hlo]
  · intro p e he hpo hpn
    rw [hpt, List.getElem?_set_ne (by omega), List.getElem?_set_ne (by omega)] at he
    exact he

/-- C25: in every state of an address space reached from its construction by
calls of `Swap` (old page resident, new page not) and accesses of the emulator,
every page-table entry with `dirty = true` has `valid = true`; and every call of
`Swap` that returns leaves the entry of the evicted page and the entry of the
loaded page with `dirty = false`. -/
theorem dirty_implies_resident (c : Params) (s : AddrSpace) (m : Machine)
    (h : Swapped c s m) :
    (∀ (p : Nat) (e : TranslationEntry), s.pageTable[p]? = some e → e.dirty = true →
      e.valid = true) ∧
    ∀ (oldPage newPage : Int) (s' : AddrSpace) (m' : Machine),
      AddrSpace.Swap c oldPage newPage s m = some (s', m') →
        ∃ eo en, getEntry s'.pageTable oldPage = some eo ∧ eo.dirty = false ∧
          getEntry s'.pageTable newPage = some en ∧ en.dirty = false := by
  refine ⟨?_, ?_⟩
  · induction h with
    | built hcons =>
      intro p e he hd
      have := (construct_spec hcons).entry p e he
      rw [this.2.2.2.1] at hd
      cases hd
    | swap o n _ _ _ hswap ih =>
      intro p e he hd
      obtain ⟨⟨eo, en, h1, h2, h3, h4, h5⟩, hrest⟩ := Swap_dirty hswap
      by_cases hpn : (p : Int) = n
      · rw [← hpn, getEntry_natCast, he] at h3
        simp only [Option.some.injEq] at h3
        rw [h3]; exact h5
      · by_cases hpo : (p : Int) = o
        · rw [← hpo, getEntry_natCast, he] at h1
          simp only [Option.some.injEq] at h1
          rw [h1, h2] at hd
          cases hd
        · exact ih p e (hrest p e he hpo hpn) hd
    | access vpn offset store _ hacc ih =>
      intro p e he hd
      obtain ⟨e0, e1, hget, hv, hpt, hv1, _⟩ := access_table hacc
      have hg := getEntry_eq_some hget
      have hl := lt_length_of_getElem? hg.2
      rw [hpt] at he
      by_cases hpv : vpn.toNat = p
      · rw [← hpv, List.getElem?_set_self hl] at he
        simp only [Option.some.injEq] at he
        rw [← he, hv1]; exact hv
      · rw [List.getElem?_set_ne hpv] at he
        exact ih p e he hd
    | slots virtualPages firstInPage _ ih => exact ih
  · intro o n s' m' hswap
    obtain ⟨⟨eo, en, h1, h2, h3, h4, _⟩, _⟩ := Swap_dirty hswap
    exact ⟨eo, en, h1, h2, h3, h4⟩

/-- C25, witness: stack page 11 is loaded by a fault (evicting page 0) and
written, so it is resident and dirty, the only dirty page; `Swap(11, 5)` then
leaves no entry dirty. -/
theorem dirty_implies_resident_witness :
    Swapped stock dirtyStackPage.1 dirtyStackPage.2 ∧
    dirtyStackPage.1.pageTable.map (fun e => (e.dirty, e.valid))
      = [(false, false), (false, true), (false, true), (false, true), (false, false),
         (false, false), (false, false), (false, false), (false, false), (false, false),
         (false, false), (true, true)] ∧
    (∀ (p : Nat) (e : TranslationEntry), dirtyStackPage.1.pageTable[p]? = some e →
      e.dirty = true → e.valid = true) ∧
    AddrSpace.Swap stock 11 5 dirtyStackPage.1 dirtyStackPage.2 = some stackPageEvicted ∧
    stackPageEvicted.1.pageTable.all (fun e => !e.dirty) = true := by
  have hc : AddrSpace.construct stock onesFile wholePageHeader sampleJunk bootedStock
      = some loadedSpace := eq_some_get _
  have hf : AddrSpace.FIFO stock 1500 loadedSpace.1 loadedSpace.2.machine = some firstFault :=
    eq_some_get _
  have hd : ((AddrSpace.construct stock onesFile wholePageHeader sampleJunk bootedStock).bind
      fun r => (AddrSpace.FIFO stock 1500 r.1 r.2.machine).bind fun st =>
        AddrSpace.access stock 11 5 (some 7) st.1 st.2) = some dirtyStackPage := eq_some_get _
  rw [hc] at hd
  simp only [Option.some_bind] at hd
  rw [hf] at hd
  simp only [Option.some_bind] at hd
  have hv : loadedSpace.1.victim = 0 := by decide
  have hp : loadedSpace.1.faultPage stock 1500 = 11 := by decide
  have h0 : Swapped stock loadedSpace.1 loadedSpace.2.machine := Swapped.built hc
  have hres : (getEntry loadedSpace.1.pageTable 0).map (fun e => e.valid) = some true := by
    decide
  have hnon : (getEntry loadedSpace.1.pageTable 11).map (fun e => e.valid) = some false := by
    decide
  have hs1 := Swapped.slots
    (Function.update loadedSpace.1.virtualPages loadedSpace.1.firstInPage
      (loadedSpace.1.faultPage stock 1500))
    ((loadedSpace.1.firstInPage + 1) % AvailablePages) h0
  have h1 : Swapped stock firstFault.1 firstFault.2 :=
    Swapped.swap loadedSpace.1.victim (loadedSpace.1.faultPage stock 1500) hs1
      (by rw [hv]; exact Option.map_eq_some'.mp hres)
      (by rw [hp]; exact Option.map_eq_some'.mp hnon) hf
  have h2 : Swapped stock dirtyStackPage.1 dirtyStackPage.2 :=
    Swapped.access 11 5 (some 7) h1 hd
  exact ⟨h2, by decide, (dirty_implies_resident stock _ _ h2).1, eq_some_get _, by decide⟩

/-! ## C26: the two variants of the fault-address translation -/

/-- A branch of `Translate` that computes page and offset relative to a base
that is a whole number of pages at or below the address yields the page and the
offset of the address itself. -/
theorem page_of_base {P a b : Int} (hP : 0 < P) (ha0 : 0 ≤ a) (ha1 : a < 2147483648)
    (hb : b * P ≤ a) :
    u32 (b + Int.tdiv (a - b * P) P) = a / P ∧ u32 (Int.tmod (a - b * P) P) = a % P := by
  have hd : 0 ≤ a - b * P := by omega
  rw [Int.tdiv_eq_ediv hd hP.le, Int.tmod_eq_emod hd hP.le]
  have e1 : (a - b * P) / P = a / P - b := by
    have : a - b * P = a + (-b) * P := by ring
    rw [this, Int.add_mul_ediv_right _ _ hP.ne']
    ring
  have e2 : (a - b * P) % P = a % P := by
    have : a - b * P = a + (-b) * P := by ring
    rw [this, Int.add_mul_emod_self]
  have q0 : 0 ≤ a / P := Int.ediv_nonneg ha0 hP.le
  have q1 : a / P ≤ a := Int.ediv_le_self _ ha0
  have r0 := Int.emod_nonneg a hP.ne'
  have r1 := Int.emod_lt_of_pos a hP
  have r2 : a % P ≤ a := by
    have := Int.emod_add_ediv a P
    have : 0 ≤ P * (a / P) := mul_nonneg hP.le q0
    omega
  rw [e1, e2]
  constructor
  · have : b + (a / P - b) = a / P := by ring
    rw [this]
    exact u32_of_range q0 (by omega)
  · exact u32_of_range r0 (by omega)

/-- C26: when the code starts at address 0, the initData and uninitData
segments start at the page boundaries `ceil(code.size / PageSize) * PageSize`
and `(ceil(code.size / PageSize) + ceil(initData.size / PageSize)) * PageSize`,
and `UserStackSize = StackPages * PageSize`, then for every address `a` with
`0 <= a < numPages * PageSize` (a value of a C `int`) `Translate(a)` of lab7 is
`(a / PageSize, a mod PageSize)`, and so is the page and offset that `FIFO` of
the variant in `temp/` computes. -/
theorem variants_agree (c : Params) (s : AddrSpace) (a : Int) (hP : 0 < c.PageSize)
    (hS : UserStackSize = c.StackPages * c.PageSize)
    (_hcode : s.noffH.code.virtualAddr = 0)
    (hinit : s.noffH.initData.virtualAddr = divRoundUp s.noffH.code.size c.PageSize * c.PageSize)
    (huninit : s.noffH.uninitData.virtualAddr =
      (divRoundUp s.noffH.code.size c.PageSize + divRoundUp s.noffH.initData.size c.PageSize)
        * c.PageSize)
    (ha0 : 0 ≤ a) (ha1 : a < (s.numPages : Int) * c.PageSize)
    (hfit : (s.numPages : Int) * c.PageSize < 2147483648) :
    s.Translate c a = (a / c.PageSize, a % c.PageSize) ∧
    tempFaultPage c a = (a / c.PageSize, a % c.PageSize) := by
  have hU : UserStackSize = 1024 := rfl
  have hSP : 1 ≤ c.StackPages := by
    by_contra hc
    have : c.StackPages * c.PageSize ≤ 0 := by nlinarith
    omega
  have hPle : c.PageSize ≤ 1024 := by nlinarith
  have hN : (s.numPages : Int) ≤ (s.numPages : Int) * c.PageSize := by nlinarith
  have hSPle : c.StackPages ≤ 1024 := by nlinarith
  refine ⟨?_, ?_⟩
  · unfold AddrSpace.Translate
    by_cases h1 : u32 a ≥ u32 ((s.numPages : Int) * c.PageSize - UserStackSize)
    · rw [if_pos h1]
      have hge : (s.numPages : Int) * c.PageSize - UserStackSize ≤ a := by
        revert h1
        unfold u32
        omega
      have hup : toInt32 (u32 ((s.numPages : Int) - c.StackPages))
          = (s.numPages : Int) - c.StackPages :=
        toInt32_u32_of_range (by omega) (by omega)
      have hb : ((s.numPages : Int) - c.StackPages) * c.PageSize ≤ a := by
        have : ((s.numPages : Int) - c.StackPages) * c.PageSize
            = (s.numPages : Int) * c.PageSize - c.StackPages * c.PageSize := by ring
        omega
      simp only [hup]
      obtain ⟨k1, k2⟩ := page_of_base hP ha0 (by omega) hb
      rw [k1, k2]
    · rw [if_neg h1]
      by_cases h2 : s.noffH.uninitData.size > 0 ∧ a ≥ s.noffH.uninitData.virtualAddr
      · rw [if_pos h2, huninit]
        obtain ⟨k1, k2⟩ := page_of_base hP ha0 (by omega) (by rw [← huninit]; exact h2.2)
        rw [k1, k2]
      · rw [if_neg h2]
        by_cases h3 : s.noffH.initData.size > 0 ∧ a ≥ s.noffH.initData.virtualAddr
        · rw [if_pos h3, hinit]
          obtain ⟨k1, k2⟩ := page_of_base hP ha0 (by omega) (by rw [← hinit]; exact h3.2)
          rw [k1, k2]
        · rw [if_neg h3]
          have := page_of_base (b := 0) hP ha0 (by omega) (by omega)
          simp only [zero_mul, sub_zero, zero_add] at this
          rw [this.1, this.2]
  · unfold tempFaultPage
    rw [u32_of_range ha0 (by omega), u32_of_range hP.le (by omega)]

/-- C26, witness: for the whole-page image (256 bytes of code at 0, initData at
256, uninitData at 384; 12 pages of 128 bytes) address 1500 is page 11, offset
92 in both variants. -/
theorem variants_agree_witness :
    loadedSpace.1.Translate stock 1500 = (11, 92) ∧ tempFaultPage stock 1500 = (11, 92) ∧
    loadedSpace.1.Translate stock 1500 = (1500 / stock.PageSize, 1500 % stock.PageSize) := by
  have hh : loadedSpace.1.noffH = wholePageHeader := by decide
  have hn : loadedSpace.1.numPages = 12 := by decide
  have h := variants_agree stock loadedSpace.1 1500 (by decide) (by decide)
    (by rw [hh]; decide) (by rw [hh]; decide) (by rw [hh]; decide) (by decide)
    (by rw [hn]; decide) (by rw [hn]; decide)
  exact ⟨by decide, by decide, h.1⟩

/-! ## C27: `Translate` and the bounds of the page table -/

theorem lt_of_mul_lt {x n P : Int} (hP : 0 < P) (h : x * P < n * P) : x < n := by
  by_contra hc
  have : n * P ≤ x * P := mul_le_mul_of_nonneg_right (by omega) hP.le
  omega

/-- Page and offset that a branch of `Translate` computes relative to a segment
that starts at `v` and whose first page is `base`, for an address `a` below
`lim` in it. -/
theorem page_of_segment {P a v base l : Int} (hP : 0 < P) (hPle : P ≤ 1024) (hb : 0 ≤ base)
    (hv : v ≤ a) (hlim : base * P + (a - v) < l * P) (hl0 : l < 2147483648) :
    u32 (base + Int.tdiv (a - v) P) < l ∧ 0 ≤ u32 (base + Int.tdiv (a - v) P) ∧
      0 ≤ u32 (Int.tmod (a - v) P) ∧ u32 (Int.tmod (a - v) P) < P := by
  have hd : 0 ≤ a - v := by omega
  obtain ⟨q0, r0, r1, qr⟩ := tdiv_tmod_nonneg hd hP
  have h1 : (base + Int.tdiv (a - v) P) * P < l * P := by
    have : (base + Int.tdiv (a - v) P) * P = base * P + Int.tdiv (a - v) P * P := by ring
    omega
  have h2 := lt_of_mul_lt hP h1
  rw [u32_of_range (by omega) (by omega), u32_of_range r0 (by omega)]
  exact ⟨h2, by omega, r0, r1⟩

/-- C27 (amended): for a header that the constructor accepts, with segment
sizes that are not negative and initData and uninitData segments that, when not
empty, start at or behind the end of the segments before them, with
`UserStackSize = StackPages * PageSize` and `StackPages >= 2`: for every address
`a` with `0 <= a < numPages * PageSize`, `Translate(a)` returns a page number
below `numPages` and an offset below `PageSize`, and the entry of that page
exists in the page table; and every `a >= numPages * PageSize - UserStackSize`
yields a page number of at least `numPages - StackPages`. -/
theorem translate_in_bounds (c : Params) (executable : Bytes) (stored : NoffHeader)
    (j : Indeterminate) (k k' : Kernel) (s : AddrSpace) (a : Int) (hc : c.WellFormed)
    (hSP : 2 ≤ c.StackPages)
    (hcons : AddrSpace.construct c executable stored j k = some (s, k'))
    (hplain : s.noffH.Plain) (horder : s.noffH.InOrder) :
    (0 ≤ a → a < (s.numPages : Int) * c.PageSize →
      0 ≤ (s.Translate c a).1 ∧ (s.Translate c a).1 < (s.numPages : Int) ∧
      0 ≤ (s.Translate c a).2 ∧ (s.Translate c a).2 < c.PageSize ∧
      ∃ e, getEntry s.pageTable (s.faultPage c a) = some e) ∧
    ((s.numPages : Int) * c.PageSize - UserStackSize ≤ a → a < 2147483648 →
      (s.numPages : Int) - c.StackPages ≤ (s.Translate c a).1) := by
  have hb := construct_spec hcons
  obtain ⟨z1, z2, z3, z4, z5⟩ := built_sizes hc hb hplain
  have hP := hc.1
  have hS := hc.2.1
  have hPle := pageSize_le hc
  have hU : UserStackSize = 1024 := rfl
  obtain ⟨p1, p2, p3, _⟩ := hplain
  obtain ⟨o1, o2⟩ := horder
  have a0 := divRoundUp_nonneg p1 hP
  have b0 := divRoundUp_nonneg p2 hP
  have a1 := divRoundUp_mul_lt (n := s.noffH.code.size) hP
  have b1 := divRoundUp_mul_lt (n := s.noffH.initData.size) hP
  have hSP2 : 2 * c.PageSize ≤ c.StackPages * c.PageSize :=
    mul_le_mul_of_nonneg_right hSP hP.le
  have hup : toInt32 (u32 ((s.numPages : Int) - c.StackPages))
      = (s.numPages : Int) - c.StackPages :=
    toInt32_u32_of_range (by omega) (by omega)
  have hexp : ((s.numPages : Int) - c.StackPages) * c.PageSize
      = (s.numPages : Int) * c.PageSize - c.StackPages * c.PageSize := by ring
  have hstart : u32 ((s.numPages : Int) * c.PageSize - UserStackSize)
      = (s.numPages : Int) * c.PageSize - UserStackSize := u32_of_range (by omega) (by omega)
  refine ⟨?_, ?_⟩
  · intro ha0 ha1
    have hua : u32 a = a := u32_of_range ha0 (by omega)
    have key : 0 ≤ (s.Translate c a).1 ∧ (s.Translate c a).1 < (s.numPages : Int) ∧
        0 ≤ (s.Translate c a).2 ∧ (s.Translate c a).2 < c.PageSize := by
      unfold AddrSpace.Translate
      rw [hua, hstart]
      by_cases h1 : a ≥ (s.numPages : Int) * c.PageSize - UserStackSize
      · rw [if_pos h1]
        simp only [hup]
        obtain ⟨g1, g2, g3, g4⟩ := page_of_segment (l := (s.numPages : Int)) hP hPle
          (by omega : 0 ≤ (s.numPages : Int) - c.StackPages)
          (by omega : ((s.numPages : Int) - c.StackPages) * c.PageSize ≤ a) (by omega) z4
        exact ⟨g2, g1, g3, g4⟩
      · rw [if_neg h1]
        by_cases h2 : s.noffH.uninitData.size > 0 ∧ a ≥ s.noffH.uninitData.virtualAddr
        · rw [if_pos h2]
          have := o2 h2.1
          have e : (divRoundUp s.noffH.code.size c.PageSize
              + divRoundUp s.noffH.initData.size c.PageSize) * c.PageSize
              = divRoundUp s.noffH.code.size c.PageSize * c.PageSize
                + divRoundUp s.noffH.initData.size c.PageSize * c.PageSize := by ring
          obtain ⟨g1, g2, g3, g4⟩ := page_of_segment (l := (s.numPages : Int)) hP hPle
            (by omega : 0 ≤ divRoundUp s.noffH.code.size c.PageSize
              + divRoundUp s.noffH.initData.size c.PageSize)
            h2.2 (by omega) z4
          exact ⟨g2, g1, g3, g4⟩
        · rw [if_neg h2]
          by_cases h3 : s.noffH.initData.size > 0 ∧ a ≥ s.noffH.initData.virtualAddr
          · rw [if_pos h3]
            have := o1 h3.1
            obtain ⟨g1, g2, g3, g4⟩ := page_of_segment (l := (s.numPages : Int)) hP hPle a0
              h3.2 (by omega) z4
            exact ⟨g2, g1, g3, g4⟩
          · rw [if_neg h3]
            have := page_of_base (b := 0) hP ha0 (by omega) (by omega)
            simp only [zero_mul, sub_zero, zero_add] at this
            rw [this.1, this.2]
            exact ⟨Int.ediv_nonneg ha0 hP.le, Int.ediv_lt_of_lt_mul hP ha1,
              Int.emod_nonneg a hP.ne', Int.emod_lt_of_pos a hP⟩
    refine ⟨key.1, key.2.1, key.2.2.1, key.2.2.2, ?_⟩
    have hf : s.faultPage c a = (s.Translate c a).1 := by
      unfold AddrSpace.faultPage
      exact toInt32_of_range (by omega) (by omega)
    rw [hf]
    obtain ⟨e, he, _⟩ := getEntry_of_lt s.pageTable key.1 (by rw [hb.length]; exact key.2.1)
    exact ⟨e, he⟩
  · intro hge hlt
    have ha0 : 0 ≤ a := by omega
    have hua : u32 a = a := u32_of_range ha0 (by omega)
    unfold AddrSpace.Translate
    rw [hua, hstart, if_pos hge]
    simp only [hup]
    have hbb : ((s.numPages : Int) - c.StackPages) * c.PageSize ≤ a := by omega
    rw [(page_of_base hP ha0 hlt hbb).1]
    exact Int.le_ediv_of_mul_le hP hbb

/-- C27 (amended), witness: for the packed image (300 bytes of code at 0, 100
of initData at 300, 50 of uninitData at 400; 12 pages) address 449, the last
byte of uninitData, translates to page 4, offset 49, inside the page table. -/
theorem translate_in_bounds_witness :
    ∃ s k', AddrSpace.construct stock onesFile packedHeader sampleJunk bootedStock = some (s, k') ∧
      s.numPages = 12 ∧ s.Translate stock 449 = (4, 49) ∧
      (s.Translate stock 449).1 < (s.numPages : Int) ∧
      (s.Translate stock 449).2 < stock.PageSize ∧
      ∃ e, getEntry s.pageTable (s.faultPage stock 449) = some e := by
  have h : (AddrSpace.construct stock onesFile packedHeader sampleJunk bootedStock).map
      (fun r => (r.1.noffH, r.1.numPages, r.1.Translate stock 449))
      = some (packedHeader, 12, (4, 49)) := by decide
  obtain ⟨⟨s, k'⟩, hs, hv⟩ := Option.map_eq_some'.mp h
  simp only [Prod.mk.injEq] at hv
  obtain ⟨hh, hn, ht⟩ := hv
  have g := (translate_in_bounds stock onesFile packedHeader sampleJunk bootedStock k' s 449
    (by decide) (by decide) hs (by rw [hh]; decide) (by rw [hh]; decide)).1 (by decide)
    (by rw [hn]; decide)
  exact ⟨s, k', hs, hn, ht, g.2.1, g.2.2.2.1, g.2.2.2.2⟩

/-- C27, counterexample: the constructor accepts the header whose uninitData
segment is declared at address 0 (1280 bytes of code, 128 of uninitData; 19
pages of 128 bytes), and address 1407, below `19 * 128`, translates to page 20:
the page table has no such entry and the fault is not handled. -/
theorem translate_leaves_page_table :
    AddrSpace.construct stock onesFile overlapHeader sampleJunk bootedStock = some overlapSpace ∧
    overlapSpace.1.numPages = 19 ∧
    (0 : Int) ≤ 1407 ∧ (1407 : Int) < (overlapSpace.1.numPages : Int) * stock.PageSize ∧
    overlapSpace.1.Translate stock 1407 = (20, 127) ∧
    ¬ (overlapSpace.1.Translate stock 1407).1 < (overlapSpace.1.numPages : Int) ∧
    getEntry overlapSpace.1.pageTable 20 = none ∧
    AddrSpace.FIFO stock 1407 overlapSpace.1 overlapSpace.2.machine = none :=
  ⟨eq_some_get _, by decide, by decide, by decide, by decide, by decide, by decide,
    Option.isNone_iff_eq_none.mp (by decide)⟩

/-! ## C28: the indices of `copy2Mem` -/

/-- A loop each of whose iterations returns and keeps `I`, when `I` holds
before it, returns. -/
theorem forLoop_some {σ : Type} {body : Nat → σ → Option σ} (I : σ → Prop) (n : Nat)
    (hbody : ∀ k st, k < n → I st → ∃ t, body k st = some t ∧ I t) :
    ∀ st0, I st0 → ∃ t, forLoop body n st0 = some t ∧ I t := by
  intro st0 h0
  have gen : ∀ m, m ≤ n → ∃ t, forLoop body m st0 = some t ∧ I t := by
    intro m
    induction m with
    | zero => intro _; exact ⟨st0, rfl, h0⟩
    | succ m ih =>
      intro hm
      obtain ⟨t, ht, hI⟩ := ih (by omega)
      obtain ⟨u, hu, hIu⟩ := hbody m t (by omega) hI
      refine ⟨u, ?_, hIu⟩
      unfold forLoop
      rw [ht]
      exact hu
  exact gen n (le_refl n)

theorem codeBody_some {c : Params} {k : Nat} {st : AddrSpace × Machine}
    (hk : k < st.1.pageTable.length) :
    ∃ t, AddrSpace.copy2Mem.codeBody c k st = some t ∧
      t.1.pageTable.length = st.1.pageTable.length := by
  unfold AddrSpace.copy2Mem.codeBody
  have he : getEntry st.1.pageTable (k : Int) = some (st.1.pageTable.get ⟨k, hk⟩) := by
    rw [getEntry_natCast]
    exact List.getElem?_eq_getElem hk
  simp only [he]
  exact ⟨_, rfl, by simp⟩

theorem initDataBody_some {c : Params} {start : Int} (h0 : 0 ≤ start)
    (h1 : start < 2147483648) {k : Nat} {st : AddrSpace × Machine}
    (hk : start.toNat + k < st.1.pageTable.length) :
    ∃ t, AddrSpace.copy2Mem.initDataBody c start k st = some t ∧
      t.1.pageTable.length = st.1.pageTable.length := by
  unfold AddrSpace.copy2Mem.initDataBody
  have hi : toInt32 start + (k : Int) = ((start.toNat + k : Nat) : Int) := by
    rw [toInt32_of_range (by omega) h1]; omega
  rw [hi]
  have he : getEntry st.1.pageTable ((start.toNat + k : Nat) : Int)
      = some (st.1.pageTable.get ⟨start.toNat + k, hk⟩) := by
    rw [getEntry_natCast]
    exact List.getElem?_eq_getElem hk
  simp only [he]
  exact ⟨_, rfl, by simp⟩

theorem uninitDataBody_some {start : Int} (h0 : 0 ≤ start) (h1 : start < 2147483648) {k : Nat}
    {st : AddrSpace × Machine} (hk : start.toNat + k < st.1.pageTable.length) :
    ∃ t, AddrSpace.copy2Mem.uninitDataBody start k st = some t ∧
      t.1.pageTable.length = st.1.pageTable.length := by
  unfold AddrSpace.copy2Mem.uninitDataBody
  have hi : toInt32 start + (k : Int) = ((start.toNat + k : Nat) : Int) := by
    rw [toInt32_of_range (by omega) h1]; omega
  rw [hi]
  have he : getEntry st.1.pageTable ((start.toNat + k : Nat) : Int)
      = some (st.1.pageTable.get ⟨start.toNat + k, hk⟩) := by
    rw [getEntry_natCast]
    exact List.getElem?_eq_getElem hk
  simp only [he]
  exact ⟨_, rfl, by simp⟩

/-- The pages that `copy2Mem` gives the three segments are at most the page
count, for sizes that are not negative and a total that does not overflow. -/
theorem segment_pages_le {c : Params} {h : NoffHeader} (hP : 0 < c.PageSize)
    (hS : UserStackSize = c.StackPages * c.PageSize) (hSP : 2 ≤ c.StackPages)
    (hplain : h.Plain) :
    divRoundUp h.code.size c.PageSize + divRoundUp h.initData.size c.PageSize
      + divRoundUp h.uninitData.size c.PageSize ≤ (pageCount c h : Int) := by
  rw [pageCount_plain hP hplain]
  obtain ⟨p1, p2, p3, _⟩ := hplain
  have a1 := divRoundUp_mul_lt (n := h.code.size) hP
  have b1 := divRoundUp_mul_lt (n := h.initData.size) hP
  have d1 := divRoundUp_mul_lt (n := h.uninitData.size) hP
  have n1 := le_divRoundUp_mul (n := h.code.size + h.initData.size + h.uninitData.size
    + UserStackSize) hP
  have hSP2 : 2 * c.PageSize ≤ c.StackPages * c.PageSize :=
    mul_le_mul_of_nonneg_right hSP hP.le
  generalize divRoundUp (h.code.size + h.initData.size + h.uninitData.size + UserStackSize)
    c.PageSize = N at n1 ⊢
  generalize divRoundUp h.code.size c.PageSize = A at a1 ⊢
  generalize divRoundUp h.initData.size c.PageSize = B at b1 ⊢
  generalize divRoundUp h.uninitData.size c.PageSize = D at d1 ⊢
  by_contra hcon
  have h1 : (N + 1) * c.PageSize ≤ (A + B + D) * c.PageSize :=
    mul_le_mul_of_nonneg_right (by omega) hP.le
  have e1 : (N + 1) * c.PageSize = N * c.PageSize + c.PageSize := by ring
  have e2 : (A + B + D) * c.PageSize = A * c.PageSize + B * c.PageSize + D * c.PageSize := by
    ring
  omega

/-- The page count of a header whose total does not overflow fits an `int`. -/
theorem pageCount_lt {c : Params} {h : NoffHeader} (hP : 0 < c.PageSize) (hplain : h.Plain) :
    (pageCount c h : Int) < 2147483648 := by
  rw [pageCount_plain hP hplain]
  obtain ⟨p1, p2, p3, p4⟩ := hplain
  have n1 := divRoundUp_mul_lt (n := h.code.size + h.initData.size + h.uninitData.size
    + UserStackSize) hP
  generalize divRoundUp (h.code.size + h.initData.size + h.uninitData.size + UserStackSize)
    c.PageSize = N at n1 ⊢
  by_contra hcon
  have h1 : (N - 1) * 1 ≤ (N - 1) * c.PageSize :=
    mul_le_mul_of_nonneg_left (by omega) (by omega)
  have e1 : (N - 1) * c.PageSize = N * c.PageSize - c.PageSize := by ring
  omega

/-- C28, amended: for a header with non-negative segment sizes whose total with
the stack stays below `2^31`, a positive `PageSize` and
`UserStackSize = StackPages * PageSize` with `StackPages >= 2`, the pages of the
three segments are at most `numPages`, and `copy2Mem` on a page table of
`numPages` entries returns: every index at which it writes `pageTable[i]` is an
entry of the table. -/
theorem copy2Mem_in_bounds (c : Params) (s : AddrSpace) (m : Machine)
    (hP : 0 < c.PageSize) (hS : UserStackSize = c.StackPages * c.PageSize)
    (hSP : 2 ≤ c.StackPages) (hplain : s.noffH.Plain)
    (hlen : s.pageTable.length = pageCount c s.noffH) :
    divRoundUp s.noffH.code.size c.PageSize + divRoundUp s.noffH.initData.size c.PageSize
        + divRoundUp s.noffH.uninitData.size c.PageSize ≤ (pageCount c s.noffH : Int) ∧
      ∃ r, AddrSpace.copy2Mem c s m = some r ∧
        r.1.pageTable.length = pageCount c s.noffH := by
  have hle := segment_pages_le hP hS hSP hplain
  refine ⟨hle, ?_⟩
  have hN := pageCount_lt hP hplain
  have hA := divRoundUp_nonneg hplain.1 hP
  have hB := divRoundUp_nonneg hplain.2.1 hP
  have hD := divRoundUp_nonneg hplain.2.2.1 hP
  generalize hAe : divRoundUp s.noffH.code.size c.PageSize = A at hle hA
  generalize hBe : divRoundUp s.noffH.initData.size c.PageSize = B at hle hB
  generalize hDe : divRoundUp s.noffH.uninitData.size c.PageSize = D at hle hD
  generalize hLe : pageCount c s.noffH = L at hle hN hlen ⊢
  have uA : u32 A = A := u32_of_range hA (by omega)
  have uB : u32 B = B := u32_of_range hB (by omega)
  have uD : u32 D = D := u32_of_range hD (by omega)
  have uAB : u32 (A + B) = A + B := u32_of_range (by omega) (by omega)
  have cB : loopCount A B = B.toNat := loopCount_plain hA hB (by omega)
  have cD : loopCount (A + B) D = D.toNat := loopCount_plain (by omega) hD (by omega)
  obtain ⟨t1, ht1, hl1⟩ : ∃ t, (if s.noffH.code.size > 0 then
      forLoop (AddrSpace.copy2Mem.codeBody c) A.toNat (s, m) else some (s, m)) = some t ∧
      t.1.pageTable.length = L := by
    split
    · refine forLoop_some (fun st => st.1.pageTable.length = L) _ ?_ (s, m) hlen
      intro k st hk hI
      obtain ⟨t, ht, hl⟩ := @codeBody_some c k st (by omega)
      exact ⟨t, ht, hl.trans hI⟩
    · exact ⟨_, rfl, hlen⟩
  obtain ⟨t2, ht2, hl2⟩ : ∃ t, (if s.noffH.initData.size > 0 then
      forLoop (AddrSpace.copy2Mem.initDataBody c A) B.toNat t1 else some t1) = some t ∧
      t.1.pageTable.length = L := by
    split
    · refine forLoop_some (fun st => st.1.pageTable.length = L) _ ?_ t1 hl1
      intro k st hk hI
      obtain ⟨t, ht, hl⟩ := @initDataBody_some c A hA (by omega) k st
        (by omega)
      exact ⟨t, ht, hl.trans hI⟩
    · exact ⟨_, rfl, hl1⟩
  obtain ⟨t3, ht3, hl3⟩ : ∃ t, (if s.noffH.uninitData.size > 0 then
      forLoop (AddrSpace.copy2Mem.uninitDataBody (A + B)) D.toNat t2 else some t2) = some t ∧
      t.1.pageTable.length = L := by
    split
    · refine forLoop_some (fun st => st.1.pageTable.length = L) _ ?_ t2 hl2
      intro k st hk hI
      obtain ⟨t, ht, hl⟩ := @uninitDataBody_some (A + B) (by omega) (by omega)
        k st (by omega)
      exact ⟨t, ht, hl.trans hI⟩
    · exact ⟨_, rfl, hl2⟩
  refine ⟨t3, ?_, hl3⟩
  unfold AddrSpace.copy2Mem
  simp only [hAe, hBe, hDe, uA, uB, uD, uAB, cB, cD, ht1, Option.some_bind, ht2, ht3]

/-- The amended C28 at the linker-laid image on the stock machine: the segments
take 3 + 1 + 1 pages of the 12, and `copy2Mem` returns. -/
theorem copy2Mem_in_bounds_witness :
    ∃ st : AddrSpace × BitMap,
      ((AddrSpace.construct.prepare stock onesFile packedHeader sampleJunk
          bootedStock.spaceIdMap).toOption.bind fun r =>
        AddrSpace.setUpTranslation stock sampleJunk r.1 bootedStock.bitmap) = some st ∧
      st.1.noffH = packedHeader ∧ st.1.pageTable.length = 12 ∧
      pageCount stock packedHeader = 12 ∧
      divRoundUp 300 128 + divRoundUp 100 128 + divRoundUp 50 128 ≤ (12 : Int) ∧
      ∃ r, AddrSpace.copy2Mem stock st.1 zeroMachine = some r ∧ r.1.pageTable.length = 12 := by
  have hv : (((AddrSpace.construct.prepare stock onesFile packedHeader sampleJunk
          bootedStock.spaceIdMap).toOption.bind fun r =>
        AddrSpace.setUpTranslation stock sampleJunk r.1 bootedStock.bitmap).map fun st =>
      (st.1.noffH, st.1.pageTable.length)) = some (packedHeader, 12) := by decide
  obtain ⟨st, hst, hp⟩ := Option.map_eq_some'.mp hv
  simp only [Prod.mk.injEq] at hp
  obtain ⟨hh, hl⟩ := hp
  have hpc : pageCount stock packedHeader = 12 := by decide
  have h := copy2Mem_in_bounds stock st.1 zeroMachine (by decide) (by decide) (by decide)
    (by rw [hh]; decide) (by rw [hh, hl, hpc])
  rw [hh, hpc] at h
  exact ⟨st, hst, hh, hl, hpc, h.1, h.2⟩

/-- `copy2Mem` does not return when its code loop does not. -/
theorem copy2Mem_none_of_code {c : Params} {s : AddrSpace} {m : Machine}
    (hpos : s.noffH.code.size > 0)
    (hn : forLoop (AddrSpace.copy2Mem.codeBody c)
      (u32 (divRoundUp s.noffH.code.size c.PageSize)).toNat (s, m) = none) :
    AddrSpace.copy2Mem c s m = none := by
  unfold AddrSpace.copy2Mem
  simp only [hpos, if_true, hn, Option.none_bind]

/-- The constructor does not return when `copy2Mem` does not. -/
theorem construct_none_of_copy {c : Params} {executable : Bytes} {stored : NoffHeader}
    {j : Indeterminate} {k : Kernel} {st : AddrSpace × BitMap}
    (hs : ((AddrSpace.construct.prepare c executable stored j k.spaceIdMap).toOption.bind
      fun r => AddrSpace.setUpTranslation c j r.1 k.bitmap) = some st)
    (hcopy : AddrSpace.copy2Mem c st.1 k.machine = none) :
    AddrSpace.construct c executable stored j k = none := by
  rw [construct_eq_prepare]
  cases hprep : AddrSpace.construct.prepare c executable stored j k.spaceIdMap with
  | error e => rfl
  | ok r =>
    rw [hprep] at hs
    have hs2 : AddrSpace.setUpTranslation c j r.1 k.bitmap = some st := hs
    obtain ⟨s0, ids⟩ := r
    simp only at hs2 ⊢
    rw [hs2]
    simp only [Option.some_bind]
    rw [hcopy]
    rfl

theorem wrappingSetup_code :
    forLoop (AddrSpace.copy2Mem.codeBody stock)
      (u32 (divRoundUp wrappingSetup.1.noffH.code.size stock.PageSize)).toNat
      (wrappingSetup.1, zeroMachine) = none := by
  have hloop : ((forLoop (AddrSpace.copy2Mem.codeBody stock) 8
      (wrappingSetup.1, zeroMachine)).map fun st =>
        (AddrSpace.copy2Mem.codeBody stock 8 st).isNone) = some true := by decide
  obtain ⟨st, hst, hb0⟩ := Option.map_eq_some'.mp hloop
  have hb := Option.isNone_iff_eq_none.mp hb0
  have c3 : wrappingSetup.1.noffH = wrappingHeader := by decide
  have c5 : 8 < (u32 (divRoundUp wrappingHeader.code.size stock.PageSize)).toNat := by decide
  refine forLoop_none_at _ 8 _ st hst hb _ ?_
  rw [c3]
  exact c5

/-- C28 as stated fails: with code and initData of `2^31 - 1` bytes each (sizes
not negative, `UserStackSize = 8 * 128`, `StackPages = 8`) the unsigned total
wraps to 1022, `numPages` is 8, the constructor passes its assertions and builds
a table of 8 entries, while the segments take 16777216 pages each; the code
loop of `copy2Mem` reaches `pageTable[8]`. -/
theorem copy2Mem_leaves_page_table :
    0 ≤ wrappingHeader.code.size ∧ 0 ≤ wrappingHeader.initData.size ∧
      0 ≤ wrappingHeader.uninitData.size ∧
      UserStackSize = stock.StackPages * stock.PageSize ∧ 2 ≤ stock.StackPages ∧
      pageCount stock wrappingHeader = 8 ∧
      ¬ (divRoundUp wrappingHeader.code.size stock.PageSize
          + divRoundUp wrappingHeader.initData.size stock.PageSize
          + divRoundUp wrappingHeader.uninitData.size stock.PageSize
          ≤ (pageCount stock wrappingHeader : Int)) ∧
      wrappingSetup.1.noffH = wrappingHeader ∧ wrappingSetup.1.pageTable.length = 8 ∧
      ((forLoop (AddrSpace.copy2Mem.codeBody stock) 8 (wrappingSetup.1, zeroMachine)).map
        fun st => (AddrSpace.copy2Mem.codeBody stock 8 st).isNone) = some true ∧
      AddrSpace.copy2Mem stock wrappingSetup.1 zeroMachine = none ∧
      AddrSpace.construct stock onesFile wrappingHeader sampleJunk bootedStock = none := by
  have c3 : wrappingSetup.1.noffH = wrappingHeader := by decide
  have hcopy : AddrSpace.copy2Mem stock wrappingSetup.1 zeroMachine = none :=
    copy2Mem_none_of_code (by rw [c3]; decide) wrappingSetup_code
  exact ⟨by decide, by decide, by decide, by decide, by decide, by decide, by decide, c3,
    by decide, by decide, hcopy, construct_none_of_copy (eq_some_get _) hcopy⟩

/-! ## C23: zero-fill and earlier residency -/

/-- A checked run of one event is the effect of that event. -/
theorem runChecked_single {c : Params} {ok : Kernel → Event → Bool} {e : Event}
    {k k' : Kernel} (h : runChecked c ok [e] k = some k') : Kernel.exec c k e = some k' := by
  unfold runChecked at h
  by_cases hok : ok k e = true
  · rw [if_pos hok] at h
    obtain ⟨k1, hk, hk2⟩ := Option.bind_eq_some.mp h
    simp only [runChecked, Option.some.injEq] at hk2
    rw [hk, hk2]
  · rw [if_neg hok] at h
    cases h

theorem staleRun_runs :
    runChecked stock (fifoOnNonResidentB stock) staleRun bootedStock
      = some beforeCleanEviction := eq_some_get _

theorem cleanEviction_runs :
    runChecked stock (fifoOnNonResidentB stock) [Event.fifo 0 1300] beforeCleanEviction
      = some afterCleanEviction := eq_some_get _

theorem reload_runs :
    runChecked stock (fifoOnNonResidentB stock) [Event.fifo 0 1500] afterCleanEviction
      = some afterReload := eq_some_get _

theorem beforeCleanEviction_reach : Reach stock (fifoOnNonResident stock) beforeCleanEviction :=
  runChecked_reach (fifoOnNonResidentB_sound stock) _ _ _ (Reach.boot zeroMachine) staleRun_runs

theorem afterCleanEviction_reach : Reach stock (fifoOnNonResident stock) afterCleanEviction :=
  runChecked_reach (fifoOnNonResidentB_sound stock) _ _ _ beforeCleanEviction_reach
    cleanEviction_runs

theorem afterReload_reach : Reach stock (fifoOnNonResident stock) afterReload :=
  runChecked_reach (fifoOnNonResidentB_sound stock) _ _ _ afterCleanEviction_reach reload_runs

theorem beforeCleanEviction_page :
    (beforeCleanEviction.spaces[0]?.bind fun s => getEntry s.pageTable 11) = some
      { virtualPage := 11, physicalPage := 1, valid := true, readOnly := false, use := true,
        dirty := false, inFileAddr := -1, type := some PageType.userStack } ∧
    beforeCleanEviction.machine.mainMemory (1 * 128 + 5) = 7 := by decide!

theorem afterCleanEviction_page :
    (afterCleanEviction.spaces[0]?.bind fun s => getEntry s.pageTable 11) = some
      { virtualPage := 11, physicalPage := -1, valid := false, readOnly := false, use := true,
        dirty := false, inFileAddr := -1, type := some PageType.userStack } := by decide!

theorem afterReload_page :
    (afterReload.spaces[0]?.bind fun s => getEntry s.pageTable 11) = some
      { virtualPage := 11, physicalPage := 2, valid := true, readOnly := false, use := true,
        dirty := false, inFileAddr := -1, type := some PageType.userStack } ∧
    afterReload.machine.mainMemory (2 * 128 + 5) = 0 := by decide!

/-- C23: a stack page that was resident, held a stored byte and was evicted
clean is zero-filled at its next fault.  On the stock machine, after the run
`staleRun` of an image load, FIFO faults on non-resident pages and one store,
page 11 (a stack page) is resident in frame 1, clean, with `inFileAddr = -1`,
and byte 5 of its frame is the 7 that was stored.  The next fault evicts it
without writing it anywhere; at the fault after that it receives frame 2, which
`ReadIn` zero-fills: byte 5 of the page is 0. -/
theorem clean_eviction_loses_page :
    Reach stock (fifoOnNonResident stock) beforeCleanEviction ∧
      Reach stock (fifoOnNonResident stock) afterCleanEviction ∧
      Reach stock (fifoOnNonResident stock) afterReload ∧
      (beforeCleanEviction.spaces[0]?.bind fun s => getEntry s.pageTable 11) = some
        { virtualPage := 11, physicalPage := 1, valid := true, readOnly := false, use := true,
          dirty := false, inFileAddr := -1, type := some PageType.userStack } ∧
      beforeCleanEviction.machine.mainMemory (1 * 128 + 5) = 7 ∧
      Kernel.exec stock beforeCleanEviction (Event.fifo 0 1300) = some afterCleanEviction ∧
      (afterCleanEviction.spaces[0]?.bind fun s => getEntry s.pageTable 11) = some
        { virtualPage := 11, physicalPage := -1, valid := false, readOnly := false, use := true,
          dirty := false, inFileAddr := -1, type := some PageType.userStack } ∧
      Kernel.exec stock afterCleanEviction (Event.fifo 0 1500) = some afterReload ∧
      (afterReload.spaces[0]?.bind fun s => getEntry s.pageTable 11) = some
        { virtualPage := 11, physicalPage := 2, valid := true, readOnly := false, use := true,
          dirty := false, inFileAddr := -1, type := some PageType.userStack } ∧
      afterReload.machine.mainMemory (2 * 128 + 5) = 0 :=
  ⟨beforeCleanEviction_reach, afterCleanEviction_reach, afterReload_reach,
    beforeCleanEviction_page.1, beforeCleanEviction_page.2, runChecked_single cleanEviction_runs,
    afterCleanEviction_page, runChecked_single reload_runs, afterReload_page.1,
    afterReload_page.2⟩

/-! ## C29: ownership of the swap slots -/

/-- The constructor does not create the swap-region allocator: the object it
returns has the `virtualSpaceMap` that the member held before. -/
theorem construct_keeps_allocator {c : Params} {executable : Bytes} {stored : NoffHeader}
    {j : Indeterminate} {k k' : Kernel} {s : AddrSpace}
    (h : AddrSpace.construct c executable stored j k = some (s, k')) :
    s.virtualSpaceMap = j.virtualSpaceMap := (construct_spec h).swapMap

/-- C29: a claimed swap slot that no page owns, right after construction.  The
constructor never assigns `virtualSpaceMap`; when the member denotes an
allocator in which slot 0 is claimed, the address space built from the
whole-page image on the stock machine has slot 0 claimed, while its pages backed
by the swap file (page 3, uninitData, and the stack pages 4 to 11) all have
`inFileAddr = -1`. -/
theorem unset_allocator_claims_slot :
    Reach stock (fifoOnNonResident stock) staleLoaded ∧
      (staleLoaded.spaces[0]?.map fun s =>
        (s.virtualSpaceMap, BitMap.Test s.virtualSpaceMap 0,
          s.pageTable.map fun e => (e.swapKind, e.inFileAddr))) = some
        (true :: List.replicate 15 false, true,
          [(false, 40), (false, 168), (false, 296), (true, -1), (true, -1), (true, -1),
           (true, -1), (true, -1), (true, -1), (true, -1), (true, -1), (true, -1)]) := by
  have h1 : runChecked stock (fifoOnNonResidentB stock)
      [Event.create onesFile wholePageHeader staleJunk] bootedStock = some staleLoaded :=
    eq_some_get _
  exact ⟨runChecked_reach (fifoOnNonResidentB_sound stock) _ _ _ (Reach.boot zeroMachine) h1,
    by decide⟩

/-! ## The ownership of the swap slots when the allocator starts empty -/

/-- The page table and the swap-region allocator after `Swap(oldPage, newPage)`
of two different pages, with what became of the two backing offsets. -/
theorem Swap_slots {c : Params} {o n : Int} {s s' : AddrSpace} {m m' : Machine}
    (h : AddrSpace.Swap c o n s m = some (s', m')) (hno : n ≠ o) :
    ∃ eo en a b map1, getEntry s.pageTable o = some eo ∧ getEntry s.pageTable n = some en ∧
      s'.pageTable =
        (s.pageTable.set o.toNat
          { eo with physicalPage := -1, valid := false, dirty := false, inFileAddr := a }).set
          n.toNat
          { en with physicalPage := eo.physicalPage, valid := true, use := true, dirty := false,
                    inFileAddr := b } ∧
      ((¬ (eo.dirty = true ∧ eo.swapKind = true) ∧ a = eo.inFileAddr ∧
          map1 = s.virtualSpaceMap) ∨
       (eo.dirty = true ∧ eo.swapKind = true ∧
          ∃ f, BitMap.Find s.virtualSpaceMap = some (f, map1) ∧ a = f * c.PageSize)) ∧
      ((en.swapKind = true ∧ 0 ≤ en.inFileAddr ∧ b = -1 ∧
          BitMap.Clear map1 (Int.tdiv en.inFileAddr c.PageSize) = some s'.virtualSpaceMap) ∨
       (¬ (en.swapKind = true ∧ 0 ≤ en.inFileAddr) ∧ b = en.inFileAddr ∧
          s'.virtualSpaceMap = map1)) := by
  obtain ⟨s1, eo1, pt1, pt2, pt3, hW, hget, h1, h2, h3, hR⟩ := Swap_parts h
  obtain ⟨eo, heo, hcase⟩ := WriteBack_effect hW
  have hs1 : ∃ a, s1.pageTable
        = s.pageTable.set o.toNat { eo with dirty := false, inFileAddr := a } ∧
      ((¬ (eo.dirty = true ∧ eo.swapKind = true) ∧ a = eo.inFileAddr ∧
          s1.virtualSpaceMap = s.virtualSpaceMap) ∨
       (eo.dirty = true ∧ eo.swapKind = true ∧
          ∃ f, BitMap.Find s.virtualSpaceMap = some (f, s1.virtualSpaceMap) ∧
            a = f * c.PageSize)) := by
    rcases hcase with ⟨hnd, hm, _, hpt⟩ | ⟨hd, hk, f, map, hF, hm, _, hpt⟩
    · exact ⟨eo.inFileAddr, hpt, Or.inl ⟨hnd, rfl, hm⟩⟩
    · refine ⟨f * c.PageSize, hpt, Or.inr ⟨hd, hk, f, ?_, rfl⟩⟩
      rw [hm]; exact hF
  obtain ⟨a, hpt1, hA⟩ := hs1
  obtain ⟨e1, hg1, rfl⟩ := modifyEntry_eq_some h1
  obtain ⟨e2, hg2, rfl⟩ := modifyEntry_eq_some h2
  obtain ⟨e3, hg3, rfl⟩ := modifyEntry_eq_some h3
  obtain ⟨e4, hg4, _, hB⟩ := ReadIn_effect hR
  simp only at hg4 hB
  rw [hpt1] at hget hg1 hg2 hg3 hg4 hB
  rw [getEntry_set heo] at hget hg1
  simp only [if_true, Option.some.injEq] at hget
  subst hget
  simp only [hno, if_false] at hg1
  have hn0 := (getEntry_eq_some hg1).1
  have ho0 := (getEntry_eq_some heo).1
  have hne : n.toNat ≠ o.toNat := by clear hA hB; omega
  have k1 := getEntry_set heo
    ({ eo with dirty := false, inFileAddr := a } : TranslationEntry)
  have kn1 : getEntry (s.pageTable.set o.toNat { eo with dirty := false, inFileAddr := a }) n
      = some e1 := by rw [k1]; simp [hno, hg1]
  rw [getEntry_set kn1] at hg2
  have hon : o ≠ n := fun hc => hno hc.symm
  simp only [hon, if_false] at hg2
  rw [k1] at hg2
  simp only [if_true, Option.some.injEq] at hg2
  subst hg2
  have ko2 : getEntry ((s.pageTable.set o.toNat { eo with dirty := false, inFileAddr := a }).set
      n.toNat { e1 with physicalPage := eo.physicalPage }) o
      = some { eo with dirty := false, inFileAddr := a } := by
    rw [getEntry_set kn1]; simp [hon, k1]
  rw [getEntry_set ko2] at hg3
  simp only [hno, if_false] at hg3
  rw [getEntry_set kn1] at hg3
  simp only [if_true, Option.some.injEq] at hg3
  subst hg3
  have kn3 : getEntry (((s.pageTable.set o.toNat { eo with dirty := false, inFileAddr := a }).set
      n.toNat { e1 with physicalPage := eo.physicalPage }).set o.toNat
      { ({ eo with dirty := false, inFileAddr := a } : TranslationEntry) with
        physicalPage := -1, valid := false }) n
      = some { e1 with physicalPage := eo.physicalPage } := by
    rw [getEntry_set ko2]; simp only [hno, if_false]; rw [getEntry_set kn1]; simp
  rw [getEntry_set kn3] at hg4
  simp only [if_true, Option.some.injEq] at hg4
  subst hg4
  rcases hB with ⟨hk, h0, map, hC, hm, hpt, _⟩ | ⟨hn, hm, hpt⟩
  · refine ⟨eo, e1, a, -1, s1.virtualSpaceMap, heo, hg1, ?_, hA, Or.inl ⟨hk, h0, rfl, ?_⟩⟩
    · rw [hpt]
      simp only [hno, if_false, List.set_set]
      rw [List.set_comm _ _ _ hne.symm, List.set_set, List.set_comm _ _ _ hne, List.set_set]
    · rw [hm]; exact hC
  · refine ⟨eo, e1, a, e1.inFileAddr, s1.virtualSpaceMap, heo, hg1, ?_, hA, Or.inr ⟨hn, rfl, hm⟩⟩
    rw [hpt]
    simp only [hno, if_false, List.set_set]
    rw [List.set_comm _ _ _ hne.symm, List.set_set, List.set_comm _ _ _ hne, List.set_set]


/-- An entry backed by the swap file whose `inFileAddr` is negative holds the
sentinel. -/
theorem AddrSpace.SwapExact.sentinel {c : Params} {s : AddrSpace} (hI : s.SwapExact c) (hP : 0 < c.PageSize)
    {p : Int} {e : TranslationEntry} (he : getEntry s.pageTable p = some e)
    (hk : e.swapKind = true) (hneg : ¬ 0 ≤ e.inFileAddr) : e.inFileAddr = -1 := by
  by_contra hc
  obtain ⟨z, hz, hza, _⟩ := hI.recorded p e he hk hc
  have := Int.mul_nonneg hz hP.le
  omega

/-- `Swap` of a resident page for a page that is not resident keeps the exact
ownership of the swap slots. -/
theorem Swap_swapExact {c : Params} (hP : 0 < c.PageSize) {o n : Int} {s s' : AddrSpace}
    {m m' : Machine} (hI : s.SwapExact c) (ho : s.resident o) (hn : s.nonResident n)
    (h : AddrSpace.Swap c o n s m = some (s', m')) : s'.SwapExact c := by
  obtain ⟨eo0, heo0, hov⟩ := ho
  obtain ⟨en0, hen0, hnv⟩ := hn
  have hno : n ≠ o := by
    intro hc
    rw [hc, heo0] at hen0
    simp only [Option.some.injEq] at hen0
    rw [hen0, hnv] at hov
    cases hov
  obtain ⟨eo, en, a, b, map1, heo, hen, hpt, hA, hB⟩ := Swap_slots h hno
  rw [heo0] at heo
  rw [hen0] at hen
  simp only [Option.some.injEq] at heo hen
  subst heo
  subst hen
  -- the entries after the swap
  generalize hO : TranslationEntry.mk eo0.virtualPage (-1) false eo0.readOnly eo0.use false a
    eo0.type = O at hpt
  generalize hN : TranslationEntry.mk en0.virtualPage eo0.physicalPage true en0.readOnly true
    false b en0.type = N at hpt
  have hOk : O.swapKind = eo0.swapKind := by rw [← hO]; rfl
  have hOv : O.valid = false := by rw [← hO]
  have hOa : O.inFileAddr = a := by rw [← hO]
  have hNk : N.swapKind = en0.swapKind := by rw [← hN]; rfl
  have hNa : N.inFileAddr = b := by rw [← hN]
  have hent : ∀ p, getEntry s'.pageTable p
      = if p = n then some N else if p = o then some O else getEntry s.pageTable p := by
    intro p
    have k1 : getEntry (s.pageTable.set o.toNat O) n = some en0 := by
      rw [getEntry_set heo0, if_neg hno]; exact hen0
    rw [hpt, getEntry_set k1, getEntry_set heo0]
  have hon : o ≠ n := fun hc => hno hc.symm
  -- the allocator after the swap
  obtain ⟨fo, hfo1, hfo2, hmap1⟩ : ∃ fo : Option Int,
      (∀ f, fo = some f → a = f * c.PageSize ∧ 0 ≤ f ∧ BitMap.Test s.virtualSpaceMap f = false ∧
        eo0.swapKind = true) ∧
      (fo = none → a = eo0.inFileAddr) ∧
      ∀ g, BitMap.Test map1 g = if fo = some g then true else BitMap.Test s.virtualSpaceMap g := by
    rcases hA with ⟨_, ha, hm⟩ | ⟨_, hk, f, hF, ha⟩
    · refine ⟨none, ?_, fun _ => ha, ?_⟩
      · intro f hf; cases hf
      · intro g; rw [hm]; simp
    · obtain ⟨t1, t2, _, _, t5⟩ := Find_spec hF
      refine ⟨some f, ?_, ?_, ?_⟩
      · intro f' hf
        simp only [Option.some.injEq] at hf
        subst hf
        exact ⟨ha, t2, t1, hk⟩
      · intro hc; cases hc
      · intro g
        rw [t5 g]
        by_cases hg : g = f
        · subst hg; simp
        · have : ¬ (some f = some g) := by
            intro hc
            simp only [Option.some.injEq] at hc
            exact hg hc.symm
          rw [if_neg hg, if_neg this]
  obtain ⟨zn, hzn1, hzn2, hmap2⟩ : ∃ zn : Option Int,
      (∀ z, zn = some z → en0.swapKind = true ∧ en0.inFileAddr = z * c.PageSize ∧ 0 ≤ z ∧
        BitMap.Test s.virtualSpaceMap z = true ∧ b = -1) ∧
      (zn = none → b = en0.inFileAddr ∧ ¬ (en0.swapKind = true ∧ 0 ≤ en0.inFileAddr)) ∧
      ∀ g, BitMap.Test s'.virtualSpaceMap g = if zn = some g then false else BitMap.Test map1 g := by
    rcases hB with ⟨hk, h0, hb, hC⟩ | ⟨hnk, hb, hm⟩
    · have hne1 : en0.inFileAddr ≠ -1 := by omega
      obtain ⟨z, hz, hza, hzt⟩ := hI.recorded n en0 hen0 hk hne1
      have hdiv : Int.tdiv en0.inFileAddr c.PageSize = z := by
        rw [hza, Int.mul_tdiv_cancel _ hP.ne']
      rw [hdiv] at hC
      obtain ⟨_, t2⟩ := Clear_spec hC
      refine ⟨some z, ?_, ?_, ?_⟩
      · intro z' hz'
        simp only [Option.some.injEq] at hz'
        subst hz'
        exact ⟨hk, hza, hz, hzt, hb⟩
      · intro hc; cases hc
      · intro g
        rw [t2 g]
        by_cases hg : g = z
        · subst hg; simp
        · have : ¬ (some z = some g) := by
            intro hc
            simp only [Option.some.injEq] at hc
            exact hg hc.symm
          rw [if_neg hg, if_neg this]
    · refine ⟨none, ?_, fun _ => ⟨hb, hnk⟩, ?_⟩
      · intro z hz; cases hz
      · intro g; rw [hm]; simp
  -- the loaded page records no slot
  have hNs : N.swapKind = true → N.inFileAddr = -1 := by
    intro hk
    rw [hNk] at hk
    rw [hNa]
    cases hz : zn with
    | some z => exact (hzn1 z hz).2.2.2.2
    | none =>
      obtain ⟨hb, hnk⟩ := hzn2 hz
      rw [hb]
      exact hI.sentinel hP hen0 hk (fun h0 => hnk ⟨hk, h0⟩)
  -- a slot claimed for the evicted page is not the one released
  have hfz : ∀ f, fo = some f → zn ≠ some f := by
    intro f hf hz
    have t1 := (hfo1 f hf).2.2.1
    have t2 := (hzn1 f hz).2.2.2.1
    rw [t1] at t2
    cases t2
  -- the evicted page, when it records no new slot, holds the sentinel
  have hOs : fo = none → O.swapKind = true → O.inFileAddr = -1 := by
    intro hf hk
    rw [hOk] at hk
    rw [hOa, hfo2 hf]
    exact hI.atHome o eo0 heo0 hk hov
  refine ⟨?_, ?_, ?_, ?_⟩
  · -- resident pages
    intro p e he hk hv
    rw [hent p] at he
    by_cases hpn : p = n
    · rw [if_pos hpn] at he
      simp only [Option.some.injEq] at he
      subst he
      exact hNs hk
    · rw [if_neg hpn] at he
      by_cases hpo : p = o
      · rw [if_pos hpo] at he
        simp only [Option.some.injEq] at he
        subst he
        rw [hOv] at hv
        cases hv
      · rw [if_neg hpo] at he
        exact hI.atHome p e he hk hv
  · -- recorded slots are claimed
    intro p e he hk hne
    rw [hent p] at he
    by_cases hpn : p = n
    · rw [if_pos hpn] at he
      simp only [Option.some.injEq] at he
      subst he
      exact absurd (hNs hk) hne
    · rw [if_neg hpn] at he
      by_cases hpo : p = o
      · rw [if_pos hpo] at he
        simp only [Option.some.injEq] at he
        subst he
        cases hf : fo with
        | none => exact absurd (hOs hf hk) hne
        | some f =>
          obtain ⟨t1, t2, t3, _⟩ := hfo1 f hf
          refine ⟨f, t2, by rw [hOa, t1], ?_⟩
          rw [hmap2 f, if_neg (hfz f hf), hmap1 f, if_pos hf]
      · rw [if_neg hpo] at he
        obtain ⟨z, hz, hza, hzt⟩ := hI.recorded p e he hk hne
        refine ⟨z, hz, hza, ?_⟩
        have hzz : zn ≠ some z := by
          intro hc
          obtain ⟨u1, u2, _, _, _⟩ := hzn1 z hc
          have := hI.apart p n e en0 he hen0 hk u1 (by rw [hza]; exact Int.mul_nonneg hz hP.le)
            (by rw [hza, u2])
          exact hpn this
        rw [hmap2 z, if_neg hzz, hmap1 z]
        by_cases hfz' : fo = some z
        · rw [if_pos hfz']
        · rw [if_neg hfz']; exact hzt
  · -- different pages record different offsets
    have key : ∀ (p : Int) (e : TranslationEntry), p ≠ n → p ≠ o →
        getEntry s.pageTable p = some e → e.swapKind = true → O.swapKind = true →
        0 ≤ O.inFileAddr → O.inFileAddr = e.inFileAddr → False := by
      intro p e _ _ he hk hkO h0 heq
      cases hf : fo with
      | none =>
        have := hOs hf hkO
        omega
      | some f =>
        obtain ⟨t1, t2, t3, _⟩ := hfo1 f hf
        have hne1 : e.inFileAddr ≠ -1 := by omega
        obtain ⟨z, hz, hza, hzt⟩ := hI.recorded p e he hk hne1
        have hzf : z = f := by
          apply mul_right_cancel₀ hP.ne'
          rw [← hza, ← heq, hOa, t1]
        rw [hzf, t3] at hzt
        cases hzt
    intro p p' e e' he he' hk hk' h0 heq
    rw [hent p] at he
    rw [hent p'] at he'
    by_cases hpn : p = n
    · rw [if_pos hpn] at he
      simp only [Option.some.injEq] at he
      subst he
      have := hNs hk
      omega
    · rw [if_neg hpn] at he
      by_cases hpn' : p' = n
      · rw [if_pos hpn'] at he'
        simp only [Option.some.injEq] at he'
        subst he'
        have := hNs hk'
        omega
      · rw [if_neg hpn'] at he'
        by_cases hpo : p = o
        · rw [if_pos hpo] at he
          simp only [Option.some.injEq] at he
          subst he
          by_cases hpo' : p' = o
          · rw [hpo, hpo']
          · rw [if_neg hpo'] at he'
            exact (key p' e' hpn' hpo' he' hk' hk h0 heq).elim
        · rw [if_neg hpo] at he
          by_cases hpo' : p' = o
          · rw [if_pos hpo'] at he'
            simp only [Option.some.injEq] at he'
            subst he'
            exact (key p e hpn hpo he hk hk' (by omega) heq.symm).elim
          · rw [if_neg hpo'] at he'
            exact hI.apart p p' e e' he he' hk hk' h0 heq
  · -- every claimed slot has its owner
    intro z hz
    rw [hmap2 z] at hz
    by_cases hzz : zn = some z
    · rw [if_pos hzz] at hz
      cases hz
    · rw [if_neg hzz, hmap1 z] at hz
      by_cases hfz' : fo = some z
      · obtain ⟨t1, _, _, t4⟩ := hfo1 z hfz'
        refine ⟨o, O, ?_, by rw [hOk]; exact t4, hOv, by rw [hOa, t1]⟩
        rw [hent o, if_neg hon, if_pos rfl]
      · rw [if_neg hfz'] at hz
        obtain ⟨p, e, he, hk, hv, hza⟩ := hI.owned z hz
        have hz0 : 0 ≤ z := ((Test_true_iff _ _).mp hz).1
        have hpo : p ≠ o := by
          intro hc
          rw [hc, heo0] at he
          simp only [Option.some.injEq] at he
          rw [← he, hov] at hv
          cases hv
        have hpn : p ≠ n := by
          intro hc
          rw [hc, hen0] at he
          simp only [Option.some.injEq] at he
          subst he
          cases hzc : zn with
          | none =>
            exact (hzn2 hzc).2 ⟨hk, by rw [hza]; exact Int.mul_nonneg hz0 hP.le⟩
          | some z' =>
            obtain ⟨_, u2, _, _, _⟩ := hzn1 z' hzc
            have : z' = z := by
              apply mul_right_cancel₀ hP.ne'
              rw [← u2, hza]
            rw [this] at hzc
            exact hzz hzc
        exact ⟨p, e, by rw [hent p, if_neg hpn, if_neg hpo]; exact he, hk, hv, hza⟩

/-- Replacing an entry by one of the same kind, residency and backing offset
keeps the exact ownership of the swap slots. -/
theorem SwapExact_set_same {c : Params} {s s' : AddrSpace} {i : Int} {e x : TranslationEntry}
    (hI : s.SwapExact c) (he : getEntry s.pageTable i = some e)
    (hpt : s'.pageTable = s.pageTable.set i.toNat x)
    (hmap : s'.virtualSpaceMap = s.virtualSpaceMap)
    (ht : x.type = e.type) (hv : x.valid = e.valid) (ha : x.inFileAddr = e.inFileAddr) :
    s'.SwapExact c := by
  have hk : x.swapKind = e.swapKind := by
    unfold TranslationEntry.swapKind; rw [ht]
  have hent : ∀ p, getEntry s'.pageTable p = if p = i then some x else getEntry s.pageTable p := by
    intro p; rw [hpt, getEntry_set he]
  have back : ∀ (p : Int) (e' : TranslationEntry), getEntry s'.pageTable p = some e' →
      ∃ e0, getEntry s.pageTable p = some e0 ∧ e0.swapKind = e'.swapKind ∧
        e0.valid = e'.valid ∧ e0.inFileAddr = e'.inFileAddr := by
    intro p e' he'
    rw [hent p] at he'
    by_cases hpi : p = i
    · rw [if_pos hpi] at he'
      simp only [Option.some.injEq] at he'
      subst he'
      exact ⟨e, by rw [hpi]; exact he, hk.symm, hv.symm, ha.symm⟩
    · rw [if_neg hpi] at he'
      exact ⟨e', he', rfl, rfl, rfl⟩
  refine ⟨?_, ?_, ?_, ?_⟩
  · intro p e' he' hk' hv'
    obtain ⟨e0, h0, k0, v0, a0⟩ := back p e' he'
    rw [← a0]
    exact hI.atHome p e0 h0 (by rw [k0]; exact hk') (by rw [v0]; exact hv')
  · intro p e' he' hk' hne
    obtain ⟨e0, h0, k0, v0, a0⟩ := back p e' he'
    rw [hmap, ← a0]
    exact hI.recorded p e0 h0 (by rw [k0]; exact hk') (by rw [a0]; exact hne)
  · intro p p' e1 e2 h1 h2 k1 k2 hnn heq
    obtain ⟨e0, h0, k0, _, a0⟩ := back p e1 h1
    obtain ⟨e0', h0', k0', _, a0'⟩ := back p' e2 h2
    exact hI.apart p p' e0 e0' h0 h0' (by rw [k0]; exact k1) (by rw [k0']; exact k2)
      (by rw [a0]; exact hnn) (by rw [a0, a0']; exact heq)
  · intro z hz
    rw [hmap] at hz
    obtain ⟨p, e0, h0, k0, v0, a0⟩ := hI.owned z hz
    by_cases hpi : p = i
    · subst hpi
      rw [he] at h0
      simp only [Option.some.injEq] at h0
      subst h0
      exact ⟨p, x, by rw [hent p, if_pos rfl], by rw [hk]; exact k0, by rw [hv]; exact v0,
        by rw [ha]; exact a0⟩
    · exact ⟨p, e0, by rw [hent p, if_neg hpi]; exact h0, k0, v0, a0⟩

/-- An access of the emulator keeps the exact ownership of the swap slots. -/
theorem access_swapExact {c : Params} {vpn offset : Int} {store : Option Byte}
    {s s' : AddrSpace} {m m' : Machine} (hI : s.SwapExact c)
    (h : AddrSpace.access c vpn offset store s m = some (s', m')) : s'.SwapExact c := by
  obtain ⟨e, e1, he, _, hpt, hv, _, _, hty, hin, _, _, _, _⟩ := access_table h
  have hmap : s'.virtualSpaceMap = s.virtualSpaceMap := by
    unfold AddrSpace.access at h
    simp only [he] at h
    split at h
    · cases store <;> simp only [Option.some.injEq, Prod.mk.injEq] at h <;>
        obtain ⟨rfl, _⟩ := h <;> rfl
    · cases h
  exact SwapExact_set_same hI he hpt hmap hty hv hin

/-- A FIFO fault on a page that is not resident keeps the exact ownership of the
swap slots. -/
theorem FIFO_swapExact {c : Params} (hP : 0 < c.PageSize) {a : Int} {s s' : AddrSpace}
    {m m' : Machine} (hI : s.SwapExact c) (hS : s.SlotsResident)
    (hn : s.nonResident (s.faultPage c a)) (h : AddrSpace.FIFO c a s m = some (s', m')) :
    s'.SwapExact c := by
  rw [FIFO_eq_Swap] at h
  obtain ⟨hfirst, hslots⟩ := hS
  have hres : s.resident s.victim := by
    rcases hslots with hall | ⟨hres, _⟩
    · obtain ⟨en, hen, hv⟩ := hn
      have := hall _ _ (getElem?_of_getEntry hen)
      rw [hv] at this
      cases this
    · exact hres s.firstInPage hfirst
  exact Swap_swapExact hP (s := { s with
      virtualPages := Function.update s.virtualPages s.firstInPage (s.faultPage c a)
      firstInPage := (s.firstInPage + 1) % AvailablePages })
    ⟨hI.atHome, hI.recorded, hI.apart, hI.owned⟩ hres hn h

/-- An empty allocator has no claimed index. -/
theorem Test_of_all_free {b : BitMap} (hb : b.all (fun x => !x) = true) (z : Int) :
    BitMap.Test b z = false := by
  cases hz : BitMap.Test b z with
  | false => rfl
  | true =>
    obtain ⟨_, h1⟩ := (Test_true_iff b z).mp hz
    obtain ⟨hlt, heq⟩ := List.getElem?_eq_some_iff.mp h1
    have hmem : true ∈ b := by
      rw [← heq]
      exact List.getElem_mem ..
    have := List.all_eq_true.mp hb true hmem
    simp at this

/-- The address space that the constructor builds from a header with sizes that
are not negative, with an empty swap-region allocator, owns its swap slots
exactly: no page records a slot and no slot is claimed. -/
theorem built_swapExact {c : Params} (hP : 0 < c.PageSize) {executable : Bytes}
    {stored : NoffHeader} {j : Indeterminate} {k k' : Kernel} {s : AddrSpace}
    (h : AddrSpace.construct c executable stored j k = some (s, k')) (hplain : s.noffH.Plain)
    (hfree : ∀ z, BitMap.Test j.virtualSpaceMap z = false) : s.SwapExact c := by
  have hb := construct_spec h
  have hin := (built_loaded hP h hplain).1
  have hty := built_types hP h hplain
  have b0 := divRoundUp_nonneg hplain.2.1 hP
  have key : ∀ (p : Int) (e : TranslationEntry), getEntry s.pageTable p = some e →
      e.swapKind = true → e.inFileAddr = -1 := by
    intro p e he hk
    obtain ⟨_, he'⟩ := getEntry_eq_some he
    have h1 := hin p.toNat e he'
    have h2 := hty p.toNat e he'
    unfold recordedOffset at h1
    unfold builtType at h2
    simp only at h1 h2
    unfold TranslationEntry.swapKind at hk
    generalize divRoundUp s.noffH.code.size c.PageSize = A at h1 h2 b0
    generalize divRoundUp s.noffH.initData.size c.PageSize = B at h1 h2 b0
    generalize divRoundUp s.noffH.uninitData.size c.PageSize = D at h1 h2
    by_cases c1 : A ≤ (p.toNat : Int) ∧ (p.toNat : Int) < A + B
    · have c0 : ¬ (A + B ≤ (p.toNat : Int) ∧ (p.toNat : Int) < A + B + D) := by omega
      rw [if_neg c0, if_pos c1] at h2
      rw [h2] at hk
      simp at hk
    · rw [if_neg c1] at h1
      by_cases c2 : (p.toNat : Int) < A
      · have c0 : ¬ (A + B ≤ (p.toNat : Int) ∧ (p.toNat : Int) < A + B + D) := by omega
        rw [if_neg c0, if_neg c1, if_pos c2] at h2
        rw [h2] at hk
        simp at hk
      · rw [if_neg c2] at h1
        simpa using h1
  refine ⟨?_, ?_, ?_, ?_⟩
  · intro p e he hk _
    exact key p e he hk
  · intro p e he hk hne
    exact absurd (key p e he hk) hne
  · intro p p' e e' he _ hk _ h0 _
    have := key p e he hk
    omega
  · intro z hz
    rw [hb.swapMap, hfree z] at hz
    cases hz

/-- Reachability under more events. -/
theorem Reach.mono {c : Params} {allowed allowed' : Kernel → Event → Prop}
    (hsub : ∀ k e, allowed k e → allowed' k e) {k : Kernel} (h : Reach c allowed k) :
    Reach c allowed' k := by
  induction h with
  | boot m => exact Reach.boot m
  | step e _ hal hex ih => exact Reach.step e ih (hsub _ e hal) hex

theorem plainLoads_sub (c : Params) (k : Kernel) (e : Event) (h : plainLoads c k e) :
    fifoOnNonResident c k e := by
  cases e with
  | create _ _ _ => trivial
  | fifo i a => exact h
  | secondChance _ _ _ => exact h
  | access _ _ _ _ => trivial

/-- Exact ownership of the swap slots holds for every address space in every
state reached by loading images with well-formed headers into address spaces
whose swap-region allocator starts empty, FIFO faults on non-resident pages and
accesses. -/
theorem reach_swapExact {c : Params} (hP : 0 < c.PageSize) {k : Kernel}
    (h : Reach c (plainLoads c) k) :
    ∀ (i : Nat) (s : AddrSpace), k.spaces[i]? = some s → s.SwapExact c := by
  induction h with
  | boot m =>
    intro i s hs
    simp [Kernel.boot] at hs
  | @step k0 k1 ev hreach hal hex ih =>
    have hF : k0.FrameInv := reach_frameInv (Reach.mono (plainLoads_sub c) hreach)
    cases ev with
    | create executable stored j =>
      obtain ⟨s, k2, hcons, rfl⟩ := exec_create_eq_some hex
      have hb := construct_spec hcons
      intro i t ht
      simp only at ht
      rw [hb.spaces] at ht
      rcases getElem?_append_singleton _ _ _ _ ht with ⟨_, h1⟩ | ⟨_, h2⟩
      · exact ih i t h1
      · subst h2
        exact built_swapExact hP hcons (hal.1 _ hb.header) hal.2
    | fifo i a =>
      obtain ⟨s0, hs0, hnr⟩ := hal
      obtain ⟨s, s', m', hs, hop, rfl⟩ := onSpace_eq_some hex
      rw [hs0] at hs
      simp only [Option.some.injEq] at hs
      subst hs
      intro i' t ht
      simp only at ht
      rw [getElem?_set_space s' hs0 i'] at ht
      by_cases hii : i' = i
      · rw [if_pos hii] at ht
        simp only [Option.some.injEq] at ht
        subst ht
        exact FIFO_swapExact hP (ih i s0 hs0) (hF.2.2 i s0 hs0) hnr hop
      · rw [if_neg hii] at ht
        exact ih i' t ht
    | secondChance i fuel a => exact absurd hal id
    | access i vpn offset store =>
      obtain ⟨s, s', m', hs, hop, rfl⟩ := onSpace_eq_some hex
      intro i' t ht
      simp only at ht
      rw [getElem?_set_space s' hs i'] at ht
      by_cases hii : i' = i
      · rw [if_pos hii] at ht
        simp only [Option.some.injEq] at ht
        subst ht
        exact access_swapExact (ih i s hs) hop
      · rw [if_neg hii] at ht
        exact ih i' t ht

theorem plainLoadsB_sound (c : Params) (k : Kernel) (e : Event)
    (h : plainLoadsB c k e = true) : plainLoads c k e := by
  cases e with
  | create executable stored j =>
    unfold plainLoadsB at h
    simp only [Bool.and_eq_true] at h
    refine ⟨?_, Test_of_all_free h.2⟩
    intro hd hh
    have h1 := h.1
    rw [hh] at h1
    simpa using h1
  | fifo i a =>
    unfold plainLoadsB at h
    cases hs : k.spaces[i]? with
    | none => simp [hs] at h
    | some s =>
      simp only [hs] at h
      exact ⟨s, hs, (nonResidentB_iff s _).mp h⟩
  | secondChance _ _ _ => simp [plainLoadsB] at h
  | access _ _ _ _ => trivial

/-- The invariant of C29 for an allocator that starts empty.  In every state
reached by loading images whose headers have sizes that are not negative and do
not overflow, into address spaces whose swap-region allocator is empty when the
constructor runs, by FIFO faults on non-resident pages and by accesses of the
emulator (exhaustion of an allocator being fatal), every address space is such
that: a resident page of kind uninitData or stack has `inFileAddr = -1`; a
non-resident page of those kinds with `inFileAddr >= 0` records
`slot * PageSize` for a claimed slot; two such pages record different offsets;
and every claimed slot is recorded by such a page. -/
theorem swap_slots_owned (c : Params) (hP : 0 < c.PageSize) (k : Kernel)
    (h : Reach c (plainLoads c) k) (i : Nat) (s : AddrSpace) (hs : k.spaces[i]? = some s) :
    (∀ (p : Int) (e : TranslationEntry), getEntry s.pageTable p = some e →
      e.swapKind = true → e.valid = true → e.inFileAddr = -1) ∧
    (∀ (p : Int) (e : TranslationEntry), getEntry s.pageTable p = some e →
      e.swapKind = true → e.valid = false → 0 ≤ e.inFileAddr →
      ∃ z : Int, 0 ≤ z ∧ e.inFileAddr = z * c.PageSize ∧
        BitMap.Test s.virtualSpaceMap z = true) ∧
    (∀ (p p' : Int) (e e' : TranslationEntry), getEntry s.pageTable p = some e →
      getEntry s.pageTable p' = some e' → e.swapKind = true → e'.swapKind = true →
      e.valid = false → e'.valid = false → 0 ≤ e.inFileAddr →
      e.inFileAddr = e'.inFileAddr → p = p') ∧
    ∀ z : Int, BitMap.Test s.virtualSpaceMap z = true →
      ∃ (p : Int) (e : TranslationEntry), getEntry s.pageTable p = some e ∧
        e.swapKind = true ∧ e.valid = false ∧ e.inFileAddr = z * c.PageSize := by
  have hI := reach_swapExact hP h i s hs
  refine ⟨hI.atHome, ?_, ?_, hI.owned⟩
  · intro p e he hk _ h0
    exact hI.recorded p e he hk (by omega)
  · intro p p' e e' he he' hk hk' _ _ h0 heq
    exact hI.apart p p' e e' he he' hk hk' h0 heq

/-- The invariant at a state in which a slot is claimed: after
`dirtyEvictionRun` on the stock machine, stack page 11, written and evicted, is
not resident and records offset 0, slot 0 of the allocator is claimed and slot 1
is free, and every other page backed by the swap file has `inFileAddr = -1`. -/
theorem swap_slots_owned_witness :
    Reach stock (plainLoads stock) dirtyEvicted ∧
    (dirtyEvicted.spaces[0]?.map fun s =>
      (s.virtualSpaceMap.take 2,
        s.pageTable.map fun e => (e.swapKind, e.valid, e.inFileAddr))) = some
      ([true, false],
        [(false, false, 40), (false, false, 168), (false, false, 296), (true, false, -1),
         (true, false, -1), (true, false, -1), (true, false, -1), (true, true, -1),
         (true, true, -1), (true, true, -1), (true, true, -1), (true, false, 0)]) ∧
    ∃ s, dirtyEvicted.spaces[0]? = some s ∧
      ∀ z : Int, BitMap.Test s.virtualSpaceMap z = true →
        ∃ (p : Int) (e : TranslationEntry), getEntry s.pageTable p = some e ∧
          e.swapKind = true ∧ e.valid = false ∧ e.inFileAddr = z * stock.PageSize := by
  have h1 : runChecked stock (plainLoadsB stock) dirtyEvictionRun bootedStock
      = some dirtyEvicted := eq_some_get _
  have hr : Reach stock (plainLoads stock) dirtyEvicted :=
    runChecked_reach (plainLoadsB_sound stock) _ _ _ (Reach.boot zeroMachine) h1
  have hs : (dirtyEvicted.spaces[0]?).isSome = true := by decide!
  obtain ⟨s, hs⟩ := Option.isSome_iff_exists.mp hs
  exact ⟨hr, by decide!, s, hs,
    (swap_slots_owned stock (by decide) dirtyEvicted hr 0 s hs).2.2.2⟩

end Nachos
